import Mathlib

/-!
# plz: a verification development

A shallow embedding of the handlers of the `plz` command-line tool
(`random`, `time`, `encode`, `hash`, `json`) together with the library calls they
are built on, and theorems about them.

Conventions of the embedding:

* a Go `int64` is an `Int`, reduced with `wrapInt64` wherever the Go code
  computes in 64-bit arithmetic;
* a Go function returning `(T, error)` returns a `Res`: a value, a returned
  error, or a run-time panic;
* text that the code only inspects character by character (flag values,
  time arguments) is a `List Char`; payloads whose bytes matter (the
  argument of `encode`, JSON text) are lists of bytes;
* whatever the process reads from its surroundings (the random source, the
  clock, the timezone database) is an explicit argument.
-/

namespace Plz

/-! ## Results and errors -/

/-- The errors the handlers build with `fmt.Errorf`, one constructor for each call site;
`cause` is the text of the wrapped library error. -/
inductive CmdError where
  | failedRandomString (cause : String)
  | failedRandomNumber (cause : String)
  | failedUUID (cause : String)
  | maxNotGreaterThanMin
  | unsupportedRandomType (name : List Char)
  | invalidTimezone (cause : String)
  | failedToParseTime (cause : String)
  | failedToDecodeBase64 (cause : String)
  | failedToDecodeURL (cause : String)
  | unsupportedEncodingType (name : List Char)
  | unsupportedHashType (name : List Char)
  | failedToReadFile (path : List Char) (cause : String)
  | invalidJSON (cause : String)
  | failedToMarshalJSON (cause : String)
  deriving DecidableEq, Repr

/-- Outcome of a Go call that returns `(T, error)`: the value, the returned error, or a panic. -/
inductive Res (ε α : Type) where
  | ok (a : α)
  | err (e : ε)
  | panic (msg : String)
  deriving DecidableEq, Repr

/-! ## 64-bit integers -/

/-- Reduction of a mathematical integer to the `int64` with the same low 64 bits. -/
def wrapInt64 (x : Int) : Int :=
  (x + 9223372036854775808) % 18446744073709551616 - 9223372036854775808

/-- The least `int64`, `-2^63`. -/
def minInt64 : Int := -9223372036854775808

/-- The greatest `int64`, `2^63 - 1`. -/
def maxInt64 : Int := 9223372036854775807

/-- The values of type `int64`. -/
def isInt64 (x : Int) : Prop := -9223372036854775808 ≤ x ∧ x ≤ 9223372036854775807

instance (x : Int) : Decidable (isInt64 x) := by unfold isInt64; infer_instance

/-! ## The random source (`crypto/rand`) -/

/-- What one call of `rand.Int(rand.Reader, max)` gets from the random source: a read
error, or the entropy `raw` from which the result is taken. -/
inductive Draw where
  | fail (cause : String)
  | value (raw : Nat)
  deriving DecidableEq, Repr

/-- Library model of `rand.Int(rand.Reader, max)`, by its documented contract: it panics
when `max <= 0` (before anything is read), returns the reader's error when reading fails,
and otherwise returns a value in `[0, max)`; every value of that interval is the result
for some `raw`. -/
def randInt (d : Draw) (max : Int) : Res String Nat :=
  if max ≤ 0 then .panic "crypto/rand: argument to Int is <= 0"
  else
    match d with
    | .fail cause => .err cause
    | .value raw => .ok (raw % max.toNat)

/-- What one call of `rand.Read(b)` gets from the random source: a read error, or a
stream of entropy; byte `i` of the buffer becomes `stream i % 256`. -/
inductive ReadDraw where
  | fail (cause : String)
  | filled (stream : Nat → Nat)

/-- Library model of `rand.Read(b)` for a buffer of `n` bytes: an error, or the buffer
filled entirely. -/
def randRead (d : ReadDraw) (n : Nat) : Res String (List Nat) :=
  match d with
  | .fail cause => .err cause
  | .filled stream => .ok ((List.range n).map (fun i => stream i % 256))

/-! ## `cmd_random.go` -/

/-- The constant `charset` of `generateRandomString`. -/
def charset : List Char :=
  "abcdefghijklmnopqrstuvwxyzABCDEFGHIJKLMNOPQRSTUVWXYZ0123456789".toList

/-- The index expression `s[i]` on a string, which panics out of range. -/
def indexChar (s : List Char) (i : Int) : Res String Char :=
  if i < 0 then .panic "index out of range"
  else
    match s.get? i.toNat with
    | none => .panic "index out of range"
    | some c => .ok c

/-- One iteration of the loop of `generateRandomString`: a draw below `len(charset)` and
the character `charset[n.Int64()]`. -/
def pickChar (d : Draw) : Res String Char :=
  match randInt d (charset.length : Nat) with
  | .panic msg => .panic msg
  | .err e => .err e
  | .ok n => indexChar charset (wrapInt64 n)

/-- Sequencing of the iterations of a loop that fills a buffer: the first iteration that
does not yield a value ends the loop with its error or panic. -/
def collect {ε α : Type} : List (Res ε α) → Res ε (List α)
  | [] => .ok []
  | .ok a :: rest =>
    match collect rest with
    | .ok as => .ok (a :: as)
    | .err e => .err e
    | .panic msg => .panic msg
  | .err e :: _ => .err e
  | .panic msg :: _ => .panic msg

/-- The loop of `generateRandomString` over a buffer of `n` bytes; iteration `i` uses the
draw number `i`. -/
def fillRandom (src : Nat → Draw) (n : Nat) : Res String (List Char) :=
  collect ((List.range n).map (fun i => pickChar (src i)))

/-- The allocation limit of the runtime (`maxAlloc` of `runtime/malloc.go`), in bytes, on
the 64-bit platforms whose heap addresses have 48 bits, which are most of them
(`linux/amd64` among them). -/
def maxAlloc : Nat := 281474976710656

/-- `generateRandomString(length)`: `make([]byte, length)` panics on a negative length and
on a length above the allocation limit (`makeslice` checks `len < 0` and
`mem > maxAlloc`); then one draw below `len(charset)` for each position. `src i` is what
the `i`-th call of `rand.Int` gets from the random source. The memory for a length within
the limit is taken to be there. -/
def generateRandomString (length : Int) (src : Nat → Draw) : Res String (List Char) :=
  if length < 0 ∨ (maxAlloc : Int) < length then .panic "makeslice: len out of range"
  else fillRandom src length.toNat

/-- `generateRandomNumber(min, max)`: `diff := max - min` in `int64`, one draw below
`diff`, and `min + n.Int64()` in `int64`. -/
def generateRandomNumber (min max : Int) (d : Draw) : Res String Int :=
  let diff := wrapInt64 (max - min)
  match randInt d diff with
  | .panic msg => .panic msg
  | .err e => .err e
  | .ok n => .ok (wrapInt64 (min + wrapInt64 n))

/-- The digits used by the verb `%x`. -/
def lowerHexDigits : List Char := "0123456789abcdef".toList

/-- The digit of `%x` for a nibble. -/
def hexDigit (k : Nat) : Char := lowerHexDigits.getD k '?'

/-- Rendering of one byte by `%x` applied to a byte slice: two lowercase hex digits, high
nibble first. -/
def hexByte (b : Nat) : List Char := [hexDigit (b / 16), hexDigit (b % 16)]

/-- Rendering of a byte slice by `%x`: the bytes in order, two digits each, no separator. -/
def fmtHex (bs : List Nat) : List Char := bs.flatMap hexByte

/-- The slice expression `b[lo:hi]`. -/
def slice (b : List Nat) (lo hi : Nat) : List Nat := (b.take hi).drop lo

/-- `generateUUID()`: 16 random bytes, version and variant bits forced, printed with
`fmt.Sprintf("%x-%x-%x-%x-%x", b[0:4], b[4:6], b[6:8], b[8:10], b[10:16])`. -/
def generateUUID (d : ReadDraw) : Res String (List Char) :=
  match randRead d 16 with
  | .panic msg => .panic msg
  | .err e => .err e
  | .ok b0 =>
    let b1 := b0.set 6 (((b0.getD 6 0) &&& 0x0f) ||| 0x40)
    let b := b1.set 8 (((b1.getD 8 0) &&& 0x3f) ||| 0x80)
    .ok (fmtHex (slice b 0 4) ++ ('-' :: (fmtHex (slice b 4 6) ++ ('-' :: (fmtHex (slice b 6 8)
      ++ ('-' :: (fmtHex (slice b 8 10) ++ ('-' :: fmtHex (slice b 10 16)))))))))

/-- Decimal rendering of an integer by the verb `%d`. -/
def fmtInt (x : Int) : List Char :=
  match x with
  | Int.ofNat n => Nat.toDigits 10 n
  | Int.negSucc n => '-' :: Nat.toDigits 10 (n + 1)

/-- The flags of the `random` command. -/
structure RandomFlags where
  randomType : List Char
  randomLength : Int
  randomMin : Int
  randomMax : Int

/-- What one run of the `random` command gets from the random source. -/
structure RandomEnv where
  ints : Nat → Draw
  read : ReadDraw

/-- Model of `strings.ToLower` on one rune: the ASCII capitals, and the two runes outside
ASCII whose lower case is an ASCII letter (the Kelvin sign and the dotted capital I). Any
other rune outside ASCII has a lower case outside ASCII and is left in place: the result is
only ever compared with ASCII literals. -/
def lowerRune (c : Char) : Char :=
  if 'A'.toNat ≤ c.toNat ∧ c.toNat ≤ 'Z'.toNat then Char.ofNat (c.toNat + 32)
  else if c.toNat = 0x212A then 'k'
  else if c.toNat = 0x0130 then 'i'
  else c

/-- Model of `strings.ToLower`. -/
def toLower (s : List Char) : List Char := s.map lowerRune

/-- `runRandom`: the lines written to standard output, or the error returned. -/
def runRandom (env : RandomEnv) (fl : RandomFlags) : Res CmdError (List (List Char)) :=
  let ty := toLower fl.randomType
  if ty = "string".toList then
    match generateRandomString fl.randomLength env.ints with
    | .panic msg => .panic msg
    | .err e => .err (.failedRandomString e)
    | .ok result =>
      .ok ["Random string (".toList ++ fmtInt fl.randomLength ++ " chars): ".toList ++ result]
  else if ty = "number".toList then
    if fl.randomMax ≤ fl.randomMin then .err .maxNotGreaterThanMin
    else
      match generateRandomNumber fl.randomMin fl.randomMax (env.ints 0) with
      | .panic msg => .panic msg
      | .err e => .err (.failedRandomNumber e)
      | .ok result =>
        .ok ["Random number (".toList ++ fmtInt fl.randomMin ++ "-".toList
          ++ fmtInt fl.randomMax ++ "): ".toList ++ fmtInt result]
  else if ty = "uuid".toList then
    match generateUUID env.read with
    | .panic msg => .panic msg
    | .err e => .err (.failedUUID e)
    | .ok result => .ok ["Random UUID: ".toList ++ result]
  else .err (.unsupportedRandomType fl.randomType)

/-! ## Library model: `strconv.ParseInt(s, 10, 64)` -/

/-- Membership in `[0-9]`. -/
def isDigit (c : Char) : Bool := '0'.toNat ≤ c.toNat && c.toNat ≤ '9'.toNat

/-- Value of a decimal digit. -/
def digitVal (c : Char) : Nat := c.toNat - '0'.toNat

/-- Value of a run of decimal digits read after the value `acc`; `none` when a character
is not a decimal digit. -/
def digitsValue : List Char → Nat → Option Nat
  | [], acc => some acc
  | c :: s, acc => if isDigit c then digitsValue s (acc * 10 + digitVal c) else none

/-- `strconv.ParseUint(s, 10, 64)`: the value when `err == nil`. The empty string and any
character other than a decimal digit are syntax errors (in base 10 no underscore is
accepted); a value above `2^64 - 1` is a range error. -/
def parseUint (s : List Char) : Option Nat :=
  match s with
  | [] => none
  | _ :: _ =>
    match digitsValue s 0 with
    | none => none
    | some v => if 18446744073709551615 < v then none else some v

/-- `strconv.ParseInt(s, 10, 64)`: the value when `err == nil`. An optional sign, then
`ParseUint`; a magnitude that does not fit `int64` is a range error. -/
def parseInt (s : List Char) : Option Int :=
  match s with
  | [] => none
  | c :: rest =>
    let neg : Bool := c = '-'
    let body := if c = '+' ∨ c = '-' then rest else s
    match parseUint body with
    | none => none
    | some un =>
      if neg = false ∧ 9223372036854775808 ≤ un then none
      else if neg = true ∧ 9223372036854775808 < un then none
      else some (if neg then -(un : Int) else (un : Int))

/-! ## Library model: package `time` -/

/-- A `*time.Location`: the offset from UTC, in seconds east, in force at each instant
(given as a Unix time). -/
structure Location where
  offsetAt : Int → Int

/-- `time.UTC`. -/
def utcLoc : Location := ⟨fun _ => 0⟩

/-- A `time.Time`: an instant (seconds since the Unix epoch and nanoseconds within the
second) and the location it is displayed in. -/
structure Time where
  unix : Int
  nsec : Nat
  loc : Location

/-- `t.In(loc)`: the same instant, displayed in `loc`. -/
def Time.In (t : Time) (loc : Location) : Time := { t with loc := loc }

/-- `t.Unix()`. -/
def Time.Unix (t : Time) : Int := t.unix

/-- `isLeap(year)`. -/
def isLeap (year : Int) : Bool := year % 4 = 0 ∧ (year % 100 ≠ 0 ∨ year % 400 = 0)

/-- The table `daysBefore`: `daysBefore[m]` is the number of days of a non-leap year before
month `m + 1`. -/
def daysBefore : List Nat := [0, 31, 59, 90, 120, 151, 181, 212, 243, 273, 304, 334, 365]

/-- `daysIn(m, year)`. -/
def daysIn (m : Nat) (year : Int) : Nat :=
  if m = 2 ∧ isLeap year = true then 29 else daysBefore.getD m 0 - daysBefore.getD (m - 1) 0

/-- Days from 1970-01-01 to January 1 of `year` in the proleptic Gregorian calendar
(`daysSinceEpoch(year)` moved from Go's absolute epoch to the Unix epoch). -/
def daysSinceEpoch (year : Int) : Int :=
  365 * (year - 1) + (year - 1) / 4 - (year - 1) / 100 + (year - 1) / 400 - 719162

/-- `time.Date(year, month, day, hour, min, sec, 0, time.UTC).Unix()` for fields that are
in range (no normalisation takes place). -/
def dateToUnix (year : Int) (month day hour min sec : Nat) : Int :=
  let d : Int := daysSinceEpoch year + (daysBefore.getD (month - 1) 0 : Nat)
    + (if isLeap year = true ∧ 3 ≤ month then 1 else 0) + ((day : Int) - 1)
  d * 86400 + (hour * 3600 + min * 60 + sec : Nat)

/-- First half of `absDate`: the year and the day of the year (from 0) of a day count from
1970-01-01, by cutting off 400-year cycles, 100-year cycles, 4-year cycles and years. -/
def yearOfDays (days : Int) : Int × Nat :=
  let d : Int := days + 719162
  let n400 := d / 146097
  let d1 := d - 146097 * n400
  let n100 := d1 / 36524
  let n100 := n100 - n100 / 4
  let d2 := d1 - 36524 * n100
  let n4 := d2 / 1461
  let d3 := d2 - 1461 * n4
  let n1 := d3 / 365
  let n1 := n1 - n1 / 4
  (1 + 400 * n400 + 100 * n100 + 4 * n4 + n1, (d3 - 365 * n1).toNat)

/-- Second half of `absDate`: month and day of the month from the day of the year. -/
def monthOfYday (leap : Bool) (yday : Nat) : Nat × Nat :=
  if leap = true ∧ yday = 59 then (2, 29)
  else
    let day := if leap = true ∧ 59 < yday then yday - 1 else yday
    let month := day / 31
    let stop := daysBefore.getD (month + 1) 0
    if stop ≤ day then (month + 2, day - stop + 1)
    else (month + 1, day - daysBefore.getD month 0 + 1)

/-- The civil date `(year, month, day)` of a day count from 1970-01-01 (`absDate`). -/
def civilOfDays (days : Int) : Int × Nat × Nat :=
  let yd := yearOfDays days
  (yd.1, monthOfYday (isLeap yd.1) yd.2)

/-- The constant `unixToInternal + internalToAbsolute` of package `time`: the seconds from
the absolute epoch, January 1 of the year -292277022399, to the Unix epoch. It is a whole
number of days. -/
def unixToAbsolute : Int := 9223372028715321600

/-- `t.abs()`: the wall clock that `t` shows in its location, as package `time` holds it for
the calendar computations: a `uint64` count of seconds since the absolute epoch. The count
wraps for a wall clock before the absolute epoch. -/
def Time.abs (t : Time) : Int :=
  (t.unix + t.loc.offsetAt t.unix + unixToAbsolute) % 18446744073709551616

/-- Seconds since the Unix epoch of the wall clock that the calendar computations see for
`t`: `t.abs()` counted from the Unix epoch. -/
def Time.wallSeconds (t : Time) : Int := t.abs - unixToAbsolute

/-- `t.Date()`: year, month and day shown in the location of `t` (`absDate(t.abs())`): the
date of the proleptic Gregorian calendar that lies `t.abs()` seconds after the absolute
epoch. -/
def Time.date (t : Time) : Int × Nat × Nat := civilOfDays (t.wallSeconds / 86400)

/-- `t.Clock()`: hour, minute and second shown in the location of `t`. -/
def Time.clock (t : Time) : Nat × Nat × Nat :=
  let s := (t.wallSeconds % 86400).toNat
  (s / 3600, s % 3600 / 60, s % 60)

/-- `t.Weekday()` as a number, Sunday = 0 (`absWeekday(t.abs())`): the absolute epoch is a
Monday, and the sum is formed in `uint64`. -/
def Time.weekday (t : Time) : Nat :=
  ((t.abs + 86400) % 18446744073709551616 % 604800 / 86400).toNat

/-- The names printed for `time.Weekday` values. -/
def weekdayNames : List (List Char) :=
  ["Sunday".toList, "Monday".toList, "Tuesday".toList, "Wednesday".toList, "Thursday".toList,
   "Friday".toList, "Saturday".toList]

/-- Decimal digits of `u`, zero-padded on the left to `width`. -/
def padDigits (u width : Nat) : List Char :=
  let ds := Nat.toDigits 10 u
  List.replicate (width - ds.length) '0' ++ ds

/-- `appendInt(b, x, width)` of package `time`: a minus sign for a negative `x`, then the
zero-padded magnitude. -/
def appendInt (x : Int) (width : Nat) : List Char :=
  if x < 0 then '-' :: padDigits (-x).toNat width else padDigits x.toNat width

/-- Rendering of civil fields in the layout `2006-01-02 15:04:05`. -/
def renderDateTime (year : Int) (month day hour min sec : Nat) (sep : Char) : List Char :=
  appendInt year 4 ++ ('-' :: (appendInt month 2 ++ ('-' :: (appendInt day 2 ++ (sep ::
    (appendInt hour 2 ++ (':' :: (appendInt min 2 ++ (':' :: appendInt sec 2)))))))))

/-- The default value of the flag `--format`. -/
def defaultLayout : List Char := "2006-01-02 15:04:05".toList

/-- The constant `time.RFC3339`. -/
def layoutRFC3339 : List Char := "2006-01-02T15:04:05Z07:00".toList

/-- `t.Format("2006-01-02 15:04:05")`. -/
def Time.formatDefault (t : Time) : List Char :=
  renderDateTime t.date.1 t.date.2.1 t.date.2.2 t.clock.1 t.clock.2.1 t.clock.2.2 ' '

/-- The zone of `Z07:00`: `Z` for offset zero, else sign, hours and minutes of the offset. -/
def formatZone (offset : Int) : List Char :=
  if offset = 0 then ['Z']
  else
    let zone := Int.tdiv offset 60
    let mag := zone.natAbs
    (if zone < 0 then '-' else '+') :: (appendInt (mag / 60) 2 ++ (':' :: appendInt (mag % 60) 2))

/-- `t.Format(time.RFC3339)`. -/
def Time.formatRFC3339 (t : Time) : List Char :=
  renderDateTime t.date.1 t.date.2.1 t.date.2.2 t.clock.1 t.clock.2.1 t.clock.2.2 'T'
    ++ formatZone (t.loc.offsetAt t.unix)

/-- The results of a `time.Parse` with one of the two layouts of `runTime`. -/
structure Fields where
  year : Nat
  month : Nat
  day : Nat
  hour : Nat
  min : Nat
  sec : Nat
  nsec : Nat
  deriving DecidableEq, Repr

/-- `getnum(s, fixed)`: one or two leading digits; exactly two when `fixed`. -/
def getnum (s : List Char) (fixed : Bool) : Option (Nat × List Char) :=
  match s with
  | [] => none
  | [c0] => if isDigit c0 ∧ fixed = false then some (digitVal c0, []) else none
  | c0 :: c1 :: rest =>
    if isDigit c0 then
      if isDigit c1 then some (digitVal c0 * 10 + digitVal c1, rest)
      else if fixed then none
      else some (digitVal c0, c1 :: rest)
    else none

/-- The chunk `2006` of a layout: exactly four digits. -/
def getYear (s : List Char) : Option (Nat × List Char) :=
  match s with
  | c0 :: c1 :: c2 :: c3 :: rest =>
    if isDigit c0 ∧ isDigit c1 ∧ isDigit c2 ∧ isDigit c3 then
      some (digitVal c0 * 1000 + digitVal c1 * 100 + digitVal c2 * 10 + digitVal c3, rest)
    else none
  | _ => none

/-- `skip(value, pre)` for a literal `pre` of one character other than a space. -/
def skipLit (c : Char) (value : List Char) : Option (List Char) :=
  match value with
  | [] => none
  | d :: rest => if d = c then some rest else none

/-- `skip(value, " ")`: a space in the layout matches any run of spaces of the value, also
none at its end, but not another character. -/
def skipSpace (value : List Char) : Option (List Char) :=
  match value with
  | [] => some []
  | d :: _ => if d = ' ' then some (value.dropWhile (fun x => x = ' ')) else none

/-- A check inside `time.Parse` that makes it return an error when `bad` holds. -/
def failIf (bad : Prop) [Decidable bad] : Option Unit := if bad then none else some ()

/-- The fractional second that `time.Parse` accepts right after the seconds field although
the layout has none: a period or comma and digits, of which the first nine count. Yields
the nanoseconds and the rest of the value. -/
def getFraction (value : List Char) : Nat × List Char :=
  match value with
  | c0 :: c1 :: rest =>
    if (c0 = '.' ∨ c0 = ',') ∧ isDigit c1 then
      let ds := (c1 :: rest).takeWhile isDigit
      let kept := ds.take 9
      ((kept.foldl (fun acc c => acc * 10 + digitVal c) 0) * 10 ^ (9 - kept.length),
        (c1 :: rest).dropWhile isDigit)
    else (0, value)
  | _ => (0, value)

/-- The chunks `2006-01-02` of a layout, matched from left to right: year, month (checked
to be in 1..12) and day, with the rest of the value. Any one- or two-digit day is taken
here; it is checked against the month once the whole value is parsed. -/
def scanDate (value : List Char) : Option ((Nat × Nat × Nat) × List Char) :=
  (getYear value).bind fun yv =>
  (skipLit '-' yv.2).bind fun v =>
  (getnum v true).bind fun mv =>
  (failIf (mv.1 = 0 ∨ 12 < mv.1)).bind fun _ =>
  (skipLit '-' mv.2).bind fun v =>
  (getnum v true).bind fun dv =>
  some ((yv.1, mv.1, dv.1), dv.2)

/-- The chunks `15:04:05` of a layout, matched from left to right: hour (one or two
digits), minute and second, each checked to be in range, and the fractional second that
may follow; with the rest of the value. -/
def scanClock (value : List Char) : Option ((Nat × Nat × Nat × Nat) × List Char) :=
  (getnum value false).bind fun hv =>
  (failIf (24 ≤ hv.1)).bind fun _ =>
  (skipLit ':' hv.2).bind fun v =>
  (getnum v true).bind fun iv =>
  (failIf (60 ≤ iv.1)).bind fun _ =>
  (skipLit ':' iv.2).bind fun v =>
  (getnum v true).bind fun sv =>
  (failIf (60 ≤ sv.1)).bind fun _ =>
  some ((hv.1, iv.1, sv.1, (getFraction sv.2).1), (getFraction sv.2).2)

/-- `time.Parse("2006-01-02 15:04:05", value)`: the fields when `err == nil`. After the
chunks are matched, text left over and a day that the month does not have are errors. -/
def parseDateTime (value : List Char) : Option Fields :=
  (scanDate value).bind fun d =>
  (skipSpace d.2).bind fun v =>
  (scanClock v).bind fun c =>
  (failIf (c.2 ≠ [])).bind fun _ =>
  (failIf (d.1.2.2 < 1 ∨ daysIn d.1.2.1 d.1.1 < d.1.2.2)).bind fun _ =>
  some ⟨d.1.1, d.1.2.1, d.1.2.2, c.1.1, c.1.2.1, c.1.2.2.1, c.1.2.2.2⟩

/-- `time.Parse("2006-01-02", value)`: the fields when `err == nil`. -/
def parseDate (value : List Char) : Option Fields :=
  (scanDate value).bind fun d =>
  (failIf (d.2 ≠ [])).bind fun _ =>
  (failIf (d.1.2.2 < 1 ∨ daysIn d.1.2.1 d.1.1 < d.1.2.2)).bind fun _ =>
  some ⟨d.1.1, d.1.2.1, d.1.2.2, 0, 0, 0, 0⟩

/-- The `time.Time` that `time.Parse` returns for parsed fields: the instant at which UTC
shows them, in location UTC. -/
def Fields.toTime (f : Fields) : Time :=
  ⟨dateToUnix f.year f.month f.day f.hour f.min f.sec, f.nsec, utcLoc⟩

/-! ## `cmd_time.go` -/

/-- What one run of the `time` command reads from its surroundings: the clock, the host's
local zone, the timezone database behind `time.LoadLocation`, and the rendering of layouts
other than the two that are modelled here. -/
structure TimeEnv where
  now : Int
  nowNsec : Nat
  localLoc : Location
  loadLocation : List Char → Except String Location
  formatOther : List Char → Time → List Char

/-- The flags of the `time` command. -/
structure TimeFlags where
  timeFormat : List Char
  toTimestamp : Bool
  timeTimezone : List Char

/-- `t.Format(layout)`. -/
def Time.format (env : TimeEnv) (layout : List Char) (t : Time) : List Char :=
  if layout = defaultLayout then t.formatDefault
  else if layout = layoutRFC3339 then t.formatRFC3339
  else env.formatOther layout t

/-- `parseTimezone(tz)`. -/
def parseTimezone (env : TimeEnv) (tz : List Char) : Except String Location :=
  let l := toLower tz
  if l = "utc".toList then .ok utcLoc
  else if l = "local".toList then .ok env.localLoc
  else env.loadLocation tz

/-- The part of `runTime` that resolves `targetTime` once the location is known. -/
def resolveTime (env : TimeEnv) (location : Location) (args : List (List Char)) :
    Res CmdError Time :=
  match args with
  | [] => .ok (Time.In ⟨env.now, env.nowNsec, env.localLoc⟩ location)
  | input :: _ =>
    match parseInt input with
    | some timestamp => .ok (Time.In ⟨timestamp, 0, env.localLoc⟩ location)
    | none =>
      match parseDateTime input with
      | some f => .ok (f.toTime.In location)
      | none =>
        match parseDate input with
        | some f => .ok (f.toTime.In location)
        | none => .err (.failedToParseTime "cannot parse value as layout")

/-- The lines `runTime` prints for `targetTime`. -/
def printTime (env : TimeEnv) (fl : TimeFlags) (targetTime : Time) : List (List Char) :=
  if fl.toTimestamp then ["Unix timestamp: ".toList ++ fmtInt targetTime.Unix]
  else
    [ "Formatted time (".toList ++ fl.timeTimezone ++ "): ".toList
        ++ targetTime.format env fl.timeFormat,
      "Unix timestamp: ".toList ++ fmtInt targetTime.Unix,
      "ISO 8601: ".toList ++ targetTime.format env layoutRFC3339,
      "Weekday: ".toList ++ weekdayNames.getD targetTime.weekday [] ]

/-- `runTime`: the lines written to standard output, or the error returned. -/
def runTime (env : TimeEnv) (fl : TimeFlags) (args : List (List Char)) :
    Res CmdError (List (List Char)) :=
  match parseTimezone env fl.timeTimezone with
  | .error e => .err (.invalidTimezone e)
  | .ok location =>
    match resolveTime env location args with
    | .panic msg => .panic msg
    | .err e => .err e
    | .ok targetTime => .ok (printTime env fl targetTime)

/-! ## Bytes -/

/-- A byte. A Go string is a sequence of bytes. -/
abbrev Byte := Fin 256

/-- The conversion `byte(n)`: the low eight bits. -/
def byteOf (n : Nat) : Byte := ⟨n % 256, Nat.mod_lt _ (by decide)⟩

/-- The bytes of a text of ASCII characters. -/
def ascii (s : List Char) : List Byte := s.map (fun c => byteOf c.toNat)

/-! ## Library model: `encoding/base64`, `StdEncoding` -/

/-- The alphabet of `base64.StdEncoding`. -/
def encodeStd : List Char :=
  "ABCDEFGHIJKLMNOPQRSTUVWXYZabcdefghijklmnopqrstuvwxyz0123456789+/".toList

/-- The table `enc.encode`: the character for a 6-bit value. -/
def b64Char (v : Nat) : Byte := byteOf (encodeStd.getD v 'A').toNat

/-- The padding character `=`. -/
def padChar : Byte := 61

/-- `StdEncoding.EncodeToString`: three bytes give four characters; a remainder of one or
two bytes gives two or three characters and padding. -/
def base64Encode : List Byte → List Byte
  | [] => []
  | [a] =>
    let val := a.val * 65536
    [b64Char (val / 262144 % 64), b64Char (val / 4096 % 64), padChar, padChar]
  | [a, b] =>
    let val := a.val * 65536 + b.val * 256
    [b64Char (val / 262144 % 64), b64Char (val / 4096 % 64), b64Char (val / 64 % 64), padChar]
  | a :: b :: c :: rest =>
    let val := a.val * 65536 + b.val * 256 + c.val
    b64Char (val / 262144 % 64) :: b64Char (val / 4096 % 64) :: b64Char (val / 64 % 64)
      :: b64Char (val % 64) :: base64Encode rest

/-- The table `enc.decodeMap`: the 6-bit value of a character of the alphabet, `none` (the
entry `0xff`) for any other byte. -/
def decodeMap (c : Byte) : Option Nat :=
  let i := (ascii encodeStd).indexOf c
  if i < 64 then some i else none

/-- Skipping of the newline characters `\r` and `\n`. -/
def skipNewlines (src : List Byte) : List Byte :=
  src.dropWhile (fun c => c.val = 10 ∨ c.val = 13)

/-- The bytes that a quantum of `dlen` 6-bit values decodes to: `dlen - 1` bytes of
`dbuf[0]<<18 | dbuf[1]<<12 | dbuf[2]<<6 | dbuf[3]`. Left-over bits are dropped, the
encoding not being strict. -/
def quantumBytes (vals : List Nat) : List Byte :=
  let val := vals.getD 0 0 * 262144 + vals.getD 1 0 * 4096 + vals.getD 2 0 * 64 + vals.getD 3 0
  ([byteOf (val / 65536), byteOf (val / 256), byteOf val] : List Byte).take (vals.length - 1)

/-- `StdEncoding.DecodeString`: the loop of `Decode` over `decodeQuantum`. `acc` holds the
6-bit values of the quantum being read. Newlines are skipped anywhere; the input may end
only between quanta or after padding; padding is accepted after two values (`==`) or three
(`=`), and only newlines may follow it. -/
def base64DecodeLoop : List Byte → List Nat → Except String (List Byte)
  | [], acc => if acc = [] then .ok [] else .error "illegal base64 data"
  | c :: rest, acc =>
    match decodeMap c with
    | some v =>
      if acc.length = 3 then
        match base64DecodeLoop rest [] with
        | .ok out => .ok (quantumBytes (acc ++ [v]) ++ out)
        | .error e => .error e
      else base64DecodeLoop rest (acc ++ [v])
    | none =>
      if c.val = 10 ∨ c.val = 13 then base64DecodeLoop rest acc
      else if c ≠ padChar then .error "illegal base64 data"
      else if acc.length < 2 then .error "illegal base64 data"
      else if acc.length = 2 then
        match skipNewlines rest with
        | [] => .error "illegal base64 data"
        | d :: rest2 =>
          if d ≠ padChar then .error "illegal base64 data"
          else if skipNewlines rest2 ≠ [] then .error "illegal base64 data"
          else .ok (quantumBytes acc)
      else if skipNewlines rest ≠ [] then .error "illegal base64 data"
      else .ok (quantumBytes acc)

/-- `base64.StdEncoding.DecodeString(s)`. -/
def base64Decode (s : List Byte) : Except String (List Byte) := base64DecodeLoop s []

/-! ## Library model: `net/url`, `QueryEscape` and `QueryUnescape` -/

/-- Membership of a byte in a range of characters. -/
def inRange (c : Byte) (lo hi : Char) : Bool := lo.toNat ≤ c.val && c.val ≤ hi.toNat

/-- `shouldEscape(c, encodeQueryComponent)`: everything but the letters, the digits and
`-`, `_`, `.`, `~`. -/
def shouldEscape (c : Byte) : Bool :=
  if inRange c 'a' 'z' || inRange c 'A' 'Z' || inRange c '0' '9' then false
  else if c.val = '-'.toNat ∨ c.val = '_'.toNat ∨ c.val = '.'.toNat ∨ c.val = '~'.toNat then false
  else true

/-- The table `upperhex`. -/
def upperhex (k : Nat) : Byte := byteOf ("0123456789ABCDEF".toList.getD k '0').toNat

/-- `url.QueryEscape(s)`: a space becomes `+`, a byte that must be escaped becomes `%XX`. -/
def queryEscape : List Byte → List Byte
  | [] => []
  | c :: rest =>
    if c.val = ' '.toNat then byteOf '+'.toNat :: queryEscape rest
    else if shouldEscape c then
      byteOf '%'.toNat :: upperhex (c.val / 16) :: upperhex (c.val % 16) :: queryEscape rest
    else c :: queryEscape rest

/-- `ishex(c)`. -/
def ishex (c : Byte) : Bool := inRange c '0' '9' || inRange c 'a' 'f' || inRange c 'A' 'F'

/-- `unhex(c)`. -/
def unhex (c : Byte) : Nat :=
  if inRange c '0' '9' then c.val - '0'.toNat
  else if inRange c 'a' 'f' then c.val - 'a'.toNat + 10
  else if inRange c 'A' 'F' then c.val - 'A'.toNat + 10
  else 0

/-- `url.QueryUnescape(s)`: `%XX` becomes the byte with hex value `XX`, `+` becomes a
space; a `%` that is not followed by two hex digits is an error. -/
def queryUnescape : List Byte → Except String (List Byte)
  | [] => .ok []
  | c :: rest =>
    if c.val = '%'.toNat then
      match rest with
      | h1 :: h2 :: rest2 =>
        if ishex h1 ∧ ishex h2 then
          match queryUnescape rest2 with
          | .ok out => .ok (byteOf (unhex h1 * 16 + unhex h2) :: out)
          | .error e => .error e
        else .error "invalid URL escape"
      | _ => .error "invalid URL escape"
    else
      match queryUnescape rest with
      | .ok out => .ok ((if c.val = '+'.toNat then byteOf ' '.toNat else c) :: out)
      | .error e => .error e

/-! ## `cmd/cmd_encode.go` -/

/-- Model of `strings.ToUpper` on one rune: the ASCII small letters, and the two runes
outside ASCII whose upper case is an ASCII letter (the long s and the dotless i). -/
def upperRune (c : Char) : Char :=
  if 'a'.toNat ≤ c.toNat ∧ c.toNat ≤ 'z'.toNat then Char.ofNat (c.toNat - 32)
  else if c.toNat = 0x017F then 'S'
  else if c.toNat = 0x0131 then 'I'
  else c

/-- Model of `strings.ToUpper`. -/
def toUpper (s : List Char) : List Char := s.map upperRune

/-- The flags of the `encode` command. -/
structure EncodeFlags where
  encodeType : List Char
  shouldDecode : Bool

/-- The line `runEncode` prints, `fmt.Printf("%s (%s): %s\n", operation, label, result)`,
by its three parts. -/
structure EncodeOutput where
  operation : List Char
  label : List Char
  result : List Byte
  deriving DecidableEq

/-- `runEncode` for the argument `input`: what is printed, or the error returned. -/
def runEncode (fl : EncodeFlags) (input : List Byte) : Res CmdError EncodeOutput :=
  let ty := toLower fl.encodeType
  let result : Res CmdError (List Byte) :=
    if ty = "base64".toList then
      if fl.shouldDecode then
        match base64Decode input with
        | .error e => .err (.failedToDecodeBase64 e)
        | .ok decoded => .ok decoded
      else .ok (base64Encode input)
    else if ty = "url".toList then
      if fl.shouldDecode then
        match queryUnescape input with
        | .error e => .err (.failedToDecodeURL e)
        | .ok r => .ok r
      else .ok (queryEscape input)
    else .err (.unsupportedEncodingType fl.encodeType)
  match result with
  | .panic msg => .panic msg
  | .err e => .err e
  | .ok r =>
    .ok ⟨if fl.shouldDecode then "Decoded".toList else "Encoded".toList, toUpper fl.encodeType, r⟩

/-! ## Library model: `unicode/utf8` -/

/-- `utf8.AppendRune`: the UTF-8 encoding of a character. -/
def utf8Encode (c : Char) : List Byte :=
  let n := c.toNat
  if n < 0x80 then [byteOf n]
  else if n < 0x800 then [byteOf (0xC0 + n / 64), byteOf (0x80 + n % 64)]
  else if n < 0x10000 then
    [byteOf (0xE0 + n / 4096), byteOf (0x80 + n / 64 % 64), byteOf (0x80 + n % 64)]
  else
    [byteOf (0xF0 + n / 262144), byteOf (0x80 + n / 4096 % 64), byteOf (0x80 + n / 64 % 64),
      byteOf (0x80 + n % 64)]

/-- The UTF-8 bytes of a text. -/
def utf8 (s : List Char) : List Byte := s.flatMap utf8Encode

/-- The character `U+FFFD`, which replaces what does not decode. -/
def replacementChar : Char := Char.ofNat 0xFFFD

/-- A continuation byte, `10xxxxxx`. -/
def isCont (b : Byte) : Bool := 0x80 ≤ b.val && b.val ≤ 0xBF

/-- `utf8.DecodeRune` on bytes that begin with a byte `b0 ≥ 0x80`: the character and the
number of bytes it takes. What is not the UTF-8 encoding of a Unicode scalar value (a stray
continuation byte, a truncated or overlong sequence, a surrogate, a value above `U+10FFFF`)
decodes to `U+FFFD` of width one. -/
def utf8DecodeMulti (b0 : Byte) (rest : List Byte) : Char × Nat :=
  if 0xC2 ≤ b0.val ∧ b0.val ≤ 0xDF then
    match rest with
    | b1 :: _ =>
      if isCont b1 then (Char.ofNat ((b0.val - 0xC0) * 64 + (b1.val - 0x80)), 2)
      else (replacementChar, 1)
    | _ => (replacementChar, 1)
  else if 0xE0 ≤ b0.val ∧ b0.val ≤ 0xEF then
    match rest with
    | b1 :: b2 :: _ =>
      let lo := if b0.val = 0xE0 then 0xA0 else 0x80
      let hi := if b0.val = 0xED then 0x9F else 0xBF
      if lo ≤ b1.val ∧ b1.val ≤ hi ∧ isCont b2 then
        (Char.ofNat ((b0.val - 0xE0) * 4096 + (b1.val - 0x80) * 64 + (b2.val - 0x80)), 3)
      else (replacementChar, 1)
    | _ => (replacementChar, 1)
  else if 0xF0 ≤ b0.val ∧ b0.val ≤ 0xF4 then
    match rest with
    | b1 :: b2 :: b3 :: _ =>
      let lo := if b0.val = 0xF0 then 0x90 else 0x80
      let hi := if b0.val = 0xF4 then 0x8F else 0xBF
      if lo ≤ b1.val ∧ b1.val ≤ hi ∧ isCont b2 ∧ isCont b3 then
        (Char.ofNat ((b0.val - 0xF0) * 262144 + (b1.val - 0x80) * 4096 + (b2.val - 0x80) * 64
          + (b3.val - 0x80)), 4)
      else (replacementChar, 1)
    | _ => (replacementChar, 1)
  else (replacementChar, 1)

/-! ## Library model: `strconv.ParseFloat` and `strconv.AppendFloat` for `float64` -/

/-- A finite `float64`: sign, and magnitude `mant * 2^exp` in the form that IEEE 754 stores:
`mant < 2^53`, `exp ≥ -1074`, and `mant ≥ 2^52` unless `exp = -1074` (zero and the
subnormals). Zero has `mant = 0` and `exp = -1074`; the sign tells `0` from `-0`. -/
structure F64 where
  neg : Bool
  mant : Nat
  exp : Int
  deriving DecidableEq, Repr

/-- The rational `n / d` scaled by `2^(-p)`, as a numerator. -/
def scaleNum (n : Nat) (p : Int) : Nat := if p < 0 then n * 2 ^ (-p).toNat else n

/-- The rational `n / d` scaled by `2^(-p)`, as a denominator. -/
def scaleDen (d : Nat) (p : Int) : Nat := if p < 0 then d else d * 2 ^ p.toNat

/-- The least exponent `p ≥ start` for which the integer part of `(n / d) / 2^p` takes at
most 53 bits, searched upwards from `start` in at most `steps` steps. -/
def findExp (n d : Nat) : (steps : Nat) → (start : Int) → Int
  | 0, p => p
  | k + 1, p =>
    if scaleNum n p / scaleDen d p < 9007199254740992 then p else findExp n d k (p + 1)

/-- Rounding of `n / d` to the nearest integer, ties to even. -/
def roundHalfEven (n d : Nat) : Nat :=
  let q := n / d
  let r := n % d
  if 2 * r < d then q else if d < 2 * r then q + 1 else if q % 2 = 0 then q else q + 1

/-- The number of bits of `n`, counted in at most `fuel` halvings. -/
def bitLenAux : (fuel : Nat) → Nat → Nat
  | 0, _ => 0
  | fuel + 1, n => if n = 0 then 0 else bitLenAux fuel (n / 2) + 1

/-- The number of bits of `n`: the least `k` with `n < 2^k`. -/
def bitLen (n : Nat) : Nat := bitLenAux n n

/-- A lower estimate of the binary exponent of `n / d`, from the bit lengths: at most the
exponent `p` for which `(n / d) / 2^p` has 53 bits before the point, and at most one below
it. -/
def estimateExp (n d : Nat) : Int := (bitLen n : Int) - (bitLen d : Int) - 53

/-- The `float64` nearest to the magnitude `n / d` (ties to even), as mantissa and
exponent; `none` when the magnitude rounds beyond the largest finite `float64`. A magnitude
too small for a subnormal rounds to zero. -/
def roundRatio (n d : Nat) : Option (Nat × Int) :=
  if n = 0 then some (0, -1074)
  else
    let p := findExp n d 4 (max (-1074) (estimateExp n d))
    let m := roundHalfEven (scaleNum n p) (scaleDen d p)
    let mp : Nat × Int := if m = 9007199254740992 then (4503599627370496, p + 1) else (m, p)
    if 971 < mp.2 then none else some mp

/-- The `float64` nearest to the decimal `digits * 10^e10`. -/
def roundDecimal (digits : Nat) (e10 : Int) : Option (Nat × Int) :=
  if e10 < 0 then roundRatio digits (10 ^ (-e10).toNat) else roundRatio (digits * 10 ^ e10.toNat) 1

/-- Membership of a byte in `[0-9]`. -/
def isDigitB (c : Byte) : Bool := 48 ≤ c.val && c.val ≤ 57

/-- The number that a run of bytes denotes in decimal. -/
def decValue (ds : List Byte) : Nat := ds.foldl (fun acc c => acc * 10 + (c.val - 48)) 0

/-- The exponent that `readFloat` takes from the digits after `e`: a digit is taken in
only while the value read so far is below 10000 (`if e < 10000`), so the digits of an
exponent of more than five digits are not all read. -/
def expValue (ds : List Byte) : Nat :=
  ds.foldl (fun e c => if e < 10000 then e * 10 + (c.val - 48) else e) 0

/-- The parts of a number literal of the JSON grammar, `-? int (. frac)? ([eE] [+-]? exp)?`,
as `readFloat` finds them: whether it is negative, the digits of `int` followed by those of
`frac` as one number, and the power of ten they are to be scaled by. -/
def literalParts (lit : List Byte) : Bool × Nat × Int :=
  let neg : Bool := lit.head? = some 45
  let body := if neg then lit.drop 1 else lit
  let int := body.takeWhile isDigitB
  let afterInt := body.dropWhile isDigitB
  let frac := if afterInt.head? = some 46 then (afterInt.drop 1).takeWhile isDigitB else []
  let afterFrac := if afterInt.head? = some 46 then (afterInt.drop 1).dropWhile isDigitB
    else afterInt
  let expPart := afterFrac.drop 1
  let expNeg : Bool := expPart.head? = some 45
  let expDigits := if expPart.head? = some 45 ∨ expPart.head? = some 43 then expPart.drop 1
    else expPart
  let e : Int := if expNeg then -(expValue expDigits : Int) else (expValue expDigits : Int)
  (neg, decValue (int ++ frac), e - (frac.length : Int))

/-- `strconv.ParseFloat(lit, 64)` on a number literal of the JSON grammar: the `float64`
nearest to the number the literal denotes; `none` for the range error, when that number is
too large in magnitude for a finite `float64`. -/
def parseFloat (lit : List Byte) : Option F64 :=
  let parts := literalParts lit
  (roundDecimal parts.2.1 parts.2.2).map fun mp => ⟨parts.1, mp.1, mp.2⟩

/-- The decimal digits of a number, as bytes, most significant first; `fuel` bounds their
count. -/
def decDigitsAux : (fuel : Nat) → Nat → List Byte → List Byte
  | 0, _, acc => acc
  | k + 1, n, acc =>
    if n < 10 then byteOf (48 + n) :: acc
    else decDigitsAux k (n / 10) (byteOf (48 + n % 10) :: acc)

/-- The decimal digits of a number, as bytes, most significant first. -/
def decDigits (n : Nat) : List Byte := decDigitsAux (n + 1) n []

/-- The decimal exponent `k` of a magnitude `n / d`: the greatest `k ≥ start` with
`10^k ≤ n / d`, searched upwards from `start` in at most `steps` steps. -/
def findDecExp (n d : Nat) : (steps : Nat) → (start : Int) → Int
  | 0, k => k
  | s + 1, k =>
    if (if k + 1 < 0 then n * 10 ^ (-(k + 1)).toNat < d else n < d * 10 ^ (k + 1).toNat)
    then k else findDecExp n d s (k + 1)

/-- The layout `%e` of `digits` (read as `d.ddd`) times `10^e10`, as the JSON encoder emits
it: exponent sign always present, exponent of at least two digits, except that a leading
zero of a two-digit exponent is dropped (`e-09` becomes `e-9`). -/
def layoutE (digits : List Byte) (e10 : Int) : List Byte :=
  let mantissa := match digits with
    | [] => []
    | [d] => [d]
    | d :: ds => d :: 46 :: ds
  let ex := decDigits e10.natAbs
  let ex := if e10 < 0 then ex else if ex.length < 2 then 48 :: ex else ex
  mantissa ++ (101 :: (if e10 < 0 then 45 else 43) :: ex)

/-- The layout `%f` of `digits` (read as `d.ddd`) times `10^e10`: no exponent, zeros filled
in before or after the digits as needed. -/
def layoutF (digits : List Byte) (e10 : Int) : List Byte :=
  if e10 < 0 then
    48 :: 46 :: (List.replicate ((-e10).toNat - 1) 48 ++ digits)
  else if digits.length ≤ e10.toNat + 1 then
    digits ++ List.replicate (e10.toNat + 1 - digits.length) 48
  else digits.take (e10.toNat + 1) ++ (46 :: digits.drop (e10.toNat + 1))

/-- The text of the decimal `digits * 10^(e10 - (number of digits - 1))` in the layout the
JSON encoder chooses: `%e` when the magnitude is below `1e-6` or at least `1e21`, else `%f`. -/
def layoutNumber (neg : Bool) (digits : List Byte) (e10 : Int) : List Byte :=
  (if neg then [45] else []) ++ (if e10 < -6 ∨ 21 ≤ e10 then layoutE digits e10
    else layoutF digits e10)

/-- The candidates with `n` significant digits for the shortest decimal of the magnitude
`num / den`, whose decimal exponent is `k`: the magnitude cut to `n` digits and the next
decimal of `n` digits above it, the nearer one first, and when both are as near the one
whose last digit is even (the rounding to even of `strconv`). Each is a digit string with
its decimal exponent. -/
def candidates (num den : Nat) (k : Int) (n : Nat) : List (List Byte × Int) :=
  let s : Int := k - (n : Int) + 1
  let sn := if s < 0 then num * 10 ^ (-s).toNat else num
  let sd := if s < 0 then den else den * 10 ^ s.toNat
  let lo := sn / sd
  let hi := lo + 1
  let loC : List Byte × Int := (decDigits lo, k)
  let hiC : List Byte × Int := if hi = 10 ^ n then (decDigits (10 ^ (n - 1)), k + 1)
    else (decDigits hi, k)
  if 2 * (sn % sd) < sd then [loC, hiC]
  else if sd < 2 * (sn % sd) then [hiC, loC]
  else if lo % 2 = 0 then [loC, hiC]
  else [hiC, loC]

/-- Removal of the zeros at the end of a digit string, keeping one digit at least. -/
def trimZeros (ds : List Byte) : List Byte :=
  match (ds.reverse.dropWhile (fun c => c.val = 48)).reverse with
  | [] => [48]
  | t => t

/-- A lower estimate of the decimal exponent of `n / d`, from the bit lengths. -/
def estimateDecExp (n d : Nat) : Int :=
  ((bitLen n : Int) - (bitLen d : Int) - 1) * 30103 / 100000 - 1

/-- The texts tried for a `float64`, in order: for 1 to 17 significant digits, the
candidates with that many digits, laid out as the JSON encoder lays numbers out. Zero is
`0` or `-0`. -/
def shortestTexts (f : F64) : List (List Byte) :=
  let num := scaleNum f.mant (-f.exp)
  let den := scaleDen 1 (-f.exp)
  let k := findDecExp num den 5 (estimateDecExp num den)
  if f.mant = 0 then [layoutNumber f.neg [48] 0]
  else
    (List.range 17).flatMap fun i =>
      (candidates num den k (i + 1)).map fun c => layoutNumber f.neg (trimZeros c.1) c.2

/-- A text that denotes a `float64` exactly: its mantissa times a power of two written out
as an integer, or as an integer with a negative decimal exponent. -/
def exactText (f : F64) : List Byte :=
  (if f.neg then [45] else []) ++
    (if f.exp < 0 then
      decDigits (f.mant * 5 ^ (-f.exp).toNat) ++ (101 :: 45 :: decDigits (-f.exp).toNat)
    else decDigits (f.mant * 2 ^ f.exp.toNat))

/-! ## Library model: `encoding/json` -/

/-- The shape of JSON data, over the type `N` of numbers and the type `S` of strings. -/
inductive JTree (N S : Type) where
  | null
  | bool (b : Bool)
  | number (n : N)
  | string (s : S)
  | array (elems : List (JTree N S))
  | object (members : List (S × JTree N S))

/-- A JSON text as the scanner sees it: a number is its literal, a string the bytes between
its quotes (escapes not yet resolved), an object its members in the order of the text. -/
abbrev JSyn := JTree (List Byte) (List Byte)

/-- What `json.Unmarshal` stores into an `interface{}`: `nil`, `bool`, `float64`, `string`,
`[]interface{}` and `map[string]interface{}`. A string is valid UTF-8 and is given by its
characters; a map is given by its entries in increasing order of the keys, each key once. -/
abbrev JValue := JTree F64 (List Char)

/-- The whitespace of JSON: space, tab, carriage return, line feed. -/
def isSpace (c : Byte) : Bool := c.val = 32 || c.val = 9 || c.val = 13 || c.val = 10

/-- Skipping of whitespace. -/
def skipWs (s : List Byte) : List Byte := s.dropWhile isSpace

/-- Membership of a byte in `[0-9a-fA-F]`. -/
def isHexB (c : Byte) : Bool :=
  (48 ≤ c.val && c.val ≤ 57) || (97 ≤ c.val && c.val ≤ 102) || (65 ≤ c.val && c.val ≤ 70)

/-- The characters that may follow a backslash other than `u`: `"`, `\`, `/`, `b`, `f`,
`n`, `r`, `t`. -/
def isSimpleEscape (c : Byte) : Bool :=
  c.val = 34 || c.val = 92 || c.val = 47 || c.val = 98 || c.val = 102 || c.val = 110
    || c.val = 114 || c.val = 116

/-- One step of the scanner inside a string literal, at the head of the bytes `s` (which
do not begin with the closing quote): the number of bytes of the token at the head, which
is an escape `\"`, `\\`, `\/`, `\b`, `\f`, `\n`, `\r`, `\t` of two bytes, an escape
`\uXXXX` of six bytes, or one byte that is not below `0x20`; `none` for a byte below `0x20`
and for a malformed escape. -/
def stringToken (s : List Byte) : Option Nat :=
  match s with
  | [] => none
  | c :: rest =>
    if c.val = 92 then
      match rest with
      | e :: rest2 =>
        if isSimpleEscape e then some 2
        else if e.val = 117 then
          match rest2 with
          | h1 :: h2 :: h3 :: h4 :: _ =>
            if isHexB h1 ∧ isHexB h2 ∧ isHexB h3 ∧ isHexB h4 then some 6 else none
          | _ => none
        else none
      | [] => none
    else if c.val < 32 then none
    else some 1

/-- The scanner inside a string literal; `skip` is the number of bytes of the current
token that are still to be passed over. Yields the bytes up to the closing quote, and the
text after it. -/
def scanStringLoop : (skip : Nat) → List Byte → Option (List Byte × List Byte)
  | _, [] => none
  | skip + 1, c :: rest => (scanStringLoop skip rest).map fun r => (c :: r.1, r.2)
  | 0, c :: rest =>
    if c.val = 34 then some ([], rest)
    else
      match stringToken (c :: rest) with
      | none => none
      | some width => (scanStringLoop (width - 1) rest).map fun r => (c :: r.1, r.2)

/-- The scanner inside a string literal, after the opening quote: the bytes up to the
closing quote, and the text after it. A byte below `0x20` and a malformed escape are
errors; any other byte is accepted as it is. -/
def scanString (s : List Byte) : Option (List Byte × List Byte) := scanStringLoop 0 s

/-- The states of the scanner inside a number: at its start, after the minus sign, after
a leading zero, inside the integer digits, after the decimal point, inside the fraction
digits, after `e` or `E`, after the sign of the exponent, inside the exponent digits. -/
inductive NumState where
  | start
  | neg
  | zero
  | int
  | dot
  | frac
  | exp
  | expSign
  | expDigits
  deriving DecidableEq, Repr

/-- The step of the scanner inside a number on the byte `c`; `none` when `c` cannot
continue the number. -/
def numStep (st : NumState) (c : Byte) : Option NumState :=
  match st with
  | .start =>
    if c.val = 45 then some .neg else if c.val = 48 then some .zero
    else if isDigitB c then some .int else none
  | .neg => if c.val = 48 then some .zero else if isDigitB c then some .int else none
  | .zero =>
    if c.val = 46 then some .dot else if c.val = 101 ∨ c.val = 69 then some .exp else none
  | .int =>
    if isDigitB c then some .int else if c.val = 46 then some .dot
    else if c.val = 101 ∨ c.val = 69 then some .exp else none
  | .dot => if isDigitB c then some .frac else none
  | .frac =>
    if isDigitB c then some .frac else if c.val = 101 ∨ c.val = 69 then some .exp else none
  | .exp =>
    if c.val = 43 ∨ c.val = 45 then some .expSign else if isDigitB c then some .expDigits
    else none
  | .expSign => if isDigitB c then some .expDigits else none
  | .expDigits => if isDigitB c then some .expDigits else none

/-- The states in which a number may end. -/
def numEnd (st : NumState) : Bool :=
  match st with
  | .zero | .int | .frac | .expDigits => true
  | _ => false

/-- The scanner inside a number, from the state `st`: the bytes that continue the number,
and the text after them; `none` when the number breaks off where it may not end. -/
def scanNumberFrom : NumState → List Byte → Option (List Byte × List Byte)
  | st, [] => if numEnd st then some ([], []) else none
  | st, c :: rest =>
    match numStep st c with
    | some st2 => (scanNumberFrom st2 rest).map fun r => (c :: r.1, r.2)
    | none => if numEnd st then some ([], c :: rest) else none

/-- The scanner on a number: the literal, which is the longest text that follows the
number grammar `-? (0 | [1-9][0-9]*) (. [0-9]+)? ([eE] [+-]? [0-9]+)?`, and the text
after it. -/
def scanNumber (s : List Byte) : Option (List Byte × List Byte) := scanNumberFrom .start s

/-- The nesting depth beyond which the scanner gives up (`maxNestingDepth`). -/
def maxNestingDepth : Nat := 10000

mutual
/-- The scanner on a value: the value and the text after it. `depth` is the number of
arrays and objects that are open. `fuel` bounds the depth of the recursion. -/
def parseValue : (fuel : Nat) → (depth : Nat) → List Byte → Option (JSyn × List Byte)
  | 0, _, _ => none
  | fuel + 1, depth, s =>
    match skipWs s with
    | [] => none
    | c :: rest =>
      if c.val = 123 then
        if maxNestingDepth ≤ depth then none
        else
          match skipWs rest with
          | d :: rest2 =>
            if d.val = 125 then some (.object [], rest2)
            else (parseMembers fuel (depth + 1) rest).map fun r => (.object r.1, r.2)
          | [] => none
      else if c.val = 91 then
        if maxNestingDepth ≤ depth then none
        else
          match skipWs rest with
          | d :: rest2 =>
            if d.val = 93 then some (.array [], rest2)
            else (parseElems fuel (depth + 1) rest).map fun r => (.array r.1, r.2)
          | [] => none
      else if c.val = 34 then (scanString rest).map fun r => (.string r.1, r.2)
      else if c.val = 45 ∨ isDigitB c then (scanNumber (c :: rest)).map fun r => (.number r.1, r.2)
      else if (c :: rest).take 4 = [116, 114, 117, 101] then some (.bool true, rest.drop 3)
      else if (c :: rest).take 5 = [102, 97, 108, 115, 101] then some (.bool false, rest.drop 4)
      else if (c :: rest).take 4 = [110, 117, 108, 108] then some (.null, rest.drop 3)
      else none
/-- The scanner on the elements of an array that is not empty, after its `[`: the
elements, and the text after the closing `]`. -/
def parseElems : (fuel : Nat) → (depth : Nat) → List Byte → Option (List JSyn × List Byte)
  | 0, _, _ => none
  | fuel + 1, depth, s =>
    match parseValue fuel depth s with
    | none => none
    | some (v, rest) =>
      match skipWs rest with
      | c :: rest2 =>
        if c.val = 44 then (parseElems fuel depth rest2).map fun r => (v :: r.1, r.2)
        else if c.val = 93 then some ([v], rest2)
        else none
      | [] => none
/-- The scanner on the members of an object that is not empty, after its `{`: the members,
and the text after the closing `}`. -/
def parseMembers : (fuel : Nat) → (depth : Nat) → List Byte →
    Option (List (List Byte × JSyn) × List Byte)
  | 0, _, _ => none
  | fuel + 1, depth, s =>
    match skipWs s with
    | q :: rest =>
      if q.val = 34 then
        match scanString rest with
        | none => none
        | some (key, rest1) =>
          match skipWs rest1 with
          | colon :: rest2 =>
            if colon.val = 58 then
              match parseValue fuel depth rest2 with
              | none => none
              | some (v, rest3) =>
                match skipWs rest3 with
                | c :: rest4 =>
                  if c.val = 44 then
                    (parseMembers fuel depth rest4).map fun r => ((key, v) :: r.1, r.2)
                  else if c.val = 125 then some ([(key, v)], rest4)
                  else none
                | [] => none
            else none
          | [] => none
      else none
    | [] => none
end

/-- The scanner on a whole text (`checkValid`): one value, with whitespace around it and
nothing else. -/
def parseText (text : List Byte) : Option JSyn :=
  match parseValue (text.length + 1) 0 text with
  | none => none
  | some (v, rest) => if skipWs rest = [] then some v else none

/-- `json.Valid(text)`. -/
def jsonValid (text : List Byte) : Bool := (parseText text).isSome

/-- Value of a hexadecimal digit. -/
def hexVal (c : Byte) : Nat :=
  if 48 ≤ c.val ∧ c.val ≤ 57 then c.val - 48
  else if 97 ≤ c.val ∧ c.val ≤ 102 then c.val - 87
  else if 65 ≤ c.val ∧ c.val ≤ 70 then c.val - 55
  else 0

/-- `getu4`: the value of four hexadecimal digits. -/
def hex4 (h1 h2 h3 h4 : Byte) : Nat :=
  hexVal h1 * 4096 + hexVal h2 * 256 + hexVal h3 * 16 + hexVal h4

/-- The character that a simple escape stands for. -/
def simpleEscape (e : Byte) : Char :=
  if e.val = 98 then Char.ofNat 8
  else if e.val = 102 then Char.ofNat 12
  else if e.val = 110 then Char.ofNat 10
  else if e.val = 114 then Char.ofNat 13
  else if e.val = 116 then Char.ofNat 9
  else Char.ofNat e.val

/-- One step of the loop of `unquote` at the head of the bytes `s` (which are not empty):
the character that the token at the head denotes, and the number of bytes of the token.
`\uXXXX` of a high surrogate followed by `\uXXXX` of a low surrogate is one character of
twelve bytes; any other surrogate is `U+FFFD`; a byte sequence that is not valid UTF-8
gives `U+FFFD` for its first byte. `none` stands for an escape that the scanner would have
rejected. -/
def unquoteToken (s : List Byte) : Option (Char × Nat) :=
  match s with
  | [] => none
  | c :: rest =>
    if c.val = 92 then
      match rest with
      | e :: rest2 =>
        if e.val = 117 then
          match rest2 with
          | h1 :: h2 :: h3 :: h4 :: rest3 =>
            let u := hex4 h1 h2 h3 h4
            if 0xD800 ≤ u ∧ u < 0xE000 then
              match rest3 with
              | b :: u2 :: g1 :: g2 :: g3 :: g4 :: _ =>
                let v := hex4 g1 g2 g3 g4
                if b.val = 92 ∧ u2.val = 117 ∧ u < 0xDC00 ∧ 0xDC00 ≤ v ∧ v < 0xE000 then
                  some (Char.ofNat ((u - 0xD800) * 1024 + (v - 0xDC00) + 0x10000), 12)
                else some (replacementChar, 6)
              | _ => some (replacementChar, 6)
            else some (Char.ofNat u, 6)
          | _ => none
        else some (simpleEscape e, 2)
      | [] => none
    else if c.val < 128 then some (Char.ofNat c.val, 1)
    else some (utf8DecodeMulti c rest)

/-- The loop of `unquote`; `skip` is the number of bytes of the current token that are
still to be passed over. -/
def unquoteLoop : (skip : Nat) → List Byte → List Char
  | _, [] => []
  | skip + 1, _ :: rest => unquoteLoop skip rest
  | 0, c :: rest =>
    match unquoteToken (c :: rest) with
    | none => []
    | some (ch, width) => ch :: unquoteLoop (width - 1) rest

/-- `unquote`: the string that the bytes between the quotes of a string literal denote. -/
def unquote (raw : List Byte) : List Char := unquoteLoop 0 raw

/-- Library model of the number text of the JSON encoder,
`strconv.AppendFloat(b, f, fmt, -1, 64)`, by its documented contract: the decimal with the
fewest digits that is a number literal and that `ParseFloat` maps back to `f`, the nearest
to `f` among those, in the layout `%e` or `%f`. (The last resort `exactText` stands for the case that no decimal of at
most 17 digits maps back, which does not arise for a `float64`.) -/
def formatFloat (f : F64) : List Byte :=
  match (shortestTexts f).find? (fun t => scanNumber t = some (t, []) ∧ parseFloat t = some f) with
  | some t => t
  | none => exactText f


/-- The order in which the encoder emits the keys of a map: strings compared byte by byte,
which for valid UTF-8 is the comparison character by character. -/
def keyLt : List Char → List Char → Bool
  | [], [] => false
  | [], _ :: _ => true
  | _ :: _, [] => false
  | a :: as, b :: bs => a.toNat < b.toNat || (a.toNat = b.toNat && keyLt as bs)

/-- The assignment `m[key] = value` on a map given by its entries in increasing key order:
a present key gets the new value. -/
def insertMember (key : List Char) (value : JValue) :
    List (List Char × JValue) → List (List Char × JValue)
  | [] => [(key, value)]
  | (k, v) :: rest =>
    if keyLt key k then (key, value) :: (k, v) :: rest
    else if key = k then (key, value) :: rest
    else (k, v) :: insertMember key value rest

mutual
/-- The decoder into an `interface{}` (`valueInterface`) on a text that the scanner has
accepted; `none` when a number literal is out of the `float64` range, for which
`Unmarshal` returns an `UnmarshalTypeError`. -/
def decode : JSyn → Option JValue
  | .null => some .null
  | .bool b => some (.bool b)
  | .number lit => (parseFloat lit).map fun f => .number f
  | .string raw => some (.string (unquote raw))
  | .array elems => (decodeElems elems).map fun vs => .array vs
  | .object members => (decodeMembers [] members).map fun ms => .object ms
/-- The decoder on the elements of an array. -/
def decodeElems : List JSyn → Option (List JValue)
  | [] => some []
  | e :: es =>
    match decode e, decodeElems es with
    | some v, some vs => some (v :: vs)
    | _, _ => none
/-- The decoder on the members of an object, from left to right, into the map `acc`. -/
def decodeMembers (acc : List (List Char × JValue)) :
    List (List Byte × JSyn) → Option (List (List Char × JValue))
  | [] => some acc
  | (key, e) :: ms =>
    match decode e with
    | some v => decodeMembers (insertMember (unquote key) v acc) ms
    | none => none
end

/-- `json.Unmarshal(text, &data)` for `data` of type `interface{}`: the scanner first, on
the whole text, then the decoder. -/
def unmarshal (text : List Byte) : Except String JValue :=
  match parseText text with
  | none => .error "invalid character or unexpected end of JSON input"
  | some syn =>
    match decode syn with
    | none => .error "json: cannot unmarshal number into Go value of type float64"
    | some v => .ok v

/-- The digits of `\u00XX` escapes. -/
def hexLower (k : Nat) : Byte := byteOf ("0123456789abcdef".toList.getD k '0').toNat

/-- The encoder on one character of a string (`appendString` with HTML escaping, as
`Marshal` has it): `"` and `\` get a backslash; backspace, form feed, line feed, carriage
return and tab are `\b`, `\f`, `\n`, `\r`, `\t`; the other characters below `0x20` and `<`,
`>`, `&` are `\u00XX`; `U+2028` and `U+2029` are `\u2028` and `\u2029`; every other
character is its UTF-8 encoding. -/
def quoteChar (c : Char) : List Byte :=
  let n := c.toNat
  if n = 34 ∨ n = 92 then [92, byteOf n]
  else if n = 8 then [92, 98]
  else if n = 12 then [92, 102]
  else if n = 10 then [92, 110]
  else if n = 13 then [92, 114]
  else if n = 9 then [92, 116]
  else if n < 32 ∨ n = 60 ∨ n = 62 ∨ n = 38 then
    [92, 117, 48, 48, hexLower (n / 16), hexLower (n % 16)]
  else if n = 0x2028 ∨ n = 0x2029 then [92, 117, 50, 48, 50, hexLower (n % 16)]
  else utf8Encode c

/-- The encoder on a string: the escaped characters between quotes. -/
def quote (s : List Char) : List Byte := 34 :: (s.flatMap quoteChar ++ [34])

/-- Where the two output forms differ: what is written after an opening bracket, after a
comma and before a closing bracket at nesting depth `d`, and what is written between a key
and its value. -/
structure Style where
  nl : Nat → List Byte
  colon : List Byte

/-- The form of `json.Marshal`: no whitespace. -/
def compactStyle : Style := ⟨fun _ => [], [58]⟩

/-- The form of `json.MarshalIndent(v, "", "  ")`: a line per element or member, two
spaces of indentation per level, a space after the colon. -/
def indentStyle : Style := ⟨fun d => 10 :: List.replicate (2 * d) 32, [58, 32]⟩

mutual
/-- The encoder on a value at nesting depth `d`. An array or map without entries is `[]`
or `{}` in both forms. -/
def render (st : Style) : Nat → JValue → List Byte
  | _, .null => [110, 117, 108, 108]
  | _, .bool true => [116, 114, 117, 101]
  | _, .bool false => [102, 97, 108, 115, 101]
  | _, .number f => formatFloat f
  | _, .string s => quote s
  | _, .array [] => [91, 93]
  | d, .array (e :: es) =>
    91 :: (st.nl (d + 1) ++ render st (d + 1) e ++ renderElems st (d + 1) es ++ st.nl d ++ [93])
  | _, .object [] => [123, 125]
  | d, .object ((k, v) :: ms) =>
    123 :: (st.nl (d + 1) ++ quote k ++ st.colon ++ render st (d + 1) v
      ++ renderMembers st (d + 1) ms ++ st.nl d ++ [125])
/-- The encoder on the elements of an array after the first. -/
def renderElems (st : Style) : Nat → List JValue → List Byte
  | _, [] => []
  | d, e :: es => 44 :: (st.nl d ++ render st d e ++ renderElems st d es)
/-- The encoder on the entries of a map after the first. -/
def renderMembers (st : Style) : Nat → List (List Char × JValue) → List Byte
  | _, [] => []
  | d, (k, v) :: ms =>
    44 :: (st.nl d ++ quote k ++ st.colon ++ render st d v ++ renderMembers st d ms)
end

/-- `json.Marshal(data)` for data that `Unmarshal` has stored into an `interface{}`. It
returns no error for such data: the errors of `Marshal` come from values that are not
finite numbers, from cycles and from unsupported types. -/
def marshal (data : JValue) : Except String (List Byte) := .ok (render compactStyle 0 data)

/-- `json.MarshalIndent(data, "", "  ")` for data that `Unmarshal` has stored into an
`interface{}`. -/
def marshalIndent (data : JValue) : Except String (List Byte) := .ok (render indentStyle 0 data)

/-! ## `cmd/cmd_json.go` -/

/-- The flags of the `json` command. -/
structure JsonFlags where
  jsonMinify : Bool
  jsonValidate : Bool
  jsonFromFile : Bool

/-- The first step of `runJSON`: the JSON text, which is the argument or the content of the
file that the argument names. -/
def jsonSource (readFile : List Byte → Except String (List Byte)) (fl : JsonFlags)
    (input : List Byte) : Res CmdError (List Byte) :=
  if fl.jsonFromFile then
    match readFile input with
    | .error e => .err (.failedToReadFile (input.map fun b => Char.ofNat b.val) e)
    | .ok data => .ok data
  else .ok input

/-- `runJSON` for the argument `input`: what is written to standard output (a line, or a
header line and the output text), or the error returned. `readFile` is `os.ReadFile` on
the file system of the run. -/
def runJSON (readFile : List Byte → Except String (List Byte)) (fl : JsonFlags)
    (input : List Byte) : Res CmdError (List (List Byte)) :=
  match jsonSource readFile fl input with
  | .panic msg => .panic msg
  | .err e => .err e
  | .ok jsonData =>
    match unmarshal jsonData with
    | .error e => .err (.invalidJSON e)
    | .ok data =>
      if fl.jsonValidate then
        if fl.jsonFromFile then .ok [utf8 "✓ Valid JSON file: ".toList ++ input]
        else .ok [utf8 "✓ Valid JSON".toList]
      else
        match (if fl.jsonMinify then marshal data else marshalIndent data) with
        | .error e => .err (.failedToMarshalJSON e)
        | .ok output =>
          let operation := if fl.jsonMinify then "Minified".toList else "Pretty printed".toList
          if fl.jsonFromFile then
            .ok [utf8 (operation ++ " JSON from ".toList) ++ input ++ [58], output]
          else .ok [utf8 (operation ++ " JSON:".toList), output]

/-- A file system without files. -/
def noFiles (_ : List Byte) : Except String (List Byte) := .error "no such file or directory"


/-! ## Library model: `crypto/md5`, `crypto/sha1`, `crypto/sha256` -/

/-- The sum of two 32-bit words. -/
def add32 (a b : Nat) : Nat := (a + b) % 4294967296

/-- The complement of a 32-bit word. -/
def not32 (x : Nat) : Nat := x ^^^ 4294967295

/-- Rotation of a 32-bit word to the left by `n` bits. -/
def rotl32 (x n : Nat) : Nat := ((x <<< n) ||| (x >>> (32 - n))) % 4294967296

/-- Rotation of a 32-bit word to the right by `n` bits. -/
def rotr32 (x n : Nat) : Nat := ((x >>> n) ||| (x <<< (32 - n))) % 4294967296

/-- The bytes of a 32-bit word, most significant first. -/
def be32 (x : Nat) : List Byte :=
  [byteOf (x / 16777216), byteOf (x / 65536), byteOf (x / 256), byteOf x]

/-- The bytes of a 32-bit word, least significant first. -/
def le32 (x : Nat) : List Byte :=
  [byteOf x, byteOf (x / 256), byteOf (x / 65536), byteOf (x / 16777216)]

/-- The bytes of a 64-bit word, most significant first. -/
def be64 (x : Nat) : List Byte := be32 (x / 4294967296 % 4294967296) ++ be32 (x % 4294967296)

/-- The bytes of a 64-bit word, least significant first. -/
def le64 (x : Nat) : List Byte := le32 (x % 4294967296) ++ le32 (x / 4294967296 % 4294967296)

/-- The 32-bit words of a block, its bytes taken four at a time, most significant first. -/
def wordsBE : List Byte → List Nat
  | a :: b :: c :: d :: rest =>
    (a.val * 16777216 + b.val * 65536 + c.val * 256 + d.val) :: wordsBE rest
  | _ => []

/-- The 32-bit words of a block, its bytes taken four at a time, least significant first. -/
def wordsLE : List Byte → List Nat
  | a :: b :: c :: d :: rest =>
    (a.val + b.val * 256 + c.val * 65536 + d.val * 16777216) :: wordsLE rest
  | _ => []

/-- The padding that the three hash functions put after a message of `n` bytes, without the
length that follows it: the byte `0x80` and zeros up to eight bytes before a multiple of 64. -/
def hashPadding (n : Nat) : List Byte := 128 :: List.replicate ((119 - n % 64) % 64) 0

/-- The blocks of 64 bytes of a padded message; `fuel` bounds their number. -/
def blocks64 : (fuel : Nat) → List Byte → List (List Byte)
  | 0, _ => []
  | fuel + 1, bs => if bs = [] then [] else bs.take 64 :: blocks64 fuel (bs.drop 64)

/-- Extension of a message schedule by `n` words, each computed from the words before it. -/
def extendSchedule (next : List Nat → Nat) : (n : Nat) → List Nat → List Nat
  | 0, w => w
  | n + 1, w => extendSchedule next n (w ++ [next w])

/-- The word `k` places before the end of a schedule. -/
def wordBack (w : List Nat) (k : Nat) : Nat := w.getD (w.length - k) 0

/-- The table of `crypto/md5`: `floor(2^32 * abs(sin(i + 1)))`. -/
def md5K : List Nat :=
  [0xd76aa478, 0xe8c7b756, 0x242070db, 0xc1bdceee, 0xf57c0faf, 0x4787c62a,
   0xa8304613, 0xfd469501, 0x698098d8, 0x8b44f7af, 0xffff5bb1, 0x895cd7be,
   0x6b901122, 0xfd987193, 0xa679438e, 0x49b40821, 0xf61e2562, 0xc040b340,
   0x265e5a51, 0xe9b6c7aa, 0xd62f105d, 0x02441453, 0xd8a1e681, 0xe7d3fbc8,
   0x21e1cde6, 0xc33707d6, 0xf4d50d87, 0x455a14ed, 0xa9e3e905, 0xfcefa3f8,
   0x676f02d9, 0x8d2a4c8a, 0xfffa3942, 0x8771f681, 0x6d9d6122, 0xfde5380c,
   0xa4beea44, 0x4bdecfa9, 0xf6bb4b60, 0xbebfbc70, 0x289b7ec6, 0xeaa127fa,
   0xd4ef3085, 0x04881d05, 0xd9d4d039, 0xe6db99e5, 0x1fa27cf8, 0xc4ac5665,
   0xf4292244, 0x432aff97, 0xab9423a7, 0xfc93a039, 0x655b59c3, 0x8f0ccc92,
   0xffeff47d, 0x85845dd1, 0x6fa87e4f, 0xfe2ce6e0, 0xa3014314, 0x4e0811a1,
   0xf7537e82, 0xbd3af235, 0x2ad7d2bb, 0xeb86d391]

/-- The shift amounts of `crypto/md5`. -/
def md5S : List Nat :=
  [7, 12, 17, 22, 7, 12, 17, 22, 7, 12, 17, 22, 7, 12, 17, 22, 5, 9, 14, 20, 5, 9, 14, 20, 5, 9, 14, 20, 5, 9, 14, 20, 4, 11, 16, 23, 4, 11, 16, 23, 4, 11, 16, 23, 4, 11, 16, 23, 6, 10, 15, 21, 6, 10, 15, 21, 6, 10, 15, 21, 6, 10, 15, 21]

/-- The state of MD5: four 32-bit words. -/
structure Md5State where
  a : Nat
  b : Nat
  c : Nat
  d : Nat

/-- The initial state of MD5. -/
def md5Init : Md5State := ⟨0x67452301, 0xefcdab89, 0x98badcfe, 0x10325476⟩

/-- Step `i` of the MD5 block function on the words `m` of the block. -/
def md5Step (m : List Nat) (st : Md5State) (i : Nat) : Md5State :=
  let f :=
    if i < 16 then (st.b &&& st.c) ||| (not32 st.b &&& st.d)
    else if i < 32 then (st.d &&& st.b) ||| (not32 st.d &&& st.c)
    else if i < 48 then st.b ^^^ st.c ^^^ st.d
    else st.c ^^^ (st.b ||| not32 st.d)
  let g :=
    if i < 16 then i
    else if i < 32 then (5 * i + 1) % 16
    else if i < 48 then (3 * i + 5) % 16
    else 7 * i % 16
  let sum := add32 (add32 (add32 f st.a) (md5K.getD i 0)) (m.getD g 0)
  ⟨st.d, add32 st.b (rotl32 sum (md5S.getD i 0)), st.b, st.c⟩

/-- The MD5 block function. -/
def md5Block (st : Md5State) (block : List Byte) : Md5State :=
  let r := (List.range 64).foldl (md5Step (wordsLE block)) st
  ⟨add32 st.a r.a, add32 st.b r.b, add32 st.c r.c, add32 st.d r.d⟩

/-- `md5.Sum(data)`: the MD5 checksum of the data (RFC 1321), 16 bytes. -/
def md5Sum (data : List Byte) : List Byte :=
  let padded := data ++ hashPadding data.length ++ le64 (8 * data.length % 18446744073709551616)
  let st := (blocks64 padded.length padded).foldl md5Block md5Init
  [st.a, st.b, st.c, st.d].flatMap le32

/-- The state of SHA-1: five 32-bit words. -/
structure Sha1State where
  a : Nat
  b : Nat
  c : Nat
  d : Nat
  e : Nat

/-- The initial state of SHA-1. -/
def sha1Init : Sha1State := ⟨0x67452301, 0xefcdab89, 0x98badcfe, 0x10325476, 0xc3d2e1f0⟩

/-- The message schedule of SHA-1: 80 words. -/
def sha1Schedule (block : List Byte) : List Nat :=
  extendSchedule
    (fun w => rotl32 (wordBack w 3 ^^^ wordBack w 8 ^^^ wordBack w 14 ^^^ wordBack w 16) 1)
    64 (wordsBE block)

/-- Round `i` of the SHA-1 block function on the schedule `w`. -/
def sha1Step (w : List Nat) (st : Sha1State) (i : Nat) : Sha1State :=
  let f :=
    if i < 20 then (st.b &&& st.c) ||| (not32 st.b &&& st.d)
    else if i < 40 then st.b ^^^ st.c ^^^ st.d
    else if i < 60 then (st.b &&& st.c) ||| (st.b &&& st.d) ||| (st.c &&& st.d)
    else st.b ^^^ st.c ^^^ st.d
  let k :=
    if i < 20 then 0x5a827999
    else if i < 40 then 0x6ed9eba1
    else if i < 60 then 0x8f1bbcdc
    else 0xca62c1d6
  let temp := add32 (add32 (add32 (add32 (rotl32 st.a 5) f) st.e) k) (w.getD i 0)
  ⟨temp, st.a, rotl32 st.b 30, st.c, st.d⟩

/-- The SHA-1 block function. -/
def sha1Block (st : Sha1State) (block : List Byte) : Sha1State :=
  let r := (List.range 80).foldl (sha1Step (sha1Schedule block)) st
  ⟨add32 st.a r.a, add32 st.b r.b, add32 st.c r.c, add32 st.d r.d, add32 st.e r.e⟩

/-- `sha1.Sum(data)`: the SHA-1 checksum of the data (RFC 3174), 20 bytes. -/
def sha1Sum (data : List Byte) : List Byte :=
  let padded := data ++ hashPadding data.length ++ be64 (8 * data.length % 18446744073709551616)
  let st := (blocks64 padded.length padded).foldl sha1Block sha1Init
  [st.a, st.b, st.c, st.d, st.e].flatMap be32

/-- The round constants of SHA-256. -/
def sha256K : List Nat :=
  List.flatten
    [[0x428a2f98, 0x71374491, 0xb5c0fbcf, 0xe9b5dba5, 0x3956c25b, 0x59f111f1, 0x923f82a4, 0xab1c5ed5],
     [0xd807aa98, 0x12835b01, 0x243185be, 0x550c7dc3, 0x72be5d74, 0x80deb1fe, 0x9bdc06a7, 0xc19bf174],
     [0xe49b69c1, 0xefbe4786, 0x0fc19dc6, 0x240ca1cc, 0x2de92c6f, 0x4a7484aa, 0x5cb0a9dc, 0x76f988da],
     [0x983e5152, 0xa831c66d, 0xb00327c8, 0xbf597fc7, 0xc6e00bf3, 0xd5a79147, 0x06ca6351, 0x14292967],
     [0x27b70a85, 0x2e1b2138, 0x4d2c6dfc, 0x53380d13, 0x650a7354, 0x766a0abb, 0x81c2c92e, 0x92722c85],
     [0xa2bfe8a1, 0xa81a664b, 0xc24b8b70, 0xc76c51a3, 0xd192e819, 0xd6990624, 0xf40e3585, 0x106aa070],
     [0x19a4c116, 0x1e376c08, 0x2748774c, 0x34b0bcb5, 0x391c0cb3, 0x4ed8aa4a, 0x5b9cca4f, 0x682e6ff3],
     [0x748f82ee, 0x78a5636f, 0x84c87814, 0x8cc70208, 0x90befffa, 0xa4506ceb, 0xbef9a3f7, 0xc67178f2]]

/-- The state of SHA-256: eight 32-bit words. -/
structure Sha256State where
  a : Nat
  b : Nat
  c : Nat
  d : Nat
  e : Nat
  f : Nat
  g : Nat
  h : Nat

/-- The initial state of SHA-256. -/
def sha256Init : Sha256State :=
  ⟨0x6a09e667, 0xbb67ae85, 0x3c6ef372, 0xa54ff53a, 0x510e527f, 0x9b05688c, 0x1f83d9ab, 0x5be0cd19⟩

/-- The message schedule of SHA-256: 64 words. -/
def sha256Schedule (block : List Byte) : List Nat :=
  extendSchedule
    (fun w =>
      let s0 := rotr32 (wordBack w 15) 7 ^^^ rotr32 (wordBack w 15) 18 ^^^ (wordBack w 15 >>> 3)
      let s1 := rotr32 (wordBack w 2) 17 ^^^ rotr32 (wordBack w 2) 19 ^^^ (wordBack w 2 >>> 10)
      add32 (add32 (add32 (wordBack w 16) s0) (wordBack w 7)) s1)
    48 (wordsBE block)

/-- Round `i` of the SHA-256 block function on the schedule `w`. -/
def sha256Step (w : List Nat) (st : Sha256State) (i : Nat) : Sha256State :=
  let s1 := rotr32 st.e 6 ^^^ rotr32 st.e 11 ^^^ rotr32 st.e 25
  let ch := (st.e &&& st.f) ^^^ (not32 st.e &&& st.g)
  let t1 := add32 (add32 (add32 (add32 st.h s1) ch) (sha256K.getD i 0)) (w.getD i 0)
  let s0 := rotr32 st.a 2 ^^^ rotr32 st.a 13 ^^^ rotr32 st.a 22
  let maj := (st.a &&& st.b) ^^^ (st.a &&& st.c) ^^^ (st.b &&& st.c)
  let t2 := add32 s0 maj
  ⟨add32 t1 t2, st.a, st.b, st.c, add32 st.d t1, st.e, st.f, st.g⟩

/-- The SHA-256 block function. -/
def sha256Block (st : Sha256State) (block : List Byte) : Sha256State :=
  let r := (List.range 64).foldl (sha256Step (sha256Schedule block)) st
  ⟨add32 st.a r.a, add32 st.b r.b, add32 st.c r.c, add32 st.d r.d, add32 st.e r.e,
    add32 st.f r.f, add32 st.g r.g, add32 st.h r.h⟩

/-- `sha256.Sum256(data)`: the SHA-256 checksum of the data (FIPS 180-4), 32 bytes. -/
def sha256Sum (data : List Byte) : List Byte :=
  let padded := data ++ hashPadding data.length ++ be64 (8 * data.length % 18446744073709551616)
  let st := (blocks64 padded.length padded).foldl sha256Block sha256Init
  [st.a, st.b, st.c, st.d, st.e, st.f, st.g, st.h].flatMap be32

/-! ## `cmd/cmd_hash.go` -/

/-- The flags of the `hash` command. -/
structure HashFlags where
  hashType : List Char
  hashFromFile : Bool

/-- The line `runHash` prints, by its parts: the upper-cased type, the file name in file
mode, and the digest in hexadecimal. -/
structure HashOutput where
  label : List Char
  file : Option (List Byte)
  hash : List Char
  deriving DecidableEq

/-- Rendering of a digest by `fmt.Sprintf("%x", digest)`: two lowercase hexadecimal digits
for each byte. -/
def hexOfBytes (digest : List Byte) : List Char := fmtHex (digest.map fun b => b.val)

/-- The first step of `runHash`: the data, which is the argument or the content of the file
that the argument names. -/
def hashSource (readFile : List Byte → Except String (List Byte)) (fl : HashFlags)
    (input : List Byte) : Res CmdError (List Byte) :=
  if fl.hashFromFile then
    match readFile input with
    | .error e => .err (.failedToReadFile (input.map fun b => Char.ofNat b.val) e)
    | .ok data => .ok data
  else .ok input

/-- The `switch` of `runHash`: the digest of the data in hexadecimal. -/
def hashHex (hashType : List Char) (data : List Byte) : Res CmdError (List Char) :=
  let ty := toLower hashType
  if ty = "md5".toList then .ok (hexOfBytes (md5Sum data))
  else if ty = "sha1".toList then .ok (hexOfBytes (sha1Sum data))
  else if ty = "sha256".toList then .ok (hexOfBytes (sha256Sum data))
  else .err (.unsupportedHashType hashType)

/-- `runHash` for the argument `input`: what is printed, or the error returned. `readFile`
is `os.ReadFile` on the file system of the run. -/
def runHash (readFile : List Byte → Except String (List Byte)) (fl : HashFlags)
    (input : List Byte) : Res CmdError HashOutput :=
  match hashSource readFile fl input with
  | .panic msg => .panic msg
  | .err e => .err e
  | .ok data =>
    match hashHex fl.hashType data with
    | .panic msg => .panic msg
    | .err e => .err e
    | .ok hash =>
      .ok ⟨toUpper fl.hashType, if fl.hashFromFile then some input else none, hash⟩

/-- The algorithms of `runHash`: the name, the checksum function and the size of the
checksum in bytes. -/
def hashAlgorithms : List (List Char × (List Byte → List Byte) × Nat) :=
  [("md5".toList, md5Sum, 16), ("sha1".toList, sha1Sum, 20), ("sha256".toList, sha256Sum, 32)]

/-! ## Predicates used by the statements about `random` -/

/-- Membership in `[0-9a-f]`. -/
def isLowerHex (c : Char) : Bool :=
  ('0'.toNat ≤ c.toNat && c.toNat ≤ '9'.toNat) || ('a'.toNat ≤ c.toNat && c.toNat ≤ 'f'.toNat)

/-- Matching of `^[0-9a-f]{n}` at the head of a string: the rest after `n` lowercase hex
digits. -/
def hexRun : Nat → List Char → Option (List Char)
  | 0, s => some s
  | _ + 1, [] => none
  | n + 1, c :: s => if isLowerHex c then hexRun n s else none

/-- Matching of one literal character at the head of a string. -/
def lit (c : Char) : List Char → Option (List Char)
  | [] => none
  | d :: s => if d = c then some s else none

/-- The regular expression
`^[0-9a-f]{8}-[0-9a-f]{4}-[0-9a-f]{4}-[0-9a-f]{4}-[0-9a-f]{12}$`. -/
def matchesUUID (s : List Char) : Bool :=
  (hexRun 8 s >>= lit '-' >>= hexRun 4 >>= lit '-' >>= hexRun 4 >>= lit '-' >>= hexRun 4
    >>= lit '-' >>= hexRun 12) = some []

/-- Fields in the ranges that `time.Parse` checks; the year has four digits. -/
def Fields.valid (f : Fields) : Prop :=
  f.year ≤ 9999 ∧ 1 ≤ f.month ∧ f.month ≤ 12 ∧ 1 ≤ f.day ∧ f.day ≤ daysIn f.month f.year ∧
    f.hour < 24 ∧ f.min < 60 ∧ f.sec < 60

/-- The number that a run of decimal digits denotes. -/
def decimalValue (digits : List Char) : Nat :=
  digits.foldl (fun acc c => acc * 10 + digitVal c) 0

/-- The text `s` consists solely of decimal digits, at least one, optionally preceded by a
sign, and denotes the integer `n`. -/
def denotesInt (s : List Char) (n : Int) : Prop :=
  ∃ digits, digits ≠ [] ∧ (∀ c ∈ digits, isDigit c = true) ∧
    ((s = digits ∧ n = decimalValue digits) ∨ (s = '+' :: digits ∧ n = decimalValue digits) ∨
      (s = '-' :: digits ∧ n = -(decimalValue digits : Int)))

/-- A timezone database with the single entry `Etc/GMT+5`, the zone that is five hours
behind UTC all year. -/
def sampleZones (name : List Char) : Except String Location :=
  if name = "Etc/GMT+5".toList then .ok ⟨fun _ => -18000⟩ else .error "unknown time zone"

/-- Surroundings for concrete runs of the `time` command: the clock reads 1700000000, the
host's zone is UTC, and the timezone database is `sampleZones`. -/
def sampleEnv : TimeEnv := ⟨1700000000, 0, utcLoc, sampleZones, fun _ _ => []⟩

/-- The English name of the weekday of the day that lies `days` days after 1970-01-01, which
was a Thursday. -/
def weekdayOfDays (days : Int) : List Char := weekdayNames.getD ((days + 4) % 7).toNat []

/-! ## Definitions used by the statements about names compared without regard to case -/

/-- The small letter of an ASCII capital; any other character as it is. -/
def foldAscii (c : Char) : Char :=
  if 'A'.toNat ≤ c.toNat ∧ c.toNat ≤ 'Z'.toNat then Char.ofNat (c.toNat + 32) else c

/-- Equality of two names ignoring letter case. -/
def eqIgnoreCase (s t : List Char) : Prop := s.map foldAscii = t.map foldAscii

instance (s t : List Char) : Decidable (eqIgnoreCase s t) := by
  unfold eqIgnoreCase; infer_instance

/-! ## Definitions used by the statements about URL decoding -/

/-- The text `s` contains a `%` that is not immediately followed by two hexadecimal
digits. -/
def hasBadEscape (s : List Byte) : Prop :=
  ∃ pre post, s = pre ++ byteOf '%'.toNat :: post ∧
    ¬ ∃ h1 h2 rest, post = h1 :: h2 :: rest ∧ ishex h1 = true ∧ ishex h2 = true

/-- A piece of URL-encoded text: a single character other than `%`, or `%` with two
hexadecimal digits. -/
inductive UrlPiece where
  | plain (c : Byte)
  | escape (h1 h2 : Byte)

/-- The text of a piece. -/
def UrlPiece.text : UrlPiece → List Byte
  | .plain c => [c]
  | .escape h1 h2 => [byteOf '%'.toNat, h1, h2]

/-- A piece is well formed: no bare `%`, and hexadecimal digits after `%`. -/
def UrlPiece.wellFormed : UrlPiece → Prop
  | .plain c => c ≠ byteOf '%'.toNat
  | .escape h1 h2 => ishex h1 = true ∧ ishex h2 = true

/-- What a piece stands for: a space for `+`, the byte with hex value `XX` for `%XX`, any
other character for itself. -/
def UrlPiece.value : UrlPiece → Byte
  | .plain c => if c = byteOf '+'.toNat then byteOf ' '.toNat else c
  | .escape h1 h2 => byteOf (unhex h1 * 16 + unhex h2)

/-! ## The handlers with their writes to standard output made explicit -/

/-- How a handler has ended: what it has written to standard output by then, one entry for
each call of `fmt.Printf` or `fmt.Println`, and what it returns (`nil`, an error, or a
panic in place of a return). -/
structure Ended (line : Type) where
  stdout : List line
  result : Res CmdError Unit

/-- Output and error exclude each other: a handler that returns an error has written
nothing, and a handler that has written something returns `nil`. -/
def Ended.exclusive {line : Type} (r : Ended line) : Prop :=
  (∀ e, r.result = .err e → r.stdout = []) ∧ (r.stdout ≠ [] → r.result = .ok ())

/-- The outcome of a handler as the other statements of this development have it (what is
printed, or the error), read off from how the handler has ended. -/
def Ended.outcome {line : Type} (r : Ended line) : Res CmdError (List line) :=
  match r.result with
  | .ok _ => .ok r.stdout
  | .err e => .err e
  | .panic msg => .panic msg

/-- The statements of `runEncode` in their order, `out` being what has been written so
far. -/
def runEncodeTrace (fl : EncodeFlags) (input : List Byte) : Ended EncodeOutput :=
  let out : List EncodeOutput := []
  let ty := toLower fl.encodeType
  let afterSwitch (result : List Byte) : Ended EncodeOutput :=
    let operation := if fl.shouldDecode then "Decoded".toList else "Encoded".toList
    let out := out ++ [⟨operation, toUpper fl.encodeType, result⟩]
    ⟨out, .ok ()⟩
  if ty = "base64".toList then
    if fl.shouldDecode then
      match base64Decode input with
      | .error e => ⟨out, .err (.failedToDecodeBase64 e)⟩
      | .ok decoded => afterSwitch decoded
    else afterSwitch (base64Encode input)
  else if ty = "url".toList then
    if fl.shouldDecode then
      match queryUnescape input with
      | .error e => ⟨out, .err (.failedToDecodeURL e)⟩
      | .ok r => afterSwitch r
    else afterSwitch (queryEscape input)
  else ⟨out, .err (.unsupportedEncodingType fl.encodeType)⟩

/-- The statements of `runHash` in their order, `out` being what has been written so far. -/
def runHashTrace (readFile : List Byte → Except String (List Byte)) (fl : HashFlags)
    (input : List Byte) : Ended HashOutput :=
  let out : List HashOutput := []
  match hashSource readFile fl input with
  | .panic msg => ⟨out, .panic msg⟩
  | .err e => ⟨out, .err e⟩
  | .ok data =>
    match hashHex fl.hashType data with
    | .panic msg => ⟨out, .panic msg⟩
    | .err e => ⟨out, .err e⟩
    | .ok hash =>
      let out := out ++ [⟨toUpper fl.hashType, if fl.hashFromFile then some input else none, hash⟩]
      ⟨out, .ok ()⟩

/-- The statements of `runJSON` in their order, `out` being what has been written so far. -/
def runJSONTrace (readFile : List Byte → Except String (List Byte)) (fl : JsonFlags)
    (input : List Byte) : Ended (List Byte) :=
  let out : List (List Byte) := []
  match jsonSource readFile fl input with
  | .panic msg => ⟨out, .panic msg⟩
  | .err e => ⟨out, .err e⟩
  | .ok jsonData =>
    match unmarshal jsonData with
    | .error e => ⟨out, .err (.invalidJSON e)⟩
    | .ok data =>
      if fl.jsonValidate then
        if fl.jsonFromFile then
          let out := out ++ [utf8 "✓ Valid JSON file: ".toList ++ input]
          ⟨out, .ok ()⟩
        else
          let out := out ++ [utf8 "✓ Valid JSON".toList]
          ⟨out, .ok ()⟩
      else
        match (if fl.jsonMinify then marshal data else marshalIndent data) with
        | .error e => ⟨out, .err (.failedToMarshalJSON e)⟩
        | .ok output =>
          let operation := if fl.jsonMinify then "Minified".toList else "Pretty printed".toList
          let out :=
            if fl.jsonFromFile then out ++ [utf8 (operation ++ " JSON from ".toList) ++ input ++ [58]]
            else out ++ [utf8 (operation ++ " JSON:".toList)]
          let out := out ++ [output]
          ⟨out, .ok ()⟩

/-- The statements of `runRandom` in their order, `out` being what has been written so
far. -/
def runRandomTrace (env : RandomEnv) (fl : RandomFlags) : Ended (List Char) :=
  let out : List (List Char) := []
  let ty := toLower fl.randomType
  if ty = "string".toList then
    match generateRandomString fl.randomLength env.ints with
    | .panic msg => ⟨out, .panic msg⟩
    | .err e => ⟨out, .err (.failedRandomString e)⟩
    | .ok result =>
      let out := out ++
        ["Random string (".toList ++ fmtInt fl.randomLength ++ " chars): ".toList ++ result]
      ⟨out, .ok ()⟩
  else if ty = "number".toList then
    if fl.randomMax ≤ fl.randomMin then ⟨out, .err .maxNotGreaterThanMin⟩
    else
      match generateRandomNumber fl.randomMin fl.randomMax (env.ints 0) with
      | .panic msg => ⟨out, .panic msg⟩
      | .err e => ⟨out, .err (.failedRandomNumber e)⟩
      | .ok result =>
        let out := out ++ ["Random number (".toList ++ fmtInt fl.randomMin ++ "-".toList
          ++ fmtInt fl.randomMax ++ "): ".toList ++ fmtInt result]
        ⟨out, .ok ()⟩
  else if ty = "uuid".toList then
    match generateUUID env.read with
    | .panic msg => ⟨out, .panic msg⟩
    | .err e => ⟨out, .err (.failedUUID e)⟩
    | .ok result =>
      let out := out ++ ["Random UUID: ".toList ++ result]
      ⟨out, .ok ()⟩
  else ⟨out, .err (.unsupportedRandomType fl.randomType)⟩

/-- The statements of `runTime` in their order, `out` being what has been written so far. -/
def runTimeTrace (env : TimeEnv) (fl : TimeFlags) (args : List (List Char)) :
    Ended (List Char) :=
  let out : List (List Char) := []
  match parseTimezone env fl.timeTimezone with
  | .error e => ⟨out, .err (.invalidTimezone e)⟩
  | .ok location =>
    match resolveTime env location args with
    | .panic msg => ⟨out, .panic msg⟩
    | .err e => ⟨out, .err e⟩
    | .ok targetTime =>
      if fl.toTimestamp then
        let out := out ++ ["Unix timestamp: ".toList ++ fmtInt targetTime.Unix]
        ⟨out, .ok ()⟩
      else
        let out := out ++ ["Formatted time (".toList ++ fl.timeTimezone ++ "): ".toList
          ++ targetTime.format env fl.timeFormat]
        let out := out ++ ["Unix timestamp: ".toList ++ fmtInt targetTime.Unix]
        let out := out ++ ["ISO 8601: ".toList ++ targetTime.format env layoutRFC3339]
        let out := out ++ ["Weekday: ".toList ++ weekdayNames.getD targetTime.weekday []]
        ⟨out, .ok ()⟩

/-! ## Definitions used by the statements about `json` -/

mutual
/-- The syntax tree of the text that the encoder writes for a value: a number by its
literal, a string by the bytes between its quotes, a map by its entries in their order. -/
def toSyn : JValue → JSyn
  | .null => .null
  | .bool b => .bool b
  | .number f => .number (formatFloat f)
  | .string s => .string (s.flatMap quoteChar)
  | .array es => .array (toSynElems es)
  | .object ms => .object (toSynMembers ms)
/-- The syntax trees of the elements of an array. -/
def toSynElems : List JValue → List JSyn
  | [] => []
  | e :: es => toSyn e :: toSynElems es
/-- The syntax trees of the entries of a map. -/
def toSynMembers : List (List Char × JValue) → List (List Byte × JSyn)
  | [] => []
  | (k, v) :: ms => (k.flatMap quoteChar, toSyn v) :: toSynMembers ms
end

mutual
/-- The number of arrays and objects around the innermost value. -/
def nest {N S : Type} : JTree N S → Nat
  | .array es => nestElems es + 1
  | .object ms => nestMembers ms + 1
  | _ => 0
/-- The nesting of the deepest element. -/
def nestElems {N S : Type} : List (JTree N S) → Nat
  | [] => 0
  | e :: es => max (nest e) (nestElems es)
/-- The nesting of the deepest member. -/
def nestMembers {N S : Type} : List (S × JTree N S) → Nat
  | [] => 0
  | (_, v) :: ms => max (nest v) (nestMembers ms)
end

mutual
/-- The number of values, elements and members in a value: a bound on the depth of the
recursion of the scanner on its text. -/
def need {N S : Type} : JTree N S → Nat
  | .array es => needElems es + 1
  | .object ms => needMembers ms + 1
  | _ => 1
/-- The count of `need` over the elements of an array. -/
def needElems {N S : Type} : List (JTree N S) → Nat
  | [] => 0
  | e :: es => need e + needElems es + 1
/-- The count of `need` over the members of an object. -/
def needMembers {N S : Type} : List (S × JTree N S) → Nat
  | [] => 0
  | (_, v) :: ms => need v + needMembers ms + 1
end

/-- The form in which IEEE 754 stores a finite `float64`: see `F64`. -/
def canonical (m : Nat) (e : Int) : Prop :=
  m < 9007199254740992 ∧ -1074 ≤ e ∧ e ≤ 971 ∧ (4503599627370496 ≤ m ∨ e = -1074)

/-- Bytes that are all whitespace. -/
def wsOnly (l : List Byte) : Prop := ∀ b ∈ l, isSpace b = true

/-- An output form that differs from the compact one by whitespace only. -/
def Style.plain (st : Style) : Prop :=
  (∀ d, wsOnly (st.nl d)) ∧ ∃ ws, st.colon = 58 :: ws ∧ wsOnly ws

/-- The bytes that may follow a value inside a text: whitespace, a comma, a closing
bracket or brace. -/
def isDelim (c : Byte) : Bool := isSpace c || c.val = 44 || c.val = 93 || c.val = 125

/-- The text after a value ends the value: it is empty or begins with a delimiter. -/
def delimStart (rest : List Byte) : Prop := rest = [] ∨ ∃ c r, rest = c :: r ∧ isDelim c = true

/-- The text after a number literal does not continue the literal: it is empty or begins
with a byte that no state of the number scanner accepts. -/
def endsNumber (rest : List Byte) : Prop :=
  rest = [] ∨ ∃ c r, rest = c :: r ∧ ∀ st, numStep st c = none

/-- A token of a string literal: it does not begin with a quote, and the scanner takes it
as one token whatever follows. -/
def scansAsToken (q : List Byte) : Prop :=
  ∃ b q2, q = b :: q2 ∧ b.val ≠ 34 ∧ ∀ tail, stringToken (q ++ tail) = some q.length

/-- The bytes `q` are one token that `unquote` reads as the character `c`. -/
def unquotesTo (q : List Byte) (c : Char) : Prop :=
  q ≠ [] ∧ ∀ tail, unquoteToken (q ++ tail) = some (c, q.length)

/-- The encoder's token `q` for the character `c` is scanned whole inside a string literal
and is read back as `c`. -/
def goodToken (q : List Byte) (c : Char) : Prop :=
  (∀ tail, scanStringLoop 0 (q ++ tail) = (scanStringLoop 0 tail).map fun r => (q ++ r.1, r.2)) ∧
    unquotesTo q c

/-- The text of the elements of an array that is not empty, without the brackets and the
whitespace next to them. -/
def renderSeq (st : Style) (d : Nat) : List JValue → List Byte
  | [] => []
  | e :: es => render st d e ++ renderElems st d es

/-- The text of the entries of a map that is not empty, without the braces and the
whitespace next to them. -/
def renderMemberSeq (st : Style) (d : Nat) : List (List Char × JValue) → List Byte
  | [] => []
  | (k, v) :: ms => quote k ++ st.colon ++ render st d v ++ renderMembers st d ms

/-- The keys of the entries of a map are in strictly increasing order. -/
def keysSorted (ms : List (List Char × JValue)) : Prop :=
  (ms.map Prod.fst).Pairwise (fun a b => keyLt a b = true)

mutual
/-- A value as `json.Unmarshal` stores it: every number is a finite `float64` in the form
that IEEE 754 stores, and every map has its keys in strictly increasing order. -/
def wellFormed : JValue → Prop
  | .number f => canonical f.mant f.exp
  | .array es => wellFormedElems es
  | .object ms => wellFormedMembers ms ∧ keysSorted ms
  | _ => True
/-- Every element is well formed. -/
def wellFormedElems : List JValue → Prop
  | [] => True
  | e :: es => wellFormed e ∧ wellFormedElems es
/-- Every entry has a well-formed value. -/
def wellFormedMembers : List (List Char × JValue) → Prop
  | [] => True
  | (_, v) :: ms => wellFormed v ∧ wellFormedMembers ms
end

mutual
/-- Every number literal of a JSON text is within the range of `float64`: `ParseFloat`
does not report a range error for it. -/
def numbersInRange : JSyn → Prop
  | .number lit => (parseFloat lit).isSome = true
  | .array es => numbersInRangeElems es
  | .object ms => numbersInRangeMembers ms
  | _ => True
/-- Every number literal in the elements of an array is within the range of `float64`. -/
def numbersInRangeElems : List JSyn → Prop
  | [] => True
  | e :: es => numbersInRange e ∧ numbersInRangeElems es
/-- Every number literal in the members of an object is within the range of `float64`. -/
def numbersInRangeMembers : List (List Byte × JSyn) → Prop
  | [] => True
  | (_, e) :: ms => numbersInRange e ∧ numbersInRangeMembers ms
end

/-- The header line of `runJSON` in non-validate mode. -/
def jsonHeader (fl : JsonFlags) (input : List Byte) : List Byte :=
  if fl.jsonFromFile then
    utf8 ((if fl.jsonMinify then "Minified".toList else "Pretty printed".toList)
      ++ " JSON from ".toList) ++ input ++ [58]
  else utf8 ((if fl.jsonMinify then "Minified".toList else "Pretty printed".toList)
    ++ " JSON:".toList)

/-- The output form that `runJSON` uses. -/
def jsonStyle (fl : JsonFlags) : Style := if fl.jsonMinify then compactStyle else indentStyle

/-- The order of Go strings, which `json.Marshal` sorts the keys of a map by: byte by
byte. -/
def bytesLt : List Byte → List Byte → Bool
  | [], [] => false
  | [], _ :: _ => true
  | _ :: _, [] => false
  | a :: as, b :: bs => a.val < b.val || (a.val = b.val && bytesLt as bs)

/-- The order byte by byte, on the bytes as numbers. -/
def natsLt : List Nat → List Nat → Bool
  | [], [] => false
  | [], _ :: _ => true
  | _ :: _, [] => false
  | a :: as, b :: bs => a < b || (a = b && natsLt as bs)

mutual
/-- In every object of a JSON text, at every nesting depth, the keys are in strictly
ascending order byte by byte, so that no key occurs twice; a key is the string that the
key literal denotes, by its bytes. -/
def keysAscending : JSyn → Prop
  | .array es => keysAscendingElems es
  | .object ms =>
    (ms.map fun p => utf8 (unquote p.1)).Pairwise (fun a b => bytesLt a b = true) ∧
      keysAscendingMembers ms
  | _ => True
/-- The keys are in ascending order in every element of an array. -/
def keysAscendingElems : List JSyn → Prop
  | [] => True
  | e :: es => keysAscending e ∧ keysAscendingElems es
/-- The keys are in ascending order in every member value of an object. -/
def keysAscendingMembers : List (List Byte × JSyn) → Prop
  | [] => True
  | (_, e) :: ms => keysAscending e ∧ keysAscendingMembers ms
end

mutual
/-- Two JSON texts, given by their syntax trees, differ only in the order of the keys of
their objects: one is obtained from the other by exchanging neighbouring members with
different keys, any number of times and at any nesting depth. -/
inductive KeyOrderEq : JSyn → JSyn → Prop
  | refl (s : JSyn) : KeyOrderEq s s
  | array {xs ys : List JSyn} : KeyOrderEqElems xs ys → KeyOrderEq (.array xs) (.array ys)
  | object {xs ys : List (List Byte × JSyn)} :
    KeyOrderEqMembers xs ys → KeyOrderEq (.object xs) (.object ys)
/-- The elements of two arrays differ only in the order of the keys of their objects. -/
inductive KeyOrderEqElems : List JSyn → List JSyn → Prop
  | nil : KeyOrderEqElems [] []
  | cons {x y : JSyn} {xs ys : List JSyn} :
    KeyOrderEq x y → KeyOrderEqElems xs ys → KeyOrderEqElems (x :: xs) (y :: ys)
/-- The members of two objects differ only in the order of the keys. -/
inductive KeyOrderEqMembers :
    List (List Byte × JSyn) → List (List Byte × JSyn) → Prop
  | nil : KeyOrderEqMembers [] []
  | cons {k : List Byte} {v w : JSyn} {ms ns : List (List Byte × JSyn)} :
    KeyOrderEq v w → KeyOrderEqMembers ms ns → KeyOrderEqMembers ((k, v) :: ms) ((k, w) :: ns)
  | swap {k1 k2 : List Byte} {v1 v2 : JSyn} {ms : List (List Byte × JSyn)} :
    unquote k1 ≠ unquote k2 →
    KeyOrderEqMembers ((k1, v1) :: (k2, v2) :: ms) ((k2, v2) :: (k1, v1) :: ms)
  | trans {a b c : List (List Byte × JSyn)} :
    KeyOrderEqMembers a b → KeyOrderEqMembers b c → KeyOrderEqMembers a c
end

/-! ## The JSON grammar of RFC 8259, for the statements about valid JSON texts -/

/-- A run of decimal digits that is not empty (`1*DIGIT`). -/
def digitRun (t : List Byte) : Prop := t ≠ [] ∧ ∀ b ∈ t, isDigitB b = true

/-- The production `int = zero / ( digit1-9 *DIGIT )`. -/
def intLit (t : List Byte) : Prop :=
  t = [48] ∨ ∃ d ds, t = d :: ds ∧ isDigitB d = true ∧ d.val ≠ 48 ∧ ∀ b ∈ ds, isDigitB b = true

/-- The production `frac = decimal-point 1*DIGIT`, or nothing. -/
def fracLit (t : List Byte) : Prop := t = [] ∨ ∃ ds, t = 46 :: ds ∧ digitRun ds

/-- The production `exp = e [ minus / plus ] 1*DIGIT` with `e` in either case, or nothing. -/
def expLit (t : List Byte) : Prop :=
  t = [] ∨ ∃ e sign ds, t = e :: (sign ++ ds) ∧ (e.val = 101 ∨ e.val = 69) ∧
    (sign = [] ∨ sign = [43] ∨ sign = [45]) ∧ digitRun ds

/-- The production `number = [ minus ] int [ frac ] [ exp ]`. -/
def NumberLit (lit : List Byte) : Prop :=
  ∃ sign int frac ex, lit = sign ++ (int ++ (frac ++ ex)) ∧ (sign = [] ∨ sign = [45]) ∧
    intLit int ∧ fracLit frac ∧ expLit ex

/-- The production `*char` of a string, the bytes between its quotes: a byte other than the
quote, the backslash and the control characters below `0x20`; a backslash with one of
`"`, `\`, `/`, `b`, `f`, `n`, `r`, `t`; a backslash with `u` and four hexadecimal digits.
The bytes from `0x80` on are not required to form UTF-8 sequences, so every string of
RFC 8259 is among these. -/
inductive StringLit : List Byte → Prop
  | nil : StringLit []
  | char (c : Byte) (rest : List Byte) :
    32 ≤ c.val → c.val ≠ 34 → c.val ≠ 92 → StringLit rest → StringLit (c :: rest)
  | escape (e : Byte) (rest : List Byte) :
    isSimpleEscape e = true → StringLit rest → StringLit (92 :: e :: rest)
  | unicode (h1 h2 h3 h4 : Byte) (rest : List Byte) :
    isHexB h1 = true → isHexB h2 = true → isHexB h3 = true → isHexB h4 = true →
    StringLit rest → StringLit (92 :: 117 :: h1 :: h2 :: h3 :: h4 :: rest)

mutual
/-- The production `value`: the text of a value, without whitespace around it, and the
syntax tree it has. `array = [ ws ]` or `[ ws value ws *( , ws value ws ) ]`, and `object`
likewise with members `string ws : ws value`. -/
inductive ValueText : JSyn → List Byte → Prop
  | null : ValueText .null [110, 117, 108, 108]
  | true : ValueText (.bool true) [116, 114, 117, 101]
  | false : ValueText (.bool false) [102, 97, 108, 115, 101]
  | number {lit : List Byte} : NumberLit lit → ValueText (.number lit) lit
  | string {raw : List Byte} : StringLit raw → ValueText (.string raw) (34 :: (raw ++ [34]))
  | emptyArray {w : List Byte} : wsOnly w → ValueText (.array []) (91 :: (w ++ [93]))
  | array {es : List JSyn} {body : List Byte} :
    ElemsText es body → ValueText (.array es) (91 :: (body ++ [93]))
  | emptyObject {w : List Byte} : wsOnly w → ValueText (.object []) (123 :: (w ++ [125]))
  | object {ms : List (List Byte × JSyn)} {body : List Byte} :
    MembersText ms body → ValueText (.object ms) (123 :: (body ++ [125]))
/-- The elements of an array that is not empty, between its brackets: values with
whitespace around them, separated by commas. -/
inductive ElemsText : List JSyn → List Byte → Prop
  | last {e : JSyn} {t w1 w2 : List Byte} :
    wsOnly w1 → wsOnly w2 → ValueText e t → ElemsText [e] (w1 ++ (t ++ w2))
  | cons {e : JSyn} {t w1 w2 : List Byte} {es : List JSyn} {body : List Byte} :
    wsOnly w1 → wsOnly w2 → ValueText e t → ElemsText es body →
    ElemsText (e :: es) (w1 ++ (t ++ (w2 ++ 44 :: body)))
/-- The members of an object that is not empty, between its braces: a string, a colon and
a value with whitespace around them, separated by commas. -/
inductive MembersText : List (List Byte × JSyn) → List Byte → Prop
  | last {k : List Byte} {v : JSyn} {t w1 w2 w3 w4 : List Byte} :
    wsOnly w1 → wsOnly w2 → wsOnly w3 → wsOnly w4 → StringLit k → ValueText v t →
    MembersText [(k, v)] (w1 ++ (34 :: (k ++ (34 :: (w2 ++ (58 :: (w3 ++ (t ++ w4))))))))
  | cons {k : List Byte} {v : JSyn} {t w1 w2 w3 w4 : List Byte}
    {ms : List (List Byte × JSyn)} {body : List Byte} :
    wsOnly w1 → wsOnly w2 → wsOnly w3 → wsOnly w4 → StringLit k → ValueText v t →
    MembersText ms body →
    MembersText ((k, v) :: ms)
      (w1 ++ (34 :: (k ++ (34 :: (w2 ++ (58 :: (w3 ++ (t ++ (w4 ++ 44 :: body)))))))))
end

/-- The production `JSON-text = ws value ws`: `text` is a valid JSON text and `syn` is its
syntax tree. -/
def JsonText (text : List Byte) (syn : JSyn) : Prop :=
  ∃ w1 t w2, wsOnly w1 ∧ wsOnly w2 ∧ ValueText syn t ∧ text = w1 ++ (t ++ w2)

/-- The syntax tree of the text of `n + 1` opening brackets followed by `n + 1` closing
brackets: an empty array inside `n` arrays of one element. -/
def deepArray : Nat → JSyn
  | 0 => .array []
  | n + 1 => .array [deepArray n]

/-! # Theorems -/

/-! ## 64-bit integers and the random source -/

theorem wrapInt64_of_isInt64 {x : Int} (h : isInt64 x) : wrapInt64 x = x := by
  unfold isInt64 at h
  unfold wrapInt64
  omega

theorem generateRandomNumber_in_range (min max : Int) (hmin : isInt64 min) (hmax : isInt64 max)
    (hlt : min < max) (hfit : max - min ≤ 9223372036854775807) (raw : Nat) :
    ∃ n, generateRandomNumber min max (.value raw) = .ok n ∧ min ≤ n ∧ n < max := by
  have hd : wrapInt64 (max - min) = max - min := wrapInt64_of_isInt64 ⟨by omega, hfit⟩
  have hpos : ¬ (max - min ≤ 0) := by omega
  have hbound : ((raw % (max - min).toNat : Nat) : Int) < max - min := by
    have h0 : 0 < (max - min).toNat := by omega
    have := Nat.mod_lt raw h0
    omega
  have hn : wrapInt64 ((raw % (max - min).toNat : Nat) : Int) = (raw % (max - min).toNat : Nat) :=
    wrapInt64_of_isInt64 ⟨by omega, by omega⟩
  unfold isInt64 at hmin hmax
  refine ⟨min + (raw % (max - min).toNat : Nat), ?_, by omega, by omega⟩
  simp only [generateRandomNumber, randInt, hd, if_neg hpos, hn]
  rw [wrapInt64_of_isInt64 ⟨by omega, by omega⟩]

theorem generateRandomNumber_panics_of_overflow (min max : Int) (hmin : isInt64 min)
    (hmax : isInt64 max) (hwide : 9223372036854775808 ≤ max - min) (d : Draw) :
    generateRandomNumber min max d = .panic "crypto/rand: argument to Int is <= 0" := by
  unfold isInt64 at hmin hmax
  have hneg : wrapInt64 (max - min) ≤ 0 := by unfold wrapInt64; omega
  simp [generateRandomNumber, randInt, hneg]

/-- C1 (the code departs from the claim): for the `int64` pair `min = -2^63`,
`max = 2^63 - 1`, which satisfies `min < max`, the difference `max - min` wraps to `-1` in
`int64` arithmetic and `generateRandomNumber` panics inside `rand.Int`, whatever the random
source delivers; it returns no value `n` with `min <= n < max`. -/
theorem generateRandomNumber_wide_range_panics :
    isInt64 minInt64 ∧ isInt64 maxInt64 ∧ minInt64 < maxInt64 ∧
    wrapInt64 (maxInt64 - minInt64) = -1 ∧
    ∀ d : Draw, generateRandomNumber minInt64 maxInt64 d
      = .panic "crypto/rand: argument to Int is <= 0" := by
  refine ⟨by decide, by decide, by decide, by unfold wrapInt64; decide, fun d => ?_⟩
  exact generateRandomNumber_panics_of_overflow _ _ (by decide) (by decide) (by decide) d

/-! ## `generateRandomString` -/

theorem isLowerHex_digit (k : Nat) (h : k < 16) : isLowerHex (hexDigit k) = true := by
  interval_cases k <;> decide

theorem range16 : List.range 16 = [0, 1, 2, 3, 4, 5, 6, 7, 8, 9, 10, 11, 12, 13, 14, 15] := by
  decide

set_option maxRecDepth 4000 in
theorem version_nibble (x : Nat) : ((x % 256) &&& 0x0f ||| 0x40) / 16 = 4 := by
  have h : ∀ b : Fin 256, ((b.val) &&& 0x0f ||| 0x40) / 16 = 4 := by decide
  exact h ⟨x % 256, Nat.mod_lt _ (by decide)⟩

set_option maxRecDepth 4000 in
theorem variant_nibble (x : Nat) :
    ((x % 256) &&& 0x3f ||| 0x80) / 16 = 8 ∨ ((x % 256) &&& 0x3f ||| 0x80) / 16 = 9 ∨
    ((x % 256) &&& 0x3f ||| 0x80) / 16 = 10 ∨ ((x % 256) &&& 0x3f ||| 0x80) / 16 = 11 := by
  have h : ∀ b : Fin 256, ((b.val) &&& 0x3f ||| 0x80) / 16 = 8 ∨ ((b.val) &&& 0x3f ||| 0x80) / 16 = 9 ∨
    ((b.val) &&& 0x3f ||| 0x80) / 16 = 10 ∨ ((b.val) &&& 0x3f ||| 0x80) / 16 = 11 := by decide
  exact h ⟨x % 256, Nat.mod_lt _ (by decide)⟩

theorem hexRun_fmtHex (bs : List Nat) (hbs : ∀ b ∈ bs, b / 16 < 16) (rest : List Char) :
    hexRun (2 * bs.length) (fmtHex bs ++ rest) = some rest := by
  induction bs with
  | nil => simp [fmtHex, hexRun]
  | cons b bs ih =>
    have h1 : b / 16 < 16 := hbs b (List.mem_cons_self _ _)
    have h2 : b % 16 < 16 := Nat.mod_lt _ (by decide)
    have ih1 := ih (fun x hx => hbs x (List.mem_cons_of_mem _ hx))
    have e : 2 * (b :: bs).length = 2 * bs.length + 1 + 1 := by simp [Nat.mul_add]
    rw [e]
    simp only [fmtHex, List.flatMap_cons, hexByte, List.cons_append, List.nil_append, hexRun,
      isLowerHex_digit _ h1, isLowerHex_digit _ h2, if_true] at ih1 ⊢
    exact ih1

theorem lit_cons (c : Char) (s : List Char) : lit c (c :: s) = some s := by simp [lit]

theorem matchesUUID_fmtHex (g1 g2 g3 g4 g5 : List Nat)
    (h1 : ∀ b ∈ g1, b / 16 < 16) (h2 : ∀ b ∈ g2, b / 16 < 16) (h3 : ∀ b ∈ g3, b / 16 < 16)
    (h4 : ∀ b ∈ g4, b / 16 < 16) (h5 : ∀ b ∈ g5, b / 16 < 16)
    (l1 : g1.length = 4) (l2 : g2.length = 2) (l3 : g3.length = 2) (l4 : g4.length = 2)
    (l5 : g5.length = 6) :
    matchesUUID (fmtHex g1 ++ ('-' :: (fmtHex g2 ++ ('-' :: (fmtHex g3 ++ ('-' :: (fmtHex g4
      ++ ('-' :: fmtHex g5)))))))) = true := by
  have e1 := hexRun_fmtHex g1 h1 ('-' :: (fmtHex g2 ++ ('-' :: (fmtHex g3 ++ ('-' :: (fmtHex g4
      ++ ('-' :: fmtHex g5)))))))
  have e2 := hexRun_fmtHex g2 h2 ('-' :: (fmtHex g3 ++ ('-' :: (fmtHex g4 ++ ('-' :: fmtHex g5)))))
  have e3 := hexRun_fmtHex g3 h3 ('-' :: (fmtHex g4 ++ ('-' :: fmtHex g5)))
  have e4 := hexRun_fmtHex g4 h4 ('-' :: fmtHex g5)
  have e5 := hexRun_fmtHex g5 h5 []
  rw [l1] at e1; rw [l2] at e2; rw [l3] at e3; rw [l4] at e4; rw [l5] at e5
  rw [List.append_nil] at e5
  simp only [matchesUUID, bind, Option.bind, e1, e2, e3, e4, e5, lit_cons, decide_True]

/-- C6: for every 16 bytes delivered by the random source, `generateUUID` returns a string
of 36 characters that matches `^[0-9a-f]{8}-[0-9a-f]{4}-[0-9a-f]{4}-[0-9a-f]{4}-[0-9a-f]{12}$`,
whose character at index 14 is `4` and whose character at index 19 is one of `8`, `9`,
`a`, `b`. -/
theorem generateUUID_spec (stream : Nat → Nat) :
    ∃ s, generateUUID (.filled stream) = .ok s ∧ s.length = 36 ∧ matchesUUID s = true ∧
      s.get? 14 = some '4' ∧
      (s.get? 19 = some '8' ∨ s.get? 19 = some '9' ∨ s.get? 19 = some 'a' ∨ s.get? 19 = some 'b') := by
  have h6 := version_nibble (stream 6)
  have h8 := variant_nibble (stream 8)
  have h8lt : ((stream 8 % 256) &&& 0x3f ||| 0x80) / 16 < 16 := by omega
  have hlt : ∀ i, stream i % 256 / 16 < 16 := fun i => by omega
  refine ⟨_, rfl, ?_, ?_, ?_, ?_⟩
  · simp [randRead, range16, slice, fmtHex, hexByte]
  · apply matchesUUID_fmtHex <;>
      simp [randRead, range16, slice, hlt, h6, h8lt]
  · simp [randRead, range16, slice, fmtHex, hexByte, h6]
    decide
  · simp [randRead, range16, slice, fmtHex, hexByte]
    rcases h8 with h | h | h | h <;> rw [h] <;> decide

/-! ## `time.Parse` and the civil calendar -/

theorem failIf_eq_some (bad : Prop) [Decidable bad] (u : Unit) : failIf bad = some u ↔ ¬ bad := by
  unfold failIf; split <;> simp [*]

theorem digitVal_le (c : Char) (h : isDigit c = true) : digitVal c ≤ 9 := by
  simp only [isDigit, Bool.and_eq_true, decide_eq_true_eq] at h
  have h9 : '9'.toNat = 57 := by decide
  have h0 : '0'.toNat = 48 := by decide
  unfold digitVal
  omega

theorem getYear_le (v : List Char) (r : Nat × List Char) (h : getYear v = some r) :
    r.1 ≤ 9999 := by
  unfold getYear at h
  split at h
  · rename_i c0 c1 c2 c3 rest
    split at h
    · rename_i hdig
      simp only [Option.some.injEq] at h
      subst h
      have h0 := digitVal_le c0 hdig.1
      have h1 := digitVal_le c1 hdig.2.1
      have h2 := digitVal_le c2 hdig.2.2.1
      have h3 := digitVal_le c3 hdig.2.2.2
      simp only []
      omega
    · simp at h
  · simp at h

theorem scanDate_month (v : List Char) (r : (Nat × Nat × Nat) × List Char)
    (h : scanDate v = some r) : r.1.1 ≤ 9999 ∧ 1 ≤ r.1.2.1 ∧ r.1.2.1 ≤ 12 := by
  simp only [scanDate, Option.bind_eq_some, failIf_eq_some] at h
  obtain ⟨yv, hy, v2, -, mv, -, _, hmonth, v4, -, dv, -, hf⟩ := h
  have hyear := getYear_le v yv hy
  simp only [Option.some.injEq] at hf
  subst hf
  simp only []
  omega

theorem scanClock_range (v : List Char) (r : (Nat × Nat × Nat × Nat) × List Char)
    (h : scanClock v = some r) : r.1.1 < 24 ∧ r.1.2.1 < 60 ∧ r.1.2.2.1 < 60 := by
  simp only [scanClock, Option.bind_eq_some, failIf_eq_some] at h
  obtain ⟨hv, -, _, hhour, v8, -, iv, -, _, hmin, v10, -, sv, -, _, hsec, hf⟩ := h
  simp only [Option.some.injEq] at hf
  subst hf
  simp only []
  omega

theorem parseDate_valid (v : List Char) (f : Fields) (h : parseDate v = some f) : f.valid := by
  simp only [parseDate, Option.bind_eq_some, failIf_eq_some] at h
  obtain ⟨d, hd, _, -, _, hday, hf⟩ := h
  have hm := scanDate_month v d hd
  simp only [Option.some.injEq] at hf
  subst hf
  simp only [Fields.valid]
  omega

theorem parseDateTime_valid (v : List Char) (f : Fields) (h : parseDateTime v = some f) :
    f.valid := by
  simp only [parseDateTime, Option.bind_eq_some, failIf_eq_some] at h
  obtain ⟨d, hd, v2, -, c, hc, _, -, _, hday, hf⟩ := h
  have hm := scanDate_month v d hd
  have hr := scanClock_range v2 c hc
  simp only [Option.some.injEq] at hf
  subst hf
  simp only [Fields.valid]
  omega

theorem digitsValue_none_of_not_digit (pre : List Char) (c : Char) (rest : List Char)
    (hc : isDigit c = false) (acc : Nat) : digitsValue (pre ++ c :: rest) acc = none := by
  induction pre generalizing acc with
  | nil => simp [digitsValue, hc]
  | cons p pre ih =>
    simp only [List.cons_append, digitsValue]
    split
    · exact ih _
    · rfl

theorem scanDate_shape (v : List Char) (r : (Nat × Nat × Nat) × List Char)
    (h : scanDate v = some r) :
    ∃ c0 c1 c2 c3 rest, v = c0 :: c1 :: c2 :: c3 :: '-' :: rest ∧ isDigit c0 = true := by
  simp only [scanDate, Option.bind_eq_some] at h
  obtain ⟨yv, hy, v2, hv2, -⟩ := h
  unfold getYear at hy
  split at hy
  · rename_i c0 c1 c2 c3 rest
    split at hy
    · rename_i hdig
      simp only [Option.some.injEq] at hy
      subst hy
      simp only [skipLit] at hv2
      split at hv2
      · simp at hv2
      · rename_i d rest2
        split at hv2
        · rename_i hd
          subst hd
          exact ⟨c0, c1, c2, c3, rest2, rfl, hdig.1⟩
        · simp at hv2
    · simp at hy
  · simp at hy

theorem parseInt_none_of_scanDate (v : List Char) (r : (Nat × Nat × Nat) × List Char)
    (h : scanDate v = some r) : parseInt v = none := by
  obtain ⟨c0, c1, c2, c3, rest, rfl, hd⟩ := scanDate_shape v r h
  have hplus : c0 ≠ '+' := by intro h; subst h; simp [isDigit] at hd
  have hminus : c0 ≠ '-' := by intro h; subst h; simp [isDigit] at hd
  have hdash : isDigit '-' = false := by decide
  have hnone := digitsValue_none_of_not_digit [c0, c1, c2, c3] '-' rest hdash 0
  simp only [List.cons_append, List.nil_append] at hnone
  simp [parseInt, parseUint, hplus, hminus, hnone]

theorem cycle_cut (a b c e k d n400 d1 n100r n100 d2 n4 d3 n1r n1 : Int)
    (hb : 0 ≤ b ∧ b ≤ 3) (hc : 0 ≤ c ∧ c ≤ 24) (he : 0 ≤ e ∧ e ≤ 3) (hk : 0 ≤ k ∧ k ≤ 365)
    (hk365 : k = 365 → e = 3 ∧ (c = 24 → b = 3))
    (hd : d = 146097 * a + 36524 * b + 1461 * c + 365 * e + k)
    (h400 : n400 = d / 146097) (hd1 : d1 = d - 146097 * n400)
    (h100r : n100r = d1 / 36524) (h100 : n100 = n100r - n100r / 4)
    (hd2 : d2 = d1 - 36524 * n100)
    (h4 : n4 = d2 / 1461) (hd3 : d3 = d2 - 1461 * n4)
    (h1r : n1r = d3 / 365) (h1 : n1 = n1r - n1r / 4) :
    1 + 400 * n400 + 100 * n100 + 4 * n4 + n1 = 1 + 400 * a + 100 * b + 4 * c + e ∧
      d3 - 365 * n1 = k := by
  have e400 : n400 = a := by omega
  subst e400
  have ed1 : d1 = 36524 * b + 1461 * c + 365 * e + k := by omega
  have e100 : n100 = b := by omega
  subst e100
  have ed2 : d2 = 1461 * c + 365 * e + k := by omega
  have e4 : n4 = c := by omega
  subst e4
  have ed3 : d3 = 365 * e + k := by omega
  have e1 : n1 = e := by omega
  subst e1
  omega

theorem yearOfDays_spec (y : Int) (k : Nat) (hk : k < 365 ∨ (isLeap y = true ∧ k < 366)) :
    yearOfDays (daysSinceEpoch y + k) = (y, k) := by
  have hleap : (k : Int) = 365 → (y % 4 = 0 ∧ (y % 100 ≠ 0 ∨ y % 400 = 0)) := by
    intro h365
    rcases hk with h | ⟨h1, -⟩
    · omega
    · simpa [isLeap] using h1
  have hk' : (k : Int) ≤ 365 := by omega
  have hy : 1 + 400 * ((y - 1) / 400) + 100 * ((y - 1) % 400 / 100) + 4 * ((y - 1) % 100 / 4)
      + (y - 1) % 4 = y := by omega
  have hd : daysSinceEpoch y + k + 719162 = 146097 * ((y - 1) / 400)
      + 36524 * ((y - 1) % 400 / 100) + 1461 * ((y - 1) % 100 / 4) + 365 * ((y - 1) % 4) + k := by
    unfold daysSinceEpoch; omega
  have hk365 : (k : Int) = 365 → (y - 1) % 4 = 3 ∧ ((y - 1) % 100 / 4 = 24 → (y - 1) % 400 / 100 = 3) := by
    intro h; have := hleap h; omega
  have key := cycle_cut ((y - 1) / 400) ((y - 1) % 400 / 100) ((y - 1) % 100 / 4) ((y - 1) % 4) k
    _ _ _ _ _ _ _ _ _ _ (by omega) (by omega) (by omega) (by omega) hk365
    hd rfl rfl rfl rfl rfl rfl rfl rfl rfl
  obtain ⟨k1, k2⟩ := key
  unfold yearOfDays
  simp only []
  refine Prod.ext ?_ ?_
  · simp only []
    rw [k1]
    exact hy
  · simp only []
    rw [k2]
    simp

set_option maxRecDepth 100000 in
theorem monthOfYday_table : ∀ (leap : Bool) (m : Fin 13) (d : Fin 32), 1 ≤ m.val → 1 ≤ d.val →
    d.val ≤ (if m.val = 2 ∧ leap = true then 29
      else daysBefore.getD m.val 0 - daysBefore.getD (m.val - 1) 0) →
    monthOfYday leap (daysBefore.getD (m.val - 1) 0 + (if leap = true ∧ 3 ≤ m.val then 1 else 0)
      + (d.val - 1)) = (m.val, d.val) ∧
    (daysBefore.getD (m.val - 1) 0 + (if leap = true ∧ 3 ≤ m.val then 1 else 0)
      + (d.val - 1) < if leap = true then 366 else 365) := by
  decide

theorem day_lt_32 (leap : Bool) (m d : Nat) (hm : 1 ≤ m ∧ m ≤ 12)
    (hd : d ≤ (if m = 2 ∧ leap = true then 29
      else daysBefore.getD m 0 - daysBefore.getD (m - 1) 0)) : d < 32 := by
  obtain ⟨h1, h12⟩ := hm
  have : (if m = 2 ∧ leap = true then 29
      else daysBefore.getD m 0 - daysBefore.getD (m - 1) 0) ≤ 31 := by
    interval_cases m <;> cases leap <;> simp [daysBefore]
  omega

theorem civilOfDays_date (y : Int) (m d : Nat) (hm : 1 ≤ m ∧ m ≤ 12) (hd1 : 1 ≤ d)
    (hd : d ≤ daysIn m y) :
    civilOfDays (daysSinceEpoch y + (daysBefore.getD (m - 1) 0 : Nat)
      + (if isLeap y = true ∧ 3 ≤ m then 1 else 0) + ((d : Int) - 1)) = (y, m, d) := by
  unfold daysIn at hd
  have hd31 := day_lt_32 (isLeap y) m d hm hd
  obtain ⟨ht, hlt⟩ := monthOfYday_table (isLeap y) ⟨m, by omega⟩ ⟨d, hd31⟩ hm.1 hd1 hd
  simp only [] at ht hlt
  have harg : daysSinceEpoch y + (daysBefore.getD (m - 1) 0 : Nat)
      + (if isLeap y = true ∧ 3 ≤ m then 1 else 0) + ((d : Int) - 1)
      = daysSinceEpoch y + ((daysBefore.getD (m - 1) 0
        + (if isLeap y = true ∧ 3 ≤ m then 1 else 0) + (d - 1) : Nat) : Int) := by
    split <;> push_cast <;> omega
  rw [harg]
  have hy := yearOfDays_spec y (daysBefore.getD (m - 1) 0
        + (if isLeap y = true ∧ 3 ≤ m then 1 else 0) + (d - 1)) (by
    cases hl : isLeap y
    · left; simpa [hl] using hlt
    · right; exact ⟨rfl, by simpa [hl] using hlt⟩)
  simp only [civilOfDays, hy, ht]

theorem daysBefore_le (m : Nat) : daysBefore.getD m 0 ≤ 365 := by
  by_cases h : m < 13
  · interval_cases m <;> decide
  · have : daysBefore.getD m 0 = 0 := by
      rw [List.getD_eq_default]
      simp only [daysBefore, List.length_cons, List.length_nil]
      omega
    omega

theorem wallSeconds_eq (t : Time)
    (h : -9223372028715321600 ≤ t.unix + t.loc.offsetAt t.unix ∧
      t.unix + t.loc.offsetAt t.unix ≤ 9223372044994229999) :
    t.wallSeconds = t.unix + t.loc.offsetAt t.unix := by
  unfold Time.wallSeconds Time.abs unixToAbsolute
  omega

theorem dateToUnix_bounds (y : Nat) (m d h mi s : Nat) (hy : y ≤ 9999) (hd : d ≤ 31)
    (hh : h < 24) (hmi : mi < 60) (hs : s < 60) :
    -62198755200 ≤ dateToUnix y m d h mi s ∧ dateToUnix y m d h mi s ≤ 253440000000 := by
  have hb := daysBefore_le (m - 1)
  unfold dateToUnix daysSinceEpoch
  simp only []
  split <;> omega

theorem formatDefault_of_fields (f : Fields) (hv : f.valid) (loc : Location)
    (hoff : loc.offsetAt (dateToUnix f.year f.month f.day f.hour f.min f.sec) = 0) :
    (f.toTime.In loc).formatDefault
      = renderDateTime f.year f.month f.day f.hour f.min f.sec ' ' := by
  obtain ⟨hy, hm1, hm12, hd1, hd, hh, hmi, hs⟩ := hv
  have hcivil := civilOfDays_date f.year f.month f.day ⟨hm1, hm12⟩ hd1 hd
  have hd31 : f.day ≤ 31 := by
    have := day_lt_32 (isLeap f.year) f.month f.day ⟨hm1, hm12⟩ (by unfold daysIn at hd; exact hd)
    omega
  have hbound := dateToUnix_bounds f.year f.month f.day f.hour f.min f.sec hy hd31 hh hmi hs
  have hwall : (f.toTime.In loc).wallSeconds
      = (daysSinceEpoch f.year + (daysBefore.getD (f.month - 1) 0 : Nat)
        + (if isLeap f.year = true ∧ 3 ≤ f.month then 1 else 0) + ((f.day : Int) - 1)) * 86400
        + ((f.hour * 3600 + f.min * 60 + f.sec : Nat) : Int) := by
    rw [wallSeconds_eq]
    · simp only [Time.In, Fields.toTime, hoff, add_zero]
      rfl
    · simp only [Time.In, Fields.toTime, hoff, add_zero]
      omega
  have hday : (f.toTime.In loc).wallSeconds / 86400
      = daysSinceEpoch f.year + (daysBefore.getD (f.month - 1) 0 : Nat)
        + (if isLeap f.year = true ∧ 3 ≤ f.month then 1 else 0) + ((f.day : Int) - 1) := by
    rw [hwall]; omega
  have hsec : ((f.toTime.In loc).wallSeconds % 86400).toNat
      = f.hour * 3600 + f.min * 60 + f.sec := by
    rw [hwall]; omega
  have hh' : (f.hour * 3600 + f.min * 60 + f.sec) / 3600 = f.hour := by omega
  have hm' : (f.hour * 3600 + f.min * 60 + f.sec) % 3600 / 60 = f.min := by omega
  have hs' : (f.hour * 3600 + f.min * 60 + f.sec) % 60 = f.sec := by omega
  simp only [Time.formatDefault, Time.date, Time.clock, hday, hcivil, hsec, hh', hm', hs']


theorem digitsValue_digits (digits : List Char) (h : ∀ c ∈ digits, isDigit c = true) (acc : Nat) :
    digitsValue digits acc = some (digits.foldl (fun a c => a * 10 + digitVal c) acc) := by
  induction digits generalizing acc with
  | nil => rfl
  | cons c cs ih =>
    have hc := h c (List.mem_cons_self _ _)
    simp only [digitsValue, hc, if_true, List.foldl_cons]
    exact ih (fun x hx => h x (List.mem_cons_of_mem _ hx)) _

theorem parseUint_digits (digits : List Char) (hne : digits ≠ [])
    (h : ∀ c ∈ digits, isDigit c = true) (hfit : decimalValue digits ≤ 18446744073709551615) :
    parseUint digits = some (decimalValue digits) := by
  cases digits with
  | nil => exact absurd rfl hne
  | cons c cs =>
    have hv := digitsValue_digits (c :: cs) h 0
    have hnot : ¬ (18446744073709551615 < decimalValue (c :: cs)) := by omega
    simp only [parseUint, hv]
    simp only [decimalValue] at hnot ⊢
    simp only [if_neg hnot]

theorem parseInt_of_denotesInt (s : List Char) (n : Int) (h : denotesInt s n) (hfit : isInt64 n) :
    parseInt s = some n := by
  obtain ⟨digits, hne, hdig, hcase⟩ := h
  unfold isInt64 at hfit
  have hplus : isDigit '+' = false := by decide
  have hminus : isDigit '-' = false := by decide
  rcases hcase with ⟨rfl, rfl⟩ | ⟨rfl, rfl⟩ | ⟨rfl, rfl⟩
  · cases hs : s with
    | nil => exact absurd hs hne
    | cons c cs =>
      subst hs
      have hc := hdig c (List.mem_cons_self _ _)
      have h1 : c ≠ '+' := by intro h; subst h; simp [hplus] at hc
      have h2 : c ≠ '-' := by intro h; subst h; simp [hminus] at hc
      have hu := parseUint_digits (c :: cs) hne hdig (by omega)
      have hlt : ¬ (9223372036854775808 ≤ decimalValue (c :: cs)) := by omega
      simp [parseInt, h1, h2, hu, hlt]
  · have hu := parseUint_digits digits hne hdig (by omega)
    have hlt : ¬ (9223372036854775808 ≤ decimalValue digits) := by omega
    simp [parseInt, hu, hlt]
  · have hu := parseUint_digits digits hne hdig (by omega)
    have hlt : ¬ (9223372036854775808 < decimalValue digits) := by omega
    simp [parseInt, hu, hlt]

/-! ## `runTime` -/

/-- C10: for every timezone name that is not a case variant of `utc` or `local` and that
the timezone database does not know, `runTime` returns the invalid-timezone error, for
every argument list and every value of the format and timestamp flags: the timezone is
resolved before the input is looked at. -/
theorem runTime_invalid_timezone (env : TimeEnv) (fl : TimeFlags) (args : List (List Char))
    (cause : String) (hutc : toLower fl.timeTimezone ≠ "utc".toList)
    (hlocal : toLower fl.timeTimezone ≠ "local".toList)
    (hdb : env.loadLocation fl.timeTimezone = .error cause) :
    runTime env fl args = .err (.invalidTimezone cause) := by
  simp only [runTime, parseTimezone, if_neg hutc, if_neg hlocal, hdb]

theorem runTime_invalid_timezone_witness :
    toLower "Invalid/Zone".toList ≠ "utc".toList ∧ toLower "Invalid/Zone".toList ≠ "local".toList ∧
    sampleEnv.loadLocation "Invalid/Zone".toList = .error "unknown time zone" ∧
    runTime sampleEnv ⟨"Monday 3PM".toList, true, "Invalid/Zone".toList⟩ ["yesterday".toList]
      = .err (.invalidTimezone "unknown time zone") :=
  ⟨by decide, by decide, rfl,
    runTime_invalid_timezone sampleEnv ⟨"Monday 3PM".toList, true, "Invalid/Zone".toList⟩
      ["yesterday".toList] "unknown time zone" (by decide) (by decide) rfl⟩

/-- C3 (as stated, refuted): the argument `9223372036854775808` consists solely of
decimal digits, yet `runTime` does not treat it as a Unix timestamp: `strconv.ParseInt`
rejects it as out of range, the argument falls through to date-string parsing and `runTime`
fails with the time-parse error. -/
theorem runTime_long_digits_fail :
    (∀ c ∈ "9223372036854775808".toList, isDigit c = true) ∧
    denotesInt "9223372036854775808".toList 9223372036854775808 ∧
    parseInt "9223372036854775808".toList = none ∧
    runTime sampleEnv ⟨defaultLayout, false, "UTC".toList⟩ ["9223372036854775808".toList]
      = .err (.failedToParseTime "cannot parse value as layout") :=
  ⟨by decide, ⟨"9223372036854775808".toList, by decide, by decide, Or.inl ⟨rfl, by decide⟩⟩,
    by decide, by decide⟩

/-- C3 (amended): for every argument that consists solely of decimal digits, optionally
preceded by a sign, and denotes an integer `n` in the `int64` range, `runTime` treats the
argument as a Unix timestamp: it never fails with the time-parse error, and whenever the
timezone resolves it succeeds and prints the line `Unix timestamp: n`. -/
theorem runTime_timestamp (env : TimeEnv) (fl : TimeFlags) (input : List Char)
    (rest : List (List Char)) (n : Int) (hden : denotesInt input n) (hfit : isInt64 n) :
    (∀ cause, runTime env fl (input :: rest) ≠ .err (.failedToParseTime cause)) ∧
    (∀ loc, parseTimezone env fl.timeTimezone = .ok loc →
      runTime env fl (input :: rest) = .ok (printTime env fl ⟨n, 0, loc⟩) ∧
      ("Unix timestamp: ".toList ++ fmtInt n) ∈ printTime env fl ⟨n, 0, loc⟩) := by
  have hp := parseInt_of_denotesInt input n hden hfit
  constructor
  · intro cause
    cases htz : parseTimezone env fl.timeTimezone with
    | error e => simp [runTime, htz]
    | ok loc => simp [runTime, htz, resolveTime, hp]
  · intro loc htz
    constructor
    · simp [runTime, htz, resolveTime, hp, Time.In]
    · cases hts : fl.toTimestamp <;> simp [printTime, hts, Time.Unix]

theorem runTime_timestamp_witness :
    denotesInt "-1609459200".toList (-1609459200) ∧ isInt64 (-1609459200) ∧
    ((∀ cause, runTime sampleEnv ⟨defaultLayout, true, "Etc/GMT+5".toList⟩ ["-1609459200".toList]
        ≠ .err (.failedToParseTime cause)) ∧
     (∀ loc, parseTimezone sampleEnv "Etc/GMT+5".toList = .ok loc →
        runTime sampleEnv ⟨defaultLayout, true, "Etc/GMT+5".toList⟩ ["-1609459200".toList]
          = .ok (printTime sampleEnv ⟨defaultLayout, true, "Etc/GMT+5".toList⟩ ⟨-1609459200, 0, loc⟩) ∧
        ("Unix timestamp: ".toList ++ fmtInt (-1609459200)) ∈
          printTime sampleEnv ⟨defaultLayout, true, "Etc/GMT+5".toList⟩ ⟨-1609459200, 0, loc⟩)) :=
  have hden : denotesInt "-1609459200".toList (-1609459200) :=
    ⟨"1609459200".toList, by decide, by decide, Or.inr (Or.inr ⟨by decide, by decide⟩)⟩
  ⟨hden, by decide,
    runTime_timestamp sampleEnv ⟨defaultLayout, true, "Etc/GMT+5".toList⟩ "-1609459200".toList []
      (-1609459200) hden (by decide)⟩

/-- C2 (as stated, refuted): in the zone `Etc/GMT+5`, five hours behind UTC, the argument
`2021-01-01 12:30:45` resolves to the instant 1609504245, at which UTC (not the zone)
shows 12:30:45; formatted with the default layout in the zone it reads
`2021-01-01 07:30:45`, which is not the parsed date and time. -/
theorem runTime_date_string_shifted :
    parseDateTime "2021-01-01 12:30:45".toList = some ⟨2021, 1, 1, 12, 30, 45, 0⟩ ∧
    renderDateTime 2021 1 1 12 30 45 ' ' = "2021-01-01 12:30:45".toList ∧
    runTime sampleEnv ⟨defaultLayout, false, "Etc/GMT+5".toList⟩ ["2021-01-01 12:30:45".toList]
      = .ok ["Formatted time (Etc/GMT+5): 2021-01-01 07:30:45".toList,
             "Unix timestamp: 1609504245".toList,
             "ISO 8601: 2021-01-01T07:30:45-05:00".toList,
             "Weekday: Friday".toList] ∧
    runTime sampleEnv ⟨defaultLayout, false, "UTC".toList⟩ ["1609504245".toList]
      = .ok ["Formatted time (UTC): 2021-01-01 12:30:45".toList,
             "Unix timestamp: 1609504245".toList,
             "ISO 8601: 2021-01-01T12:30:45Z".toList,
             "Weekday: Friday".toList] :=
  ⟨by decide, by decide, by decide, by decide⟩

/-- C2 (amended): for every resolvable timezone and every argument that parses as
`YYYY-MM-DD HH:MM:SS` or as `YYYY-MM-DD`, `runTime` resolves the instant at which UTC shows
the parsed date and time (midnight for a date alone) and displays that instant in the
resolved timezone: formatted with the default layout in UTC it gives back the parsed date
and time, and so it does in the resolved timezone whenever that zone's offset from UTC at
the instant is zero. -/
theorem runTime_date_string (env : TimeEnv) (fl : TimeFlags) (input : List Char)
    (rest : List (List Char)) (loc : Location) (f : Fields)
    (htz : parseTimezone env fl.timeTimezone = .ok loc)
    (hparse : parseDateTime input = some f ∨ (parseDateTime input = none ∧ parseDate input = some f)) :
    runTime env fl (input :: rest) = .ok (printTime env fl (f.toTime.In loc)) ∧
    (f.toTime.In loc).Unix = dateToUnix f.year f.month f.day f.hour f.min f.sec ∧
    (f.toTime.In utcLoc).formatDefault = renderDateTime f.year f.month f.day f.hour f.min f.sec ' ' ∧
    (loc.offsetAt (f.toTime.In loc).Unix = 0 →
      (f.toTime.In loc).formatDefault
        = renderDateTime f.year f.month f.day f.hour f.min f.sec ' ') := by
  have hvalid : f.valid := by
    rcases hparse with h | ⟨-, h⟩
    · exact parseDateTime_valid input f h
    · exact parseDate_valid input f h
  have hint : parseInt input = none := by
    rcases hparse with h | ⟨-, h⟩
    · simp only [parseDateTime, Option.bind_eq_some] at h
      obtain ⟨d, hd, -⟩ := h
      exact parseInt_none_of_scanDate input d hd
    · simp only [parseDate, Option.bind_eq_some] at h
      obtain ⟨d, hd, -⟩ := h
      exact parseInt_none_of_scanDate input d hd
  refine ⟨?_, rfl, formatDefault_of_fields f hvalid utcLoc rfl, fun h0 => formatDefault_of_fields f hvalid loc h0⟩
  rcases hparse with h | ⟨h1, h2⟩
  · simp [runTime, htz, resolveTime, hint, h]
  · simp [runTime, htz, resolveTime, hint, h1, h2]

theorem runTime_date_string_witness :
    parseTimezone sampleEnv "utc".toList = .ok utcLoc ∧
    parseDate "2021-01-01".toList = some ⟨2021, 1, 1, 0, 0, 0, 0⟩ ∧
    (Fields.toTime ⟨2021, 1, 1, 0, 0, 0, 0⟩).Unix = 1609459200 ∧
    (runTime sampleEnv ⟨defaultLayout, true, "utc".toList⟩ ["2021-01-01".toList]
        = .ok (printTime sampleEnv ⟨defaultLayout, true, "utc".toList⟩
            ((Fields.toTime ⟨2021, 1, 1, 0, 0, 0, 0⟩).In utcLoc)) ∧
      ((Fields.toTime ⟨2021, 1, 1, 0, 0, 0, 0⟩).In utcLoc).Unix = dateToUnix 2021 1 1 0 0 0 ∧
      ((Fields.toTime ⟨2021, 1, 1, 0, 0, 0, 0⟩).In utcLoc).formatDefault
        = renderDateTime 2021 1 1 0 0 0 ' ' ∧
      (utcLoc.offsetAt ((Fields.toTime ⟨2021, 1, 1, 0, 0, 0, 0⟩).In utcLoc).Unix = 0 →
        ((Fields.toTime ⟨2021, 1, 1, 0, 0, 0, 0⟩).In utcLoc).formatDefault
          = renderDateTime 2021 1 1 0 0 0 ' ')) :=
  ⟨rfl, by decide, by decide,
    runTime_date_string sampleEnv ⟨defaultLayout, true, "utc".toList⟩ "2021-01-01".toList []
      utcLoc ⟨2021, 1, 1, 0, 0, 0, 0⟩ rfl (Or.inr ⟨by decide, by decide⟩)⟩


/-! ## `encode`: base64 -/

theorem decodeMap_b64Char : ∀ v : Fin 64, decodeMap (b64Char v.val) = some v.val := by decide

theorem decodeMap_b64Char_lt (v : Nat) (h : v < 64) : decodeMap (b64Char v) = some v :=
  decodeMap_b64Char ⟨v, h⟩

theorem decodeMap_padChar : decodeMap padChar = none := by decide

theorem padChar_not_newline : ¬ (padChar.val = 10 ∨ padChar.val = 13) := by decide

theorem byteOf_val (b : Byte) : byteOf b.val = b := by
  apply Fin.ext
  simp only [byteOf]
  exact Nat.mod_eq_of_lt b.isLt

theorem byteOf_eq (n : Nat) (b : Byte) (h : n % 256 = b.val) : byteOf n = b := by
  apply Fin.ext
  simpa [byteOf] using h

theorem quantum3 (a b c : Byte) :
    quantumBytes [(a.val * 65536 + b.val * 256 + c.val) / 262144 % 64,
      (a.val * 65536 + b.val * 256 + c.val) / 4096 % 64,
      (a.val * 65536 + b.val * 256 + c.val) / 64 % 64,
      (a.val * 65536 + b.val * 256 + c.val) % 64] = [a, b, c] := by
  have ha := a.isLt
  have hb := b.isLt
  have hc := c.isLt
  simp only [quantumBytes, List.getD_cons_zero, List.getD_cons_succ, List.length_cons,
    List.length_nil, List.take, Nat.reduceAdd, Nat.reduceSub]
  rw [byteOf_eq _ a (by omega), byteOf_eq _ b (by omega), byteOf_eq _ c (by omega)]

theorem quantum2 (a b : Byte) :
    quantumBytes [(a.val * 65536 + b.val * 256) / 262144 % 64,
      (a.val * 65536 + b.val * 256) / 4096 % 64,
      (a.val * 65536 + b.val * 256) / 64 % 64] = [a, b] := by
  have ha := a.isLt
  have hb := b.isLt
  simp only [quantumBytes, List.getD_cons_zero, List.getD_cons_succ, List.length_cons,
    List.length_nil, List.take, Nat.reduceAdd, Nat.reduceSub, List.getD_nil]
  rw [byteOf_eq _ a (by omega), byteOf_eq _ b (by omega)]

theorem quantum1 (a : Byte) :
    quantumBytes [(a.val * 65536) / 262144 % 64, (a.val * 65536) / 4096 % 64] = [a] := by
  have ha := a.isLt
  simp only [quantumBytes, List.getD_cons_zero, List.getD_cons_succ, List.length_cons,
    List.length_nil, List.take, Nat.reduceAdd, Nat.reduceSub, List.getD_nil]
  rw [byteOf_eq _ a (by omega)]

theorem decodeLoop_value (v : Nat) (hv : v < 64) (rest : List Byte) (acc : List Nat)
    (hacc : acc.length < 3) :
    base64DecodeLoop (b64Char v :: rest) acc = base64DecodeLoop rest (acc ++ [v]) := by
  have hne : acc.length ≠ 3 := by omega
  rw [base64DecodeLoop]
  simp only [decodeMap_b64Char_lt v hv, if_neg hne]

theorem decodeLoop_last (v : Nat) (hv : v < 64) (rest : List Byte) (acc : List Nat)
    (hacc : acc.length = 3) (out : List Byte) (hrest : base64DecodeLoop rest [] = .ok out) :
    base64DecodeLoop (b64Char v :: rest) acc = .ok (quantumBytes (acc ++ [v]) ++ out) := by
  rw [base64DecodeLoop]
  simp only [decodeMap_b64Char_lt v hv, if_pos hacc, hrest]

theorem base64_roundtrip_aux (n : Nat) : ∀ s : List Byte, s.length ≤ n →
    base64DecodeLoop (base64Encode s) [] = .ok s := by
  induction n using Nat.strong_induction_on with
  | _ n ih =>
    intro s hlen
    match s, hlen with
    | [], _ => simp [base64Encode, base64DecodeLoop]
    | [a], _ =>
      have ha := a.isLt
      simp only [base64Encode]
      rw [decodeLoop_value _ (by omega) _ _ (by simp), decodeLoop_value _ (by omega) _ _ (by simp)]
      rw [base64DecodeLoop]
      simp only [decodeMap_padChar, if_neg padChar_not_newline]
      simp [skipNewlines, padChar_not_newline, quantum1]
    | [a, b], _ =>
      have ha := a.isLt
      have hb := b.isLt
      simp only [base64Encode]
      rw [decodeLoop_value _ (by omega) _ _ (by simp), decodeLoop_value _ (by omega) _ _ (by simp),
        decodeLoop_value _ (by omega) _ _ (by simp)]
      rw [base64DecodeLoop]
      simp only [decodeMap_padChar, if_neg padChar_not_newline]
      simp [skipNewlines, quantum2]
    | a :: b :: c :: rest, hlen =>
      have ha := a.isLt
      have hb := b.isLt
      have hc := c.isLt
      have hrest := ih rest.length (by simp at hlen; omega) rest (le_refl _)
      simp only [base64Encode]
      rw [decodeLoop_value _ (by omega) _ _ (by simp), decodeLoop_value _ (by omega) _ _ (by simp),
        decodeLoop_value _ (by omega) _ _ (by simp),
        decodeLoop_last _ (by omega) _ _ (by simp) rest hrest]
      simp only [List.nil_append, List.cons_append, quantum3]

/-- C4: for every string `s` (any byte sequence), `encode` with type `base64` succeeds
and prints an encoding on which `encode` with type `base64` and the decode flag succeeds
and yields exactly `s`. -/
theorem base64_round_trip (s : List Byte) :
    ∃ enc, runEncode ⟨"base64".toList, false⟩ s = .ok ⟨"Encoded".toList, "BASE64".toList, enc⟩ ∧
      runEncode ⟨"base64".toList, true⟩ enc = .ok ⟨"Decoded".toList, "BASE64".toList, s⟩ := by
  have h1 : toLower "base64".toList = "base64".toList := by decide
  have h3 : toUpper "base64".toList = "BASE64".toList := by decide
  refine ⟨base64Encode s, ?_, ?_⟩
  · simp only [runEncode, h1, h3]
    simp
  · have h := base64_roundtrip_aux s.length s (le_refl _)
    simp only [runEncode, h1, h3, base64Decode, h]
    simp

/-! ## `encode`: url -/

theorem upperhex_spec : ∀ k : Fin 16, ishex (upperhex k.val) = true ∧ unhex (upperhex k.val) = k.val ∧
    (upperhex k.val).val ≠ '%'.toNat := by
  decide

set_option maxRecDepth 10000 in
theorem plain_byte : ∀ c : Byte, shouldEscape c = false →
    c.val ≠ '%'.toNat ∧ c.val ≠ '+'.toNat ∧ c.val ≠ ' '.toNat := by
  decide

theorem queryUnescape_unfold (c : Byte) (rest : List Byte) :
    queryUnescape (c :: rest) =
      if c.val = '%'.toNat then
        match rest with
        | h1 :: h2 :: rest2 =>
          if ishex h1 ∧ ishex h2 then
            match queryUnescape rest2 with
            | .ok out => .ok (byteOf (unhex h1 * 16 + unhex h2) :: out)
            | .error e => .error e
          else .error "invalid URL escape"
        | _ => .error "invalid URL escape"
      else
        match queryUnescape rest with
        | .ok out => .ok ((if c.val = '+'.toNat then byteOf ' '.toNat else c) :: out)
        | .error e => .error e := by
  rcases rest with _ | ⟨h1, _ | ⟨h2, rest2⟩⟩ <;> rfl

theorem queryUnescape_escaped (c : Byte) (rest out : List Byte)
    (h : queryUnescape rest = .ok out) :
    queryUnescape (byteOf '%'.toNat :: upperhex (c.val / 16) :: upperhex (c.val % 16) :: rest)
      = .ok (c :: out) := by
  have hc := c.isLt
  obtain ⟨h1, u1, -⟩ := upperhex_spec ⟨c.val / 16, by omega⟩
  obtain ⟨h2, u2, -⟩ := upperhex_spec ⟨c.val % 16, by omega⟩
  simp only [] at h1 u1 h2 u2
  have hp : (byteOf '%'.toNat).val = '%'.toNat := by decide
  rw [queryUnescape_unfold]
  simp only [hp, if_true, h1, h2, and_self, h, u1, u2]
  rw [byteOf_eq _ c (by omega)]

theorem queryUnescape_cons (c : Byte) (hc : c.val ≠ '%'.toNat) (rest : List Byte) :
    queryUnescape (c :: rest) =
      match queryUnescape rest with
      | .ok out => .ok ((if c.val = '+'.toNat then byteOf ' '.toNat else c) :: out)
      | .error e => .error e := by
  rw [queryUnescape_unfold, if_neg hc]

theorem queryUnescape_cons_ok (c : Byte) (hc : c.val ≠ '%'.toNat) (rest out : List Byte)
    (h : queryUnescape rest = .ok out) :
    queryUnescape (c :: rest)
      = .ok ((if c.val = '+'.toNat then byteOf ' '.toNat else c) :: out) := by
  rw [queryUnescape_cons c hc, h]

theorem queryUnescape_plus (rest out : List Byte) (h : queryUnescape rest = .ok out) :
    queryUnescape (byteOf '+'.toNat :: rest) = .ok (byteOf ' '.toNat :: out) := by
  have hp : (byteOf '+'.toNat).val ≠ '%'.toNat := by decide
  have hq : (byteOf '+'.toNat).val = '+'.toNat := by decide
  rw [queryUnescape_cons_ok _ hp _ _ h, if_pos hq]

theorem queryUnescape_plain (c : Byte) (hc : shouldEscape c = false) (rest out : List Byte)
    (h : queryUnescape rest = .ok out) : queryUnescape (c :: rest) = .ok (c :: out) := by
  obtain ⟨h1, h2, -⟩ := plain_byte c hc
  rw [queryUnescape_cons_ok _ h1 _ _ h, if_neg h2]

theorem url_roundtrip (s : List Byte) : queryUnescape (queryEscape s) = .ok s := by
  induction s with
  | nil => simp [queryEscape, queryUnescape]
  | cons c rest ih =>
    rw [queryEscape]
    by_cases hsp : c.val = ' '.toNat
    · have hc : c = byteOf ' '.toNat := Fin.ext (by rw [hsp]; decide)
      rw [if_pos hsp, queryUnescape_plus _ _ ih, hc]
    · rw [if_neg hsp]
      cases hesc : shouldEscape c
      · simp only [Bool.false_eq_true, if_false]
        exact queryUnescape_plain c hesc _ _ ih
      · simp only [if_true]
        exact queryUnescape_escaped c _ _ ih

/-- C5: for every string `s` (any byte sequence, also with `+`, `%`, spaces and bytes
outside ASCII), `encode` with type `url` succeeds and prints an encoding on which `encode`
with type `url` and the decode flag succeeds and yields exactly `s`. -/
theorem url_round_trip (s : List Byte) :
    ∃ enc, runEncode ⟨"url".toList, false⟩ s = .ok ⟨"Encoded".toList, "URL".toList, enc⟩ ∧
      runEncode ⟨"url".toList, true⟩ enc = .ok ⟨"Decoded".toList, "URL".toList, s⟩ := by
  refine ⟨queryEscape s, ?_, ?_⟩
  · have h1 : toLower "url".toList = "url".toList := by decide
    have h2 : toLower "url".toList ≠ "base64".toList := by decide
    have h3 : toUpper "url".toList = "URL".toList := by decide
    simp only [runEncode, h1, h3]
    simp
  · have h1 : toLower "url".toList = "url".toList := by decide
    have h3 : toUpper "url".toList = "URL".toList := by decide
    simp only [runEncode, h1, h3, url_roundtrip s]
    simp


/-! ## `runJSON`: invalid input -/

/-- C9: for every JSON text (the argument, or the content of the file it names) that is not
valid JSON, `runJSON` returns the invalid-JSON error for every combination of the validate
and minify flags; and since the text is checked before the flags are looked at, `runJSON`
on a given text succeeds in validate mode exactly when it succeeds in non-validate mode. -/
theorem runJSON_invalid (readFile : List Byte → Except String (List Byte)) (fl : JsonFlags)
    (input data : List Byte) (hsrc : jsonSource readFile fl input = .ok data)
    (hinvalid : jsonValid data = false) :
    (∀ minify validate, ∃ cause,
      runJSON readFile ⟨minify, validate, fl.jsonFromFile⟩ input = .err (.invalidJSON cause)) ∧
    (∀ (text : List Byte) (minify1 minify2 : Bool),
      (∃ out, runJSON readFile ⟨minify1, true, false⟩ text = .ok out) ↔
        (∃ out, runJSON readFile ⟨minify2, false, false⟩ text = .ok out)) := by
  constructor
  · intro minify validate
    have hsrc2 : jsonSource readFile ⟨minify, validate, fl.jsonFromFile⟩ input = .ok data := by
      simpa [jsonSource] using hsrc
    have hparse : parseText data = none := by
      simpa [jsonValid] using hinvalid
    refine ⟨"invalid character or unexpected end of JSON input", ?_⟩
    simp [runJSON, hsrc2, unmarshal, hparse]
  · intro text minify1 minify2
    cases hu : unmarshal text with
    | error e => simp [runJSON, jsonSource, hu]
    | ok v =>
      cases minify2 <;> simp [runJSON, jsonSource, hu, marshal, marshalIndent]

theorem runJSON_invalid_witness :
    jsonSource noFiles ⟨false, false, false⟩ (ascii "\x7b\"name\":\"test\",\"value\":\x7d".toList)
      = .ok (ascii "\x7b\"name\":\"test\",\"value\":\x7d".toList) ∧
    jsonValid (ascii "\x7b\"name\":\"test\",\"value\":\x7d".toList) = false ∧
    ((∀ minify validate, ∃ cause,
        runJSON noFiles ⟨minify, validate, false⟩
          (ascii "\x7b\"name\":\"test\",\"value\":\x7d".toList) = .err (.invalidJSON cause)) ∧
      (∀ (text : List Byte) (minify1 minify2 : Bool),
        (∃ out, runJSON noFiles ⟨minify1, true, false⟩ text = .ok out) ↔
          (∃ out, runJSON noFiles ⟨minify2, false, false⟩ text = .ok out))) :=
  ⟨rfl, by decide,
    runJSON_invalid noFiles ⟨false, false, false⟩
      (ascii "\x7b\"name\":\"test\",\"value\":\x7d".toList)
      (ascii "\x7b\"name\":\"test\",\"value\":\x7d".toList) rfl (by decide)⟩

/-! ## `runTime`: Unix timestamps and dates -/

theorem cycle_split (d n400 d1 n100r n100 d2 n4 d3 n1r n1 y k : Int)
    (h400 : n400 = d / 146097) (hd1 : d1 = d - 146097 * n400)
    (h100r : n100r = d1 / 36524) (h100 : n100 = n100r - n100r / 4)
    (hd2 : d2 = d1 - 36524 * n100)
    (h4 : n4 = d2 / 1461) (hd3 : d3 = d2 - 1461 * n4)
    (h1r : n1r = d3 / 365) (h1 : n1 = n1r - n1r / 4)
    (hy : y = 1 + 400 * n400 + 100 * n100 + 4 * n4 + n1) (hk : k = d3 - 365 * n1) :
    0 ≤ k ∧ k ≤ 365 ∧
      d = 365 * (y - 1) + (y - 1) / 4 - (y - 1) / 100 + (y - 1) / 400 + k ∧
      (k = 365 → y % 4 = 0 ∧ (y % 100 ≠ 0 ∨ y % 400 = 0)) := by
  have b1 : 0 ≤ d1 ∧ d1 < 146097 := by omega
  have b100r : 0 ≤ n100r ∧ n100r ≤ 4 := by omega
  have b100 : 0 ≤ n100 ∧ n100 ≤ 3 ∧ (n100r = 4 → n100 = 3) ∧ (n100r < 4 → n100 = n100r) := by
    omega
  have b2 : 0 ≤ d2 ∧ d2 ≤ 36524 ∧ (d2 = 36524 → n100 = 3) := by omega
  have b4 : 0 ≤ n4 ∧ n4 ≤ 24 := by omega
  have b3 : 0 ≤ d3 ∧ d3 < 1461 := by omega
  have b1r : 0 ≤ n1r ∧ n1r ≤ 4 := by omega
  have bn1 : 0 ≤ n1 ∧ n1 ≤ 3 ∧ (n1r = 4 → n1 = 3) ∧ (n1r < 4 → n1 = n1r) := by omega
  have bk : 0 ≤ k ∧ k ≤ 365 ∧ (k = 365 → n1 = 3 ∧ d3 = 1460) := by omega
  have q400 : (y - 1) / 400 = n400 := by omega
  have q100 : (y - 1) / 100 = 4 * n400 + n100 := by omega
  have q4 : (y - 1) / 4 = 100 * n400 + 25 * n100 + n4 := by omega
  refine ⟨bk.1, bk.2.1, ?_, ?_⟩
  · rw [q400, q100, q4]; omega
  · intro hk365
    obtain ⟨e1, e3⟩ := bk.2.2 hk365
    have m4 : y % 4 = 0 := by omega
    refine ⟨m4, ?_⟩
    by_cases hc : n4 = 24
    · right
      have : d2 = 36524 := by omega
      have : n100 = 3 := b2.2.2 this
      omega
    · left
      omega

theorem yearOfDays_eq (days : Int) :
    ∃ y k : Int, 0 ≤ k ∧ k ≤ 365 ∧ yearOfDays days = (y, k.toNat) ∧
      days + 719162 = 365 * (y - 1) + (y - 1) / 4 - (y - 1) / 100 + (y - 1) / 400 + k ∧
      (k = 365 → y % 4 = 0 ∧ (y % 100 ≠ 0 ∨ y % 400 = 0)) := by
  obtain ⟨k0, k1, k2, k3⟩ := cycle_split (days + 719162) _ _ _ _ _ _ _ _ _ _ _ rfl rfl rfl rfl rfl
    rfl rfl rfl rfl rfl rfl
  exact ⟨_, _, k0, k1, rfl, k2, k3⟩

theorem yearOfDays_inv (days : Int) :
    days = daysSinceEpoch (yearOfDays days).1 + ((yearOfDays days).2 : Nat) ∧
      ((yearOfDays days).2 < 365 ∨
        (isLeap (yearOfDays days).1 = true ∧ (yearOfDays days).2 < 366)) := by
  obtain ⟨y, k, k0, k1, he, k2, k3⟩ := yearOfDays_eq days
  rw [he]
  simp only []
  constructor
  · unfold daysSinceEpoch
    rw [Int.toNat_of_nonneg k0]
    omega
  · by_cases h365 : k = 365
    · right
      have hl := k3 h365
      refine ⟨?_, by omega⟩
      simpa [isLeap] using hl
    · left
      omega

set_option maxRecDepth 100000 in
theorem monthOfYday_inv_table : ∀ (leap : Bool) (k : Fin 366), (k.val < 365 ∨ leap = true) →
    1 ≤ (monthOfYday leap k.val).1 ∧ (monthOfYday leap k.val).1 ≤ 12 ∧
    1 ≤ (monthOfYday leap k.val).2 ∧
    (monthOfYday leap k.val).2 ≤ (if (monthOfYday leap k.val).1 = 2 ∧ leap = true then 29
      else daysBefore.getD (monthOfYday leap k.val).1 0
        - daysBefore.getD ((monthOfYday leap k.val).1 - 1) 0) ∧
    daysBefore.getD ((monthOfYday leap k.val).1 - 1) 0
      + (if leap = true ∧ 3 ≤ (monthOfYday leap k.val).1 then 1 else 0)
      + ((monthOfYday leap k.val).2 - 1) = k.val := by
  decide

theorem civilOfDays_inv (days : Int) :
    1 ≤ (civilOfDays days).2.1 ∧ (civilOfDays days).2.1 ≤ 12 ∧ 1 ≤ (civilOfDays days).2.2 ∧
    (civilOfDays days).2.2 ≤ daysIn (civilOfDays days).2.1 (civilOfDays days).1 ∧
    daysSinceEpoch (civilOfDays days).1 + (daysBefore.getD ((civilOfDays days).2.1 - 1) 0 : Nat)
      + (if isLeap (civilOfDays days).1 = true ∧ 3 ≤ (civilOfDays days).2.1 then 1 else 0)
      + (((civilOfDays days).2.2 : Int) - 1) = days := by
  obtain ⟨h1, h2⟩ := yearOfDays_inv days
  have hk : (yearOfDays days).2 < 366 := by omega
  have ht := monthOfYday_inv_table (isLeap (yearOfDays days).1) ⟨(yearOfDays days).2, hk⟩ (by
    rcases h2 with h | ⟨h, -⟩
    · exact Or.inl h
    · exact Or.inr h)
  simp only [] at ht
  obtain ⟨t1, t2, t3, t4, t5⟩ := ht
  unfold civilOfDays daysIn
  simp only []
  refine ⟨t1, t2, t3, t4, ?_⟩
  generalize (monthOfYday (isLeap (yearOfDays days).1) (yearOfDays days).2).1 = m at *
  generalize (monthOfYday (isLeap (yearOfDays days).1) (yearOfDays days).2).2 = d at *
  generalize hyd : yearOfDays days = yd at *
  generalize isLeap yd.1 = leap at *
  split_ifs at t5 ⊢ <;> omega

theorem digitChar_spec : ∀ k : Fin 10,
    isDigit (Nat.digitChar k.val) = true ∧ digitVal (Nat.digitChar k.val) = k.val := by
  decide

theorem decimalValue_snoc (ds : List Char) (c : Char) :
    decimalValue (ds ++ [c]) = decimalValue ds * 10 + digitVal c := by
  simp [decimalValue, List.foldl_append]

theorem toDigitsCore_spec (fuel : Nat) : ∀ (n : Nat) (acc : List Char), n < fuel →
    ∃ ds, Nat.toDigitsCore 10 fuel n acc = ds ++ acc ∧ ds ≠ [] ∧
      (∀ c ∈ ds, isDigit c = true) ∧ decimalValue ds = n := by
  induction fuel with
  | zero => intro n acc h; omega
  | succ k ih =>
    intro n acc h
    obtain ⟨g1, g2⟩ := digitChar_spec ⟨n % 10, Nat.mod_lt _ (by norm_num)⟩
    simp only [] at g1 g2
    by_cases h0 : n / 10 = 0
    · refine ⟨[Nat.digitChar (n % 10)], ?_, by simp, ?_, ?_⟩
      · simp [Nat.toDigitsCore, h0]
      · intro c hc
        simp only [List.mem_singleton] at hc
        subst hc
        exact g1
      · simp only [decimalValue, List.foldl_cons, List.foldl_nil, g2]
        omega
    · obtain ⟨ds, e1, e2, e3, e4⟩ := ih (n / 10) (Nat.digitChar (n % 10) :: acc) (by omega)
      refine ⟨ds ++ [Nat.digitChar (n % 10)], ?_, by simp, ?_, ?_⟩
      · simp [Nat.toDigitsCore, h0, e1]
      · intro c hc
        rcases List.mem_append.1 hc with hc | hc
        · exact e3 c hc
        · simp only [List.mem_singleton] at hc
          subst hc
          exact g1
      · rw [decimalValue_snoc, e4, g2]
        omega

theorem toDigits_spec (n : Nat) :
    Nat.toDigits 10 n ≠ [] ∧ (∀ c ∈ Nat.toDigits 10 n, isDigit c = true) ∧
      decimalValue (Nat.toDigits 10 n) = n := by
  obtain ⟨ds, e1, e2, e3, e4⟩ := toDigitsCore_spec (n + 1) n [] (by omega)
  have e : Nat.toDigits 10 n = ds := by
    unfold Nat.toDigits; rw [e1]; simp
  rw [e]
  exact ⟨e2, e3, e4⟩

theorem denotesInt_fmtInt (n : Int) : denotesInt (fmtInt n) n := by
  cases n with
  | ofNat k =>
    obtain ⟨a, b, c⟩ := toDigits_spec k
    exact ⟨Nat.toDigits 10 k, a, b, Or.inl ⟨rfl, by rw [c]; rfl⟩⟩
  | negSucc k =>
    obtain ⟨a, b, c⟩ := toDigits_spec (k + 1)
    refine ⟨Nat.toDigits 10 (k + 1), a, b, Or.inr (Or.inr ⟨rfl, ?_⟩)⟩
    rw [c]
    rfl

theorem parseInt_fmtInt (n : Int) (h : isInt64 n) : parseInt (fmtInt n) = some n :=
  parseInt_of_denotesInt (fmtInt n) n (denotesInt_fmtInt n) h

theorem runTime_utc_lines (env : TimeEnv) (n : Int) (hfit : isInt64 n) :
    runTime env ⟨defaultLayout, false, "UTC".toList⟩ [fmtInt n]
      = .ok ["Formatted time (UTC): ".toList ++ (Time.mk n 0 utcLoc).formatDefault,
        "Unix timestamp: ".toList ++ fmtInt n,
        "ISO 8601: ".toList ++ (Time.mk n 0 utcLoc).formatRFC3339,
        "Weekday: ".toList ++ weekdayNames.getD (Time.mk n 0 utcLoc).weekday []] := by
  have hp := parseInt_fmtInt n hfit
  have hz : parseTimezone env "UTC".toList = .ok utcLoc := rfl
  have hne : layoutRFC3339 ≠ defaultLayout := by decide
  simp only [runTime, hz, resolveTime, hp, Time.In, printTime, Time.format, if_true, if_neg hne,
    Time.Unix]
  rfl

/-- C11 (amended): for every integer Unix timestamp `n` from -9223372028715321600 (the
first second of the year -292277022399, where the calendar of package `time` begins) up to
the greatest `int64`, given as the argument in decimal with the default options (timezone
`UTC`, default layout, timestamp flag off), `runTime` prints exactly four lines in this
order: `Formatted time (UTC): ` and the civil date and time of `n` in UTC in the proleptic
Gregorian calendar as `YYYY-MM-DD HH:MM:SS` (the year with four digits at least),
`Unix timestamp: n`, `ISO 8601: ` and the same date and time as `YYYY-MM-DDTHH:MM:SSZ`, and
`Weekday: ` and the English name of the weekday of that date. The civil date and time of
`n` are the fields in range that denote the instant `n`. -/
theorem runTime_unix_default (env : TimeEnv) (n : Int) (hlo : -9223372028715321600 ≤ n)
    (hhi : n ≤ 9223372036854775807) :
    ∃ (y : Int) (mo d h mi s : Nat),
      (1 ≤ mo ∧ mo ≤ 12 ∧ 1 ≤ d ∧ d ≤ daysIn mo y ∧ h < 24 ∧ mi < 60 ∧ s < 60) ∧
      dateToUnix y mo d h mi s = n ∧
      runTime env ⟨defaultLayout, false, "UTC".toList⟩ [fmtInt n]
        = .ok ["Formatted time (UTC): ".toList ++ renderDateTime y mo d h mi s ' ',
          "Unix timestamp: ".toList ++ fmtInt n,
          "ISO 8601: ".toList ++ (renderDateTime y mo d h mi s 'T' ++ ['Z']),
          "Weekday: ".toList ++ weekdayOfDays (n / 86400)] := by
  have hfit : isInt64 n := by unfold isInt64; omega
  have hwall : (Time.mk n 0 utcLoc).wallSeconds = n := by
    rw [wallSeconds_eq]
    · simp [utcLoc]
    · simp only [utcLoc, add_zero]; omega
  obtain ⟨c1, c2, c3, c4, c5⟩ := civilOfDays_inv (n / 86400)
  refine ⟨(civilOfDays (n / 86400)).1, (civilOfDays (n / 86400)).2.1,
    (civilOfDays (n / 86400)).2.2, (n % 86400).toNat / 3600, (n % 86400).toNat % 3600 / 60,
    (n % 86400).toNat % 60, ⟨c1, c2, c3, c4, by omega, by omega, by omega⟩, ?_, ?_⟩
  · unfold dateToUnix
    simp only []
    rw [c5]
    omega
  · rw [runTime_utc_lines env n hfit]
    have hwd : (Time.mk n 0 utcLoc).weekday = ((n / 86400 + 4) % 7).toNat := by
      simp only [Time.weekday, Time.abs, utcLoc, unixToAbsolute, add_zero]
      congr 1
      omega
    have hzone : formatZone (utcLoc.offsetAt n) = ['Z'] := rfl
    simp only [Time.formatDefault, Time.formatRFC3339, Time.date, Time.clock, hwall, hwd, hzone,
      weekdayOfDays]

/-- C11 (as stated, refuted): for the integer Unix timestamp -9223372036854775808 the
civil date and time in UTC in the proleptic Gregorian calendar are
`-292277022657-01-27 08:29:52`; `runTime` prints `292277026596-12-04 15:30:08` instead,
because the count of seconds that package `time` computes dates from is a `uint64` that
starts with the year -292277022399 and wraps for an earlier instant. -/
theorem runTime_unix_min_wraps :
    isInt64 (-9223372036854775808) ∧
    fmtInt (-9223372036854775808) = "-9223372036854775808".toList ∧
    dateToUnix (-292277022657) 1 27 8 29 52 = -9223372036854775808 ∧
    renderDateTime (-292277022657) 1 27 8 29 52 ' ' = "-292277022657-01-27 08:29:52".toList ∧
    runTime sampleEnv ⟨defaultLayout, false, "UTC".toList⟩ ["-9223372036854775808".toList]
      = .ok ["Formatted time (UTC): 292277026596-12-04 15:30:08".toList,
             "Unix timestamp: -9223372036854775808".toList,
             "ISO 8601: 292277026596-12-04T15:30:08Z".toList,
             "Weekday: Sunday".toList] :=
  ⟨by decide, by decide, by decide, by decide, by decide⟩

theorem runTime_unix_default_witness :
    (-9223372028715321600 : Int) ≤ 1609459200 ∧ (1609459200 : Int) ≤ 9223372036854775807 ∧
    fmtInt 1609459200 = "1609459200".toList ∧
    runTime sampleEnv ⟨defaultLayout, false, "UTC".toList⟩ ["1609459200".toList]
      = .ok ["Formatted time (UTC): 2021-01-01 00:00:00".toList,
             "Unix timestamp: 1609459200".toList,
             "ISO 8601: 2021-01-01T00:00:00Z".toList,
             "Weekday: Friday".toList] ∧
    ∃ (y : Int) (mo d h mi s : Nat),
      (1 ≤ mo ∧ mo ≤ 12 ∧ 1 ≤ d ∧ d ≤ daysIn mo y ∧ h < 24 ∧ mi < 60 ∧ s < 60) ∧
      dateToUnix y mo d h mi s = 1609459200 ∧
      runTime sampleEnv ⟨defaultLayout, false, "UTC".toList⟩ [fmtInt 1609459200]
        = .ok ["Formatted time (UTC): ".toList ++ renderDateTime y mo d h mi s ' ',
          "Unix timestamp: ".toList ++ fmtInt 1609459200,
          "ISO 8601: ".toList ++ (renderDateTime y mo d h mi s 'T' ++ ['Z']),
          "Weekday: ".toList ++ weekdayOfDays (1609459200 / 86400)] :=
  ⟨by decide, by decide, by decide, by decide,
    runTime_unix_default sampleEnv 1609459200 (by decide) (by decide)⟩

theorem scanDate_text (c0 c1 c2 c3 m1 m0 d1 d0 : Char) (rest : List Char)
    (h0 : isDigit c0 = true) (h1 : isDigit c1 = true) (h2 : isDigit c2 = true)
    (h3 : isDigit c3 = true) (h4 : isDigit m1 = true) (h5 : isDigit m0 = true)
    (h6 : isDigit d1 = true) (h7 : isDigit d0 = true)
    (hmonth : 1 ≤ digitVal m1 * 10 + digitVal m0 ∧ digitVal m1 * 10 + digitVal m0 ≤ 12) :
    scanDate (c0 :: c1 :: c2 :: c3 :: '-' :: m1 :: m0 :: '-' :: d1 :: d0 :: rest)
      = some ((digitVal c0 * 1000 + digitVal c1 * 100 + digitVal c2 * 10 + digitVal c3,
          digitVal m1 * 10 + digitVal m0, digitVal d1 * 10 + digitVal d0), rest) := by
  have hbad : ¬ (digitVal m1 * 10 + digitVal m0 = 0 ∨ 12 < digitVal m1 * 10 + digitVal m0) := by
    omega
  have hf := (failIf_eq_some _ ()).2 hbad
  simp only [scanDate, getYear, skipLit, getnum, h0, h1, h2, h3, h4, h5, h6, h7, and_self,
    if_true, Option.some_bind, hf]

/-- C12: for every date-only argument `YYYY-MM-DD` that is valid (four digits, two digits
and two digits that give a month from 1 to 12 and a day that the month has in that year),
with the timestamp flag set and the default timezone `UTC`, `runTime` prints exactly one
line, `Unix timestamp: t`, and none of the other lines, where `t` is the instant of
midnight UTC of that date: `t` is a whole number of days from the epoch and the day it
begins has the civil date of the argument. -/
theorem runTime_date_only (env : TimeEnv) (layout : List Char) (c0 c1 c2 c3 m1 m0 d1 d0 : Char)
    (hdigits : isDigit c0 = true ∧ isDigit c1 = true ∧ isDigit c2 = true ∧ isDigit c3 = true ∧
      isDigit m1 = true ∧ isDigit m0 = true ∧ isDigit d1 = true ∧ isDigit d0 = true)
    (hmonth : 1 ≤ digitVal m1 * 10 + digitVal m0 ∧ digitVal m1 * 10 + digitVal m0 ≤ 12)
    (hday : 1 ≤ digitVal d1 * 10 + digitVal d0 ∧
      digitVal d1 * 10 + digitVal d0 ≤ daysIn (digitVal m1 * 10 + digitVal m0)
        ((digitVal c0 * 1000 + digitVal c1 * 100 + digitVal c2 * 10 + digitVal c3 : Nat) : Int)) :
    ∃ t : Int,
      runTime env ⟨layout, true, "UTC".toList⟩ [[c0, c1, c2, c3, '-', m1, m0, '-', d1, d0]]
        = .ok ["Unix timestamp: ".toList ++ fmtInt t] ∧
      t % 86400 = 0 ∧
      civilOfDays (t / 86400)
        = (((digitVal c0 * 1000 + digitVal c1 * 100 + digitVal c2 * 10 + digitVal c3 : Nat) : Int),
          digitVal m1 * 10 + digitVal m0, digitVal d1 * 10 + digitVal d0) := by
  obtain ⟨h0, h1, h2, h3, h4, h5, h6, h7⟩ := hdigits
  have hscan := scanDate_text c0 c1 c2 c3 m1 m0 d1 d0 [] h0 h1 h2 h3 h4 h5 h6 h7 hmonth
  have hint := parseInt_none_of_scanDate _ _ hscan
  have hdt : parseDateTime [c0, c1, c2, c3, '-', m1, m0, '-', d1, d0] = none := by
    simp [parseDateTime, hscan, skipSpace, scanClock, getnum]
  have hbad : ¬ (digitVal d1 * 10 + digitVal d0 < 1 ∨
      daysIn (digitVal m1 * 10 + digitVal m0)
        ((digitVal c0 * 1000 + digitVal c1 * 100 + digitVal c2 * 10 + digitVal c3 : Nat) : Int)
        < digitVal d1 * 10 + digitVal d0) := by omega
  have hd : parseDate [c0, c1, c2, c3, '-', m1, m0, '-', d1, d0]
      = some ⟨digitVal c0 * 1000 + digitVal c1 * 100 + digitVal c2 * 10 + digitVal c3,
          digitVal m1 * 10 + digitVal m0, digitVal d1 * 10 + digitVal d0, 0, 0, 0, 0⟩ := by
    have hf := (failIf_eq_some _ ()).2 hbad
    have hnil := (failIf_eq_some (([] : List Char) ≠ []) ()).2 (by simp)
    simp only [parseDate, hscan, Option.some_bind, hf, hnil]
  have hz : parseTimezone env "UTC".toList = .ok utcLoc := rfl
  refine ⟨dateToUnix ((digitVal c0 * 1000 + digitVal c1 * 100 + digitVal c2 * 10 + digitVal c3 : Nat) : Int)
    (digitVal m1 * 10 + digitVal m0) (digitVal d1 * 10 + digitVal d0) 0 0 0, ?_, ?_, ?_⟩
  · simp only [runTime, hz, resolveTime, hint, hdt, hd, printTime, if_true, Time.In,
      Fields.toTime, Time.Unix]
  · unfold dateToUnix
    simp only []
    omega
  · have hc := civilOfDays_date
      ((digitVal c0 * 1000 + digitVal c1 * 100 + digitVal c2 * 10 + digitVal c3 : Nat) : Int)
      (digitVal m1 * 10 + digitVal m0) (digitVal d1 * 10 + digitVal d0) hmonth hday.1 hday.2
    rw [← hc]
    congr 1
    unfold dateToUnix
    simp only []
    omega

theorem runTime_date_only_witness :
    (isDigit '2' = true ∧ isDigit '0' = true ∧ isDigit '2' = true ∧ isDigit '1' = true ∧
      isDigit '0' = true ∧ isDigit '1' = true ∧ isDigit '0' = true ∧ isDigit '1' = true) ∧
    "2021-01-01".toList = ['2', '0', '2', '1', '-', '0', '1', '-', '0', '1'] ∧
    runTime sampleEnv ⟨defaultLayout, true, "UTC".toList⟩ ["2021-01-01".toList]
      = .ok ["Unix timestamp: 1609459200".toList] ∧
    ∃ t : Int,
      runTime sampleEnv ⟨defaultLayout, true, "UTC".toList⟩
          [['2', '0', '2', '1', '-', '0', '1', '-', '0', '1']]
        = .ok ["Unix timestamp: ".toList ++ fmtInt t] ∧
      t % 86400 = 0 ∧
      civilOfDays (t / 86400)
        = (((digitVal '2' * 1000 + digitVal '0' * 100 + digitVal '2' * 10 + digitVal '1' : Nat) : Int),
          digitVal '0' * 10 + digitVal '1', digitVal '0' * 10 + digitVal '1') :=
  ⟨by decide, by decide, by decide,
    runTime_date_only sampleEnv defaultLayout '2' '0' '2' '1' '0' '1' '0' '1' (by decide)
      (by decide) (by decide)⟩

/-! ## `runRandom`: the range check -/

/-- C13: for every pair of integers `min` and `max` (in particular every pair of 64-bit
signed integers), `runRandom` with type `number` (in any letter case) returns the
invalid-range error if and only if `max <= min`; and when `max <= min` it does so whatever
the random source holds, with nothing printed: the check comes before the draw. -/
theorem runRandom_invalid_range (env : RandomEnv) (ty : List Char) (len min max : Int)
    (hty : toLower ty = "number".toList) :
    (runRandom env ⟨ty, len, min, max⟩ = .err .maxNotGreaterThanMin ↔ max ≤ min) ∧
    (max ≤ min → ∀ env2 : RandomEnv,
      runRandom env2 ⟨ty, len, min, max⟩ = .err .maxNotGreaterThanMin) := by
  have h1 : "number".toList ≠ "string".toList := by decide
  have hrun : ∀ e : RandomEnv, runRandom e ⟨ty, len, min, max⟩ =
      if max ≤ min then .err .maxNotGreaterThanMin
      else
        match generateRandomNumber min max (e.ints 0) with
        | .panic msg => .panic msg
        | .err c => .err (.failedRandomNumber c)
        | .ok result =>
          .ok ["Random number (".toList ++ fmtInt min ++ "-".toList
            ++ fmtInt max ++ "): ".toList ++ fmtInt result] := by
    intro e
    simp only [runRandom, hty, if_neg h1, if_true]
  constructor
  · rw [hrun env]
    constructor
    · intro h
      by_contra hc
      rw [if_neg hc] at h
      cases hg : generateRandomNumber min max (env.ints 0) <;> rw [hg] at h <;> simp at h
    · intro h
      rw [if_pos h]
  · intro h env2
    rw [hrun env2, if_pos h]

theorem runRandom_invalid_range_witness :
    toLower "Number".toList = "number".toList ∧
    runRandom ⟨fun _ => .value 7, .fail "unused"⟩ ⟨"Number".toList, 16, 100, 50⟩
      = .err .maxNotGreaterThanMin ∧
    runRandom ⟨fun _ => .value 7, .fail "unused"⟩ ⟨"Number".toList, 16, 5, 5⟩
      = .err .maxNotGreaterThanMin ∧
    ((runRandom ⟨fun _ => .value 7, .fail "unused"⟩ ⟨"Number".toList, 16, 10, 20⟩
        = .err .maxNotGreaterThanMin ↔ (20 : Int) ≤ 10) ∧
     ((20 : Int) ≤ 10 → ∀ env2 : RandomEnv,
        runRandom env2 ⟨"Number".toList, 16, 10, 20⟩ = .err .maxNotGreaterThanMin)) :=
  ⟨by decide, by decide, by decide,
    runRandom_invalid_range ⟨fun _ => .value 7, .fail "unused"⟩ "Number".toList 16 10 20
      (by decide)⟩

/-! ## `runEncode`: the scheme name -/

/-- C16: for every scheme name that, lower-cased, is neither `base64` nor `url`,
`runEncode` fails with the unsupported-encoding-type error, for every input and in both
directions; and for a name that, lower-cased, is `base64` or `url`, `runEncode` in the
encode direction does not fail. -/
theorem runEncode_scheme (ty : List Char) (decode : Bool) (input : List Byte) :
    ((toLower ty ≠ "base64".toList ∧ toLower ty ≠ "url".toList) →
      runEncode ⟨ty, decode⟩ input = .err (.unsupportedEncodingType ty)) ∧
    ((toLower ty = "base64".toList ∨ toLower ty = "url".toList) →
      ∃ out, runEncode ⟨ty, false⟩ input = .ok out) := by
  constructor
  · rintro ⟨h1, h2⟩
    simp only [runEncode, if_neg h1, if_neg h2]
  · rintro (h | h)
    · exact ⟨_, by simp only [runEncode, h, if_true]; rfl⟩
    · have hne : "url".toList ≠ "base64".toList := by decide
      exact ⟨_, by simp only [runEncode, h, if_neg hne, if_true]; rfl⟩

theorem runEncode_scheme_witness :
    (toLower "rot13".toList ≠ "base64".toList ∧ toLower "rot13".toList ≠ "url".toList) ∧
    runEncode ⟨"rot13".toList, true⟩ (ascii "abc".toList)
      = .err (.unsupportedEncodingType "rot13".toList) ∧
    (toLower "BASE64".toList = "base64".toList ∨ toLower "BASE64".toList = "url".toList) ∧
    (∃ out, runEncode ⟨"BASE64".toList, false⟩ (ascii "abc".toList) = .ok out) ∧
    (toLower "Url".toList = "base64".toList ∨ toLower "Url".toList = "url".toList) ∧
    (∃ out, runEncode ⟨"Url".toList, false⟩ (ascii "abc".toList) = .ok out) :=
  ⟨by decide,
    (runEncode_scheme "rot13".toList true (ascii "abc".toList)).1 (by decide),
    by decide,
    (runEncode_scheme "BASE64".toList false (ascii "abc".toList)).2 (by decide),
    by decide,
    (runEncode_scheme "Url".toList false (ascii "abc".toList)).2 (by decide)⟩

/-! ## `parseTimezone` -/

theorem lowerRune_eq_iff (c x : Char) (hk : x ≠ 'k') (hi : x ≠ 'i')
    (h1 : x.toNat ≠ 0x212A) (h2 : x.toNat ≠ 0x0130) :
    lowerRune c = x ↔ foldAscii c = x := by
  unfold lowerRune foldAscii
  split_ifs with a b d
  · exact Iff.rfl
  · constructor
    · intro h; exact absurd h.symm hk
    · intro h; subst h; exact absurd b h1
  · constructor
    · intro h; exact absurd h.symm hi
    · intro h; subst h; exact absurd d h2
  · exact Iff.rfl

theorem toLower_eq_iff (s t : List Char)
    (ht : ∀ x ∈ t, x ≠ 'k' ∧ x ≠ 'i' ∧ x.toNat ≠ 0x212A ∧ x.toNat ≠ 0x0130) :
    toLower s = t ↔ s.map foldAscii = t := by
  induction s generalizing t with
  | nil => simp [toLower]
  | cons c s ih =>
    cases t with
    | nil => simp [toLower]
    | cons x t =>
      obtain ⟨a, b, d, e⟩ := ht x (List.mem_cons_self _ _)
      have ih2 := ih t (fun y hy => ht y (List.mem_cons_of_mem _ hy))
      simp only [toLower, List.map_cons, List.cons.injEq] at ih2 ⊢
      rw [lowerRune_eq_iff c x a b d e, ih2]

/-- C17: for every timezone name that equals `utc` ignoring letter case, `parseTimezone`
returns the UTC location without error, and for every name that equals `local` ignoring
letter case it returns the host's local location, in both cases whatever the timezone
database holds; every other name is resolved through the timezone database alone:
`parseTimezone` returns what `time.LoadLocation` returns for it, so it fails exactly when
that lookup fails. -/
theorem parseTimezone_spec (env : TimeEnv) (tz : List Char) :
    (eqIgnoreCase tz "utc".toList → parseTimezone env tz = .ok utcLoc) ∧
    (eqIgnoreCase tz "local".toList → parseTimezone env tz = .ok env.localLoc) ∧
    (¬ eqIgnoreCase tz "utc".toList → ¬ eqIgnoreCase tz "local".toList →
      parseTimezone env tz = env.loadLocation tz) := by
  have hu : toLower tz = "utc".toList ↔ eqIgnoreCase tz "utc".toList := by
    rw [toLower_eq_iff tz "utc".toList (by decide)]
    exact Iff.rfl
  have hl : toLower tz = "local".toList ↔ eqIgnoreCase tz "local".toList := by
    rw [toLower_eq_iff tz "local".toList (by decide)]
    exact Iff.rfl
  have hne : "local".toList ≠ "utc".toList := by decide
  refine ⟨fun h => ?_, fun h => ?_, fun h1 h2 => ?_⟩
  · have := hu.2 h
    simp only [parseTimezone, this, if_true]
  · have := hl.2 h
    simp only [parseTimezone, this, if_neg hne, if_true]
  · have a := fun c => h1 (hu.1 c)
    have b := fun c => h2 (hl.1 c)
    simp only [parseTimezone, if_neg a, if_neg b]

theorem parseTimezone_spec_witness :
    eqIgnoreCase "Utc".toList "utc".toList ∧ parseTimezone sampleEnv "Utc".toList = .ok utcLoc ∧
    eqIgnoreCase "LOCAL".toList "local".toList ∧
    parseTimezone sampleEnv "LOCAL".toList = .ok sampleEnv.localLoc ∧
    ¬ eqIgnoreCase "Etc/GMT+5".toList "utc".toList ∧
    ¬ eqIgnoreCase "Etc/GMT+5".toList "local".toList ∧
    parseTimezone sampleEnv "Etc/GMT+5".toList = sampleEnv.loadLocation "Etc/GMT+5".toList ∧
    ¬ eqIgnoreCase "Mars/Phobos".toList "utc".toList ∧
    ¬ eqIgnoreCase "Mars/Phobos".toList "local".toList ∧
    parseTimezone sampleEnv "Mars/Phobos".toList = sampleEnv.loadLocation "Mars/Phobos".toList :=
  ⟨by decide, (parseTimezone_spec sampleEnv "Utc".toList).1 (by decide),
    by decide, (parseTimezone_spec sampleEnv "LOCAL".toList).2.1 (by decide),
    by decide, by decide,
    (parseTimezone_spec sampleEnv "Etc/GMT+5".toList).2.2 (by decide) (by decide),
    by decide, by decide,
    (parseTimezone_spec sampleEnv "Mars/Phobos".toList).2.2 (by decide) (by decide)⟩

/-! ## `runTime`: the timestamp in every timezone -/

/-- C19: for every 64-bit signed integer `n` and every timezone name that resolves,
`runTime` given the decimal rendering of `n` as its argument, with the timestamp flag set,
prints exactly `Unix timestamp: n`: the conversion of the instant into the display
timezone does not change the Unix timestamp, so the line is the same in every timezone. -/
theorem runTime_timestamp_any_zone (env : TimeEnv) (layout tz : List Char) (loc : Location)
    (n : Int) (hfit : isInt64 n) (htz : parseTimezone env tz = .ok loc) :
    runTime env ⟨layout, true, tz⟩ [fmtInt n] = .ok ["Unix timestamp: ".toList ++ fmtInt n] := by
  have hp := parseInt_fmtInt n hfit
  simp only [runTime, htz, resolveTime, hp, printTime, if_true, Time.In, Time.Unix]

theorem runTime_timestamp_any_zone_witness :
    isInt64 (-9223372036854775808) ∧
    parseTimezone sampleEnv "Etc/GMT+5".toList = .ok ⟨fun _ => -18000⟩ ∧
    fmtInt (-9223372036854775808) = "-9223372036854775808".toList ∧
    runTime sampleEnv ⟨defaultLayout, true, "Etc/GMT+5".toList⟩ [fmtInt (-9223372036854775808)]
      = .ok ["Unix timestamp: ".toList ++ fmtInt (-9223372036854775808)] :=
  ⟨by decide, rfl, by decide,
    runTime_timestamp_any_zone sampleEnv defaultLayout "Etc/GMT+5".toList ⟨fun _ => -18000⟩
      (-9223372036854775808) (by decide) rfl⟩

/-! ## `runEncode`: URL decoding -/

theorem percent_val (c : Byte) : c.val = '%'.toNat ↔ c = byteOf '%'.toNat := by
  constructor
  · intro h; exact Fin.ext (by rw [h]; decide)
  · intro h; rw [h]; decide

theorem plus_val (c : Byte) : c.val = '+'.toNat ↔ c = byteOf '+'.toNat := by
  constructor
  · intro h; exact Fin.ext (by rw [h]; decide)
  · intro h; rw [h]; decide

theorem hasBadEscape_cons (c : Byte) (hc : c ≠ byteOf '%'.toNat) (rest : List Byte) :
    hasBadEscape (c :: rest) ↔ hasBadEscape rest := by
  constructor
  · rintro ⟨pre, post, he, hb⟩
    cases pre with
    | nil =>
      simp only [List.nil_append, List.cons.injEq] at he
      exact absurd he.1 hc
    | cons p pre =>
      simp only [List.cons_append, List.cons.injEq] at he
      exact ⟨pre, post, he.2, hb⟩
  · rintro ⟨pre, post, he, hb⟩
    exact ⟨c :: pre, post, by rw [he]; rfl, hb⟩

theorem hasBadEscape_escape (h1 h2 : Byte) (hh1 : ishex h1 = true) (hh2 : ishex h2 = true)
    (rest : List Byte) :
    hasBadEscape (byteOf '%'.toNat :: h1 :: h2 :: rest) ↔ hasBadEscape rest := by
  have np : ishex (byteOf '%'.toNat) = false := by decide
  have n1 : h1 ≠ byteOf '%'.toNat := by intro h; rw [h, np] at hh1; cases hh1
  have n2 : h2 ≠ byteOf '%'.toNat := by intro h; rw [h, np] at hh2; cases hh2
  constructor
  · rintro ⟨pre, post, he, hb⟩
    rcases pre with _ | ⟨p0, _ | ⟨p1, _ | ⟨p2, pre⟩⟩⟩
    · simp only [List.nil_append, List.cons.injEq, true_and] at he
      exact absurd ⟨h1, h2, rest, he.symm, hh1, hh2⟩ hb
    · simp only [List.cons_append, List.nil_append, List.cons.injEq] at he
      exact absurd he.2.1 n1
    · simp only [List.cons_append, List.nil_append, List.cons.injEq] at he
      exact absurd he.2.2.1 n2
    · simp only [List.cons_append, List.cons.injEq] at he
      exact ⟨pre, post, he.2.2.2, hb⟩
  · rintro ⟨pre, post, he, hb⟩
    exact ⟨byteOf '%'.toNat :: h1 :: h2 :: pre, post, by rw [he]; rfl, hb⟩

theorem hasBadEscape_head (post : List Byte)
    (hb : ¬ ∃ h1 h2 rest, post = h1 :: h2 :: rest ∧ ishex h1 = true ∧ ishex h2 = true) :
    hasBadEscape (byteOf '%'.toNat :: post) :=
  ⟨[], post, rfl, hb⟩

theorem not_hasBadEscape_nil : ¬ hasBadEscape [] := by
  rintro ⟨pre, post, he, -⟩
  cases pre <;> simp at he

theorem queryUnescape_spec (n : Nat) : ∀ s : List Byte, s.length ≤ n →
    (∀ e, queryUnescape s = .error e → hasBadEscape s) ∧
    (∀ out, queryUnescape s = .ok out → ¬ hasBadEscape s ∧
      ∃ pieces : List UrlPiece, (∀ p ∈ pieces, p.wellFormed) ∧
        s = pieces.flatMap UrlPiece.text ∧ out = pieces.map UrlPiece.value) := by
  induction n with
  | zero =>
    intro s hs
    have : s = [] := List.length_eq_zero.1 (by omega)
    subst this
    refine ⟨fun e h => ?_, fun out h => ?_⟩
    · simp [queryUnescape] at h
    · simp only [queryUnescape, Except.ok.injEq] at h
      subst h
      exact ⟨not_hasBadEscape_nil, [], by simp, rfl, rfl⟩
  | succ n ih =>
    intro s hs
    cases s with
    | nil =>
      refine ⟨fun e h => ?_, fun out h => ?_⟩
      · simp [queryUnescape] at h
      · simp only [queryUnescape, Except.ok.injEq] at h
        subst h
        exact ⟨not_hasBadEscape_nil, [], by simp, rfl, rfl⟩
    | cons c rest =>
      simp only [List.length_cons] at hs
      rw [queryUnescape_unfold]
      by_cases hc : c.val = '%'.toNat
      · have hceq := (percent_val c).1 hc
        subst hceq
        rw [if_pos hc]
        rcases rest with _ | ⟨h1, _ | ⟨h2, rest2⟩⟩
        · refine ⟨fun e _ => hasBadEscape_head _ (by simp), fun out h => by simp at h⟩
        · refine ⟨fun e _ => hasBadEscape_head _ (by simp), fun out h => by simp at h⟩
        · simp only []
          by_cases hh : ishex h1 = true ∧ ishex h2 = true
          · rw [if_pos hh]
            simp only [List.length_cons] at hs
            obtain ⟨ia, ib⟩ := ih rest2 (by omega)
            have hiff := hasBadEscape_escape h1 h2 hh.1 hh.2 rest2
            cases hq : queryUnescape rest2 with
            | error e0 =>
              refine ⟨fun e _ => hiff.2 (ia e0 hq), fun out h => by simp at h⟩
            | ok out0 =>
              obtain ⟨nb, pieces, pw, pt, pv⟩ := ib out0 hq
              refine ⟨fun e h => by simp at h, fun out h => ?_⟩
              simp only [Except.ok.injEq] at h
              subst h
              refine ⟨fun hb => nb (hiff.1 hb), .escape h1 h2 :: pieces, ?_, ?_, ?_⟩
              · intro p hp
                rcases List.mem_cons.1 hp with rfl | hp
                · exact hh
                · exact pw p hp
              · rw [List.flatMap_cons, ← pt]; rfl
              · rw [List.map_cons, ← pv]; rfl
          · rw [if_neg hh]
            refine ⟨fun e _ => hasBadEscape_head _ ?_, fun out h => by simp at h⟩
            rintro ⟨a, b, r, he, ha, hb⟩
            simp only [List.cons.injEq] at he
            obtain ⟨rfl, rfl, -⟩ := he
            exact hh ⟨ha, hb⟩
      · have hcne : c ≠ byteOf '%'.toNat := fun h => hc ((percent_val c).2 h)
        rw [if_neg hc]
        obtain ⟨ia, ib⟩ := ih rest (by omega)
        have hiff := hasBadEscape_cons c hcne rest
        cases hq : queryUnescape rest with
        | error e0 =>
          refine ⟨fun e _ => hiff.2 (ia e0 hq), fun out h => by simp at h⟩
        | ok out0 =>
          obtain ⟨nb, pieces, pw, pt, pv⟩ := ib out0 hq
          refine ⟨fun e h => by simp at h, fun out h => ?_⟩
          simp only [Except.ok.injEq] at h
          subst h
          refine ⟨fun hb => nb (hiff.1 hb), .plain c :: pieces, ?_, ?_, ?_⟩
          · intro p hp
            rcases List.mem_cons.1 hp with rfl | hp
            · exact hcne
            · exact pw p hp
          · rw [List.flatMap_cons, ← pt]; rfl
          · rw [List.map_cons, ← pv]
            congr 1
            simp only [UrlPiece.value]
            by_cases hplus : c.val = '+'.toNat
            · rw [if_pos hplus, if_pos ((plus_val c).1 hplus)]
            · rw [if_neg hplus, if_neg (fun h => hplus ((plus_val c).2 h))]

/-- C18: for every input, `runEncode` with type `url` (in any letter case) and the decode
flag fails with the URL-decode error if and only if the input contains a `%` that is not
immediately followed by two hexadecimal digits, and it succeeds otherwise; when it
succeeds, the input is a sequence of pieces, each a single character other than `%` or a
`%XX` with two hexadecimal digits, and the result is the sequence of what the pieces stand
for: a space for `+`, the byte with hex value `XX` for `%XX`, any other character for
itself. -/
theorem runEncode_url_decode (ty : List Char) (input : List Byte)
    (hty : toLower ty = "url".toList) :
    ((∃ cause, runEncode ⟨ty, true⟩ input = .err (.failedToDecodeURL cause)) ↔
      hasBadEscape input) ∧
    (¬ hasBadEscape input → ∃ out, runEncode ⟨ty, true⟩ input = .ok out) ∧
    (∀ out, runEncode ⟨ty, true⟩ input = .ok out →
      ∃ pieces : List UrlPiece, (∀ p ∈ pieces, p.wellFormed) ∧
        input = pieces.flatMap UrlPiece.text ∧ out.result = pieces.map UrlPiece.value) := by
  have hne : "url".toList ≠ "base64".toList := by decide
  obtain ⟨sa, sb⟩ := queryUnescape_spec input.length input (le_refl _)
  have hrun : runEncode ⟨ty, true⟩ input =
      match queryUnescape input with
      | .error e => .err (.failedToDecodeURL e)
      | .ok r => .ok ⟨"Decoded".toList, toUpper ty, r⟩ := by
    simp only [runEncode, hty, if_neg hne, if_true]
    cases queryUnescape input <;> rfl
  rw [hrun]
  cases hq : queryUnescape input with
  | error e =>
    refine ⟨⟨fun _ => sa e hq, fun _ => ⟨e, rfl⟩⟩, fun hb => absurd (sa e hq) hb, ?_⟩
    intro out h
    simp at h
  | ok r =>
    obtain ⟨nb, pieces, pw, pt, pv⟩ := sb r hq
    refine ⟨⟨fun h => ?_, fun h => absurd h nb⟩, fun _ => ⟨_, rfl⟩, ?_⟩
    · obtain ⟨cause, h⟩ := h
      simp at h
    · intro out h
      simp only [Res.ok.injEq] at h
      subst h
      exact ⟨pieces, pw, pt, pv⟩

theorem runEncode_url_decode_witness :
    toLower "URL".toList = "url".toList ∧
    runEncode ⟨"URL".toList, true⟩ (ascii "a+b%2Fc".toList)
      = .ok ⟨"Decoded".toList, "URL".toList, ascii "a b/c".toList⟩ ∧
    runEncode ⟨"URL".toList, true⟩ (ascii "100%".toList)
      = .err (.failedToDecodeURL "invalid URL escape") ∧
    (((∃ cause, runEncode ⟨"URL".toList, true⟩ (ascii "a+b%2Fc".toList)
        = .err (.failedToDecodeURL cause)) ↔ hasBadEscape (ascii "a+b%2Fc".toList)) ∧
     (¬ hasBadEscape (ascii "a+b%2Fc".toList) →
        ∃ out, runEncode ⟨"URL".toList, true⟩ (ascii "a+b%2Fc".toList) = .ok out) ∧
     (∀ out, runEncode ⟨"URL".toList, true⟩ (ascii "a+b%2Fc".toList) = .ok out →
        ∃ pieces : List UrlPiece, (∀ p ∈ pieces, p.wellFormed) ∧
          ascii "a+b%2Fc".toList = pieces.flatMap UrlPiece.text ∧
          out.result = pieces.map UrlPiece.value)) :=
  ⟨by decide, by decide, by decide,
    runEncode_url_decode "URL".toList (ascii "a+b%2Fc".toList) (by decide)⟩

/-! ## `runHash` -/

theorem hexOfBytes_length (bs : List Byte) : (hexOfBytes bs).length = 2 * bs.length := by
  unfold hexOfBytes fmtHex
  induction bs with
  | nil => rfl
  | cons b bs ih =>
    simp only [List.map_cons, List.flatMap_cons, List.length_append, ih, hexByte,
      List.length_cons, List.length_nil]
    omega

theorem hexOfBytes_lower (bs : List Byte) : ∀ c ∈ hexOfBytes bs, isLowerHex c = true := by
  intro c hc
  simp only [hexOfBytes, fmtHex, List.mem_flatMap, List.mem_map] at hc
  obtain ⟨n, ⟨b, -, rfl⟩, hc⟩ := hc
  have hb := b.isLt
  simp only [hexByte, List.mem_cons, List.mem_singleton, List.not_mem_nil, or_false] at hc
  rcases hc with rfl | rfl
  · exact isLowerHex_digit _ (by omega)
  · exact isLowerHex_digit _ (by omega)

theorem le32_length (x : Nat) : (le32 x).length = 4 := rfl

theorem be32_length (x : Nat) : (be32 x).length = 4 := rfl

theorem md5Sum_length (data : List Byte) : (md5Sum data).length = 16 := by
  simp [md5Sum, le32_length]

theorem sha1Sum_length (data : List Byte) : (sha1Sum data).length = 20 := by
  simp [sha1Sum, be32_length]

theorem sha256Sum_length (data : List Byte) : (sha256Sum data).length = 32 := by
  simp [sha256Sum, be32_length]

set_option maxRecDepth 1000000 in
/-- The models of `md5.Sum`, `sha1.Sum` and `sha256.Sum256` give the known checksums of
test messages of the standards (RFC 1321 for MD5, FIPS 180-4 for SHA-1 and SHA-256): the
empty message, `abc`, and a message that takes two blocks. -/
theorem hash_standard_vectors :
    hexOfBytes (md5Sum (ascii "".toList))
      = "d41d8cd98f00b204e9800998ecf8427e".toList ∧
    hexOfBytes (md5Sum (ascii "abc".toList))
      = "900150983cd24fb0d6963f7d28e17f72".toList ∧
    hexOfBytes (md5Sum (ascii "12345678901234567890123456789012345678901234567890123456789012345678901234567890".toList))
      = "57edf4a22be3c955ac49da2e2107b67a".toList ∧
    hexOfBytes (sha1Sum (ascii "".toList))
      = "da39a3ee5e6b4b0d3255bfef95601890afd80709".toList ∧
    hexOfBytes (sha1Sum (ascii "abc".toList))
      = "a9993e364706816aba3e25717850c26c9cd0d89d".toList ∧
    hexOfBytes (sha1Sum (ascii "abcdbcdecdefdefgefghfghighijhijkijkljklmklmnlmnomnopnopq".toList))
      = "84983e441c3bd26ebaae4aa1f95129e5e54670f1".toList ∧
    hexOfBytes (sha256Sum (ascii "".toList))
      = "e3b0c44298fc1c149afbf4c8996fb92427ae41e4649b934ca495991b7852b855".toList ∧
    hexOfBytes (sha256Sum (ascii "abc".toList))
      = "ba7816bf8f01cfea414140de5dae2223b00361a396177a9cb410ff61f20015ad".toList ∧
    hexOfBytes (sha256Sum (ascii "abcdbcdecdefdefgefghfghighijhijkijkljklmklmnlmnomnopnopq".toList))
      = "248d6a61d20638b8e5c026930c3e6039a33ce45964ff2167f6ecedd419db06c1".toList := by
  refine ⟨?_, ?_, ?_, ?_, ?_, ?_, ?_, ?_, ?_⟩ <;> decide

/-- C15: for every input and each of the algorithms `md5`, `sha1`, `sha256` (the type given
in any letter case), `runHash` in string mode prints `<UPPERCASED TYPE>: <hex>`, where
`<hex>` is the algorithm's checksum of the bytes of the input, of 16, 20 and 32 bytes
respectively, with two lowercase hexadecimal characters for each byte (so 32, 40 and 64
characters); what is printed is a function of the type and the input alone. -/
theorem runHash_string (readFile : List Byte → Except String (List Byte)) (ty : List Char)
    (input : List Byte) (name : List Char) (sum : List Byte → List Byte) (size : Nat)
    (halg : (name, sum, size) ∈ hashAlgorithms) (hty : toLower ty = name) :
    runHash readFile ⟨ty, false⟩ input = .ok ⟨toUpper ty, none, hexOfBytes (sum input)⟩ ∧
    (sum input).length = size ∧
    hexOfBytes (sum input)
      = (sum input).flatMap (fun b => [hexDigit (b.val / 16), hexDigit (b.val % 16)]) ∧
    (hexOfBytes (sum input)).length = 2 * size ∧
    (∀ c ∈ hexOfBytes (sum input), isLowerHex c = true) := by
  have hflat : hexOfBytes (sum input)
      = (sum input).flatMap (fun b => [hexDigit (b.val / 16), hexDigit (b.val % 16)]) := by
    simp only [hexOfBytes, fmtHex, List.flatMap_map, hexByte]
  have h21 : "sha1".toList ≠ "md5".toList := by decide
  have h31 : "sha256".toList ≠ "md5".toList := by decide
  have h32 : "sha256".toList ≠ "sha1".toList := by decide
  simp only [hashAlgorithms, List.mem_cons, Prod.mk.injEq, List.mem_singleton, List.not_mem_nil,
    or_false] at halg
  rcases halg with ⟨rfl, rfl, rfl⟩ | ⟨rfl, rfl, rfl⟩ | ⟨rfl, rfl, rfl⟩
  · refine ⟨?_, md5Sum_length input, hflat, ?_, hexOfBytes_lower _⟩
    · simp only [runHash, hashSource, hashHex, hty, if_true]
      rfl
    · rw [hexOfBytes_length, md5Sum_length]
  · refine ⟨?_, sha1Sum_length input, hflat, ?_, hexOfBytes_lower _⟩
    · simp only [runHash, hashSource, hashHex, hty, if_neg h21, if_true]
      rfl
    · rw [hexOfBytes_length, sha1Sum_length]
  · refine ⟨?_, sha256Sum_length input, hflat, ?_, hexOfBytes_lower _⟩
    · simp only [runHash, hashSource, hashHex, hty, if_neg h31, if_neg h32, if_true]
      rfl
    · rw [hexOfBytes_length, sha256Sum_length]

set_option maxRecDepth 1000000 in
theorem runHash_string_witness :
    ("sha256".toList, sha256Sum, 32) ∈ hashAlgorithms ∧
    toLower "sha256".toList = "sha256".toList ∧
    runHash noFiles ⟨"md5".toList, false⟩ (ascii "hello".toList)
      = .ok ⟨"MD5".toList, none, "5d41402abc4b2a76b9719d911017c592".toList⟩ ∧
    runHash noFiles ⟨"sha1".toList, false⟩ (ascii "hello".toList)
      = .ok ⟨"SHA1".toList, none, "aaf4c61ddcc5e8a2dabede0f3b482cd9aea9434d".toList⟩ ∧
    runHash noFiles ⟨"sha256".toList, false⟩ (ascii "hello".toList)
      = .ok ⟨"SHA256".toList, none,
          "2cf24dba5fb0a30e26e83b2ac5b9e29e1b161e5c1fa7425e73043362938b9824".toList⟩ ∧
    runHash noFiles ⟨"Sha256".toList, false⟩ (ascii "hello world\n".toList)
      = .ok ⟨"SHA256".toList, none,
          "a948904f2f0f479b8f8197694b30184b0d2ed1c1cd2a1ec0fb85d299a192a447".toList⟩ ∧
    (runHash noFiles ⟨"sha256".toList, false⟩ (ascii "hello".toList)
        = .ok ⟨toUpper "sha256".toList, none, hexOfBytes (sha256Sum (ascii "hello".toList))⟩ ∧
      (sha256Sum (ascii "hello".toList)).length = 32 ∧
      hexOfBytes (sha256Sum (ascii "hello".toList))
        = (sha256Sum (ascii "hello".toList)).flatMap
            (fun b => [hexDigit (b.val / 16), hexDigit (b.val % 16)]) ∧
      (hexOfBytes (sha256Sum (ascii "hello".toList))).length = 2 * 32 ∧
      (∀ c ∈ hexOfBytes (sha256Sum (ascii "hello".toList)), isLowerHex c = true)) :=
  ⟨by simp [hashAlgorithms], by decide, by decide, by decide, by decide, by decide,
    runHash_string noFiles "sha256".toList (ascii "hello".toList) "sha256".toList sha256Sum 32
      (by simp [hashAlgorithms]) (by decide)⟩

/-! ## Output and error exclude each other -/

theorem exclusive_err {line : Type} (e : CmdError) :
    (Ended.mk ([] : List line) (.err e)).exclusive :=
  ⟨fun _ _ => rfl, fun h => absurd rfl h⟩

theorem exclusive_panic {line : Type} (msg : String) :
    (Ended.mk ([] : List line) (.panic msg)).exclusive :=
  ⟨fun _ _ => rfl, fun h => absurd rfl h⟩

theorem exclusive_ok {line : Type} (out : List line) : (Ended.mk out (.ok ())).exclusive :=
  ⟨fun e h => (by cases h), fun _ => rfl⟩

theorem runEncodeTrace_exclusive (fl : EncodeFlags) (input : List Byte) :
    (runEncodeTrace fl input).exclusive := by
  unfold runEncodeTrace
  simp only []
  repeat' (first | exact exclusive_ok _ | exact exclusive_err _ | exact exclusive_panic _ | split)

theorem runHashTrace_exclusive (readFile : List Byte → Except String (List Byte))
    (fl : HashFlags) (input : List Byte) : (runHashTrace readFile fl input).exclusive := by
  unfold runHashTrace
  simp only []
  repeat' (first | exact exclusive_ok _ | exact exclusive_err _ | exact exclusive_panic _ | split)

theorem runJSONTrace_exclusive (readFile : List Byte → Except String (List Byte))
    (fl : JsonFlags) (input : List Byte) : (runJSONTrace readFile fl input).exclusive := by
  unfold runJSONTrace
  simp only []
  repeat' (first | exact exclusive_ok _ | exact exclusive_err _ | exact exclusive_panic _ | split)

theorem runRandomTrace_exclusive (env : RandomEnv) (fl : RandomFlags) :
    (runRandomTrace env fl).exclusive := by
  unfold runRandomTrace
  simp only []
  repeat' (first | exact exclusive_ok _ | exact exclusive_err _ | exact exclusive_panic _ | split)

theorem runTimeTrace_exclusive (env : TimeEnv) (fl : TimeFlags) (args : List (List Char)) :
    (runTimeTrace env fl args).exclusive := by
  unfold runTimeTrace
  simp only []
  repeat' (first | exact exclusive_ok _ | exact exclusive_err _ | exact exclusive_panic _ | split)

theorem runEncodeTrace_outcome (fl : EncodeFlags) (input : List Byte) :
    (runEncodeTrace fl input).outcome =
      match runEncode fl input with
      | .ok o => .ok [o]
      | .err e => .err e
      | .panic msg => .panic msg := by
  unfold runEncodeTrace runEncode Ended.outcome
  simp only []
  by_cases h1 : toLower fl.encodeType = "base64".toList
  · simp only [h1, if_true]
    cases fl.shouldDecode
    · rfl
    · simp only [if_true]
      cases base64Decode input <;> rfl
  · simp only [if_neg h1]
    by_cases h2 : toLower fl.encodeType = "url".toList
    · simp only [h2, if_true]
      cases fl.shouldDecode
      · rfl
      · simp only [if_true]
        cases queryUnescape input <;> rfl
    · simp only [if_neg h2]

theorem runHashTrace_outcome (readFile : List Byte → Except String (List Byte))
    (fl : HashFlags) (input : List Byte) :
    (runHashTrace readFile fl input).outcome =
      match runHash readFile fl input with
      | .ok o => .ok [o]
      | .err e => .err e
      | .panic msg => .panic msg := by
  unfold runHashTrace runHash Ended.outcome
  simp only []
  cases hashSource readFile fl input with
  | panic msg => rfl
  | err e => rfl
  | ok data =>
    simp only []
    cases hashHex fl.hashType data <;> rfl

theorem runJSONTrace_outcome (readFile : List Byte → Except String (List Byte))
    (fl : JsonFlags) (input : List Byte) :
    (runJSONTrace readFile fl input).outcome = runJSON readFile fl input := by
  unfold runJSONTrace runJSON Ended.outcome
  simp only []
  cases jsonSource readFile fl input with
  | panic msg => rfl
  | err e => rfl
  | ok data =>
    simp only []
    cases unmarshal data with
    | error e => rfl
    | ok v =>
      simp only []
      cases fl.jsonValidate <;> cases fl.jsonFromFile <;> cases fl.jsonMinify <;> rfl

theorem runRandomTrace_outcome (env : RandomEnv) (fl : RandomFlags) :
    (runRandomTrace env fl).outcome = runRandom env fl := by
  unfold runRandomTrace runRandom Ended.outcome
  simp only []
  by_cases h1 : toLower fl.randomType = "string".toList
  · simp only [h1, if_true]
    cases generateRandomString fl.randomLength env.ints <;> rfl
  · simp only [if_neg h1]
    by_cases h2 : toLower fl.randomType = "number".toList
    · simp only [h2, if_true]
      by_cases h3 : fl.randomMax ≤ fl.randomMin
      · simp only [if_pos h3]
      · simp only [if_neg h3]
        cases generateRandomNumber fl.randomMin fl.randomMax (env.ints 0) <;> rfl
    · simp only [if_neg h2]
      by_cases h3 : toLower fl.randomType = "uuid".toList
      · simp only [h3, if_true]
        cases generateUUID env.read <;> rfl
      · simp only [if_neg h3]

theorem runTimeTrace_outcome (env : TimeEnv) (fl : TimeFlags) (args : List (List Char)) :
    (runTimeTrace env fl args).outcome = runTime env fl args := by
  unfold runTimeTrace runTime Ended.outcome
  simp only []
  cases parseTimezone env fl.timeTimezone with
  | error e => rfl
  | ok loc =>
    simp only []
    cases resolveTime env loc args with
    | panic msg => rfl
    | err e => rfl
    | ok t =>
      simp only [printTime]
      cases fl.toTimestamp <;> rfl

/-- C14: for each of the five handlers `runEncode`, `runHash`, `runJSON`, `runRandom` and
`runTime`, for every input, every flag setting and whatever the handler reads from its
surroundings: if the handler returns an error then it has written nothing to standard
output, and if it has written anything to standard output then it returns no error. -/
theorem handlers_output_excludes_error (readFile : List Byte → Except String (List Byte))
    (encodeFlags : EncodeFlags) (hashFlags : HashFlags) (jsonFlags : JsonFlags)
    (input : List Byte) (randomEnv : RandomEnv) (randomFlags : RandomFlags)
    (timeEnv : TimeEnv) (timeFlags : TimeFlags) (args : List (List Char)) :
    (runEncodeTrace encodeFlags input).exclusive ∧
    (runHashTrace readFile hashFlags input).exclusive ∧
    (runJSONTrace readFile jsonFlags input).exclusive ∧
    (runRandomTrace randomEnv randomFlags).exclusive ∧
    (runTimeTrace timeEnv timeFlags args).exclusive :=
  ⟨runEncodeTrace_exclusive _ _, runHashTrace_exclusive _ _ _, runJSONTrace_exclusive _ _ _,
    runRandomTrace_exclusive _ _, runTimeTrace_exclusive _ _ _⟩


/-! ## JSON strings -/

theorem byteOf_val_of_lt (n : Nat) (h : n < 256) : (byteOf n).val = n := by
  simp only [byteOf]
  exact Nat.mod_eq_of_lt h

theorem hexLower_spec :
    ∀ k : Fin 16, isHexB (hexLower k.val) = true ∧ hexVal (hexLower k.val) = k.val := by
  decide

theorem char_valid (c : Char) :
    c.toNat < 0xD800 ∨ (0xDFFF < c.toNat ∧ c.toNat < 0x110000) := by
  have h := c.valid
  simp only [UInt32.isValidChar, Nat.isValidChar] at h
  exact h

theorem scanStringLoop_succ (k : Nat) (c : Byte) (rest : List Byte) :
    scanStringLoop (k + 1) (c :: rest)
      = (scanStringLoop k rest).map fun r => (c :: r.1, r.2) := rfl

theorem scanStringLoop_zero (c : Byte) (rest : List Byte) :
    scanStringLoop 0 (c :: rest) =
      if c.val = 34 then some ([], rest)
      else
        match stringToken (c :: rest) with
        | none => none
        | some width => (scanStringLoop (width - 1) rest).map fun r => (c :: r.1, r.2) := rfl

theorem unquoteLoop_succ (k : Nat) (c : Byte) (rest : List Byte) :
    unquoteLoop (k + 1) (c :: rest) = unquoteLoop k rest := rfl

theorem unquoteLoop_zero (c : Byte) (rest : List Byte) :
    unquoteLoop 0 (c :: rest) =
      match unquoteToken (c :: rest) with
      | none => []
      | some (ch, width) => ch :: unquoteLoop (width - 1) rest := rfl

theorem scanStringLoop_skip (pre tail : List Byte) :
    scanStringLoop pre.length (pre ++ tail)
      = (scanStringLoop 0 tail).map fun r => (pre ++ r.1, r.2) := by
  induction pre with
  | nil => cases h : scanStringLoop 0 tail <;> simp [h]
  | cons b pre ih =>
    rw [List.length_cons, List.cons_append, scanStringLoop_succ, ih]
    cases scanStringLoop 0 tail <;> simp

theorem scanStringLoop_token (q : List Byte) (hq : scansAsToken q) (tail : List Byte) :
    scanStringLoop 0 (q ++ tail) = (scanStringLoop 0 tail).map fun r => (q ++ r.1, r.2) := by
  obtain ⟨b, q2, rfl, hb, htok⟩ := hq
  have h := htok tail
  simp only [List.cons_append] at h ⊢
  rw [scanStringLoop_zero]
  simp only [if_neg hb, h, List.length_cons, Nat.add_sub_cancel, scanStringLoop_skip]
  cases scanStringLoop 0 tail <;> simp

theorem unquoteLoop_skip (pre tail : List Byte) :
    unquoteLoop pre.length (pre ++ tail) = unquoteLoop 0 tail := by
  induction pre with
  | nil => rfl
  | cons b pre ih => rw [List.length_cons, List.cons_append, unquoteLoop_succ, ih]

theorem unquoteLoop_token (q : List Byte) (c : Char) (hq : unquotesTo q c) (tail : List Byte) :
    unquoteLoop 0 (q ++ tail) = c :: unquoteLoop 0 tail := by
  obtain ⟨hne, htok⟩ := hq
  cases q with
  | nil => exact absurd rfl hne
  | cons b q2 =>
    have h := htok tail
    simp only [List.cons_append] at h ⊢
    rw [unquoteLoop_zero]
    simp only [h, List.length_cons, Nat.add_sub_cancel, unquoteLoop_skip]



theorem char_eq_ofNat (c : Char) (n : Nat) (h : c.toNat = n) : Char.ofNat n = c := by
  rw [← h]; exact Char.ofNat_toNat c

theorem goodToken_simple (c : Char) (e : Byte) (he : isSimpleEscape e = true)
    (hu : e.val ≠ 117) (hc : simpleEscape e = c) : goodToken [92, e] c := by
  have e1 : (92 : Byte).val ≠ 34 := by decide
  have e2 : (92 : Byte).val = 92 := by decide
  constructor
  · intro tail
    apply scanStringLoop_token
    refine ⟨92, [e], rfl, e1, fun t => ?_⟩
    simp [stringToken, he, e2]
  · refine ⟨by simp, fun t => ?_⟩
    simp [unquoteToken, hu, hc, e2]

theorem goodToken_hex (c : Char) (h1 h2 h3 h4 : Byte)
    (hh : isHexB h1 = true ∧ isHexB h2 = true ∧ isHexB h3 = true ∧ isHexB h4 = true)
    (hv : hex4 h1 h2 h3 h4 = c.toNat) (hlow : c.toNat < 0xD800) :
    goodToken [92, 117, h1, h2, h3, h4] c := by
  have e1 : (92 : Byte).val ≠ 34 := by decide
  have e3 : isSimpleEscape (117 : Byte) = false := by decide
  have e2 : (92 : Byte).val = 92 := by decide
  have e4 : (117 : Byte).val = 117 := by decide
  have hns : ¬ (55296 ≤ c.toNat ∧ c.toNat < 57344) := by omega
  constructor
  · intro tail
    apply scanStringLoop_token
    refine ⟨92, [117, h1, h2, h3, h4], rfl, e1, fun t => ?_⟩
    simp [stringToken, e3, hh, e2, e4]
  · refine ⟨by simp, fun t => ?_⟩
    simp [unquoteToken, hv, hns, Char.ofNat_toNat, e2, e4]

theorem goodToken_u00 (c : Char) (hn : c.toNat < 256) :
    goodToken [92, 117, 48, 48, hexLower (c.toNat / 16), hexLower (c.toNat % 16)] c := by
  obtain ⟨a1, a2⟩ := hexLower_spec ⟨c.toNat / 16, by omega⟩
  obtain ⟨b1, b2⟩ := hexLower_spec ⟨c.toNat % 16, by omega⟩
  simp only [] at a1 a2 b1 b2
  apply goodToken_hex c _ _ _ _ ⟨by decide, by decide, a1, b1⟩ _ (by omega)
  have z : hexVal (48 : Byte) = 0 := by decide
  rw [hex4, z, a2, b2]
  omega

theorem goodToken_u202 (c : Char) (hn : c.toNat = 0x2028 ∨ c.toNat = 0x2029) :
    goodToken [92, 117, 50, 48, 50, hexLower (c.toNat % 16)] c := by
  obtain ⟨b1, b2⟩ := hexLower_spec ⟨c.toNat % 16, by omega⟩
  simp only [] at b1 b2
  apply goodToken_hex c _ _ _ _ ⟨by decide, by decide, by decide, b1⟩ _ (by omega)
  have z : hexVal (48 : Byte) = 0 := by decide
  have t : hexVal (50 : Byte) = 2 := by decide
  rw [hex4, z, t, b2]
  omega

theorem goodToken_ascii (c : Char) (h32 : 32 ≤ c.toNat) (h128 : c.toNat < 128)
    (h34 : c.toNat ≠ 34) (h92 : c.toNat ≠ 92) : goodToken [byteOf c.toNat] c := by
  have hv := byteOf_val_of_lt c.toNat (by omega)
  constructor
  · intro tail
    apply scanStringLoop_token
    refine ⟨byteOf c.toNat, [], rfl, by omega, fun t => ?_⟩
    have h1 : ¬ ((byteOf c.toNat).val = 92) := by omega
    have h2 : ¬ ((byteOf c.toNat).val < 32) := by omega
    simp [stringToken, h1, h2]
  · refine ⟨by simp, fun t => ?_⟩
    have h1 : ¬ ((byteOf c.toNat).val = 92) := by omega
    have h2 : (byteOf c.toNat).val < 128 := by omega
    simp only [unquoteToken, List.cons_append, List.nil_append, if_neg h1, if_pos h2]
    simp only [hv, Char.ofNat_toNat, List.length_cons, List.length_nil]

theorem scan_high_byte (b : Byte) (hb : 128 ≤ b.val) : scansAsToken [b] := by
  refine ⟨b, [], rfl, by omega, fun t => ?_⟩
  have h1 : ¬ (b.val = 92) := by omega
  have h2 : ¬ (b.val < 32) := by omega
  simp [stringToken, h1, h2]

theorem scan_high_bytes (bs : List Byte) (hbs : ∀ b ∈ bs, 128 ≤ b.val) (tail : List Byte) :
    scanStringLoop 0 (bs ++ tail) = (scanStringLoop 0 tail).map fun r => (bs ++ r.1, r.2) := by
  induction bs with
  | nil => cases h : scanStringLoop 0 tail <;> simp [h]
  | cons b bs ih =>
    have hb := hbs b (List.mem_cons_self _ _)
    have ih1 := ih (fun x hx => hbs x (List.mem_cons_of_mem _ hx))
    have h := scanStringLoop_token [b] (scan_high_byte b hb) (bs ++ tail)
    simp only [List.cons_append, List.nil_append] at h ⊢
    rw [h, ih1]
    cases scanStringLoop 0 tail <;> simp

theorem goodToken_utf8 (c : Char) (h128 : 128 ≤ c.toNat) : goodToken (utf8Encode c) c := by
  have hvalid := char_valid c
  have hc := Char.ofNat_toNat c
  by_cases h2 : c.toNat < 0x800
  · have hq : utf8Encode c = [byteOf (0xC0 + c.toNat / 64), byteOf (0x80 + c.toNat % 64)] := by
      have : ¬ c.toNat < 0x80 := by omega
      simp [utf8Encode, this, h2]
    have v0 := byteOf_val_of_lt (0xC0 + c.toNat / 64) (by omega)
    have v1 := byteOf_val_of_lt (0x80 + c.toNat % 64) (by omega)
    rw [hq]
    constructor
    · intro tail
      apply scan_high_bytes
      intro b hb
      simp only [List.mem_cons, List.mem_singleton, List.not_mem_nil, or_false] at hb
      rcases hb with rfl | rfl <;> omega
    · refine ⟨by simp, fun t => ?_⟩
      have e1 : ¬ ((byteOf (0xC0 + c.toNat / 64)).val = 92) := by omega
      have e2 : ¬ ((byteOf (0xC0 + c.toNat / 64)).val < 128) := by omega
      have e3 : 0xC2 ≤ (byteOf (0xC0 + c.toNat / 64)).val ∧ (byteOf (0xC0 + c.toNat / 64)).val ≤ 0xDF := by
        omega
      have e4 : isCont (byteOf (0x80 + c.toNat % 64)) = true := by
        simp only [isCont, v1, Bool.and_eq_true, decide_eq_true_eq]; omega
      have e5 : ((byteOf (0xC0 + c.toNat / 64)).val - 0xC0) * 64
          + ((byteOf (0x80 + c.toNat % 64)).val - 0x80) = c.toNat := by omega
      simp only [unquoteToken, List.cons_append, List.nil_append, if_neg e1, if_neg e2,
        utf8DecodeMulti, if_pos e3, e4, if_true, e5, hc, List.length_cons, List.length_nil]
  · by_cases h3 : c.toNat < 0x10000
    · have hq : utf8Encode c = [byteOf (0xE0 + c.toNat / 4096),
          byteOf (0x80 + c.toNat / 64 % 64), byteOf (0x80 + c.toNat % 64)] := by
        have : ¬ c.toNat < 0x80 := by omega
        simp [utf8Encode, this, h2, h3]
      have v0 := byteOf_val_of_lt (0xE0 + c.toNat / 4096) (by omega)
      have v1 := byteOf_val_of_lt (0x80 + c.toNat / 64 % 64) (by omega)
      have v2 := byteOf_val_of_lt (0x80 + c.toNat % 64) (by omega)
      rw [hq]
      generalize byteOf (0xE0 + c.toNat / 4096) = b0 at v0 ⊢
      generalize byteOf (0x80 + c.toNat / 64 % 64) = b1 at v1 ⊢
      generalize byteOf (0x80 + c.toNat % 64) = b2 at v2 ⊢
      constructor
      · intro tail
        apply scan_high_bytes
        intro b hb
        simp only [List.mem_cons, List.mem_singleton, List.not_mem_nil, or_false] at hb
        rcases hb with rfl | rfl | rfl <;> omega
      · refine ⟨by simp, fun t => ?_⟩
        have e1 : ¬ (b0.val = 92) := by omega
        have e2 : ¬ (b0.val < 128) := by omega
        have e3 : ¬ (0xC2 ≤ b0.val ∧ b0.val ≤ 0xDF) := by omega
        have e3b : 0xE0 ≤ b0.val ∧ b0.val ≤ 0xEF := by omega
        have e4 : isCont b2 = true := by
          simp only [isCont, v2, Bool.and_eq_true, decide_eq_true_eq]; omega
        have e5 : (b0.val - 0xE0) * 4096 + (b1.val - 0x80) * 64 + (b2.val - 0x80) = c.toNat := by
          omega
        have e6 : (if b0.val = 0xE0 then 0xA0 else 0x80) ≤ b1.val := by
          split_ifs with hb0 <;> omega
        have e7 : b1.val ≤ (if b0.val = 0xED then 0x9F else 0xBF) := by
          split_ifs with hb0 <;> omega
        simp only [unquoteToken, List.cons_append, List.nil_append, if_neg e1, if_neg e2,
          utf8DecodeMulti, if_neg e3, if_pos e3b, e4, e6, e7, and_self, if_true, e5, hc,
          List.length_cons, List.length_nil]
    · have hq : utf8Encode c = [byteOf (0xF0 + c.toNat / 262144),
          byteOf (0x80 + c.toNat / 4096 % 64), byteOf (0x80 + c.toNat / 64 % 64),
          byteOf (0x80 + c.toNat % 64)] := by
        have : ¬ c.toNat < 0x80 := by omega
        simp [utf8Encode, this, h2, h3]
      have v0 := byteOf_val_of_lt (0xF0 + c.toNat / 262144) (by omega)
      have v1 := byteOf_val_of_lt (0x80 + c.toNat / 4096 % 64) (by omega)
      have v2 := byteOf_val_of_lt (0x80 + c.toNat / 64 % 64) (by omega)
      have v3 := byteOf_val_of_lt (0x80 + c.toNat % 64) (by omega)
      rw [hq]
      generalize byteOf (0xF0 + c.toNat / 262144) = b0 at v0 ⊢
      generalize byteOf (0x80 + c.toNat / 4096 % 64) = b1 at v1 ⊢
      generalize byteOf (0x80 + c.toNat / 64 % 64) = b2 at v2 ⊢
      generalize byteOf (0x80 + c.toNat % 64) = b3 at v3 ⊢
      constructor
      · intro tail
        apply scan_high_bytes
        intro b hb
        simp only [List.mem_cons, List.mem_singleton, List.not_mem_nil, or_false] at hb
        rcases hb with rfl | rfl | rfl | rfl <;> omega
      · refine ⟨by simp, fun t => ?_⟩
        have e1 : ¬ (b0.val = 92) := by omega
        have e2 : ¬ (b0.val < 128) := by omega
        have e3 : ¬ (0xC2 ≤ b0.val ∧ b0.val ≤ 0xDF) := by omega
        have e3b : ¬ (0xE0 ≤ b0.val ∧ b0.val ≤ 0xEF) := by omega
        have e3c : 0xF0 ≤ b0.val ∧ b0.val ≤ 0xF4 := by omega
        have e4 : isCont b2 = true := by
          simp only [isCont, v2, Bool.and_eq_true, decide_eq_true_eq]; omega
        have e4b : isCont b3 = true := by
          simp only [isCont, v3, Bool.and_eq_true, decide_eq_true_eq]; omega
        have e5 : (b0.val - 0xF0) * 262144 + (b1.val - 0x80) * 4096 + (b2.val - 0x80) * 64
            + (b3.val - 0x80) = c.toNat := by
          omega
        have e6 : (if b0.val = 0xF0 then 0x90 else 0x80) ≤ b1.val := by
          split_ifs with hb0 <;> omega
        have e7 : b1.val ≤ (if b0.val = 0xF4 then 0x8F else 0xBF) := by
          split_ifs with hb0 <;> omega
        simp only [unquoteToken, List.cons_append, List.nil_append, if_neg e1, if_neg e2,
          utf8DecodeMulti, if_neg e3, if_neg e3b, if_pos e3c, e4, e4b, e6, e7, and_self, if_true,
          e5, hc, List.length_cons, List.length_nil]

theorem goodToken_quoteChar (c : Char) : goodToken (quoteChar c) c := by
  unfold quoteChar
  simp only []
  split_ifs with h1 h2 h3 h4 h5 h6 h7 h8
  · rcases h1 with h | h
    · rw [h]
      exact goodToken_simple c _ (by decide) (by decide) (char_eq_ofNat c 34 h)
    · rw [h]
      exact goodToken_simple c _ (by decide) (by decide) (char_eq_ofNat c 92 h)
  · exact goodToken_simple c _ (by decide) (by decide) (char_eq_ofNat c 8 h2)
  · exact goodToken_simple c _ (by decide) (by decide) (char_eq_ofNat c 12 h3)
  · exact goodToken_simple c _ (by decide) (by decide) (char_eq_ofNat c 10 h4)
  · exact goodToken_simple c _ (by decide) (by decide) (char_eq_ofNat c 13 h5)
  · exact goodToken_simple c _ (by decide) (by decide) (char_eq_ofNat c 9 h6)
  · exact goodToken_u00 c (by omega)
  · exact goodToken_u202 c h8
  · by_cases h128 : c.toNat < 128
    · have hq : utf8Encode c = [byteOf c.toNat] := by simp [utf8Encode, h128]
      rw [hq]
      exact goodToken_ascii c (by omega) h128 (by omega) (by omega)
    · exact goodToken_utf8 c (by omega)

theorem scanString_quoted (s : List Char) (rest : List Byte) :
    scanStringLoop 0 (s.flatMap quoteChar ++ 34 :: rest) = some (s.flatMap quoteChar, rest) := by
  induction s with
  | nil =>
    have e : (34 : Byte).val = 34 := by decide
    simp [scanStringLoop_zero, e]
  | cons c s ih =>
    rw [List.flatMap_cons, List.append_assoc, (goodToken_quoteChar c).1, ih]
    rfl

theorem unquote_quoted (s : List Char) : unquoteLoop 0 (s.flatMap quoteChar) = s := by
  induction s with
  | nil => rfl
  | cons c s ih =>
    rw [List.flatMap_cons, unquoteLoop_token _ c (goodToken_quoteChar c).2, ih]

theorem bitLenAux_spec (fuel : Nat) : ∀ n, n ≤ fuel → 0 < n →
    2 ^ (bitLenAux fuel n - 1) ≤ n ∧ n < 2 ^ bitLenAux fuel n ∧ 0 < bitLenAux fuel n := by
  induction fuel with
  | zero => intro n h hn; omega
  | succ k ih =>
    intro n h hn
    have hne : n ≠ 0 := by omega
    simp only [bitLenAux, if_neg hne]
    by_cases h2 : n / 2 = 0
    · have h1 : n = 1 := by omega
      subst h1
      cases k <;> simp [bitLenAux]
    · obtain ⟨a, b, c⟩ := ih (n / 2) (by omega) (by omega)
      refine ⟨?_, ?_, by omega⟩
      · have e : bitLenAux k (n / 2) + 1 - 1 = (bitLenAux k (n / 2) - 1) + 1 := by omega
        rw [e, pow_succ]
        omega
      · rw [pow_succ]
        omega

theorem bitLen_spec (n : Nat) (hn : 0 < n) :
    2 ^ (bitLen n - 1) ≤ n ∧ n < 2 ^ bitLen n ∧ 0 < bitLen n :=
  bitLenAux_spec n n (le_refl n) hn

theorem ratio_bounds (n d : Nat) (hn : 0 < n) (hd : 0 < d) :
    (2 : ℚ) ^ (estimateExp n d + 52) * d < n ∧ (n : ℚ) < 2 ^ (estimateExp n d + 54) * d := by
  obtain ⟨n1, n2, n3⟩ := bitLen_spec n hn
  obtain ⟨d1, d2, d3⟩ := bitLen_spec d hd
  have n1q : (2 : ℚ) ^ ((bitLen n : Int) - 1) ≤ n := by
    have : ((bitLen n : Int) - 1) = ((bitLen n - 1 : Nat) : Int) := by omega
    rw [this, zpow_natCast]
    exact_mod_cast n1
  have n2q : (n : ℚ) < (2 : ℚ) ^ (bitLen n : Int) := by
    rw [zpow_natCast]
    exact_mod_cast n2
  have d1q : (2 : ℚ) ^ ((bitLen d : Int) - 1) ≤ d := by
    have : ((bitLen d : Int) - 1) = ((bitLen d - 1 : Nat) : Int) := by omega
    rw [this, zpow_natCast]
    exact_mod_cast d1
  have d2q : (d : ℚ) < (2 : ℚ) ^ (bitLen d : Int) := by
    rw [zpow_natCast]
    exact_mod_cast d2
  have two : (2 : ℚ) ≠ 0 := by norm_num
  unfold estimateExp
  constructor
  · have e : (2 : ℚ) ^ ((bitLen n : Int) - bitLen d - 53 + 52) * (2 : ℚ) ^ (bitLen d : Int)
        = (2 : ℚ) ^ ((bitLen n : Int) - 1) := by
      rw [← zpow_add₀ two]; congr 1; ring
    have pos : (0 : ℚ) < (2 : ℚ) ^ ((bitLen n : Int) - bitLen d - 53 + 52) := by positivity
    calc (2 : ℚ) ^ ((bitLen n : Int) - bitLen d - 53 + 52) * d
        < (2 : ℚ) ^ ((bitLen n : Int) - bitLen d - 53 + 52) * (2 : ℚ) ^ (bitLen d : Int) := by
          exact mul_lt_mul_of_pos_left d2q pos
      _ = (2 : ℚ) ^ ((bitLen n : Int) - 1) := e
      _ ≤ n := n1q
  · have e : (2 : ℚ) ^ ((bitLen n : Int) - bitLen d - 53 + 54) * (2 : ℚ) ^ ((bitLen d : Int) - 1)
        = (2 : ℚ) ^ (bitLen n : Int) := by
      rw [← zpow_add₀ two]; congr 1; ring
    have pos : (0 : ℚ) < (2 : ℚ) ^ ((bitLen n : Int) - bitLen d - 53 + 54) := by positivity
    calc (n : ℚ) < (2 : ℚ) ^ (bitLen n : Int) := n2q
      _ = (2 : ℚ) ^ ((bitLen n : Int) - bitLen d - 53 + 54) * (2 : ℚ) ^ ((bitLen d : Int) - 1) :=
          e.symm
      _ ≤ (2 : ℚ) ^ ((bitLen n : Int) - bitLen d - 53 + 54) * d :=
          mul_le_mul_of_nonneg_left d1q pos.le

theorem scale_lt_iff (n d c : Nat) (p : Int) :
    scaleNum n p < c * scaleDen d p ↔ (n : ℚ) < c * d * (2 : ℚ) ^ p := by
  have two : (2 : ℚ) ≠ 0 := by norm_num
  unfold scaleNum scaleDen
  by_cases hp : p < 0
  · simp only [if_pos hp]
    obtain ⟨k, rfl⟩ : ∃ k : Nat, p = -(k : Int) := ⟨(-p).toNat, by omega⟩
    simp only [neg_neg, Int.toNat_ofNat, zpow_neg, zpow_natCast]
    have pos : (0 : ℚ) < (2 : ℚ) ^ k := by positivity
    rw [← div_eq_mul_inv, lt_div_iff₀ pos]
    exact_mod_cast Iff.rfl
  · simp only [if_neg hp]
    obtain ⟨k, rfl⟩ : ∃ k : Nat, p = (k : Int) := ⟨p.toNat, by omega⟩
    simp only [Int.toNat_ofNat, zpow_natCast]
    rw [← mul_assoc]
    exact_mod_cast Iff.rfl

theorem scaleDen_pos (d : Nat) (p : Int) (hd : 0 < d) : 0 < scaleDen d p := by
  unfold scaleDen
  split_ifs
  · exact hd
  · positivity

theorem findExp_spec (n d : Nat) (hn : 0 < n) (hd : 0 < d) :
    -1074 ≤ findExp n d 4 (max (-1074) (estimateExp n d)) ∧
    (n : ℚ) < 9007199254740992 * d *
      (2 : ℚ) ^ (findExp n d 4 (max (-1074) (estimateExp n d))) ∧
    (findExp n d 4 (max (-1074) (estimateExp n d)) = -1074 ∨
      9007199254740992 * d *
        (2 : ℚ) ^ (findExp n d 4 (max (-1074) (estimateExp n d)) - 1) ≤ (n : ℚ)) := by
  obtain ⟨lo, hi⟩ := ratio_bounds n d hn hd
  have two : (2 : ℚ) ≠ 0 := by norm_num
  have dq : (0 : ℚ) < d := by exact_mod_cast hd
  have c53 : (9007199254740992 : ℚ) = (2 : ℚ) ^ (53 : Int) := by norm_num
  have cond : ∀ p : Int, (scaleNum n p / scaleDen d p < 9007199254740992) ↔
      (n : ℚ) < 9007199254740992 * d * (2 : ℚ) ^ p := by
    intro p
    rw [Nat.div_lt_iff_lt_mul (scaleDen_pos d p hd), scale_lt_iff]
    norm_num
  -- the bound above, at any exponent from `estimateExp + 1` on
  have upper : ∀ p : Int, estimateExp n d + 1 ≤ p →
      (n : ℚ) < 9007199254740992 * d * (2 : ℚ) ^ p := by
    intro p hp
    have h1 : (2 : ℚ) ^ (estimateExp n d + 54) ≤ (2 : ℚ) ^ (p + 53) :=
      zpow_le_zpow_right₀ (by norm_num) (by omega)
    have h2 : (9007199254740992 : ℚ) * d * (2 : ℚ) ^ p = (2 : ℚ) ^ (p + 53) * d := by
      rw [c53, zpow_add₀ two]; ring
    rw [h2]
    calc (n : ℚ) < (2 : ℚ) ^ (estimateExp n d + 54) * d := hi
      _ ≤ (2 : ℚ) ^ (p + 53) * d := mul_le_mul_of_nonneg_right h1 dq.le
  have lower : 9007199254740992 * d * (2 : ℚ) ^ (estimateExp n d - 1) ≤ (n : ℚ) := by
    have h2 : (9007199254740992 : ℚ) * d * (2 : ℚ) ^ (estimateExp n d - 1)
        = (2 : ℚ) ^ (estimateExp n d + 52) * d := by
      rw [c53, mul_comm ((2 : ℚ) ^ (53 : Int)), mul_assoc, ← zpow_add₀ two, mul_comm]
      congr 2; ring
    rw [h2]; exact lo.le
  generalize hs : max (-1074) (estimateExp n d) = s
  have hs1 : -1074 ≤ s := by omega
  have hs2 : estimateExp n d ≤ s := by omega
  have hs3 : s = -1074 ∨ s = estimateExp n d := by omega
  have u1 : findExp n d 4 s = if scaleNum n s / scaleDen d s < 9007199254740992 then s
      else if scaleNum n (s + 1) / scaleDen d (s + 1) < 9007199254740992 then s + 1
      else findExp n d 2 (s + 1 + 1) := rfl
  rw [u1]
  by_cases c0 : scaleNum n s / scaleDen d s < 9007199254740992
  · rw [if_pos c0]
    refine ⟨hs1, (cond s).1 c0, ?_⟩
    rcases hs3 with h | h
    · exact Or.inl h
    · right; rw [h]; exact lower
  · have c1 : scaleNum n (s + 1) / scaleDen d (s + 1) < 9007199254740992 :=
      (cond (s + 1)).2 (upper (s + 1) (by omega))
    rw [if_neg c0, if_pos c1]
    refine ⟨by omega, (cond (s + 1)).1 c1, Or.inr ?_⟩
    have : s + 1 - 1 = s := by ring
    rw [this]
    exact not_lt.1 (fun h => c0 ((cond s).2 h))


theorem roundHalfEven_bounds (n d : Nat) :
    n / d ≤ roundHalfEven n d ∧ roundHalfEven n d ≤ n / d + 1 := by
  unfold roundHalfEven
  simp only []
  split_ifs <;> omega

theorem roundHalfEven_exact (m d : Nat) (hd : 0 < d) : roundHalfEven (m * d) d = m := by
  unfold roundHalfEven
  have h1 : m * d / d = m := Nat.mul_div_cancel m hd
  have h2 : m * d % d = 0 := Nat.mul_mod_left m d
  simp only [h1, h2]
  rw [if_pos (by omega)]

theorem roundRatio_unfold (n d : Nat) (hn : n ≠ 0) :
    roundRatio n d =
      if 971 < (if roundHalfEven (scaleNum n (findExp n d 4 (max (-1074) (estimateExp n d))))
            (scaleDen d (findExp n d 4 (max (-1074) (estimateExp n d)))) = 9007199254740992
          then ((4503599627370496 : Nat), findExp n d 4 (max (-1074) (estimateExp n d)) + 1)
          else (roundHalfEven (scaleNum n (findExp n d 4 (max (-1074) (estimateExp n d))))
            (scaleDen d (findExp n d 4 (max (-1074) (estimateExp n d)))),
            findExp n d 4 (max (-1074) (estimateExp n d)))).2
      then none
      else some (if roundHalfEven (scaleNum n (findExp n d 4 (max (-1074) (estimateExp n d))))
            (scaleDen d (findExp n d 4 (max (-1074) (estimateExp n d)))) = 9007199254740992
          then ((4503599627370496 : Nat), findExp n d 4 (max (-1074) (estimateExp n d)) + 1)
          else (roundHalfEven (scaleNum n (findExp n d 4 (max (-1074) (estimateExp n d))))
            (scaleDen d (findExp n d 4 (max (-1074) (estimateExp n d)))),
            findExp n d 4 (max (-1074) (estimateExp n d)))) := by
  unfold roundRatio
  rw [if_neg hn]

theorem roundRatio_canonical (n d : Nat) (hd : 0 < d) (m : Nat) (e : Int)
    (h : roundRatio n d = some (m, e)) : canonical m e := by
  by_cases hn : n = 0
  · subst hn
    have : roundRatio 0 d = some (0, -1074) := rfl
    rw [this] at h
    injection h with h
    injection h with h1 h2
    subst h1; subst h2
    exact ⟨by norm_num, by norm_num, by norm_num, Or.inr rfl⟩
  · rw [roundRatio_unfold n d hn] at h
    obtain ⟨s1, s2, s3⟩ := findExp_spec n d (Nat.pos_of_ne_zero hn) hd
    generalize findExp n d 4 (max (-1074) (estimateExp n d)) = p at h s1 s2 s3
    have dpos := scaleDen_pos d p hd
    have hq : scaleNum n p / scaleDen d p < 9007199254740992 := by
      rw [Nat.div_lt_iff_lt_mul dpos, scale_lt_iff]
      exact_mod_cast s2
    have hlow : p = -1074 ∨ 4503599627370496 ≤ scaleNum n p / scaleDen d p := by
      rcases s3 with s3 | s3
      · exact Or.inl s3
      · right
        rw [Nat.le_div_iff_mul_le dpos]
        by_contra hc
        rw [not_le, scale_lt_iff] at hc
        have two : (2 : ℚ) ≠ 0 := by norm_num
        have e1 : (2 : ℚ) ^ (p - 1) = (2 : ℚ) ^ p / 2 := by
          rw [zpow_sub_one₀ two]; rfl
        rw [e1] at s3
        have : (9007199254740992 : ℚ) * d * ((2 : ℚ) ^ p / 2)
            = ((4503599627370496 : Nat) : ℚ) * d * (2 : ℚ) ^ p := by
          push_cast; ring
        rw [this] at s3
        exact absurd hc (not_lt.2 s3)
    obtain ⟨b1, b2⟩ := roundHalfEven_bounds (scaleNum n p) (scaleDen d p)
    generalize roundHalfEven (scaleNum n p) (scaleDen d p) = r at h b1 b2
    generalize scaleNum n p / scaleDen d p = q at hq hlow b1 b2
    by_cases hr : r = 9007199254740992
    · simp only [if_pos hr] at h
      split_ifs at h with h971
      injection h with h
      injection h with h1 h2
      subst h1; subst h2
      exact ⟨by norm_num, by omega, by omega, Or.inl (le_refl _)⟩
    · simp only [if_neg hr] at h
      split_ifs at h with h971
      injection h with h
      injection h with h1 h2
      subst h1; subst h2
      refine ⟨by omega, s1, by omega, ?_⟩
      rcases hlow with hl | hl
      · exact Or.inr hl
      · exact Or.inl (by omega)

theorem scale_eq_iff (n d c : Nat) (p : Int) :
    scaleNum n p = c * scaleDen d p ↔ (n : ℚ) = c * d * (2 : ℚ) ^ p := by
  have two : (2 : ℚ) ≠ 0 := by norm_num
  unfold scaleNum scaleDen
  by_cases hp : p < 0
  · simp only [if_pos hp]
    obtain ⟨k, rfl⟩ : ∃ k : Nat, p = -(k : Int) := ⟨(-p).toNat, by omega⟩
    simp only [neg_neg, Int.toNat_ofNat, zpow_neg, zpow_natCast]
    have pos : (2 : ℚ) ^ k ≠ 0 := by positivity
    rw [← div_eq_mul_inv, eq_div_iff pos]
    exact_mod_cast Iff.rfl
  · simp only [if_neg hp]
    obtain ⟨k, rfl⟩ : ∃ k : Nat, p = (k : Int) := ⟨p.toNat, by omega⟩
    simp only [Int.toNat_ofNat, zpow_natCast]
    rw [← mul_assoc]
    exact_mod_cast Iff.rfl

theorem roundRatio_exact (m : Nat) (e : Int) (hc : canonical m e) (n d : Nat) (hd : 0 < d)
    (hval : (n : ℚ) = m * d * (2 : ℚ) ^ e) : roundRatio n d = some (m, e) := by
  obtain ⟨c1, c2, c3, c4⟩ := hc
  have two : (2 : ℚ) ≠ 0 := by norm_num
  have dq : (0 : ℚ) < d := by exact_mod_cast hd
  by_cases hm : m = 0
  · subst hm
    have hn : n = 0 := by
      have : (n : ℚ) = 0 := by rw [hval]; simp
      exact_mod_cast this
    subst hn
    have he : e = -1074 := by omega
    subst he
    rfl
  · have hn : n ≠ 0 := by
      intro h0
      subst h0
      have pos : (0 : ℚ) < (m : ℚ) * d * (2 : ℚ) ^ e := by
        have : (0 : ℚ) < m := by exact_mod_cast Nat.pos_of_ne_zero hm
        positivity
      rw [← hval] at pos
      simp at pos
    rw [roundRatio_unfold n d hn]
    obtain ⟨s1, s2, s3⟩ := findExp_spec n d (Nat.pos_of_ne_zero hn) hd
    generalize findExp n d 4 (max (-1074) (estimateExp n d)) = p at s1 s2 s3
    have hp : p = e := by
      rw [hval] at s2 s3
      -- `m * 2^e < 2^53 * 2^p` and (`p = -1074` or `2^53 * 2^(p-1) ≤ m * 2^e`)
      have s2b : (m : ℚ) * (2 : ℚ) ^ e < 9007199254740992 * (2 : ℚ) ^ p := by
        have := s2
        have e1 : (m : ℚ) * d * (2 : ℚ) ^ e = ((m : ℚ) * (2 : ℚ) ^ e) * d := by ring
        have e2 : (9007199254740992 : ℚ) * d * (2 : ℚ) ^ p
            = (9007199254740992 * (2 : ℚ) ^ p) * d := by ring
        rw [e1, e2] at this
        exact lt_of_mul_lt_mul_right this dq.le
      rcases lt_trichotomy p e with hlt | heq | hgt
      · exfalso
        rcases c4 with c4 | c4
        · -- `2^52 * 2^e ≤ m * 2^e < 2^53 * 2^p ≤ 2^53 * 2^(e-1)`
          have h1 : (2 : ℚ) ^ p ≤ (2 : ℚ) ^ (e - 1) :=
            zpow_le_zpow_right₀ (by norm_num) (by omega)
          have h2 : (2 : ℚ) ^ (e - 1) = (2 : ℚ) ^ e / 2 := by
            rw [zpow_sub_one₀ two]; rfl
          have h3 : (4503599627370496 : ℚ) ≤ m := by exact_mod_cast c4
          have pe : (0 : ℚ) < (2 : ℚ) ^ e := by positivity
          have h4 : (4503599627370496 : ℚ) * (2 : ℚ) ^ e ≤ (m : ℚ) * (2 : ℚ) ^ e :=
            mul_le_mul_of_nonneg_right h3 pe.le
          have h5 : (9007199254740992 : ℚ) * (2 : ℚ) ^ p
              ≤ 9007199254740992 * ((2 : ℚ) ^ e / 2) := by
            rw [← h2]
            exact mul_le_mul_of_nonneg_left h1 (by norm_num)
          have h6 : (9007199254740992 : ℚ) * ((2 : ℚ) ^ e / 2)
              = 4503599627370496 * (2 : ℚ) ^ e := by ring
          linarith
        · omega
      · exact heq
      · exfalso
        rcases s3 with s3 | s3
        · omega
        · have s3b : (9007199254740992 : ℚ) * (2 : ℚ) ^ (p - 1) ≤ (m : ℚ) * (2 : ℚ) ^ e := by
            have e1 : (m : ℚ) * d * (2 : ℚ) ^ e = ((m : ℚ) * (2 : ℚ) ^ e) * d := by ring
            have e2 : (9007199254740992 : ℚ) * d * (2 : ℚ) ^ (p - 1)
                = (9007199254740992 * (2 : ℚ) ^ (p - 1)) * d := by ring
            rw [e1, e2] at s3
            exact le_of_mul_le_mul_right s3 dq
          have h1 : (2 : ℚ) ^ e ≤ (2 : ℚ) ^ (p - 1) :=
            zpow_le_zpow_right₀ (by norm_num) (by omega)
          have h3 : (m : ℚ) < 9007199254740992 := by exact_mod_cast c1
          have pe : (0 : ℚ) < (2 : ℚ) ^ e := by positivity
          have h4 : (m : ℚ) * (2 : ℚ) ^ e < 9007199254740992 * (2 : ℚ) ^ e :=
            mul_lt_mul_of_pos_right h3 pe
          have h5 : (9007199254740992 : ℚ) * (2 : ℚ) ^ e
              ≤ 9007199254740992 * (2 : ℚ) ^ (p - 1) :=
            mul_le_mul_of_nonneg_left h1 (by norm_num)
          linarith
    subst hp
    have hN : scaleNum n p = m * scaleDen d p := by
      rw [scale_eq_iff, hval]
    rw [hN, roundHalfEven_exact m _ (scaleDen_pos d p hd)]
    have hne : m ≠ 9007199254740992 := by omega
    simp only [if_neg hne]
    rw [if_neg (by omega)]


theorem isDigitB_iff (b : Byte) : isDigitB b = true ↔ 48 ≤ b.val ∧ b.val ≤ 57 := by
  simp [isDigitB]

theorem isDigitB_digit (k : Nat) (hk : k < 10) : isDigitB (byteOf (48 + k)) = true := by
  rw [isDigitB_iff, byteOf_val_of_lt _ (by omega)]
  omega

theorem decValue_snoc (ds : List Byte) (b : Byte) :
    decValue (ds ++ [b]) = decValue ds * 10 + (b.val - 48) := by
  simp [decValue, List.foldl_append]

theorem decDigitsAux_spec (fuel : Nat) : ∀ (n : Nat) (acc : List Byte), n < 10 ^ (fuel + 1) →
    ∃ ds, decDigitsAux (fuel + 1) n acc = ds ++ acc ∧ ds ≠ [] ∧
      (∀ b ∈ ds, isDigitB b = true) ∧
      decValue ds = n ∧ (∀ b, ds.head? = some b → b.val = 48 → n = 0) := by
  have small : ∀ (k n : Nat) (acc : List Byte), n < 10 →
      ∃ ds, decDigitsAux (k + 1) n acc = ds ++ acc ∧ ds ≠ [] ∧
        (∀ b ∈ ds, isDigitB b = true) ∧
        decValue ds = n ∧ (∀ b, ds.head? = some b → b.val = 48 → n = 0) := by
    intro k n acc h10
    have hv := byteOf_val_of_lt (48 + n) (by omega)
    refine ⟨[byteOf (48 + n)], ?_, by simp, ?_, ?_, ?_⟩
    · simp [decDigitsAux, h10]
    · intro b hb
      simp only [List.mem_singleton] at hb
      subst hb
      exact isDigitB_digit n h10
    · simp [decValue, hv]
    · intro b hb hv2
      simp only [List.head?_cons, Option.some.injEq] at hb
      subst hb
      omega
  induction fuel with
  | zero =>
    intro n acc h
    exact small 0 n acc (by simpa using h)
  | succ k ih =>
    intro n acc h
    by_cases h10 : n < 10
    · exact small (k + 1) n acc h10
    · have hlt : n / 10 < 10 ^ (k + 1) := by
        rw [pow_succ] at h
        omega
      obtain ⟨ds, e1, e2, e3, e4, e5⟩ := ih (n / 10) (byteOf (48 + n % 10) :: acc) hlt
      have hv := byteOf_val_of_lt (48 + n % 10) (by omega)
      refine ⟨ds ++ [byteOf (48 + n % 10)], ?_, by simp, ?_, ?_, ?_⟩
      · have u : decDigitsAux (k + 1 + 1) n acc
            = decDigitsAux (k + 1) (n / 10) (byteOf (48 + n % 10) :: acc) := by
          simp [decDigitsAux, h10]
        rw [u, e1]; simp
      · intro b hb
        rcases List.mem_append.1 hb with hb | hb
        · exact e3 b hb
        · simp only [List.mem_singleton] at hb
          subst hb
          exact isDigitB_digit _ (by omega)
      · rw [decValue_snoc, e4, hv]
        omega
      · intro b hb hv2
        have : ds.head? = some b := by
          cases ds with
          | nil => exact absurd rfl e2
          | cons x xs => simpa using hb
        have := e5 b this hv2
        omega

theorem decDigits_spec (n : Nat) :
    decDigits n ≠ [] ∧ (∀ b ∈ decDigits n, isDigitB b = true) ∧ decValue (decDigits n) = n ∧
      (∀ b, (decDigits n).head? = some b → b.val = 48 → n = 0) := by
  have hlt : n < 10 ^ (n + 1) :=
    lt_of_lt_of_le (Nat.lt_pow_self (by norm_num : 1 < 10) n)
      (Nat.pow_le_pow_right (by norm_num) (Nat.le_succ n))
  obtain ⟨ds, e1, e2, e3, e4, e5⟩ := decDigitsAux_spec n n [] hlt
  have e : decDigits n = ds := by
    unfold decDigits; rw [e1]; simp
  rw [e]
  exact ⟨e2, e3, e4, e5⟩


theorem isDigitB_not (b : Byte) (h : isDigitB b = true) :
    b.val ≠ 45 ∧ b.val ≠ 46 ∧ b.val ≠ 101 ∧ b.val ≠ 69 ∧ b.val ≠ 43 := by
  rw [isDigitB_iff] at h
  omega

theorem takeWhile_digits (ds tail : List Byte) (hds : ∀ b ∈ ds, isDigitB b = true) :
    (ds ++ tail).takeWhile isDigitB = ds ++ tail.takeWhile isDigitB ∧
    (ds ++ tail).dropWhile isDigitB = tail.dropWhile isDigitB := by
  induction ds with
  | nil => exact ⟨rfl, rfl⟩
  | cons d ds ih =>
    have hd := hds d (List.mem_cons_self _ _)
    obtain ⟨i1, i2⟩ := ih (fun b hb => hds b (List.mem_cons_of_mem _ hb))
    constructor
    · simp only [List.cons_append, List.takeWhile_cons, hd, if_true, i1]
    · simp only [List.cons_append, List.dropWhile_cons, hd, if_true, i2]

theorem head_digits (ds tail : List Byte) (hne : ds ≠ [])
    (hds : ∀ b ∈ ds, isDigitB b = true) : (ds ++ tail).head? ≠ some 45 := by
  cases ds with
  | nil => exact absurd rfl hne
  | cons d ds =>
    have hd := isDigitB_not d (hds d (List.mem_cons_self _ _))
    simp only [List.cons_append, List.head?_cons, ne_eq, Option.some.injEq]
    intro h
    rw [h] at hd
    exact hd.1 rfl

theorem literalParts_plain (neg : Bool) (ds : List Byte) (hne : ds ≠ [])
    (hds : ∀ b ∈ ds, isDigitB b = true) :
    literalParts ((if neg then [45] else []) ++ ds) = (neg, decValue ds, 0) := by
  obtain ⟨t1, t2⟩ := takeWhile_digits ds [] hds
  simp only [List.append_nil, List.takeWhile_nil, List.dropWhile_nil] at t1 t2
  have hh := head_digits ds [] hne hds
  rw [List.append_nil] at hh
  cases neg
  · simp only [Bool.false_eq_true, if_false, List.nil_append]
    unfold literalParts
    simp only [hh, decide_False, Bool.false_eq_true, if_false, t1, t2, List.head?_nil,
      reduceCtorEq, List.drop_nil, false_or, List.append_nil, List.length_nil]
    rfl
  · simp only [if_true, List.singleton_append]
    unfold literalParts
    simp only [List.head?_cons, decide_True, if_true, List.drop_succ_cons, List.drop_zero, t1, t2,
      List.head?_nil, reduceCtorEq, if_false, List.drop_nil, decide_False, Bool.false_eq_true,
      false_or, List.append_nil, List.length_nil]
    rfl

theorem expValue_snoc (ds : List Byte) (b : Byte) :
    expValue (ds ++ [b])
      = if expValue ds < 10000 then expValue ds * 10 + (b.val - 48) else expValue ds := by
  simp [expValue, List.foldl_append]

/-- An exponent of six digits is not read in full: of `100000` the first five digits are
taken. -/
theorem expValue_cut : expValue (ascii "100000".toList) = 10000 ∧
    expValue (ascii "99999".toList) = 99999 ∧ expValue (ascii "400".toList) = 400 := by
  decide

theorem expValue_eq (ds : List Byte) : decValue ds < 10000 → expValue ds = decValue ds := by
  induction ds using List.reverseRecOn with
  | nil => intro _; rfl
  | append_singleton ds b ih =>
    intro h
    rw [decValue_snoc] at h
    have h1 : decValue ds < 10000 := by omega
    rw [expValue_snoc, decValue_snoc, ih h1, if_pos h1]

theorem literalParts_exp (neg : Bool) (ds ds2 : List Byte) (hne : ds ≠ [])
    (hds : ∀ b ∈ ds, isDigitB b = true) :
    literalParts ((if neg then [45] else []) ++ (ds ++ (101 :: 45 :: ds2)))
      = (neg, decValue ds, -(expValue ds2 : Int)) := by
  obtain ⟨t1, t2⟩ := takeWhile_digits ds (101 :: 45 :: ds2) hds
  have e101 : isDigitB (101 : Byte) = false := by decide
  simp only [List.takeWhile_cons, List.dropWhile_cons, e101, Bool.false_eq_true, if_false,
    List.append_nil] at t1 t2
  have hh := head_digits ds (101 :: 45 :: ds2) hne hds
  have h46 : ¬ ((101 : Byte) = 46) := by decide
  have h45 : ¬ ((45 : Byte) = 43) := by decide
  cases neg
  · simp only [Bool.false_eq_true, if_false, List.nil_append]
    unfold literalParts
    simp only [hh, decide_False, Bool.false_eq_true, if_false, t1, t2, List.head?_cons,
      Option.some.injEq, h46, List.drop_succ_cons, List.drop_zero, decide_True, if_true, true_or,
      List.append_nil, List.length_nil]
    simp
  · simp only [if_true, List.singleton_append]
    unfold literalParts
    simp only [List.head?_cons, decide_True, if_true, List.drop_succ_cons, List.drop_zero, t1, t2,
      Option.some.injEq, h46, if_false, true_or, List.append_nil, List.length_nil]
    simp

theorem parseFloat_exactText (f : F64) (hc : canonical f.mant f.exp) :
    parseFloat (exactText f) = some f := by
  have two : (2 : ℚ) ≠ 0 := by norm_num
  unfold parseFloat exactText
  by_cases he : f.exp < 0
  · obtain ⟨k, hk⟩ : ∃ k : Nat, f.exp = -(k : Int) := ⟨(-f.exp).toNat, by omega⟩
    have hk0 : 0 < k := by omega
    have hto : (-f.exp).toNat = k := by omega
    obtain ⟨d1, d2, d3, -⟩ := decDigits_spec (f.mant * 5 ^ k)
    obtain ⟨-, -, e3, -⟩ := decDigits_spec k
    have e4 : expValue (decDigits k) = k := by
      rw [expValue_eq _ (by rw [e3]; have := hc.2.1; omega), e3]
    rw [if_pos he, hto, literalParts_exp f.neg _ _ d1 d2]
    simp only [d3, e4]
    have hneg : (-(k : Int)) < 0 := by omega
    unfold roundDecimal
    rw [if_pos hneg]
    have hto2 : (-(-(k : Int))).toNat = k := by omega
    rw [hto2]
    have hr := roundRatio_exact f.mant f.exp hc (f.mant * 5 ^ k) (10 ^ k) (by positivity) (by
      rw [hk, zpow_neg, zpow_natCast]
      push_cast
      have h10 : (10 : ℚ) ^ k = 5 ^ k * 2 ^ k := by rw [← mul_pow]; norm_num
      rw [h10]
      have p2 : (2 : ℚ) ^ k ≠ 0 := by positivity
      field_simp
      ring)
    rw [hr]
    rfl
  · obtain ⟨k, hk⟩ : ∃ k : Nat, f.exp = (k : Int) := ⟨f.exp.toNat, by omega⟩
    have hto : f.exp.toNat = k := by omega
    obtain ⟨d1, d2, d3, -⟩ := decDigits_spec (f.mant * 2 ^ k)
    rw [if_neg he, hto, literalParts_plain f.neg _ d1 d2]
    simp only [d3]
    unfold roundDecimal
    rw [if_neg (by omega)]
    have hr := roundRatio_exact f.mant f.exp hc (f.mant * 2 ^ k * 10 ^ (0 : Int).toNat) 1
      (by norm_num) (by
      rw [hk, zpow_natCast]
      push_cast
      simp)
    rw [hr]
    rfl


theorem scanNumberFrom_nil (st : NumState) :
    scanNumberFrom st [] = if numEnd st then some ([], []) else none := rfl

theorem scanNumberFrom_cons (st : NumState) (c : Byte) (rest : List Byte) :
    scanNumberFrom st (c :: rest) =
      match numStep st c with
      | some st2 => (scanNumberFrom st2 rest).map fun r => (c :: r.1, r.2)
      | none => if numEnd st then some ([], c :: rest) else none := rfl

theorem scanNumberFrom_step (st st2 : NumState) (c : Byte) (rest : List Byte)
    (h : numStep st c = some st2) :
    scanNumberFrom st (c :: rest) = (scanNumberFrom st2 rest).map fun r => (c :: r.1, r.2) := by
  rw [scanNumberFrom_cons, h]

theorem numStep_digit (b : Byte) (hb : isDigitB b = true) :
    numStep .int b = some .int ∧ numStep .frac b = some .frac ∧
    numStep .expDigits b = some .expDigits ∧ numStep .expSign b = some .expDigits ∧
    (b.val ≠ 48 → numStep .start b = some .int ∧ numStep .neg b = some .int) ∧
    (b.val = 48 → numStep .start b = some .zero ∧ numStep .neg b = some .zero) := by
  obtain ⟨h1, h2, h3, h4, h5⟩ := isDigitB_not b hb
  simp only [numStep, hb, if_true, h1, if_false, true_and]
  constructor
  · intro h; simp [h]
  · intro h; simp [h]

theorem scan_digits (st : NumState) (hloop : ∀ b, isDigitB b = true → numStep st b = some st)
    (ds tail : List Byte) (hds : ∀ b ∈ ds, isDigitB b = true) :
    scanNumberFrom st (ds ++ tail)
      = (scanNumberFrom st tail).map fun r => (ds ++ r.1, r.2) := by
  induction ds with
  | nil => cases h : scanNumberFrom st tail <;> simp [h]
  | cons d ds ih =>
    have hd := hds d (List.mem_cons_self _ _)
    rw [List.cons_append, scanNumberFrom_step st st d _ (hloop d hd),
      ih (fun b hb => hds b (List.mem_cons_of_mem _ hb))]
    cases h : scanNumberFrom st tail <;> simp

theorem scan_exp_tail (ds2 : List Byte) (hne : ds2 ≠ []) (hds : ∀ b ∈ ds2, isDigitB b = true)
    (st : NumState) (hst : st = .zero ∨ st = .int) :
    scanNumberFrom st (101 :: 45 :: ds2) = some (101 :: 45 :: ds2, []) := by
  have s1 : numStep st 101 = some .exp := by rcases hst with rfl | rfl <;> decide
  have s2 : numStep .exp 45 = some .expSign := by decide
  cases ds2 with
  | nil => exact absurd rfl hne
  | cons e ds2 =>
    have he := hds e (List.mem_cons_self _ _)
    have s3 := (numStep_digit e he).2.2.2.1
    have h4 := scan_digits .expDigits (fun b hb => (numStep_digit b hb).2.2.1) ds2 []
      (fun b hb => hds b (List.mem_cons_of_mem _ hb))
    rw [List.append_nil] at h4
    rw [scanNumberFrom_step st _ _ _ s1, scanNumberFrom_step _ _ _ _ s2,
      scanNumberFrom_step _ _ _ _ s3, h4, scanNumberFrom_nil]
    simp [numEnd]

theorem decDigits_zero : decDigits 0 = [48] := rfl

theorem scan_body (st : NumState) (hst : st = .start ∨ st = .neg) (n : Nat) (tail : List Byte)
    (htail : ∀ st2, st2 = .zero ∨ st2 = .int → scanNumberFrom st2 tail = some (tail, [])) :
    scanNumberFrom st (decDigits n ++ tail) = some (decDigits n ++ tail, []) := by
  obtain ⟨d1, d2, -, d4⟩ := decDigits_spec n
  cases hds : decDigits n with
  | nil => exact absurd hds d1
  | cons d ds =>
    rw [hds] at d2 d4
    have hd := d2 d (List.mem_cons_self _ _)
    obtain ⟨-, -, -, -, nz, z⟩ := numStep_digit d hd
    by_cases h48 : d.val = 48
    · have hn : n = 0 := d4 d rfl h48
      subst hn
      rw [decDigits_zero] at hds
      simp only [List.cons.injEq] at hds
      obtain ⟨rfl, rfl⟩ := hds
      have s1 : numStep st 48 = some .zero := by rcases hst with rfl | rfl <;> decide
      rw [List.cons_append, List.nil_append, scanNumberFrom_step _ _ _ _ s1,
        htail .zero (Or.inl rfl)]
      rfl
    · have s1 : numStep st d = some .int := by
        rcases hst with rfl | rfl
        · exact (nz h48).1
        · exact (nz h48).2
      have h4 := scan_digits .int (fun b hb => (numStep_digit b hb).1) ds tail
        (fun b hb => d2 b (List.mem_cons_of_mem _ hb))
      rw [List.cons_append, scanNumberFrom_step _ _ _ _ s1, h4, htail .int (Or.inr rfl)]
      rfl

theorem scanNumber_exactText (f : F64) : scanNumber (exactText f) = some (exactText f, []) := by
  have key : ∀ st, st = .start ∨ st = .neg →
      scanNumberFrom st (if f.exp < 0 then
          decDigits (f.mant * 5 ^ (-f.exp).toNat) ++ (101 :: 45 :: decDigits (-f.exp).toNat)
        else decDigits (f.mant * 2 ^ f.exp.toNat))
      = some ((if f.exp < 0 then
          decDigits (f.mant * 5 ^ (-f.exp).toNat) ++ (101 :: 45 :: decDigits (-f.exp).toNat)
        else decDigits (f.mant * 2 ^ f.exp.toNat)), []) := by
    intro st hst
    split_ifs with he
    · obtain ⟨e1, e2, -, -⟩ := decDigits_spec (-f.exp).toNat
      exact scan_body st hst _ _ (fun st2 h2 => scan_exp_tail _ e1 e2 st2 h2)
    · have h := scan_body st hst (f.mant * 2 ^ f.exp.toNat) [] (fun st2 h2 => by
        rcases h2 with rfl | rfl <;> rfl)
      rw [List.append_nil] at h
      exact h
  unfold scanNumber exactText
  cases f.neg
  · simp only [Bool.false_eq_true, if_false, List.nil_append]
    exact key .start (Or.inl rfl)
  · have s1 : numStep .start 45 = some .neg := by decide
    simp only [if_true, List.singleton_append]
    rw [scanNumberFrom_step _ _ _ _ s1, key .neg (Or.inr rfl)]
    rfl

theorem formatFloat_spec (f : F64) (hc : canonical f.mant f.exp) :
    scanNumber (formatFloat f) = some (formatFloat f, []) ∧
      parseFloat (formatFloat f) = some f := by
  unfold formatFloat
  cases hfind : (shortestTexts f).find?
      (fun t => scanNumber t = some (t, []) ∧ parseFloat t = some f) with
  | none => exact ⟨scanNumber_exactText f, parseFloat_exactText f hc⟩
  | some t =>
    have h := List.find?_some hfind
    simpa using h

theorem scanNumberFrom_append (t : List Byte) : ∀ (st : NumState) (rest : List Byte),
    scanNumberFrom st t = some (t, []) → endsNumber rest →
    scanNumberFrom st (t ++ rest) = some (t, rest) := by
  induction t with
  | nil =>
    intro st rest h hrest
    rw [scanNumberFrom_nil] at h
    have hend : numEnd st = true := by
      by_contra hc
      simp [hc] at h
    rcases hrest with rfl | ⟨c, r, rfl, hc⟩
    · simp [scanNumberFrom_nil, hend]
    · simp [scanNumberFrom_cons, hc st, hend]
  | cons c t ih =>
    intro st rest h hrest
    rw [scanNumberFrom_cons] at h
    rw [List.cons_append, scanNumberFrom_cons]
    cases hs : numStep st c with
    | none =>
      rw [hs] at h
      simp only [] at h
      split_ifs at h
      simp at h
    | some st2 =>
      rw [hs] at h
      simp only [] at h ⊢
      cases hr : scanNumberFrom st2 t with
      | none => rw [hr] at h; simp at h
      | some r =>
        rw [hr] at h
        simp only [Option.map_some', Option.some.injEq, Prod.mk.injEq, List.cons.injEq,
          true_and] at h
        have hr2 : scanNumberFrom st2 t = some (t, []) := by
          rw [hr]; congr 1; exact Prod.ext h.1 h.2
        rw [ih st2 rest hr2 hrest]
        rfl

theorem number_head (t : List Byte) (h : scanNumber t = some (t, [])) :
    ∃ c r, t = c :: r ∧ (c.val = 45 ∨ isDigitB c = true) := by
  cases t with
  | nil => simp [scanNumber, scanNumberFrom_nil, numEnd] at h
  | cons c r =>
    refine ⟨c, r, rfl, ?_⟩
    unfold scanNumber at h
    rw [scanNumberFrom_cons] at h
    cases hs : numStep .start c with
    | none => rw [hs] at h; simp [numEnd] at h
    | some st2 =>
      simp only [numStep] at hs
      by_cases h45 : c.val = 45
      · exact Or.inl h45
      · right
        by_cases h48 : c.val = 48
        · simp [isDigitB, h48]
        · simp only [h45, h48, if_false] at hs
          by_contra hd
          simp [hd] at hs


theorem skipWs_ws (ws s : List Byte) (h : wsOnly ws) : skipWs (ws ++ s) = skipWs s := by
  induction ws with
  | nil => rfl
  | cons b ws ih =>
    have hb := h b (List.mem_cons_self _ _)
    have ih2 := ih (fun x hx => h x (List.mem_cons_of_mem _ hx))
    simp only [skipWs, List.cons_append, List.dropWhile_cons, hb, if_true] at ih2 ⊢
    exact ih2

theorem skipWs_head (c : Byte) (r : List Byte) (h : isSpace c = false) :
    skipWs (c :: r) = c :: r := by
  simp [skipWs, List.dropWhile_cons, h]

theorem parseValue_succ (fuel depth : Nat) (s : List Byte) :
    parseValue (fuel + 1) depth s =
      match skipWs s with
      | [] => none
      | c :: rest =>
        if c.val = 123 then
          if maxNestingDepth ≤ depth then none
          else
            match skipWs rest with
            | d :: rest2 =>
              if d.val = 125 then some (.object [], rest2)
              else (parseMembers fuel (depth + 1) rest).map fun r => (.object r.1, r.2)
            | [] => none
        else if c.val = 91 then
          if maxNestingDepth ≤ depth then none
          else
            match skipWs rest with
            | d :: rest2 =>
              if d.val = 93 then some (.array [], rest2)
              else (parseElems fuel (depth + 1) rest).map fun r => (.array r.1, r.2)
            | [] => none
        else if c.val = 34 then (scanString rest).map fun r => (.string r.1, r.2)
        else if c.val = 45 ∨ isDigitB c then
          (scanNumber (c :: rest)).map fun r => (.number r.1, r.2)
        else if (c :: rest).take 4 = [116, 114, 117, 101] then some (.bool true, rest.drop 3)
        else if (c :: rest).take 5 = [102, 97, 108, 115, 101] then
          some (.bool false, rest.drop 4)
        else if (c :: rest).take 4 = [110, 117, 108, 108] then some (.null, rest.drop 3)
        else none := rfl

theorem parseElems_succ (fuel depth : Nat) (s : List Byte) :
    parseElems (fuel + 1) depth s =
      match parseValue fuel depth s with
      | none => none
      | some (v, rest) =>
        match skipWs rest with
        | c :: rest2 =>
          if c.val = 44 then (parseElems fuel depth rest2).map fun r => (v :: r.1, r.2)
          else if c.val = 93 then some ([v], rest2)
          else none
        | [] => none := rfl

theorem parseMembers_succ (fuel depth : Nat) (s : List Byte) :
    parseMembers (fuel + 1) depth s =
      match skipWs s with
      | q :: rest =>
        if q.val = 34 then
          match scanString rest with
          | none => none
          | some (key, rest1) =>
            match skipWs rest1 with
            | colon :: rest2 =>
              if colon.val = 58 then
                match parseValue fuel depth rest2 with
                | none => none
                | some (v, rest3) =>
                  match skipWs rest3 with
                  | c :: rest4 =>
                    if c.val = 44 then
                      (parseMembers fuel depth rest4).map fun r => ((key, v) :: r.1, r.2)
                    else if c.val = 125 then some ([(key, v)], rest4)
                    else none
                  | [] => none
              else none
            | [] => none
        else none
      | [] => none := rfl

theorem parseValue_ws (fuel depth : Nat) (ws s : List Byte) (h : wsOnly ws) :
    parseValue fuel depth (ws ++ s) = parseValue fuel depth s := by
  cases fuel with
  | zero => rfl
  | succ k => rw [parseValue_succ, parseValue_succ, skipWs_ws ws s h]

theorem parseMembers_ws (fuel depth : Nat) (ws s : List Byte) (h : wsOnly ws) :
    parseMembers fuel depth (ws ++ s) = parseMembers fuel depth s := by
  cases fuel with
  | zero => rfl
  | succ k => rw [parseMembers_succ, parseMembers_succ, skipWs_ws ws s h]

theorem parseElems_ws (fuel depth : Nat) (ws s : List Byte) (h : wsOnly ws) :
    parseElems fuel depth (ws ++ s) = parseElems fuel depth s := by
  cases fuel with
  | zero => rfl
  | succ k => rw [parseElems_succ, parseElems_succ, parseValue_ws k depth ws s h]

theorem isDelim_cases : ∀ c : Byte, isDelim c = true →
    isSpace c = true ∨ c.val = 44 ∨ c.val = 93 ∨ c.val = 125 := by
  intro c h
  simp only [isDelim, Bool.or_eq_true, decide_eq_true_eq] at h
  tauto

theorem numStep_none_of_delim (c : Byte) (h : isDelim c = true) (st : NumState) :
    numStep st c = none := by
  have hc : c.val = 32 ∨ c.val = 9 ∨ c.val = 13 ∨ c.val = 10 ∨ c.val = 44 ∨ c.val = 93
      ∨ c.val = 125 := by
    rcases isDelim_cases c h with h | h | h | h
    · simp only [isSpace, Bool.or_eq_true, decide_eq_true_eq] at h
      omega
    · omega
    · omega
    · omega
  have hd : isDigitB c = false := by
    cases hx : isDigitB c with
    | false => rfl
    | true => rw [isDigitB_iff] at hx; omega
  have n45 : c.val ≠ 45 := by omega
  have n48 : c.val ≠ 48 := by omega
  have n46 : c.val ≠ 46 := by omega
  have n43 : c.val ≠ 43 := by omega
  have n101 : c.val ≠ 101 := by omega
  have n69 : c.val ≠ 69 := by omega
  cases st <;> simp [numStep, hd, n45, n48, n46, n101, n69, n43]

theorem endsNumber_of_delimStart (rest : List Byte) (h : delimStart rest) : endsNumber rest := by
  rcases h with rfl | ⟨c, r, rfl, hc⟩
  · exact Or.inl rfl
  · exact Or.inr ⟨c, r, rfl, numStep_none_of_delim c hc⟩

theorem formatFloat_scan (f : F64) : scanNumber (formatFloat f) = some (formatFloat f, []) := by
  unfold formatFloat
  cases hfind : (shortestTexts f).find?
      (fun t => scanNumber t = some (t, []) ∧ parseFloat t = some f) with
  | none => exact scanNumber_exactText f
  | some t =>
    have h := List.find?_some hfind
    simp only [Bool.decide_and, Bool.and_eq_true, decide_eq_true_eq] at h
    exact h.1

theorem render_head (st : Style) (d : Nat) (v : JValue) :
    ∃ c r, render st d v = c :: r ∧ isSpace c = false ∧ c.val ≠ 93 ∧ c.val ≠ 125 := by
  cases v with
  | null => exact ⟨110, _, rfl, by decide, by decide, by decide⟩
  | bool b =>
    cases b
    · exact ⟨102, _, rfl, by decide, by decide, by decide⟩
    · exact ⟨116, _, rfl, by decide, by decide, by decide⟩
  | number f =>
    obtain ⟨c, r, hr, hc⟩ := number_head (formatFloat f) (formatFloat_scan f)
    refine ⟨c, r, by rw [render, hr], ?_⟩
    have hv : c.val = 45 ∨ (48 ≤ c.val ∧ c.val ≤ 57) := by
      rcases hc with h | h
      · exact Or.inl h
      · exact Or.inr ((isDigitB_iff c).1 h)
    refine ⟨?_, by omega, by omega⟩
    cases hs : isSpace c with
    | false => rfl
    | true =>
      simp only [isSpace, Bool.or_eq_true, decide_eq_true_eq] at hs
      omega
  | string s => exact ⟨34, _, rfl, by decide, by decide, by decide⟩
  | array es =>
    cases es with
    | nil => exact ⟨91, _, rfl, by decide, by decide, by decide⟩
    | cons e es => exact ⟨91, _, by rw [render], by decide, by decide, by decide⟩
  | object ms =>
    cases ms with
    | nil => exact ⟨123, _, rfl, by decide, by decide, by decide⟩
    | cons m ms =>
      obtain ⟨k, v⟩ := m
      exact ⟨123, _, by rw [render], by decide, by decide, by decide⟩


theorem isDelim_of_space (c : Byte) (h : isSpace c = true) : isDelim c = true := by
  simp [isDelim, h]

theorem delimStart_ws (ws : List Byte) (c : Byte) (rest : List Byte) (hws : wsOnly ws)
    (hc : isDelim c = true) : delimStart (ws ++ c :: rest) := by
  cases ws with
  | nil => exact Or.inr ⟨c, rest, rfl, hc⟩
  | cons b ws =>
    exact Or.inr ⟨b, ws ++ c :: rest, rfl, isDelim_of_space b (hws b (List.mem_cons_self _ _))⟩

theorem skipWs_ws_head (ws : List Byte) (c : Byte) (rest : List Byte) (hws : wsOnly ws)
    (hc : isSpace c = false) : skipWs (ws ++ c :: rest) = c :: rest := by
  rw [skipWs_ws ws _ hws, skipWs_head c rest hc]

theorem parse_leaf (fuel depth : Nat) (rest : List Byte) :
    parseValue (fuel + 1) depth ([110, 117, 108, 108] ++ rest) = some (.null, rest) ∧
    parseValue (fuel + 1) depth ([116, 114, 117, 101] ++ rest) = some (.bool true, rest) ∧
    parseValue (fuel + 1) depth ([102, 97, 108, 115, 101] ++ rest) = some (.bool false, rest) :=
  ⟨rfl, rfl, rfl⟩

theorem parse_string (fuel depth : Nat) (s : List Char) (rest : List Byte) :
    parseValue (fuel + 1) depth (quote s ++ rest) = some (.string (s.flatMap quoteChar), rest) := by
  have h := scanString_quoted s rest
  have e : quote s ++ rest = 34 :: (s.flatMap quoteChar ++ 34 :: rest) := by
    simp [quote]
  have s34 : isSpace (34 : Byte) = false := by decide
  have v34 : (34 : Byte).val = 34 := by decide
  rw [e, parseValue_succ, skipWs_head _ _ s34]
  simp only [v34, scanString, h]
  rfl

theorem parse_number (fuel depth : Nat) (f : F64) (rest : List Byte) (hrest : delimStart rest) :
    parseValue (fuel + 1) depth (formatFloat f ++ rest) = some (.number (formatFloat f), rest) := by
  have hscan := formatFloat_scan f
  obtain ⟨c, r, hr, hc⟩ := number_head (formatFloat f) hscan
  have happ := scanNumberFrom_append (formatFloat f) .start rest hscan
    (endsNumber_of_delimStart rest hrest)
  have hv : c.val = 45 ∨ (48 ≤ c.val ∧ c.val ≤ 57) := by
    rcases hc with h | h
    · exact Or.inl h
    · exact Or.inr ((isDigitB_iff c).1 h)
  have hs : isSpace c = false := by
    cases hs : isSpace c with
    | false => rfl
    | true =>
      simp only [isSpace, Bool.or_eq_true, decide_eq_true_eq] at hs
      omega
  have n123 : ¬ c.val = 123 := by omega
  have n91 : ¬ c.val = 91 := by omega
  have n34 : ¬ c.val = 34 := by omega
  rw [hr] at happ ⊢
  rw [List.cons_append] at happ ⊢
  rw [parseValue_succ, skipWs_head _ _ hs]
  simp only [n123, n91, n34, if_false, hc, if_true, scanNumber, happ]
  rfl

theorem need_pos {N S : Type} (v : JTree N S) : 1 ≤ need v := by
  cases v <;> simp [need]

mutual
theorem parse_render (st : Style) (hst : st.plain) : (v : JValue) →
    ∀ (fuel depth d : Nat) (rest : List Byte), need v ≤ fuel →
      depth + nest v ≤ maxNestingDepth → delimStart rest →
      parseValue fuel depth (render st d v ++ rest) = some (toSyn v, rest)
  | .null => by
    intro fuel depth d rest hf _ _
    obtain ⟨k, rfl⟩ : ∃ k, fuel = k + 1 := ⟨fuel - 1, by simp only [need] at hf; omega⟩
    exact (parse_leaf k depth rest).1
  | .bool true => by
    intro fuel depth d rest hf _ _
    obtain ⟨k, rfl⟩ : ∃ k, fuel = k + 1 := ⟨fuel - 1, by simp only [need] at hf; omega⟩
    exact (parse_leaf k depth rest).2.1
  | .bool false => by
    intro fuel depth d rest hf _ _
    obtain ⟨k, rfl⟩ : ∃ k, fuel = k + 1 := ⟨fuel - 1, by simp only [need] at hf; omega⟩
    exact (parse_leaf k depth rest).2.2
  | .number f => by
    intro fuel depth d rest hf _ hrest
    obtain ⟨k, rfl⟩ : ∃ k, fuel = k + 1 := ⟨fuel - 1, by simp only [need] at hf; omega⟩
    exact parse_number k depth f rest hrest
  | .string s => by
    intro fuel depth d rest hf _ _
    obtain ⟨k, rfl⟩ : ∃ k, fuel = k + 1 := ⟨fuel - 1, by simp only [need] at hf; omega⟩
    exact parse_string k depth s rest
  | .array es => by
    intro fuel depth d rest hf hd hrest
    obtain ⟨k, rfl⟩ : ∃ k, fuel = k + 1 := ⟨fuel - 1, by simp only [need] at hf; omega⟩
    simp only [need, nest] at hf hd
    have s91 : isSpace (91 : Byte) = false := by decide
    have v91 : (91 : Byte).val = 91 := by decide
    have s93 : isSpace (93 : Byte) = false := by decide
    have v93 : (93 : Byte).val = 93 := by decide
    have hdepth : ¬ maxNestingDepth ≤ depth := by omega
    cases hes : es with
    | nil =>
      have e : render st d (.array []) ++ rest = 91 :: 93 :: rest := rfl
      rw [e, parseValue_succ, skipWs_head _ _ s91]
      simp only [v91, if_neg hdepth, skipWs_head _ _ s93, v93]
      rfl
    | cons e es2 =>
      have hne : es ≠ [] := by rw [hes]; simp
      have ih := parse_render_elems st hst es k (depth + 1) (d + 1) (st.nl (d + 1)) (st.nl d) rest
        hne (by omega) (by omega) (hst.1 _) (hst.1 _)
      rw [hes] at ih
      obtain ⟨c, r, hr, hc1, hc2, -⟩ := render_head st (d + 1) e
      have etext : render st d (.array (e :: es2)) ++ rest
          = 91 :: (st.nl (d + 1) ++ (renderSeq st (d + 1) (e :: es2) ++ (st.nl d ++ 93 :: rest))) := by
        simp [render, renderSeq]
      have epeek : skipWs (st.nl (d + 1) ++ (renderSeq st (d + 1) (e :: es2)
          ++ (st.nl d ++ 93 :: rest)))
          = c :: (r ++ (renderElems st (d + 1) es2 ++ (st.nl d ++ 93 :: rest))) := by
        rw [skipWs_ws _ _ (hst.1 _)]
        simp only [renderSeq, hr, List.cons_append, List.append_assoc]
        exact skipWs_head _ _ hc1
      rw [etext, parseValue_succ, skipWs_head _ _ s91]
      simp only [v91, if_neg hdepth, epeek, hc2, ih]
      rfl
  | .object ms => by
    intro fuel depth d rest hf hd hrest
    obtain ⟨k, rfl⟩ : ∃ k, fuel = k + 1 := ⟨fuel - 1, by simp only [need] at hf; omega⟩
    simp only [need, nest] at hf hd
    have s123 : isSpace (123 : Byte) = false := by decide
    have v123 : (123 : Byte).val = 123 := by decide
    have s125 : isSpace (125 : Byte) = false := by decide
    have v125 : (125 : Byte).val = 125 := by decide
    have s34 : isSpace (34 : Byte) = false := by decide
    have v34 : ¬ (34 : Byte).val = 125 := by decide
    have hdepth : ¬ maxNestingDepth ≤ depth := by omega
    cases hms : ms with
    | nil =>
      have e : render st d (.object []) ++ rest = 123 :: 125 :: rest := rfl
      rw [e, parseValue_succ, skipWs_head _ _ s123]
      simp only [v123, if_true, if_neg hdepth, skipWs_head _ _ s125, v125]
      rfl
    | cons m ms2 =>
      obtain ⟨key, v⟩ := m
      have hne : ms ≠ [] := by rw [hms]; simp
      have ih := parse_render_members st hst ms k (depth + 1) (d + 1) (st.nl (d + 1)) (st.nl d)
        rest hne (by omega) (by omega) (hst.1 _) (hst.1 _)
      rw [hms] at ih
      have etext : render st d (.object ((key, v) :: ms2)) ++ rest
          = 123 :: (st.nl (d + 1) ++ (renderMemberSeq st (d + 1) ((key, v) :: ms2)
              ++ (st.nl d ++ 125 :: rest))) := by
        simp [render, renderMemberSeq]
      have epeek : skipWs (st.nl (d + 1) ++ (renderMemberSeq st (d + 1) ((key, v) :: ms2)
          ++ (st.nl d ++ 125 :: rest)))
          = 34 :: (key.flatMap quoteChar ++ [34] ++ st.colon ++ render st (d + 1) v
              ++ renderMembers st (d + 1) ms2 ++ (st.nl d ++ 125 :: rest)) := by
        rw [skipWs_ws _ _ (hst.1 _)]
        simp only [renderMemberSeq, quote, List.cons_append, List.append_assoc]
        exact skipWs_head _ _ s34
      rw [etext, parseValue_succ, skipWs_head _ _ s123]
      simp only [v123, if_true, if_neg hdepth, epeek, v34, if_false, ih]
      rfl
theorem parse_render_elems (st : Style) (hst : st.plain) : (l : List JValue) →
    ∀ (fuel depth d : Nat) (ws1 ws2 rest : List Byte), l ≠ [] → needElems l ≤ fuel →
      depth + nestElems l ≤ maxNestingDepth → wsOnly ws1 → wsOnly ws2 →
      parseElems fuel depth (ws1 ++ (renderSeq st d l ++ (ws2 ++ 93 :: rest)))
        = some (toSynElems l, rest)
  | [] => by
    intro fuel depth d ws1 ws2 rest hne
    exact absurd rfl hne
  | e :: es => by
    intro fuel depth d ws1 ws2 rest _ hf hd h1 h2
    simp only [needElems, nestElems] at hf hd
    obtain ⟨k, rfl⟩ : ∃ k, fuel = k + 1 := ⟨fuel - 1, by omega⟩
    have d93 : isDelim (93 : Byte) = true := by decide
    have d44 : isDelim (44 : Byte) = true := by decide
    have s93 : isSpace (93 : Byte) = false := by decide
    have s44 : isSpace (44 : Byte) = false := by decide
    have v93 : (93 : Byte).val = 93 := by decide
    have n93 : ¬ (93 : Byte).val = 44 := by decide
    have v44 : (44 : Byte).val = 44 := by decide
    rw [parseElems_succ, parseValue_ws _ _ _ _ h1]
    cases hes : es with
    | nil =>
      have hv := parse_render st hst e k depth d (ws2 ++ 93 :: rest) (by omega) (by omega)
        (delimStart_ws ws2 93 rest h2 d93)
      have etext : renderSeq st d [e] ++ (ws2 ++ 93 :: rest)
          = render st d e ++ (ws2 ++ 93 :: rest) := by
        simp [renderSeq, renderElems]
      rw [etext, hv]
      simp only [skipWs_ws_head ws2 93 rest h2 s93, toSynElems]
      rw [if_neg n93, if_pos v93]
    | cons e2 es2 =>
      have hne : es ≠ [] := by rw [hes]; simp
      have ih := parse_render_elems st hst es k depth d (st.nl d) ws2 rest hne (by omega)
        (by omega) (hst.1 _) h2
      rw [hes] at ih
      have etext : renderSeq st d (e :: e2 :: es2) ++ (ws2 ++ 93 :: rest)
          = render st d e ++ (44 :: (st.nl d ++ (renderSeq st d (e2 :: es2)
              ++ (ws2 ++ 93 :: rest)))) := by
        simp [renderSeq, renderElems]
      have hv := parse_render st hst e k depth d
        (44 :: (st.nl d ++ (renderSeq st d (e2 :: es2) ++ (ws2 ++ 93 :: rest))))
        (by omega) (by omega) (Or.inr ⟨44, _, rfl, d44⟩)
      rw [etext, hv]
      simp only [skipWs_head _ _ s44, v44, if_true, ih, Option.map_some', toSynElems]
theorem parse_render_members (st : Style) (hst : st.plain) :
    (l : List (List Char × JValue)) →
    ∀ (fuel depth d : Nat) (ws1 ws2 rest : List Byte), l ≠ [] → needMembers l ≤ fuel →
      depth + nestMembers l ≤ maxNestingDepth → wsOnly ws1 → wsOnly ws2 →
      parseMembers fuel depth (ws1 ++ (renderMemberSeq st d l ++ (ws2 ++ 125 :: rest)))
        = some (toSynMembers l, rest)
  | [] => by
    intro fuel depth d ws1 ws2 rest hne
    exact absurd rfl hne
  | (key, v) :: ms => by
    intro fuel depth d ws1 ws2 rest _ hf hd h1 h2
    simp only [needMembers, nestMembers] at hf hd
    obtain ⟨k, rfl⟩ : ∃ k, fuel = k + 1 := ⟨fuel - 1, by omega⟩
    obtain ⟨ws, hcolon, hws⟩ := hst.2
    have d125 : isDelim (125 : Byte) = true := by decide
    have d44 : isDelim (44 : Byte) = true := by decide
    have s125 : isSpace (125 : Byte) = false := by decide
    have s44 : isSpace (44 : Byte) = false := by decide
    have s34 : isSpace (34 : Byte) = false := by decide
    have s58 : isSpace (58 : Byte) = false := by decide
    have v125 : (125 : Byte).val = 125 := by decide
    have n125 : ¬ (125 : Byte).val = 44 := by decide
    have v44 : (44 : Byte).val = 44 := by decide
    have v34 : (34 : Byte).val = 34 := by decide
    have v58 : (58 : Byte).val = 58 := by decide
    rw [parseMembers_succ, skipWs_ws _ _ h1]
    have hkey : ∀ X, scanString (key.flatMap quoteChar ++ 34 :: X)
        = some (key.flatMap quoteChar, X) := fun X => scanString_quoted key X
    cases hms : ms with
    | nil =>
      have hv := parse_render st hst v k depth d (ws2 ++ 125 :: rest) (by omega) (by omega)
        (delimStart_ws ws2 125 rest h2 d125)
      have etext : renderMemberSeq st d [(key, v)] ++ (ws2 ++ 125 :: rest)
          = 34 :: (key.flatMap quoteChar ++ 34 :: (58 :: (ws ++ (render st d v
              ++ (ws2 ++ 125 :: rest))))) := by
        simp [renderMemberSeq, renderMembers, quote, hcolon]
      rw [etext, skipWs_head _ _ s34]
      simp only [v34, if_true, hkey, skipWs_head _ _ s58, v58, parseValue_ws _ _ _ _ hws, hv]
      simp only [skipWs_ws_head ws2 125 rest h2 s125, toSynMembers]
      rw [if_neg n125, if_pos v125]
    | cons m2 ms2 =>
      have hne : ms ≠ [] := by rw [hms]; simp
      have ih := parse_render_members st hst ms k depth d (st.nl d) ws2 rest hne (by omega)
        (by omega) (hst.1 _) h2
      rw [hms] at ih
      obtain ⟨k2, v2⟩ := m2
      have etext : renderMemberSeq st d ((key, v) :: (k2, v2) :: ms2) ++ (ws2 ++ 125 :: rest)
          = 34 :: (key.flatMap quoteChar ++ 34 :: (58 :: (ws ++ (render st d v
              ++ (44 :: (st.nl d ++ (renderMemberSeq st d ((k2, v2) :: ms2)
                ++ (ws2 ++ 125 :: rest)))))))) := by
        simp [renderMemberSeq, renderMembers, quote, hcolon]
      have hv := parse_render st hst v k depth d
        (44 :: (st.nl d ++ (renderMemberSeq st d ((k2, v2) :: ms2) ++ (ws2 ++ 125 :: rest))))
        (by omega) (by omega) (Or.inr ⟨44, _, rfl, d44⟩)
      rw [etext, skipWs_head _ _ s34]
      simp only [v34, if_true, hkey, skipWs_head _ _ s58, v58, parseValue_ws _ _ _ _ hws, hv,
        skipWs_head _ _ s44, v44, ih, Option.map_some', toSynMembers]
end


theorem keyLt_irrefl (a : List Char) : keyLt a a = false := by
  induction a with
  | nil => rfl
  | cons c a ih => simp [keyLt, ih]

theorem char_toNat_inj (a b : Char) (h : a.toNat = b.toNat) : a = b := by
  rw [← Char.ofNat_toNat a, ← Char.ofNat_toNat b, h]

theorem keyLt_trans : ∀ (a b c : List Char), keyLt a b = true → keyLt b c = true →
    keyLt a c = true := by
  intro a
  induction a with
  | nil =>
    intro b c h1 h2
    cases b with
    | nil => simp [keyLt] at h1
    | cons y b =>
      cases c with
      | nil => simp [keyLt] at h2
      | cons z c => rfl
  | cons x a ih =>
    intro b c h1 h2
    cases b with
    | nil => simp [keyLt] at h1
    | cons y b =>
      cases c with
      | nil => simp [keyLt] at h2
      | cons z c =>
        simp only [keyLt, Bool.or_eq_true, decide_eq_true_eq, Bool.and_eq_true] at h1 h2 ⊢
        rcases h1 with h1 | ⟨e1, r1⟩
        · rcases h2 with h2 | ⟨e2, r2⟩
          · left; omega
          · left; omega
        · rcases h2 with h2 | ⟨e2, r2⟩
          · left; omega
          · right; exact ⟨by omega, ih b c r1 r2⟩

theorem keyLt_total : ∀ (a b : List Char), keyLt a b = true ∨ a = b ∨ keyLt b a = true := by
  intro a
  induction a with
  | nil =>
    intro b
    cases b with
    | nil => exact Or.inr (Or.inl rfl)
    | cons y b => exact Or.inl rfl
  | cons x a ih =>
    intro b
    cases b with
    | nil => exact Or.inr (Or.inr rfl)
    | cons y b =>
      simp only [keyLt, Bool.or_eq_true, decide_eq_true_eq, Bool.and_eq_true, List.cons.injEq]
      rcases Nat.lt_trichotomy x.toNat y.toNat with h | h | h
      · exact Or.inl (Or.inl h)
      · rcases ih b with r | r | r
        · exact Or.inl (Or.inr ⟨h, r⟩)
        · exact Or.inr (Or.inl ⟨char_toNat_inj x y h, r⟩)
        · exact Or.inr (Or.inr (Or.inr ⟨h.symm, r⟩))
      · exact Or.inr (Or.inr (Or.inl h))

theorem keyLt_asymm (a b : List Char) (h : keyLt a b = true) : keyLt b a = false := by
  cases hb : keyLt b a with
  | false => rfl
  | true =>
    have := keyLt_trans a b a h hb
    rw [keyLt_irrefl] at this
    cases this

theorem keyLt_ne (a b : List Char) (h : keyLt a b = true) : a ≠ b := by
  intro e
  subst e
  rw [keyLt_irrefl] at h
  cases h

theorem insertMember_nil (key : List Char) (v : JValue) :
    insertMember key v [] = [(key, v)] := rfl

theorem insertMember_cons (key : List Char) (v : JValue) (k : List Char) (w : JValue)
    (rest : List (List Char × JValue)) :
    insertMember key v ((k, w) :: rest) =
      if keyLt key k then (key, v) :: (k, w) :: rest
      else if key = k then (key, v) :: rest
      else (k, w) :: insertMember key v rest := rfl

theorem insertMember_keys (key : List Char) (v : JValue) (acc : List (List Char × JValue))
    (b : List Char) (hb : b ∈ (insertMember key v acc).map Prod.fst) :
    b = key ∨ b ∈ acc.map Prod.fst := by
  induction acc with
  | nil =>
    simp only [insertMember_nil, List.map_cons, List.map_nil, List.mem_singleton] at hb
    exact Or.inl hb
  | cons p rest ih =>
    obtain ⟨k, w⟩ := p
    rw [insertMember_cons] at hb
    split_ifs at hb with h1 h2
    · simp only [List.map_cons, List.mem_cons] at hb ⊢
      tauto
    · simp only [List.map_cons, List.mem_cons] at hb ⊢
      rcases hb with hb | hb
      · exact Or.inl hb
      · exact Or.inr (Or.inr hb)
    · simp only [List.map_cons, List.mem_cons] at hb ⊢
      rcases hb with hb | hb
      · exact Or.inr (Or.inl hb)
      · rcases ih hb with h | h
        · exact Or.inl h
        · exact Or.inr (Or.inr h)

theorem insertMember_sorted (key : List Char) (v : JValue) (acc : List (List Char × JValue))
    (h : keysSorted acc) : keysSorted (insertMember key v acc) := by
  unfold keysSorted at h ⊢
  induction acc with
  | nil => simp [insertMember_nil]
  | cons p rest ih =>
    obtain ⟨k, w⟩ := p
    simp only [List.map_cons, List.pairwise_cons] at h
    obtain ⟨hk, hrest⟩ := h
    rw [insertMember_cons]
    split_ifs with h1 h2
    · simp only [List.map_cons, List.pairwise_cons, List.mem_cons]
      refine ⟨?_, hk, hrest⟩
      rintro b (rfl | hb)
      · exact h1
      · exact keyLt_trans _ _ _ h1 (hk b hb)
    · subst h2
      simp only [List.map_cons, List.pairwise_cons]
      exact ⟨hk, hrest⟩
    · simp only [List.map_cons, List.pairwise_cons]
      refine ⟨?_, ih hrest⟩
      intro b hb
      rcases insertMember_keys key v rest b hb with rfl | hb
      · rcases keyLt_total b k with t | t | t
        · exact absurd t h1
        · exact absurd t h2
        · exact t
      · exact hk b hb

theorem insertMember_append (key : List Char) (v : JValue) (acc : List (List Char × JValue))
    (h : ∀ k ∈ acc.map Prod.fst, keyLt k key = true) :
    insertMember key v acc = acc ++ [(key, v)] := by
  induction acc with
  | nil => rfl
  | cons p rest ih =>
    obtain ⟨k, w⟩ := p
    have hk : keyLt k key = true := h k (by rw [List.map_cons]; exact List.mem_cons_self _ _)
    have n1 : ¬ keyLt key k = true := by rw [keyLt_asymm k key hk]; simp
    have n2 : ¬ key = k := fun e => keyLt_ne k key hk e.symm
    rw [insertMember_cons, if_neg n1, if_neg n2, ih (fun b hb => h b (by
      rw [List.map_cons]; exact List.mem_cons_of_mem _ hb))]
    rfl

theorem wellFormedMembers_cons (k : List Char) (v : JValue) (ms : List (List Char × JValue)) :
    wellFormedMembers ((k, v) :: ms) ↔ wellFormed v ∧ wellFormedMembers ms := by
  simp only [wellFormedMembers]

theorem wellFormedMembers_iff (ms : List (List Char × JValue)) :
    wellFormedMembers ms ↔ ∀ p ∈ ms, wellFormed p.2 := by
  induction ms with
  | nil =>
    constructor
    · intro _ p hp
      cases hp
    · intro _
      simp only [wellFormedMembers]
  | cons p ms ih =>
    obtain ⟨k, v⟩ := p
    rw [wellFormedMembers_cons, ih]
    constructor
    · rintro ⟨h1, h2⟩ q hq
      rcases List.mem_cons.1 hq with rfl | hq
      · exact h1
      · exact h2 q hq
    · intro h
      exact ⟨h (k, v) (List.mem_cons_self _ _), fun q hq => h q (List.mem_cons_of_mem _ hq)⟩

theorem insertMember_mem (key : List Char) (v : JValue) (acc : List (List Char × JValue))
    (p : List Char × JValue) (hp : p ∈ insertMember key v acc) : p = (key, v) ∨ p ∈ acc := by
  induction acc with
  | nil =>
    simp only [insertMember_nil, List.mem_singleton] at hp
    exact Or.inl hp
  | cons q rest ih =>
    obtain ⟨k, w⟩ := q
    rw [insertMember_cons] at hp
    split_ifs at hp with h1 h2
    · simp only [List.mem_cons] at hp ⊢
      tauto
    · simp only [List.mem_cons] at hp ⊢
      tauto
    · simp only [List.mem_cons] at hp ⊢
      rcases hp with hp | hp
      · exact Or.inr (Or.inl hp)
      · rcases ih hp with h | h
        · exact Or.inl h
        · exact Or.inr (Or.inr h)

theorem insertMember_wellFormed (key : List Char) (v : JValue)
    (acc : List (List Char × JValue)) (hv : wellFormed v) (h : wellFormedMembers acc) :
    wellFormedMembers (insertMember key v acc) := by
  rw [wellFormedMembers_iff] at h ⊢
  intro p hp
  rcases insertMember_mem key v acc p hp with rfl | hp
  · exact hv
  · exact h p hp

theorem nestMembers_cons (k : List Char) (v : JValue) (ms : List (List Char × JValue)) :
    nestMembers ((k, v) :: ms) = max (nest v) (nestMembers ms) := by
  simp only [nestMembers]

theorem nestMembers_le_iff (ms : List (List Char × JValue)) (n : Nat) :
    nestMembers ms ≤ n ↔ ∀ p ∈ ms, nest p.2 ≤ n := by
  induction ms with
  | nil =>
    constructor
    · intro _ p hp
      cases hp
    · intro _
      simp only [nestMembers]
      omega
  | cons p ms ih =>
    obtain ⟨k, v⟩ := p
    rw [nestMembers_cons, max_le_iff, ih]
    constructor
    · rintro ⟨h1, h2⟩ q hq
      rcases List.mem_cons.1 hq with rfl | hq
      · exact h1
      · exact h2 q hq
    · intro h
      exact ⟨h (k, v) (List.mem_cons_self _ _), fun q hq => h q (List.mem_cons_of_mem _ hq)⟩

theorem insertMember_nest (key : List Char) (v : JValue) (acc : List (List Char × JValue))
    (n : Nat) (hv : nest v ≤ n) (h : nestMembers acc ≤ n) :
    nestMembers (insertMember key v acc) ≤ n := by
  rw [nestMembers_le_iff] at h ⊢
  intro p hp
  rcases insertMember_mem key v acc p hp with rfl | hp
  · exact hv
  · exact h p hp


theorem parseFloat_canonical (lit : List Byte) (f : F64) (h : parseFloat lit = some f) :
    canonical f.mant f.exp := by
  unfold parseFloat at h
  simp only [Option.map_eq_some'] at h
  obtain ⟨mp, hmp, rfl⟩ := h
  unfold roundDecimal at hmp
  split_ifs at hmp
  · exact roundRatio_canonical _ _ (by positivity) mp.1 mp.2 hmp
  · exact roundRatio_canonical _ _ (by norm_num) mp.1 mp.2 hmp

theorem decodeMembers_nil (acc : List (List Char × JValue)) : decodeMembers acc [] = some acc := by
  simp only [decodeMembers]

theorem decodeMembers_cons (acc : List (List Char × JValue)) (key : List Byte) (e : JSyn)
    (ms : List (List Byte × JSyn)) :
    decodeMembers acc ((key, e) :: ms) =
      match decode e with
      | some v => decodeMembers (insertMember (unquote key) v acc) ms
      | none => none := rfl

theorem decodeElems_cons (e : JSyn) (es : List JSyn) :
    decodeElems (e :: es) =
      match decode e, decodeElems es with
      | some v, some vs => some (v :: vs)
      | _, _ => none := rfl

mutual
theorem decode_wf : (s : JSyn) → ∀ v, decode s = some v → wellFormed v ∧ nest v ≤ nest s
  | .null => by
    intro v h
    simp only [decode, Option.some.injEq] at h
    subst h
    exact ⟨by simp only [wellFormed], by simp only [nest]; omega⟩
  | .bool b => by
    intro v h
    simp only [decode, Option.some.injEq] at h
    subst h
    exact ⟨by simp only [wellFormed], by simp only [nest]; omega⟩
  | .number lit => by
    intro v h
    simp only [decode, Option.map_eq_some'] at h
    obtain ⟨f, hf, rfl⟩ := h
    exact ⟨by simp only [wellFormed]; exact parseFloat_canonical lit f hf,
      by simp only [nest]; omega⟩
  | .string raw => by
    intro v h
    simp only [decode, Option.some.injEq] at h
    subst h
    exact ⟨by simp only [wellFormed], by simp only [nest]; omega⟩
  | .array es => by
    intro v h
    simp only [decode, Option.map_eq_some'] at h
    obtain ⟨vs, hvs, rfl⟩ := h
    obtain ⟨w, n⟩ := decodeElems_wf es vs hvs
    exact ⟨by simp only [wellFormed]; exact w, by simp only [nest]; omega⟩
  | .object ms => by
    intro v h
    simp only [decode, Option.map_eq_some'] at h
    obtain ⟨r, hr, rfl⟩ := h
    obtain ⟨w, s, n⟩ := decodeMembers_wf ms [] r (nestMembers ms) hr
      (by simp only [wellFormedMembers]) (by simp [keysSorted])
      (by simp only [nestMembers]; omega) (le_refl _)
    exact ⟨by simp only [wellFormed]; exact ⟨w, s⟩, by simp only [nest]; omega⟩
theorem decodeElems_wf : (l : List JSyn) → ∀ vs, decodeElems l = some vs →
    wellFormedElems vs ∧ nestElems vs ≤ nestElems l
  | [] => by
    intro vs h
    simp only [decodeElems, Option.some.injEq] at h
    subst h
    exact ⟨by simp only [wellFormedElems], by simp only [nestElems]; omega⟩
  | e :: es => by
    intro vs h
    rw [decodeElems_cons] at h
    cases hd : decode e with
    | none => rw [hd] at h; simp at h
    | some v =>
      cases hes : decodeElems es with
      | none => rw [hd, hes] at h; simp at h
      | some vs2 =>
        rw [hd, hes] at h
        simp only [Option.some.injEq] at h
        subst h
        obtain ⟨w1, n1⟩ := decode_wf e v hd
        obtain ⟨w2, n2⟩ := decodeElems_wf es vs2 hes
        refine ⟨by simp only [wellFormedElems]; exact ⟨w1, w2⟩, ?_⟩
        simp only [nestElems]
        omega
theorem decodeMembers_wf : (l : List (List Byte × JSyn)) →
    ∀ (acc r : List (List Char × JValue)) (n : Nat), decodeMembers acc l = some r →
      wellFormedMembers acc → keysSorted acc → nestMembers acc ≤ n → nestMembers l ≤ n →
      wellFormedMembers r ∧ keysSorted r ∧ nestMembers r ≤ n
  | [] => by
    intro acc r n h w s n1 _
    rw [decodeMembers_nil] at h
    simp only [Option.some.injEq] at h
    subst h
    exact ⟨w, s, n1⟩
  | (key, e) :: ms => by
    intro acc r n h w s n1 n2
    rw [decodeMembers_cons] at h
    cases hd : decode e with
    | none => rw [hd] at h; simp at h
    | some v =>
      rw [hd] at h
      simp only [] at h
      obtain ⟨w1, m1⟩ := decode_wf e v hd
      simp only [nestMembers] at n2
      exact decodeMembers_wf ms (insertMember (unquote key) v acc) r n h
        (insertMember_wellFormed _ _ _ w1 w) (insertMember_sorted _ _ _ s)
        (insertMember_nest _ _ _ n (by omega) n1) (by omega)
end

mutual
theorem decode_toSyn : (v : JValue) → wellFormed v → decode (toSyn v) = some v
  | .null => by intro _; simp only [toSyn, decode]
  | .bool b => by intro _; simp only [toSyn, decode]
  | .number f => by
    intro h
    simp only [wellFormed] at h
    simp only [toSyn, decode, (formatFloat_spec f h).2, Option.map_some']
  | .string s => by
    intro _
    simp only [toSyn, decode, unquote, unquote_quoted]
  | .array es => by
    intro h
    simp only [wellFormed] at h
    simp only [toSyn, decode, decodeElems_toSyn es h, Option.map_some']
  | .object ms => by
    intro h
    simp only [wellFormed] at h
    have := decodeMembers_toSyn ms [] h.1 (by simpa using h.2)
    simp only [toSyn, decode, this, Option.map_some', List.nil_append]
theorem decodeElems_toSyn : (l : List JValue) → wellFormedElems l →
    decodeElems (toSynElems l) = some l
  | [] => by intro _; simp only [toSynElems, decodeElems]
  | e :: es => by
    intro h
    simp only [wellFormedElems] at h
    simp only [toSynElems]
    rw [decodeElems_cons, decode_toSyn e h.1, decodeElems_toSyn es h.2]
theorem decodeMembers_toSyn : (l : List (List Char × JValue)) →
    ∀ acc : List (List Char × JValue), wellFormedMembers l → keysSorted (acc ++ l) →
      decodeMembers acc (toSynMembers l) = some (acc ++ l)
  | [] => by
    intro acc _ _
    simp only [toSynMembers, decodeMembers_nil, List.append_nil]
  | (k, v) :: ms => by
    intro acc hw hs
    simp only [wellFormedMembers] at hw
    have hlt : ∀ a ∈ acc.map Prod.fst, keyLt a k = true := by
      intro a ha
      unfold keysSorted at hs
      rw [List.map_append, List.pairwise_append] at hs
      exact hs.2.2 a ha k (by rw [List.map_cons]; exact List.mem_cons_self _ _)
    have hs2 : keysSorted ((acc ++ [(k, v)]) ++ ms) := by
      rw [List.append_assoc]
      exact hs
    have ih := decodeMembers_toSyn ms (acc ++ [(k, v)]) hw.2 hs2
    simp only [toSynMembers]
    rw [decodeMembers_cons, decode_toSyn v hw.1]
    simp only [unquote, unquote_quoted]
    rw [insertMember_append k v acc hlt, ih, List.append_assoc]
    rfl
end


theorem parse_nest (fuel : Nat) :
    (∀ depth s syn rest, depth ≤ maxNestingDepth → parseValue fuel depth s = some (syn, rest) →
      depth + nest syn ≤ maxNestingDepth) ∧
    (∀ depth s l rest, depth ≤ maxNestingDepth → parseElems fuel depth s = some (l, rest) →
      depth + nestElems l ≤ maxNestingDepth) ∧
    (∀ depth s l rest, depth ≤ maxNestingDepth → parseMembers fuel depth s = some (l, rest) →
      depth + nestMembers l ≤ maxNestingDepth) := by
  induction fuel with
  | zero =>
    refine ⟨fun depth s syn rest _ h => ?_, fun depth s l rest _ h => ?_,
      fun depth s l rest _ h => ?_⟩
    · have : parseValue 0 depth s = none := rfl
      rw [this] at h; cases h
    · have : parseElems 0 depth s = none := rfl
      rw [this] at h; cases h
    · have : parseMembers 0 depth s = none := rfl
      rw [this] at h; cases h
  | succ k ih =>
    obtain ⟨ihv, ihe, ihm⟩ := ih
    refine ⟨fun depth s syn rest hd h => ?_, fun depth s l rest hd h => ?_,
      fun depth s l rest hd h => ?_⟩
    · rw [parseValue_succ] at h
      split at h
      · cases h
      · rename_i c rest0
        split_ifs at h with h1 h2 h3 h4 h5 h6 h7 h8 h9
        · split at h
          · rename_i d rest2
            split_ifs at h with h10
            · simp only [Option.some.injEq, Prod.mk.injEq] at h
              obtain ⟨rfl, -⟩ := h
              simp only [nest, nestMembers]
              omega
            · simp only [Option.map_eq_some', Prod.mk.injEq, Prod.exists] at h
              obtain ⟨l, r, hl, rfl, -⟩ := h
              have := ihm (depth + 1) _ l r (by omega) hl
              simp only [nest]
              omega
          · cases h
        · split at h
          · rename_i d rest2
            split_ifs at h with h10
            · simp only [Option.some.injEq, Prod.mk.injEq] at h
              obtain ⟨rfl, -⟩ := h
              simp only [nest, nestElems]
              omega
            · simp only [Option.map_eq_some', Prod.mk.injEq, Prod.exists] at h
              obtain ⟨l, r, hl, rfl, -⟩ := h
              have := ihe (depth + 1) _ l r (by omega) hl
              simp only [nest]
              omega
          · cases h
        · simp only [Option.map_eq_some', Prod.mk.injEq, Prod.exists] at h
          obtain ⟨l, r, -, rfl, -⟩ := h
          simp only [nest]
          omega
        · simp only [Option.map_eq_some', Prod.mk.injEq, Prod.exists] at h
          obtain ⟨l, r, -, rfl, -⟩ := h
          simp only [nest]
          omega
        · simp only [Option.some.injEq, Prod.mk.injEq] at h
          obtain ⟨rfl, -⟩ := h
          simp only [nest]
          omega
        · simp only [Option.some.injEq, Prod.mk.injEq] at h
          obtain ⟨rfl, -⟩ := h
          simp only [nest]
          omega
        · simp only [Option.some.injEq, Prod.mk.injEq] at h
          obtain ⟨rfl, -⟩ := h
          simp only [nest]
          omega
    · rw [parseElems_succ] at h
      split at h
      · cases h
      · rename_i v rest1 hv
        have nv := ihv depth s v rest1 hd hv
        split at h
        · rename_i c rest2
          split_ifs at h with h1 h2
          · simp only [Option.map_eq_some', Prod.mk.injEq, Prod.exists] at h
            obtain ⟨l2, r, hl, rfl, -⟩ := h
            have := ihe depth _ l2 r hd hl
            simp only [nestElems]
            omega
          · simp only [Option.some.injEq, Prod.mk.injEq] at h
            obtain ⟨rfl, -⟩ := h
            simp only [nestElems]
            omega
        · cases h
    · rw [parseMembers_succ] at h
      split at h
      · rename_i q rest0
        split_ifs at h with h1
        split at h
        · cases h
        · rename_i key rest1 hkey
          split at h
          · rename_i colon rest2
            split_ifs at h with h2
            split at h
            · cases h
            · rename_i v rest3 hv
              have nv := ihv depth _ v rest3 hd hv
              split at h
              · rename_i c rest4
                split_ifs at h with h3 h4
                · simp only [Option.map_eq_some', Prod.mk.injEq, Prod.exists] at h
                  obtain ⟨l2, r, hl, rfl, -⟩ := h
                  have := ihm depth _ l2 r hd hl
                  simp only [nestMembers]
                  omega
                · simp only [Option.some.injEq, Prod.mk.injEq] at h
                  obtain ⟨rfl, -⟩ := h
                  simp only [nestMembers]
                  omega
              · cases h
          · cases h
      · cases h

theorem formatFloat_ne_nil (f : F64) : 1 ≤ (formatFloat f).length := by
  obtain ⟨c, r, hr, -⟩ := number_head (formatFloat f) (formatFloat_scan f)
  rw [hr]
  simp

mutual
theorem need_le_length (st : Style) : (v : JValue) → ∀ d, need v ≤ (render st d v).length
  | .null => by intro d; simp [need, render]
  | .bool true => by intro d; simp [need, render]
  | .bool false => by intro d; simp [need, render]
  | .number f => by
    intro d
    simp only [need, render]
    exact formatFloat_ne_nil f
  | .string s => by intro d; simp [need, render, quote]
  | .array [] => by intro d; simp [need, needElems, render]
  | .array (e :: es) => by
    intro d
    have h1 := need_le_length st e (d + 1)
    have h2 := needElems_le_length st es (d + 1)
    simp only [need, needElems, render, List.length_cons, List.length_append, List.length_nil]
    omega
  | .object [] => by intro d; simp [need, needMembers, render]
  | .object ((k, v) :: ms) => by
    intro d
    have h1 := need_le_length st v (d + 1)
    have h2 := needMembers_le_length st ms (d + 1)
    simp only [need, needMembers, render, List.length_cons, List.length_append,
      List.length_nil]
    omega
theorem needElems_le_length (st : Style) : (l : List JValue) →
    ∀ d, needElems l ≤ (renderElems st d l).length
  | [] => by intro d; simp [needElems]
  | e :: es => by
    intro d
    have h1 := need_le_length st e d
    have h2 := needElems_le_length st es d
    simp only [needElems, renderElems, List.length_cons, List.length_append]
    omega
theorem needMembers_le_length (st : Style) : (l : List (List Char × JValue)) →
    ∀ d, needMembers l ≤ (renderMembers st d l).length
  | [] => by intro d; simp [needMembers]
  | (k, v) :: ms => by
    intro d
    have h1 := need_le_length st v d
    have h2 := needMembers_le_length st ms d
    simp only [needMembers, renderMembers, List.length_cons, List.length_append]
    omega
end

theorem compactStyle_plain : compactStyle.plain := by
  refine ⟨fun d b hb => ?_, [], rfl, fun b hb => ?_⟩
  · simp [compactStyle] at hb
  · cases hb

theorem indentStyle_plain : indentStyle.plain := by
  refine ⟨fun d b hb => ?_, [32], rfl, fun b hb => ?_⟩
  · simp only [indentStyle, List.mem_cons, List.mem_replicate] at hb
    rcases hb with rfl | ⟨-, rfl⟩ <;> decide
  · simp only [List.mem_singleton] at hb
    subst hb
    decide

theorem unmarshal_ok_iff (text : List Byte) (v : JValue) :
    unmarshal text = .ok v ↔ ∃ syn, parseText text = some syn ∧ decode syn = some v := by
  unfold unmarshal
  cases hp : parseText text with
  | none => simp
  | some syn =>
    cases hd : decode syn with
    | none => simp [hd]
    | some w => simp [hd]

theorem unmarshal_render (st : Style) (hst : st.plain) (text : List Byte) (v : JValue)
    (h : unmarshal text = .ok v) : unmarshal (render st 0 v) = .ok v := by
  obtain ⟨syn, hp, hd⟩ := (unmarshal_ok_iff text v).1 h
  have hn : nest syn ≤ maxNestingDepth := by
    unfold parseText at hp
    split at hp
    · cases hp
    · rename_i s rest hv
      split_ifs at hp
      simp only [Option.some.injEq] at hp
      subst hp
      have := (parse_nest _).1 0 text s rest (Nat.zero_le _) hv
      omega
  obtain ⟨hw, hnv⟩ := decode_wf syn v hd
  have hparse := parse_render st hst v ((render st 0 v).length + 1) 0 0 [] (by
    have := need_le_length st v 0
    omega) (by omega) (Or.inl rfl)
  rw [List.append_nil] at hparse
  rw [unmarshal_ok_iff]
  refine ⟨toSyn v, ?_, decode_toSyn v hw⟩
  unfold parseText
  rw [hparse]
  rfl


mutual
theorem decode_isSome : (s : JSyn) → numbersInRange s → ∃ v, decode s = some v
  | .null => fun _ => ⟨_, rfl⟩
  | .bool _ => fun _ => ⟨_, rfl⟩
  | .number lit => by
    intro h
    simp only [numbersInRange, Option.isSome_iff_exists] at h
    obtain ⟨f, hf⟩ := h
    exact ⟨.number f, by simp only [decode, hf, Option.map_some']⟩
  | .string _ => fun _ => ⟨_, rfl⟩
  | .array es => by
    intro h
    simp only [numbersInRange] at h
    obtain ⟨vs, hvs⟩ := decodeElems_isSome es h
    exact ⟨.array vs, by simp only [decode, hvs, Option.map_some']⟩
  | .object ms => by
    intro h
    simp only [numbersInRange] at h
    obtain ⟨r, hr⟩ := decodeMembers_isSome ms h []
    exact ⟨.object r, by simp only [decode, hr, Option.map_some']⟩
theorem decodeElems_isSome : (l : List JSyn) → numbersInRangeElems l →
    ∃ vs, decodeElems l = some vs
  | [] => fun _ => ⟨[], rfl⟩
  | e :: es => by
    intro h
    simp only [numbersInRangeElems] at h
    obtain ⟨v, hv⟩ := decode_isSome e h.1
    obtain ⟨vs, hvs⟩ := decodeElems_isSome es h.2
    exact ⟨v :: vs, by rw [decodeElems_cons, hv, hvs]⟩
theorem decodeMembers_isSome : (l : List (List Byte × JSyn)) → numbersInRangeMembers l →
    ∀ acc, ∃ r, decodeMembers acc l = some r
  | [] => fun _ acc => ⟨acc, decodeMembers_nil acc⟩
  | (key, e) :: ms => by
    intro h acc
    simp only [numbersInRangeMembers] at h
    obtain ⟨v, hv⟩ := decode_isSome e h.1
    obtain ⟨r, hr⟩ := decodeMembers_isSome ms h.2 (insertMember (unquote key) v acc)
    exact ⟨r, by rw [decodeMembers_cons, hv]; exact hr⟩
end

theorem runJSON_output (readFile : List Byte → Except String (List Byte)) (fl : JsonFlags)
    (input text : List Byte) (v : JValue) (hval : fl.jsonValidate = false)
    (hsrc : jsonSource readFile fl input = .ok text) (hv : unmarshal text = .ok v) :
    runJSON readFile fl input = .ok [jsonHeader fl input, render (jsonStyle fl) 0 v] := by
  unfold runJSON
  rw [hsrc]
  simp only [hv, hval, Bool.false_eq_true, if_false, jsonHeader, jsonStyle]
  cases fl.jsonMinify <;> cases fl.jsonFromFile <;> rfl

theorem jsonStyle_plain (fl : JsonFlags) : (jsonStyle fl).plain := by
  unfold jsonStyle
  split_ifs
  · exact compactStyle_plain
  · exact indentStyle_plain

/-! ## The scanner accepts the texts of the JSON grammar -/

theorem scanString_stringLit {raw : List Byte} (h : StringLit raw) (rest : List Byte) :
    scanStringLoop 0 (raw ++ 34 :: rest) = some (raw, rest) := by
  have e92 : (92 : Byte).val = 92 := by decide
  have n92 : (92 : Byte).val ≠ 34 := by decide
  induction h with
  | nil =>
    have e : (34 : Byte).val = 34 := by decide
    simp [scanStringLoop_zero, e]
  | char c r h32 h34 h92 _ ih =>
    have htok : scansAsToken [c] := by
      refine ⟨c, [], rfl, h34, fun t => ?_⟩
      have h2 : ¬ c.val < 32 := by omega
      simp [stringToken, h92, h2]
    have h := scanStringLoop_token [c] htok (r ++ 34 :: rest)
    simp only [List.cons_append, List.nil_append] at h ⊢
    rw [h, ih]
    rfl
  | escape e r he _ ih =>
    have htok : scansAsToken [92, e] := by
      refine ⟨92, [e], rfl, n92, fun t => ?_⟩
      simp [stringToken, he, e92]
    have h := scanStringLoop_token [92, e] htok (r ++ 34 :: rest)
    simp only [List.cons_append, List.nil_append] at h ⊢
    rw [h, ih]
    rfl
  | unicode h1 h2 h3 h4 r a1 a2 a3 a4 _ ih =>
    have e3 : isSimpleEscape (117 : Byte) = false := by decide
    have e4 : (117 : Byte).val = 117 := by decide
    have htok : scansAsToken [92, 117, h1, h2, h3, h4] := by
      refine ⟨92, [117, h1, h2, h3, h4], rfl, n92, fun t => ?_⟩
      simp [stringToken, e3, a1, a2, a3, a4, e92, e4]
    have h := scanStringLoop_token [92, 117, h1, h2, h3, h4] htok (r ++ 34 :: rest)
    simp only [List.cons_append, List.nil_append] at h ⊢
    rw [h, ih]
    rfl

theorem isDigitB_false_of (b : Byte) (h : b.val < 48 ∨ 57 < b.val) : isDigitB b = false := by
  cases hx : isDigitB b with
  | false => rfl
  | true => rw [isDigitB_iff] at hx; omega

theorem scan_expLit (ex : List Byte) (h : expLit ex) (st : NumState)
    (hst : st = .zero ∨ st = .int ∨ st = .frac) :
    scanNumberFrom st ex = some (ex, []) := by
  rcases h with rfl | ⟨e, sign, ds, rfl, he, hsign, hne, hds⟩
  · rcases hst with rfl | rfl | rfl <;> rfl
  · have hde : isDigitB e = false := isDigitB_false_of e (by omega)
    have n46 : ¬ e.val = 46 := by omega
    have s1 : numStep st e = some .exp := by
      rcases hst with rfl | rfl | rfl <;> simp [numStep, hde, n46, he]
    cases ds with
    | nil => exact absurd rfl hne
    | cons d ds =>
      have hd := hds d (List.mem_cons_self _ _)
      obtain ⟨d45, -, -, -, d43⟩ := isDigitB_not d hd
      have h4 := scan_digits .expDigits (fun b hb => (numStep_digit b hb).2.2.1) ds []
        (fun b hb => hds b (List.mem_cons_of_mem _ hb))
      rw [List.append_nil] at h4
      have hend : scanNumberFrom .expDigits ds = some (ds, []) := by
        rw [h4, scanNumberFrom_nil]; simp [numEnd]
      have s3 : numStep .expSign d = some .expDigits := (numStep_digit d hd).2.2.2.1
      have s3b : numStep .exp d = some .expDigits := by
        have : ¬ (d.val = 43 ∨ d.val = 45) := by omega
        simp [numStep, this, hd]
      rw [scanNumberFrom_step _ _ _ _ s1]
      rcases hsign with rfl | rfl | rfl
      · rw [List.nil_append, scanNumberFrom_step _ _ _ _ s3b, hend]
        rfl
      · have s2 : numStep .exp 43 = some .expSign := by decide
        rw [List.singleton_append, scanNumberFrom_step _ _ _ _ s2,
          scanNumberFrom_step _ _ _ _ s3, hend]
        rfl
      · have s2 : numStep .exp 45 = some .expSign := by decide
        rw [List.singleton_append, scanNumberFrom_step _ _ _ _ s2,
          scanNumberFrom_step _ _ _ _ s3, hend]
        rfl

theorem scan_fracLit (frac ex : List Byte) (hf : fracLit frac) (he : expLit ex) (st : NumState)
    (hst : st = .zero ∨ st = .int) :
    scanNumberFrom st (frac ++ ex) = some (frac ++ ex, []) := by
  rcases hf with rfl | ⟨ds, rfl, hne, hds⟩
  · exact scan_expLit ex he st (by tauto)
  · have s1 : numStep st 46 = some .dot := by rcases hst with rfl | rfl <;> decide
    cases ds with
    | nil => exact absurd rfl hne
    | cons d ds =>
      have hd := hds d (List.mem_cons_self _ _)
      have s2 : numStep .dot d = some .frac := by simp [numStep, hd]
      have h4 := scan_digits .frac (fun b hb => (numStep_digit b hb).2.1) ds ex
        (fun b hb => hds b (List.mem_cons_of_mem _ hb))
      rw [List.cons_append, List.cons_append, scanNumberFrom_step _ _ _ _ s1,
        scanNumberFrom_step _ _ _ _ s2, h4, scan_expLit ex he .frac (by tauto)]
      rfl

theorem scan_intLit (int tail : List Byte) (hi : intLit int) (st : NumState)
    (hst : st = .start ∨ st = .neg)
    (htail : ∀ st2, st2 = .zero ∨ st2 = .int → scanNumberFrom st2 tail = some (tail, [])) :
    scanNumberFrom st (int ++ tail) = some (int ++ tail, []) := by
  rcases hi with rfl | ⟨d, ds, rfl, hd, h48, hds⟩
  · have s1 : numStep st 48 = some .zero := by rcases hst with rfl | rfl <;> decide
    rw [List.singleton_append, scanNumberFrom_step _ _ _ _ s1, htail .zero (Or.inl rfl)]
    rfl
  · obtain ⟨-, -, -, -, nz, -⟩ := numStep_digit d hd
    have s1 : numStep st d = some .int := by
      rcases hst with rfl | rfl
      · exact (nz h48).1
      · exact (nz h48).2
    have h4 := scan_digits .int (fun b hb => (numStep_digit b hb).1) ds tail hds
    rw [List.cons_append, scanNumberFrom_step _ _ _ _ s1, h4, htail .int (Or.inr rfl)]
    rfl

theorem scanNumber_numberLit (lit : List Byte) (h : NumberLit lit) :
    scanNumber lit = some (lit, []) := by
  obtain ⟨sign, int, frac, ex, rfl, hsign, hi, hf, he⟩ := h
  unfold scanNumber
  rcases hsign with rfl | rfl
  · rw [List.nil_append]
    exact scan_intLit int _ hi .start (Or.inl rfl) (fun st2 h2 => scan_fracLit frac ex hf he st2 h2)
  · have s1 : numStep .start 45 = some .neg := by decide
    rw [List.singleton_append, scanNumberFrom_step _ _ _ _ s1,
      scan_intLit int _ hi .neg (Or.inr rfl) (fun st2 h2 => scan_fracLit frac ex hf he st2 h2)]
    rfl

theorem parse_stringLit (fuel depth : Nat) (raw : List Byte) (h : StringLit raw)
    (rest : List Byte) :
    parseValue (fuel + 1) depth (34 :: (raw ++ [34]) ++ rest) = some (.string raw, rest) := by
  have hs := scanString_stringLit h rest
  have e : 34 :: (raw ++ [34]) ++ rest = 34 :: (raw ++ 34 :: rest) := by simp
  have s34 : isSpace (34 : Byte) = false := by decide
  have v34 : (34 : Byte).val = 34 := by decide
  rw [e, parseValue_succ, skipWs_head _ _ s34]
  simp only [v34, scanString, hs]
  rfl

theorem parse_numberLit (fuel depth : Nat) (lit : List Byte) (h : NumberLit lit)
    (rest : List Byte) (hrest : delimStart rest) :
    parseValue (fuel + 1) depth (lit ++ rest) = some (.number lit, rest) := by
  have hscan := scanNumber_numberLit lit h
  obtain ⟨c, r, hr, hc⟩ := number_head lit hscan
  have happ := scanNumberFrom_append lit .start rest hscan
    (endsNumber_of_delimStart rest hrest)
  have hv : c.val = 45 ∨ (48 ≤ c.val ∧ c.val ≤ 57) := by
    rcases hc with h | h
    · exact Or.inl h
    · exact Or.inr ((isDigitB_iff c).1 h)
  have hs : isSpace c = false := by
    cases hs : isSpace c with
    | false => rfl
    | true =>
      simp only [isSpace, Bool.or_eq_true, decide_eq_true_eq] at hs
      omega
  have n123 : ¬ c.val = 123 := by omega
  have n91 : ¬ c.val = 91 := by omega
  have n34 : ¬ c.val = 34 := by omega
  subst hr
  rw [List.cons_append] at happ ⊢
  rw [parseValue_succ, skipWs_head _ _ hs]
  simp only [n123, n91, n34, if_false, hc, if_true, scanNumber, happ]
  rfl

theorem valueText_head {syn : JSyn} {t : List Byte} (h : ValueText syn t) :
    ∃ c r, t = c :: r ∧ isSpace c = false ∧ c.val ≠ 93 ∧ c.val ≠ 125 := by
  cases h with
  | null => exact ⟨110, _, rfl, by decide, by decide, by decide⟩
  | true => exact ⟨116, _, rfl, by decide, by decide, by decide⟩
  | false => exact ⟨102, _, rfl, by decide, by decide, by decide⟩
  | number hn =>
    obtain ⟨c, r, hr, hc⟩ := number_head _ (scanNumber_numberLit _ hn)
    refine ⟨c, r, hr, ?_⟩
    have hv : c.val = 45 ∨ (48 ≤ c.val ∧ c.val ≤ 57) := by
      rcases hc with h | h
      · exact Or.inl h
      · exact Or.inr ((isDigitB_iff c).1 h)
    refine ⟨?_, by omega, by omega⟩
    cases hs : isSpace c with
    | false => rfl
    | true =>
      simp only [isSpace, Bool.or_eq_true, decide_eq_true_eq] at hs
      omega
  | string _ => exact ⟨34, _, rfl, by decide, by decide, by decide⟩
  | emptyArray _ => exact ⟨91, _, rfl, by decide, by decide, by decide⟩
  | array _ => exact ⟨91, _, rfl, by decide, by decide, by decide⟩
  | emptyObject _ => exact ⟨123, _, rfl, by decide, by decide, by decide⟩
  | object _ => exact ⟨123, _, rfl, by decide, by decide, by decide⟩

theorem elemsText_head {es : List JSyn} {body : List Byte} (h : ElemsText es body)
    (tail : List Byte) :
    ∃ c r, skipWs (body ++ tail) = c :: r ∧ c.val ≠ 93 := by
  cases h with
  | last h1 h2 hv =>
    obtain ⟨c, r, rfl, hc, h93, -⟩ := valueText_head hv
    rw [List.append_assoc, skipWs_ws _ _ h1, List.append_assoc, List.cons_append]
    exact ⟨c, _, skipWs_head _ _ hc, h93⟩
  | cons h1 h2 hv _ =>
    obtain ⟨c, r, rfl, hc, h93, -⟩ := valueText_head hv
    rw [List.append_assoc, skipWs_ws _ _ h1, List.append_assoc, List.cons_append]
    exact ⟨c, _, skipWs_head _ _ hc, h93⟩

theorem membersText_head {ms : List (List Byte × JSyn)} {body : List Byte}
    (h : MembersText ms body) (tail : List Byte) :
    ∃ r, skipWs (body ++ tail) = 34 :: r := by
  have s34 : isSpace (34 : Byte) = false := by decide
  cases h with
  | last h1 _ _ _ _ _ =>
    rw [List.append_assoc, skipWs_ws _ _ h1, List.cons_append]
    exact ⟨_, skipWs_head _ _ s34⟩
  | cons h1 _ _ _ _ _ _ =>
    rw [List.append_assoc, skipWs_ws _ _ h1, List.cons_append]
    exact ⟨_, skipWs_head _ _ s34⟩

theorem parse_valueText {syn : JSyn} {t : List Byte} (h : ValueText syn t) :
    ∀ (fuel depth : Nat) (rest : List Byte), need syn ≤ fuel →
      depth + nest syn ≤ maxNestingDepth → delimStart rest →
      parseValue fuel depth (t ++ rest) = some (syn, rest) := by
  have s91 : isSpace (91 : Byte) = false := by decide
  have v91 : (91 : Byte).val = 91 := by decide
  have s93 : isSpace (93 : Byte) = false := by decide
  have v93 : (93 : Byte).val = 93 := by decide
  have s123 : isSpace (123 : Byte) = false := by decide
  have v123 : (123 : Byte).val = 123 := by decide
  have s125 : isSpace (125 : Byte) = false := by decide
  have v125 : (125 : Byte).val = 125 := by decide
  have s34 : isSpace (34 : Byte) = false := by decide
  have v34 : (34 : Byte).val = 34 := by decide
  have n34 : ¬ (34 : Byte).val = 125 := by decide
  have s58 : isSpace (58 : Byte) = false := by decide
  have v58 : (58 : Byte).val = 58 := by decide
  have s44 : isSpace (44 : Byte) = false := by decide
  have v44 : (44 : Byte).val = 44 := by decide
  have d93 : isDelim (93 : Byte) = true := by decide
  have d125 : isDelim (125 : Byte) = true := by decide
  have d44 : isDelim (44 : Byte) = true := by decide
  have n93 : ¬ (93 : Byte).val = 44 := by decide
  have n125 : ¬ (125 : Byte).val = 44 := by decide
  refine ValueText.rec
    (motive_1 := fun syn t _ => ∀ (fuel depth : Nat) (rest : List Byte), need syn ≤ fuel →
      depth + nest syn ≤ maxNestingDepth → delimStart rest →
      parseValue fuel depth (t ++ rest) = some (syn, rest))
    (motive_2 := fun es body _ => ∀ (fuel depth : Nat) (rest : List Byte),
      needElems es ≤ fuel → depth + nestElems es ≤ maxNestingDepth →
      parseElems fuel depth (body ++ 93 :: rest) = some (es, rest))
    (motive_3 := fun ms body _ => ∀ (fuel depth : Nat) (rest : List Byte),
      needMembers ms ≤ fuel → depth + nestMembers ms ≤ maxNestingDepth →
      parseMembers fuel depth (body ++ 125 :: rest) = some (ms, rest))
    ?_ ?_ ?_ ?_ ?_ ?_ ?_ ?_ ?_ ?_ ?_ ?_ ?_ h
  · intro fuel depth rest hf _ _
    obtain ⟨k, rfl⟩ : ∃ k, fuel = k + 1 := ⟨fuel - 1, by simp only [need] at hf; omega⟩
    exact (parse_leaf k depth rest).1
  · intro fuel depth rest hf _ _
    obtain ⟨k, rfl⟩ : ∃ k, fuel = k + 1 := ⟨fuel - 1, by simp only [need] at hf; omega⟩
    exact (parse_leaf k depth rest).2.1
  · intro fuel depth rest hf _ _
    obtain ⟨k, rfl⟩ : ∃ k, fuel = k + 1 := ⟨fuel - 1, by simp only [need] at hf; omega⟩
    exact (parse_leaf k depth rest).2.2
  · intro lit hlit fuel depth rest hf _ hrest
    obtain ⟨k, rfl⟩ : ∃ k, fuel = k + 1 := ⟨fuel - 1, by simp only [need] at hf; omega⟩
    exact parse_numberLit k depth lit hlit rest hrest
  · intro raw hraw fuel depth rest hf _ _
    obtain ⟨k, rfl⟩ : ∃ k, fuel = k + 1 := ⟨fuel - 1, by simp only [need] at hf; omega⟩
    exact parse_stringLit k depth raw hraw rest
  · intro w hw fuel depth rest hf hd _
    simp only [need, nest, needElems, nestElems] at hf hd
    obtain ⟨k, rfl⟩ : ∃ k, fuel = k + 1 := ⟨fuel - 1, by omega⟩
    have hdepth : ¬ maxNestingDepth ≤ depth := by omega
    have etext : 91 :: (w ++ [93]) ++ rest = 91 :: (w ++ 93 :: rest) := by simp
    rw [etext, parseValue_succ, skipWs_head _ _ s91]
    simp only [v91, if_neg hdepth, skipWs_ws_head w 93 rest hw s93, v93]
    rfl
  · intro es body hel ih fuel depth rest hf hd _
    simp only [need, nest] at hf hd
    obtain ⟨k, rfl⟩ : ∃ k, fuel = k + 1 := ⟨fuel - 1, by omega⟩
    have hdepth : ¬ maxNestingDepth ≤ depth := by omega
    have etext : 91 :: (body ++ [93]) ++ rest = 91 :: (body ++ 93 :: rest) := by simp
    obtain ⟨c, r, hpeek, hc93⟩ := elemsText_head hel (93 :: rest)
    rw [etext, parseValue_succ, skipWs_head _ _ s91]
    simp only [v91, if_neg hdepth, hpeek, hc93, ih k (depth + 1) rest (by omega) (by omega)]
    rfl
  · intro w hw fuel depth rest hf hd _
    simp only [need, nest, needMembers, nestMembers] at hf hd
    obtain ⟨k, rfl⟩ : ∃ k, fuel = k + 1 := ⟨fuel - 1, by omega⟩
    have hdepth : ¬ maxNestingDepth ≤ depth := by omega
    have etext : 123 :: (w ++ [125]) ++ rest = 123 :: (w ++ 125 :: rest) := by simp
    rw [etext, parseValue_succ, skipWs_head _ _ s123]
    simp only [v123, if_true, if_neg hdepth, skipWs_ws_head w 125 rest hw s125, v125]
  · intro ms body hml ih fuel depth rest hf hd _
    simp only [need, nest] at hf hd
    obtain ⟨k, rfl⟩ : ∃ k, fuel = k + 1 := ⟨fuel - 1, by omega⟩
    have hdepth : ¬ maxNestingDepth ≤ depth := by omega
    have etext : 123 :: (body ++ [125]) ++ rest = 123 :: (body ++ 125 :: rest) := by simp
    obtain ⟨r, hpeek⟩ := membersText_head hml (125 :: rest)
    rw [etext, parseValue_succ, skipWs_head _ _ s123]
    simp only [v123, if_true, if_neg hdepth, hpeek, n34, if_false,
      ih k (depth + 1) rest (by omega) (by omega)]
    rfl
  · intro e t w1 w2 h1 h2 hv ihv fuel depth rest hf hd
    simp only [needElems, nestElems] at hf hd
    obtain ⟨k, rfl⟩ : ∃ k, fuel = k + 1 := ⟨fuel - 1, by omega⟩
    have etext : w1 ++ (t ++ w2) ++ 93 :: rest = w1 ++ (t ++ (w2 ++ 93 :: rest)) := by simp
    rw [etext, parseElems_succ, parseValue_ws _ _ _ _ h1,
      ihv k depth (w2 ++ 93 :: rest) (by omega) (by omega) (delimStart_ws w2 93 rest h2 d93)]
    simp only [skipWs_ws_head w2 93 rest h2 s93]
    rw [if_neg n93, if_pos v93]
  · intro e t w1 w2 es body h1 h2 hv hel ihv ih fuel depth rest hf hd
    simp only [needElems, nestElems] at hf hd
    obtain ⟨k, rfl⟩ : ∃ k, fuel = k + 1 := ⟨fuel - 1, by omega⟩
    have etext : w1 ++ (t ++ (w2 ++ 44 :: body)) ++ 93 :: rest
        = w1 ++ (t ++ (w2 ++ 44 :: (body ++ 93 :: rest))) := by simp
    rw [etext, parseElems_succ, parseValue_ws _ _ _ _ h1,
      ihv k depth (w2 ++ 44 :: (body ++ 93 :: rest)) (by omega) (by omega)
        (delimStart_ws w2 44 _ h2 d44)]
    simp only [skipWs_ws_head w2 44 _ h2 s44, v44, if_true,
      ih k depth rest (by omega) (by omega), Option.map_some']
  · intro key v t w1 w2 w3 w4 h1 h2 h3 h4 hkey hv ihv fuel depth rest hf hd
    simp only [needMembers, nestMembers] at hf hd
    obtain ⟨k, rfl⟩ : ∃ k, fuel = k + 1 := ⟨fuel - 1, by omega⟩
    have etext : w1 ++ (34 :: (key ++ (34 :: (w2 ++ (58 :: (w3 ++ (t ++ w4))))))) ++ 125 :: rest
        = w1 ++ (34 :: (key ++ 34 :: (w2 ++ 58 :: (w3 ++ (t ++ (w4 ++ 125 :: rest)))))) := by
      simp
    have hscan : ∀ X, scanString (key ++ 34 :: X) = some (key, X) :=
      fun X => scanString_stringLit hkey X
    rw [etext, parseMembers_succ, skipWs_ws _ _ h1, skipWs_head _ _ s34]
    simp only [v34, if_true, hscan, skipWs_ws_head w2 58 _ h2 s58, v58,
      parseValue_ws _ _ _ _ h3,
      ihv k depth (w4 ++ 125 :: rest) (by omega) (by omega) (delimStart_ws w4 125 rest h4 d125)]
    simp only [skipWs_ws_head w4 125 rest h4 s125]
    rw [if_neg n125, if_pos v125]
  · intro key v t w1 w2 w3 w4 ms body h1 h2 h3 h4 hkey hv hml ihv ih fuel depth rest hf hd
    simp only [needMembers, nestMembers] at hf hd
    obtain ⟨k, rfl⟩ : ∃ k, fuel = k + 1 := ⟨fuel - 1, by omega⟩
    have etext : w1 ++ (34 :: (key ++ (34 :: (w2 ++ (58 :: (w3 ++ (t ++ (w4 ++ 44 :: body))))))))
          ++ 125 :: rest
        = w1 ++ (34 :: (key ++ 34 :: (w2 ++ 58 :: (w3 ++ (t ++ (w4 ++ 44 ::
            (body ++ 125 :: rest))))))) := by
      simp
    have hscan : ∀ X, scanString (key ++ 34 :: X) = some (key, X) :=
      fun X => scanString_stringLit hkey X
    rw [etext, parseMembers_succ, skipWs_ws _ _ h1, skipWs_head _ _ s34]
    simp only [v34, if_true, hscan, skipWs_ws_head w2 58 _ h2 s58, v58,
      parseValue_ws _ _ _ _ h3,
      ihv k depth (w4 ++ 44 :: (body ++ 125 :: rest)) (by omega) (by omega)
        (delimStart_ws w4 44 _ h4 d44),
      skipWs_ws_head w4 44 _ h4 s44, v44, ih k depth rest (by omega) (by omega),
      Option.map_some']

theorem numberLit_ne_nil (lit : List Byte) (h : NumberLit lit) : lit ≠ [] := by
  obtain ⟨c, r, hr, -⟩ := number_head lit (scanNumber_numberLit lit h)
  rw [hr]
  simp

theorem need_le_valueText {syn : JSyn} {t : List Byte} (h : ValueText syn t) :
    need syn ≤ t.length := by
  refine ValueText.rec
    (motive_1 := fun syn t _ => need syn ≤ t.length)
    (motive_2 := fun es body _ => needElems es ≤ body.length + 1)
    (motive_3 := fun ms body _ => needMembers ms ≤ body.length + 1)
    ?_ ?_ ?_ ?_ ?_ ?_ ?_ ?_ ?_ ?_ ?_ ?_ ?_ h
  · simp [need]
  · simp [need]
  · simp [need]
  · intro lit hlit
    have := List.length_pos.2 (numberLit_ne_nil lit hlit)
    simp only [need]
    omega
  · intro raw _
    simp [need]
  · intro w _
    simp [need, needElems]
  · intro es body _ ih
    simp only [need, List.length_cons, List.length_append, List.length_nil]
    omega
  · intro w _
    simp [need, needMembers]
  · intro ms body _ ih
    simp only [need, List.length_cons, List.length_append, List.length_nil]
    omega
  · intro e t w1 w2 _ _ _ ihv
    simp only [needElems, List.length_append]
    omega
  · intro e t w1 w2 es body _ _ _ _ ihv ih
    simp only [needElems, List.length_append, List.length_cons]
    omega
  · intro key v t w1 w2 w3 w4 _ _ _ _ _ _ ihv
    simp only [needMembers, List.length_append, List.length_cons]
    omega
  · intro key v t w1 w2 w3 w4 ms body _ _ _ _ _ _ _ ihv ih
    simp only [needMembers, List.length_append, List.length_cons]
    omega

theorem skipWs_all (w : List Byte) (h : wsOnly w) : skipWs w = [] := by
  have := skipWs_ws w [] h
  rw [List.append_nil] at this
  rw [this]
  rfl

theorem delimStart_of_ws (w : List Byte) (h : wsOnly w) : delimStart w := by
  cases w with
  | nil => exact Or.inl rfl
  | cons b w => exact Or.inr ⟨b, w, rfl, isDelim_of_space b (h b (List.mem_cons_self _ _))⟩

/-- The scanner of `encoding/json` accepts every text of the JSON grammar in which arrays
and objects are nested at most `maxNestingDepth` deep, and finds its syntax tree. -/
theorem parseText_of_jsonText (text : List Byte) (syn : JSyn) (h : JsonText text syn)
    (hn : nest syn ≤ maxNestingDepth) : parseText text = some syn := by
  obtain ⟨w1, t, w2, h1, h2, hv, rfl⟩ := h
  have hlen := need_le_valueText hv
  have hp := parse_valueText hv ((w1 ++ (t ++ w2)).length + 1) 0 w2 (by
    simp only [List.length_append]; omega) (by omega) (delimStart_of_ws w2 h2)
  unfold parseText
  rw [parseValue_ws _ _ _ _ h1, hp]
  simp only [skipWs_all w2 h2, if_true]

/-! ## The scanner accepts only texts of the JSON grammar -/

theorem skipWs_split (s : List Byte) : ∃ w, wsOnly w ∧ s = w ++ skipWs s := by
  refine ⟨s.takeWhile isSpace, ?_, ?_⟩
  · intro b hb
    exact List.mem_takeWhile_imp hb
  · exact (List.takeWhile_append_dropWhile isSpace s).symm

theorem stringToken_cases (c : Byte) (s : List Byte) (width : Nat)
    (h : stringToken (c :: s) = some width) :
    (width = 1 ∧ 32 ≤ c.val ∧ c.val ≠ 92) ∨
    (width = 2 ∧ c.val = 92 ∧ ∃ e r, s = e :: r ∧ isSimpleEscape e = true) ∨
    (width = 6 ∧ c.val = 92 ∧ ∃ u h1 h2 h3 h4 r, s = u :: h1 :: h2 :: h3 :: h4 :: r ∧
      u.val = 117 ∧ isHexB h1 = true ∧ isHexB h2 = true ∧ isHexB h3 = true ∧
      isHexB h4 = true) := by
  unfold stringToken at h
  by_cases h92 : c.val = 92
  · simp only [h92, if_true] at h
    cases s with
    | nil => simp at h
    | cons e r =>
      simp only [] at h
      by_cases hse : isSimpleEscape e = true
      · simp only [hse, if_true, Option.some.injEq] at h
        exact Or.inr (Or.inl ⟨h.symm, h92, e, r, rfl, hse⟩)
      · simp only [hse, Bool.false_eq_true, if_false] at h
        by_cases hu : e.val = 117
        · simp only [hu, if_true] at h
          match r, h with
          | h1 :: h2 :: h3 :: h4 :: r2, h =>
            simp only [] at h
            split_ifs at h with hh
            simp only [Option.some.injEq] at h
            exact Or.inr (Or.inr ⟨h.symm, h92, e, h1, h2, h3, h4, r2, rfl, hu, hh.1, hh.2.1,
              hh.2.2.1, hh.2.2.2⟩)
          | [], h => simp at h
          | [_], h => simp at h
          | [_, _], h => simp at h
          | [_, _, _], h => simp at h
        · simp only [hu, if_false] at h
          cases h
  · simp only [h92, if_false] at h
    split_ifs at h with h32
    simp only [Option.some.injEq] at h
    exact Or.inl ⟨h.symm, by omega, h92⟩

theorem stringLit_of_scan : ∀ (n : Nat) (s raw rest : List Byte), s.length ≤ n →
    scanStringLoop 0 s = some (raw, rest) → s = raw ++ 34 :: rest ∧ StringLit raw := by
  intro n
  induction n with
  | zero =>
    intro s raw rest hlen h
    have : s = [] := List.length_eq_zero.1 (by omega)
    subst this
    simp [scanStringLoop] at h
  | succ n ih =>
    intro s raw rest hlen h
    cases s with
    | nil => simp [scanStringLoop] at h
    | cons c s =>
      rw [scanStringLoop_zero] at h
      simp only [List.length_cons] at hlen
      by_cases h34 : c.val = 34
      · simp only [h34, if_true, Option.some.injEq, Prod.mk.injEq] at h
        obtain ⟨rfl, rfl⟩ := h
        have hc : c = 34 := Fin.ext h34
        subst hc
        exact ⟨rfl, StringLit.nil⟩
      · simp only [h34, if_false] at h
        cases htok : stringToken (c :: s) with
        | none => simp [htok] at h
        | some width =>
          rw [htok] at h
          simp only [] at h
          rcases stringToken_cases c s width htok with ⟨rfl, h32, h92⟩ |
            ⟨rfl, h92, e, r, rfl, hse⟩ |
            ⟨rfl, h92, u, h1, h2, h3, h4, r, rfl, hu, a1, a2, a3, a4⟩
          · cases hr : scanStringLoop 0 s with
            | none => simp [hr] at h
            | some p =>
              obtain ⟨r1, r2⟩ := p
              simp only [hr, Nat.sub_self, Option.map_some', Option.some.injEq,
                Prod.mk.injEq] at h
              obtain ⟨rfl, rfl⟩ := h
              obtain ⟨e1, e2⟩ := ih s r1 r2 (by omega) hr
              exact ⟨by rw [e1]; rfl, StringLit.char c r1 h32 h34 h92 e2⟩
          · have hc : c = 92 := Fin.ext h92
            subst hc
            simp only [Nat.add_one_sub_one, scanStringLoop_succ] at h
            cases hr : scanStringLoop 0 r with
            | none => simp [hr] at h
            | some p =>
              obtain ⟨r1, r2⟩ := p
              simp only [hr, Option.map_some', Option.some.injEq, Prod.mk.injEq] at h
              obtain ⟨rfl, rfl⟩ := h
              simp only [List.length_cons] at hlen
              obtain ⟨e1, e2⟩ := ih r r1 r2 (by omega) hr
              exact ⟨by rw [e1]; rfl, StringLit.escape e r1 hse e2⟩
          · have hc : c = 92 := Fin.ext h92
            have hu2 : u = 117 := Fin.ext hu
            subst hc hu2
            simp only [Nat.add_one_sub_one, scanStringLoop_succ] at h
            cases hr : scanStringLoop 0 r with
            | none => simp [hr] at h
            | some p =>
              obtain ⟨r1, r2⟩ := p
              simp only [hr, Option.map_some', Option.some.injEq, Prod.mk.injEq] at h
              obtain ⟨rfl, rfl⟩ := h
              simp only [List.length_cons] at hlen
              obtain ⟨e1, e2⟩ := ih r r1 r2 (by omega) hr
              exact ⟨by rw [e1]; rfl, StringLit.unicode h1 h2 h3 h4 r1 a1 a2 a3 a4 e2⟩

theorem stringLit_of_scanString (s raw rest : List Byte)
    (h : scanString s = some (raw, rest)) : s = raw ++ 34 :: rest ∧ StringLit raw :=
  stringLit_of_scan s.length s raw rest (Nat.le_refl _) h

theorem scanNumberFrom_inv (st : NumState) (s r rest : List Byte)
    (h : scanNumberFrom st s = some (r, rest)) :
    (numEnd st = true ∧ r = [] ∧ rest = s ∧
      (s = [] ∨ ∃ c s2, s = c :: s2 ∧ numStep st c = none)) ∨
    (∃ c s2 st2 r2, s = c :: s2 ∧ numStep st c = some st2 ∧
      scanNumberFrom st2 s2 = some (r2, rest) ∧ r = c :: r2) := by
  cases s with
  | nil =>
    rw [scanNumberFrom_nil] at h
    split_ifs at h with he
    simp only [Option.some.injEq, Prod.mk.injEq] at h
    exact Or.inl ⟨he, h.1.symm, h.2.symm, Or.inl rfl⟩
  | cons c s2 =>
    rw [scanNumberFrom_cons] at h
    cases hs : numStep st c with
    | none =>
      rw [hs] at h
      simp only [] at h
      split_ifs at h with he
      simp only [Option.some.injEq, Prod.mk.injEq] at h
      exact Or.inl ⟨he, h.1.symm, h.2.symm, Or.inr ⟨c, s2, rfl, hs⟩⟩
    | some st2 =>
      rw [hs] at h
      simp only [] at h
      cases hr : scanNumberFrom st2 s2 with
      | none => simp [hr] at h
      | some p =>
        obtain ⟨r1, r2⟩ := p
        simp only [hr, Option.map_some', Option.some.injEq, Prod.mk.injEq] at h
        obtain ⟨rfl, rfl⟩ := h
        exact Or.inr ⟨c, s2, st2, r1, rfl, hs, hr, rfl⟩

theorem numStep_expDigits (c : Byte) (st2 : NumState) (h : numStep .expDigits c = some st2) :
    isDigitB c = true ∧ st2 = .expDigits := by
  simp only [numStep] at h
  split_ifs at h with hd
  simp only [Option.some.injEq] at h
  exact ⟨hd, h.symm⟩

theorem numStep_expSign (c : Byte) (st2 : NumState) (h : numStep .expSign c = some st2) :
    isDigitB c = true ∧ st2 = .expDigits := by
  simp only [numStep] at h
  split_ifs at h with hd
  simp only [Option.some.injEq] at h
  exact ⟨hd, h.symm⟩

theorem numStep_exp (c : Byte) (st2 : NumState) (h : numStep .exp c = some st2) :
    ((c.val = 43 ∨ c.val = 45) ∧ st2 = .expSign) ∨ (isDigitB c = true ∧ st2 = .expDigits) := by
  simp only [numStep] at h
  split_ifs at h with hs hd
  · simp only [Option.some.injEq] at h
    exact Or.inl ⟨hs, h.symm⟩
  · simp only [Option.some.injEq] at h
    exact Or.inr ⟨hd, h.symm⟩

theorem numStep_frac (c : Byte) (st2 : NumState) (h : numStep .frac c = some st2) :
    (isDigitB c = true ∧ st2 = .frac) ∨ ((c.val = 101 ∨ c.val = 69) ∧ st2 = .exp) := by
  simp only [numStep] at h
  split_ifs at h with hd he
  · simp only [Option.some.injEq] at h
    exact Or.inl ⟨hd, h.symm⟩
  · simp only [Option.some.injEq] at h
    exact Or.inr ⟨he, h.symm⟩

theorem numStep_dot (c : Byte) (st2 : NumState) (h : numStep .dot c = some st2) :
    isDigitB c = true ∧ st2 = .frac := by
  simp only [numStep] at h
  split_ifs at h with hd
  simp only [Option.some.injEq] at h
  exact ⟨hd, h.symm⟩

theorem numStep_int (c : Byte) (st2 : NumState) (h : numStep .int c = some st2) :
    (isDigitB c = true ∧ st2 = .int) ∨ (c.val = 46 ∧ st2 = .dot) ∨
      ((c.val = 101 ∨ c.val = 69) ∧ st2 = .exp) := by
  simp only [numStep] at h
  split_ifs at h with hd h46 he
  · simp only [Option.some.injEq] at h
    exact Or.inl ⟨hd, h.symm⟩
  · simp only [Option.some.injEq] at h
    exact Or.inr (Or.inl ⟨h46, h.symm⟩)
  · simp only [Option.some.injEq] at h
    exact Or.inr (Or.inr ⟨he, h.symm⟩)

theorem numStep_zero (c : Byte) (st2 : NumState) (h : numStep .zero c = some st2) :
    (c.val = 46 ∧ st2 = .dot) ∨ ((c.val = 101 ∨ c.val = 69) ∧ st2 = .exp) := by
  simp only [numStep] at h
  split_ifs at h with h46 he
  · simp only [Option.some.injEq] at h
    exact Or.inl ⟨h46, h.symm⟩
  · simp only [Option.some.injEq] at h
    exact Or.inr ⟨he, h.symm⟩

theorem numStep_neg (c : Byte) (st2 : NumState) (h : numStep .neg c = some st2) :
    (c.val = 48 ∧ st2 = .zero) ∨ (isDigitB c = true ∧ c.val ≠ 48 ∧ st2 = .int) := by
  simp only [numStep] at h
  split_ifs at h with h48 hd
  · simp only [Option.some.injEq] at h
    exact Or.inl ⟨h48, h.symm⟩
  · simp only [Option.some.injEq] at h
    exact Or.inr ⟨hd, h48, h.symm⟩

theorem numStep_start (c : Byte) (st2 : NumState) (h : numStep .start c = some st2) :
    (c.val = 45 ∧ st2 = .neg) ∨ (c.val = 48 ∧ st2 = .zero) ∨
      (isDigitB c = true ∧ c.val ≠ 48 ∧ st2 = .int) := by
  simp only [numStep] at h
  split_ifs at h with h45 h48 hd
  · simp only [Option.some.injEq] at h
    exact Or.inl ⟨h45, h.symm⟩
  · simp only [Option.some.injEq] at h
    exact Or.inr (Or.inl ⟨h48, h.symm⟩)
  · simp only [Option.some.injEq] at h
    exact Or.inr (Or.inr ⟨hd, h48, h.symm⟩)

theorem lit_expDigits (s : List Byte) : ∀ (r rest : List Byte),
    scanNumberFrom .expDigits s = some (r, rest) →
    s = r ++ rest ∧ ∀ b ∈ r, isDigitB b = true := by
  induction s with
  | nil =>
    intro r rest h
    rcases scanNumberFrom_inv _ _ _ _ h with ⟨-, rfl, rfl, -⟩ | ⟨c, s2, st2, r2, hs, -⟩
    · exact ⟨rfl, by simp⟩
    · cases hs
  | cons c s ih =>
    intro r rest h
    rcases scanNumberFrom_inv _ _ _ _ h with ⟨-, rfl, rfl, -⟩ | ⟨c2, s2, st2, r2, hs, hst, hr, rfl⟩
    · exact ⟨rfl, by simp⟩
    · simp only [List.cons.injEq] at hs
      obtain ⟨rfl, rfl⟩ := hs
      obtain ⟨hd, rfl⟩ := numStep_expDigits _ _ hst
      obtain ⟨e1, e2⟩ := ih r2 rest hr
      refine ⟨by rw [e1]; rfl, ?_⟩
      intro b hb
      rcases List.mem_cons.1 hb with rfl | hb
      · exact hd
      · exact e2 b hb

theorem lit_expSign (s r rest : List Byte) (h : scanNumberFrom .expSign s = some (r, rest)) :
    s = r ++ rest ∧ digitRun r := by
  rcases scanNumberFrom_inv _ _ _ _ h with ⟨he, -⟩ | ⟨c, s2, st2, r2, rfl, hst, hr, rfl⟩
  · cases he
  · obtain ⟨hd, rfl⟩ := numStep_expSign _ _ hst
    obtain ⟨e1, e2⟩ := lit_expDigits s2 r2 rest hr
    refine ⟨by rw [e1]; rfl, by simp, ?_⟩
    intro b hb
    rcases List.mem_cons.1 hb with rfl | hb
    · exact hd
    · exact e2 b hb

theorem lit_exp (s r rest : List Byte) (h : scanNumberFrom .exp s = some (r, rest)) :
    s = r ++ rest ∧ ∃ sign ds, r = sign ++ ds ∧ (sign = [] ∨ sign = [43] ∨ sign = [45]) ∧
      digitRun ds := by
  rcases scanNumberFrom_inv _ _ _ _ h with ⟨he, -⟩ | ⟨c, s2, st2, r2, rfl, hst, hr, rfl⟩
  · cases he
  · rcases numStep_exp _ _ hst with ⟨hc, rfl⟩ | ⟨hd, rfl⟩
    · obtain ⟨e1, e2⟩ := lit_expSign s2 r2 rest hr
      refine ⟨by rw [e1]; rfl, [c], r2, rfl, ?_, e2⟩
      rcases hc with hc | hc
      · exact Or.inr (Or.inl (by rw [show c = 43 from Fin.ext hc]))
      · exact Or.inr (Or.inr (by rw [show c = 45 from Fin.ext hc]))
    · obtain ⟨e1, e2⟩ := lit_expDigits s2 r2 rest hr
      refine ⟨by rw [e1]; rfl, [], c :: r2, rfl, Or.inl rfl, by simp, ?_⟩
      intro b hb
      rcases List.mem_cons.1 hb with rfl | hb
      · exact hd
      · exact e2 b hb

theorem expLit_of_exp (c : Byte) (hc : c.val = 101 ∨ c.val = 69) (s r rest : List Byte)
    (h : scanNumberFrom .exp s = some (r, rest)) : s = r ++ rest ∧ expLit (c :: r) := by
  obtain ⟨e1, sign, ds, rfl, hs, hd⟩ := lit_exp s r rest h
  exact ⟨e1, Or.inr ⟨c, sign, ds, rfl, hc, hs, hd⟩⟩

theorem lit_frac (s : List Byte) : ∀ (r rest : List Byte),
    scanNumberFrom .frac s = some (r, rest) →
    s = r ++ rest ∧ ∃ ds ex, r = ds ++ ex ∧ (∀ b ∈ ds, isDigitB b = true) ∧ expLit ex := by
  induction s with
  | nil =>
    intro r rest h
    rcases scanNumberFrom_inv _ _ _ _ h with ⟨-, rfl, rfl, -⟩ | ⟨c, s2, st2, r2, hs, -⟩
    · exact ⟨rfl, [], [], rfl, by simp, Or.inl rfl⟩
    · cases hs
  | cons c s ih =>
    intro r rest h
    rcases scanNumberFrom_inv _ _ _ _ h with ⟨-, rfl, rfl, -⟩ | ⟨c2, s2, st2, r2, hs, hst, hr, rfl⟩
    · exact ⟨rfl, [], [], rfl, by simp, Or.inl rfl⟩
    · simp only [List.cons.injEq] at hs
      obtain ⟨rfl, rfl⟩ := hs
      rcases numStep_frac _ _ hst with ⟨hd, rfl⟩ | ⟨he, rfl⟩
      · obtain ⟨e1, ds, ex, rfl, hds, hex⟩ := ih r2 rest hr
        refine ⟨by rw [e1]; rfl, c :: ds, ex, rfl, ?_, hex⟩
        intro b hb
        rcases List.mem_cons.1 hb with rfl | hb
        · exact hd
        · exact hds b hb
      · obtain ⟨e1, e2⟩ := expLit_of_exp c he s r2 rest hr
        exact ⟨by rw [e1]; rfl, [], c :: r2, rfl, by simp, e2⟩

theorem lit_dot (s r rest : List Byte) (h : scanNumberFrom .dot s = some (r, rest)) :
    s = r ++ rest ∧ ∃ ds ex, r = ds ++ ex ∧ digitRun ds ∧ expLit ex := by
  rcases scanNumberFrom_inv _ _ _ _ h with ⟨he, -⟩ | ⟨c, s2, st2, r2, rfl, hst, hr, rfl⟩
  · cases he
  · obtain ⟨hd, rfl⟩ := numStep_dot _ _ hst
    obtain ⟨e1, ds, ex, rfl, hds, hex⟩ := lit_frac s2 r2 rest hr
    refine ⟨by rw [e1]; rfl, c :: ds, ex, rfl, ⟨by simp, ?_⟩, hex⟩
    intro b hb
    rcases List.mem_cons.1 hb with rfl | hb
    · exact hd
    · exact hds b hb

theorem fracLit_of_dot (c : Byte) (hc : c.val = 46) (s r rest : List Byte)
    (h : scanNumberFrom .dot s = some (r, rest)) :
    s = r ++ rest ∧ ∃ frac ex, c :: r = frac ++ ex ∧ fracLit frac ∧ expLit ex := by
  obtain ⟨e1, ds, ex, rfl, hds, hex⟩ := lit_dot s r rest h
  have hc2 : c = 46 := Fin.ext hc
  subst hc2
  exact ⟨e1, 46 :: ds, ex, rfl, Or.inr ⟨ds, rfl, hds⟩, hex⟩

theorem lit_zero (s r rest : List Byte) (h : scanNumberFrom .zero s = some (r, rest)) :
    s = r ++ rest ∧ ∃ frac ex, r = frac ++ ex ∧ fracLit frac ∧ expLit ex := by
  rcases scanNumberFrom_inv _ _ _ _ h with ⟨-, rfl, rfl, -⟩ | ⟨c, s2, st2, r2, rfl, hst, hr, rfl⟩
  · exact ⟨rfl, [], [], rfl, Or.inl rfl, Or.inl rfl⟩
  · rcases numStep_zero _ _ hst with ⟨h46, rfl⟩ | ⟨he, rfl⟩
    · obtain ⟨e1, frac, ex, e2, hf, hex⟩ := fracLit_of_dot c h46 s2 r2 rest hr
      exact ⟨by rw [e1]; rfl, frac, ex, e2, hf, hex⟩
    · obtain ⟨e1, e2⟩ := expLit_of_exp c he s2 r2 rest hr
      exact ⟨by rw [e1]; rfl, [], c :: r2, rfl, Or.inl rfl, e2⟩

theorem lit_int (s : List Byte) : ∀ (r rest : List Byte),
    scanNumberFrom .int s = some (r, rest) →
    s = r ++ rest ∧ ∃ ds frac ex, r = ds ++ (frac ++ ex) ∧ (∀ b ∈ ds, isDigitB b = true) ∧
      fracLit frac ∧ expLit ex := by
  induction s with
  | nil =>
    intro r rest h
    rcases scanNumberFrom_inv _ _ _ _ h with ⟨-, rfl, rfl, -⟩ | ⟨c, s2, st2, r2, hs, -⟩
    · exact ⟨rfl, [], [], [], rfl, by simp, Or.inl rfl, Or.inl rfl⟩
    · cases hs
  | cons c s ih =>
    intro r rest h
    rcases scanNumberFrom_inv _ _ _ _ h with ⟨-, rfl, rfl, -⟩ | ⟨c2, s2, st2, r2, hs, hst, hr, rfl⟩
    · exact ⟨rfl, [], [], [], rfl, by simp, Or.inl rfl, Or.inl rfl⟩
    · simp only [List.cons.injEq] at hs
      obtain ⟨rfl, rfl⟩ := hs
      rcases numStep_int _ _ hst with ⟨hd, rfl⟩ | ⟨h46, rfl⟩ | ⟨he, rfl⟩
      · obtain ⟨e1, ds, frac, ex, rfl, hds, hf, hex⟩ := ih r2 rest hr
        refine ⟨by rw [e1]; rfl, c :: ds, frac, ex, rfl, ?_, hf, hex⟩
        intro b hb
        rcases List.mem_cons.1 hb with rfl | hb
        · exact hd
        · exact hds b hb
      · obtain ⟨e1, frac, ex, e2, hf, hex⟩ := fracLit_of_dot c h46 s r2 rest hr
        exact ⟨by rw [e1]; rfl, [], frac, ex, by rw [e2]; rfl, by simp, hf, hex⟩
      · obtain ⟨e1, e2⟩ := expLit_of_exp c he s r2 rest hr
        exact ⟨by rw [e1]; rfl, [], [], c :: r2, rfl, by simp, Or.inl rfl, e2⟩

theorem lit_body (c : Byte) (st2 : NumState)
    (hstep : (c.val = 48 ∧ st2 = .zero) ∨ (isDigitB c = true ∧ c.val ≠ 48 ∧ st2 = .int))
    (s r rest : List Byte) (h : scanNumberFrom st2 s = some (r, rest)) :
    s = r ++ rest ∧ ∃ int frac ex, c :: r = int ++ (frac ++ ex) ∧ intLit int ∧
      fracLit frac ∧ expLit ex := by
  rcases hstep with ⟨h48, rfl⟩ | ⟨hd, h48, rfl⟩
  · obtain ⟨e1, frac, ex, rfl, hf, hex⟩ := lit_zero s r rest h
    have hc : c = 48 := Fin.ext h48
    subst hc
    exact ⟨e1, [48], frac, ex, rfl, Or.inl rfl, hf, hex⟩
  · obtain ⟨e1, ds, frac, ex, rfl, hds, hf, hex⟩ := lit_int s r rest h
    exact ⟨e1, c :: ds, frac, ex, rfl, Or.inr ⟨c, ds, rfl, hd, h48, hds⟩, hf, hex⟩

theorem numberLit_of_scan (s lit rest : List Byte) (h : scanNumber s = some (lit, rest)) :
    s = lit ++ rest ∧ NumberLit lit := by
  unfold scanNumber at h
  rcases scanNumberFrom_inv _ _ _ _ h with ⟨he, -⟩ | ⟨c, s2, st2, r2, rfl, hst, hr, rfl⟩
  · cases he
  · rcases numStep_start _ _ hst with ⟨h45, rfl⟩ | hbody
    · have hc : c = 45 := Fin.ext h45
      subst hc
      rcases scanNumberFrom_inv _ _ _ _ hr with ⟨he, -⟩ | ⟨c3, s3, st3, r3, rfl, hst3, hr3, rfl⟩
      · cases he
      · obtain ⟨e1, int, frac, ex, e2, hi, hf, hex⟩ :=
          lit_body c3 st3 (numStep_neg _ _ hst3) s3 r3 rest hr3
        exact ⟨by rw [e1]; rfl, [45], int, frac, ex, by rw [e2]; rfl, Or.inr rfl, hi, hf, hex⟩
    · obtain ⟨e1, int, frac, ex, e2, hi, hf, hex⟩ :=
        lit_body c st2 hbody s2 r2 rest hr
      exact ⟨by rw [e1]; rfl, [], int, frac, ex, by rw [e2]; rfl, Or.inl rfl, hi, hf, hex⟩

theorem skipWs_cons_split (s : List Byte) (c : Byte) (r : List Byte) (h : skipWs s = c :: r) :
    ∃ w, wsOnly w ∧ s = w ++ c :: r := by
  obtain ⟨w, hw, e⟩ := skipWs_split s
  rw [h] at e
  exact ⟨w, hw, e⟩

theorem take_literal (n : Nat) (s lit : List Byte) (h : s.take n = lit) :
    s = lit ++ s.drop n := by
  rw [← h]
  exact (List.take_append_drop n s).symm

theorem valueText_of_parse (fuel : Nat) :
    (∀ depth s syn rest, parseValue fuel depth s = some (syn, rest) →
      ∃ w t, wsOnly w ∧ s = w ++ (t ++ rest) ∧ ValueText syn t) ∧
    (∀ depth s es rest, parseElems fuel depth s = some (es, rest) →
      ∃ body, s = body ++ 93 :: rest ∧ ElemsText es body) ∧
    (∀ depth s ms rest, parseMembers fuel depth s = some (ms, rest) →
      ∃ body, s = body ++ 125 :: rest ∧ MembersText ms body) := by
  induction fuel with
  | zero =>
    refine ⟨fun depth s syn rest h => ?_, fun depth s l rest h => ?_,
      fun depth s l rest h => ?_⟩
    · have : parseValue 0 depth s = none := rfl
      rw [this] at h; cases h
    · have : parseElems 0 depth s = none := rfl
      rw [this] at h; cases h
    · have : parseMembers 0 depth s = none := rfl
      rw [this] at h; cases h
  | succ k ih =>
    obtain ⟨ihv, ihe, ihm⟩ := ih
    refine ⟨fun depth s syn rest h => ?_, fun depth s es rest h => ?_,
      fun depth s ms rest h => ?_⟩
    · rw [parseValue_succ] at h
      cases hsk : skipWs s with
      | nil => simp [hsk] at h
      | cons c rest0 =>
        obtain ⟨w, hw, es⟩ := skipWs_cons_split s c rest0 hsk
        rw [hsk] at h
        simp only [] at h
        by_cases h123 : c.val = 123
        · have hc : c = 123 := Fin.ext h123
          subst hc
          simp only [if_pos h123] at h
          by_cases hdp : maxNestingDepth ≤ depth
          · simp [hdp] at h
          · simp only [if_neg hdp] at h
            cases hsk2 : skipWs rest0 with
            | nil => simp [hsk2] at h
            | cons d rest2 =>
              obtain ⟨w2, hw2, es2⟩ := skipWs_cons_split rest0 d rest2 hsk2
              rw [hsk2] at h
              simp only [] at h
              by_cases h125 : d.val = 125
              · have hd : d = 125 := Fin.ext h125
                subst hd
                simp only [if_pos h125, Option.some.injEq, Prod.mk.injEq] at h
                obtain ⟨rfl, rfl⟩ := h
                exact ⟨w, 123 :: (w2 ++ [125]), hw, by rw [es, es2]; simp,
                  ValueText.emptyObject hw2⟩
              · simp only [if_neg h125] at h
                cases hm : parseMembers k (depth + 1) rest0 with
                | none => simp [hm] at h
                | some p =>
                  obtain ⟨ms, r⟩ := p
                  simp only [hm, Option.map_some', Option.some.injEq, Prod.mk.injEq] at h
                  obtain ⟨rfl, rfl⟩ := h
                  obtain ⟨body, eb, hb⟩ := ihm _ _ _ _ hm
                  exact ⟨w, 123 :: (body ++ [125]), hw, by rw [es, eb]; simp,
                    ValueText.object hb⟩
        · simp only [if_neg h123] at h
          by_cases h91 : c.val = 91
          · have hc : c = 91 := Fin.ext h91
            subst hc
            simp only [if_pos h91] at h
            by_cases hdp : maxNestingDepth ≤ depth
            · simp [hdp] at h
            · simp only [if_neg hdp] at h
              cases hsk2 : skipWs rest0 with
              | nil => simp [hsk2] at h
              | cons d rest2 =>
                obtain ⟨w2, hw2, es2⟩ := skipWs_cons_split rest0 d rest2 hsk2
                rw [hsk2] at h
                simp only [] at h
                by_cases h93 : d.val = 93
                · have hd : d = 93 := Fin.ext h93
                  subst hd
                  simp only [if_pos h93, Option.some.injEq, Prod.mk.injEq] at h
                  obtain ⟨rfl, rfl⟩ := h
                  exact ⟨w, 91 :: (w2 ++ [93]), hw, by rw [es, es2]; simp,
                    ValueText.emptyArray hw2⟩
                · simp only [if_neg h93] at h
                  cases hm : parseElems k (depth + 1) rest0 with
                  | none => simp [hm] at h
                  | some p =>
                    obtain ⟨l, r⟩ := p
                    simp only [hm, Option.map_some', Option.some.injEq, Prod.mk.injEq] at h
                    obtain ⟨rfl, rfl⟩ := h
                    obtain ⟨body, eb, hb⟩ := ihe _ _ _ _ hm
                    exact ⟨w, 91 :: (body ++ [93]), hw, by rw [es, eb]; simp,
                      ValueText.array hb⟩
          · simp only [if_neg h91] at h
            by_cases h34 : c.val = 34
            · have hc : c = 34 := Fin.ext h34
              subst hc
              simp only [if_pos h34] at h
              cases hs : scanString rest0 with
              | none => simp [hs] at h
              | some p =>
                obtain ⟨raw, r⟩ := p
                simp only [hs, Option.map_some', Option.some.injEq, Prod.mk.injEq] at h
                obtain ⟨rfl, rfl⟩ := h
                obtain ⟨e1, e2⟩ := stringLit_of_scanString _ _ _ hs
                exact ⟨w, 34 :: (raw ++ [34]), hw, by rw [es, e1]; simp, ValueText.string e2⟩
            · simp only [if_neg h34] at h
              by_cases hnum : c.val = 45 ∨ isDigitB c = true
              · simp only [if_pos hnum] at h
                cases hs : scanNumber (c :: rest0) with
                | none => simp [hs] at h
                | some p =>
                  obtain ⟨lit, r⟩ := p
                  simp only [hs, Option.map_some', Option.some.injEq, Prod.mk.injEq] at h
                  obtain ⟨rfl, rfl⟩ := h
                  obtain ⟨e1, e2⟩ := numberLit_of_scan _ _ _ hs
                  exact ⟨w, lit, hw, by rw [es, e1], ValueText.number e2⟩
              · simp only [if_neg hnum] at h
                by_cases ht : (c :: rest0).take 4 = [116, 114, 117, 101]
                · simp only [if_pos ht, Option.some.injEq, Prod.mk.injEq] at h
                  obtain ⟨rfl, rfl⟩ := h
                  have e1 := take_literal 4 _ _ ht
                  exact ⟨w, _, hw, by rw [es, e1]; rfl, ValueText.true⟩
                · simp only [if_neg ht] at h
                  by_cases hf : (c :: rest0).take 5 = [102, 97, 108, 115, 101]
                  · simp only [if_pos hf, Option.some.injEq, Prod.mk.injEq] at h
                    obtain ⟨rfl, rfl⟩ := h
                    have e1 := take_literal 5 _ _ hf
                    exact ⟨w, _, hw, by rw [es, e1]; rfl, ValueText.false⟩
                  · simp only [if_neg hf] at h
                    by_cases hn : (c :: rest0).take 4 = [110, 117, 108, 108]
                    · simp only [if_pos hn, Option.some.injEq, Prod.mk.injEq] at h
                      obtain ⟨rfl, rfl⟩ := h
                      have e1 := take_literal 4 _ _ hn
                      exact ⟨w, _, hw, by rw [es, e1]; rfl, ValueText.null⟩
                    · rw [if_neg hn] at h
                      cases h
    · rw [parseElems_succ] at h
      cases hv : parseValue k depth s with
      | none => simp [hv] at h
      | some p =>
        obtain ⟨v, rest1⟩ := p
        rw [hv] at h
        simp only [] at h
        obtain ⟨w1, t, hw1, e1, hvt⟩ := ihv _ _ _ _ hv
        cases hsk : skipWs rest1 with
        | nil => simp [hsk] at h
        | cons c rest2 =>
          obtain ⟨w2, hw2, e2⟩ := skipWs_cons_split rest1 c rest2 hsk
          rw [hsk] at h
          simp only [] at h
          by_cases h44 : c.val = 44
          · have hc : c = 44 := Fin.ext h44
            subst hc
            simp only [if_pos h44] at h
            cases he : parseElems k depth rest2 with
            | none => simp [he] at h
            | some p =>
              obtain ⟨l, r⟩ := p
              simp only [he, Option.map_some', Option.some.injEq, Prod.mk.injEq] at h
              obtain ⟨rfl, rfl⟩ := h
              obtain ⟨body, eb, hb⟩ := ihe _ _ _ _ he
              exact ⟨w1 ++ (t ++ (w2 ++ 44 :: body)), by rw [e1, e2, eb]; simp,
                ElemsText.cons hw1 hw2 hvt hb⟩
          · simp only [if_neg h44] at h
            by_cases h93 : c.val = 93
            · have hc : c = 93 := Fin.ext h93
              subst hc
              simp only [if_pos h93, Option.some.injEq, Prod.mk.injEq] at h
              obtain ⟨rfl, rfl⟩ := h
              exact ⟨w1 ++ (t ++ w2), by rw [e1, e2]; simp, ElemsText.last hw1 hw2 hvt⟩
            · simp [if_neg h93] at h
    · rw [parseMembers_succ] at h
      cases hsk : skipWs s with
      | nil => simp [hsk] at h
      | cons q rest0 =>
        obtain ⟨w1, hw1, e1⟩ := skipWs_cons_split s q rest0 hsk
        rw [hsk] at h
        simp only [] at h
        by_cases h34 : q.val = 34
        · have hq : q = 34 := Fin.ext h34
          subst hq
          simp only [if_pos h34] at h
          cases hs : scanString rest0 with
          | none => simp [hs] at h
          | some p =>
            obtain ⟨key, rest1⟩ := p
            rw [hs] at h
            simp only [] at h
            obtain ⟨ek, hkey⟩ := stringLit_of_scanString _ _ _ hs
            cases hsk2 : skipWs rest1 with
            | nil => simp [hsk2] at h
            | cons colon rest2 =>
              obtain ⟨w2, hw2, e2⟩ := skipWs_cons_split rest1 colon rest2 hsk2
              rw [hsk2] at h
              simp only [] at h
              by_cases h58 : colon.val = 58
              · have hcol : colon = 58 := Fin.ext h58
                subst hcol
                simp only [if_pos h58] at h
                cases hv : parseValue k depth rest2 with
                | none => simp [hv] at h
                | some p =>
                  obtain ⟨v, rest3⟩ := p
                  rw [hv] at h
                  simp only [] at h
                  obtain ⟨w3, t, hw3, e3, hvt⟩ := ihv _ _ _ _ hv
                  cases hsk4 : skipWs rest3 with
                  | nil => simp [hsk4] at h
                  | cons c rest4 =>
                    obtain ⟨w4, hw4, e4⟩ := skipWs_cons_split rest3 c rest4 hsk4
                    rw [hsk4] at h
                    simp only [] at h
                    by_cases h44 : c.val = 44
                    · have hc : c = 44 := Fin.ext h44
                      subst hc
                      simp only [if_pos h44] at h
                      cases hm : parseMembers k depth rest4 with
                      | none => simp [hm] at h
                      | some p =>
                        obtain ⟨l, r⟩ := p
                        simp only [hm, Option.map_some', Option.some.injEq,
                          Prod.mk.injEq] at h
                        obtain ⟨rfl, rfl⟩ := h
                        obtain ⟨body, eb, hb⟩ := ihm _ _ _ _ hm
                        exact ⟨_, by rw [e1, ek, e2, e3, e4, eb]; simp,
                          MembersText.cons hw1 hw2 hw3 hw4 hkey hvt hb⟩
                    · simp only [if_neg h44] at h
                      by_cases h125 : c.val = 125
                      · have hc : c = 125 := Fin.ext h125
                        subst hc
                        simp only [if_pos h125, Option.some.injEq, Prod.mk.injEq] at h
                        obtain ⟨rfl, rfl⟩ := h
                        exact ⟨_, by rw [e1, ek, e2, e3, e4]; simp,
                          MembersText.last hw1 hw2 hw3 hw4 hkey hvt⟩
                      · simp [if_neg h125] at h
              · simp [if_neg h58] at h
        · simp [if_neg h34] at h

/-- The scanner of `encoding/json` accepts exactly the texts of the JSON grammar in which
arrays and objects are nested at most `maxNestingDepth` deep. -/
theorem parseText_iff (text : List Byte) (syn : JSyn) :
    parseText text = some syn ↔ JsonText text syn ∧ nest syn ≤ maxNestingDepth := by
  constructor
  · intro h
    unfold parseText at h
    cases hv : parseValue (text.length + 1) 0 text with
    | none => simp [hv] at h
    | some p =>
      obtain ⟨v, rest⟩ := p
      rw [hv] at h
      simp only [] at h
      split_ifs at h with hrest
      simp only [Option.some.injEq] at h
      subst h
      obtain ⟨w, t, hw, e, hvt⟩ := (valueText_of_parse _).1 _ _ _ _ hv
      obtain ⟨w2, hw2, e2⟩ := skipWs_split rest
      rw [hrest, List.append_nil] at e2
      rw [e2] at hv e
      have hn := (parse_nest _).1 0 text v w2 (Nat.zero_le _) hv
      exact ⟨⟨w, t, w2, hw, hw2, hvt, e⟩, by omega⟩
  · intro h
    exact parseText_of_jsonText text syn h.1 h.2

theorem jsonText_of_parseText (text : List Byte) (syn : JSyn) (h : parseText text = some syn) :
    JsonText text syn := ((parseText_iff text syn).1 h).1

theorem deepArray_text (n : Nat) :
    ValueText (deepArray n) (List.replicate (n + 1) 91 ++ List.replicate (n + 1) 93) := by
  induction n with
  | zero => exact ValueText.emptyArray (w := []) (fun b hb => by cases hb)
  | succ n ih =>
    have hw : wsOnly [] := fun b hb => by cases hb
    have h := ValueText.array (ElemsText.last hw hw ih)
    have e : List.replicate (n + 1 + 1) (91 : Byte) ++ List.replicate (n + 1 + 1) 93
        = 91 :: ([] ++ (List.replicate (n + 1) 91 ++ List.replicate (n + 1) 93 ++ []) ++ [93]) := by
      rw [List.replicate_succ (n := n + 1) (a := (91 : Byte)), List.replicate_succ' (n + 1) (93 : Byte)]
      simp
    rw [e]
    exact h

theorem deepArray_nest (n : Nat) : nest (deepArray n) = n + 1 := by
  induction n with
  | zero => rfl
  | succ n ih => simp [deepArray, nest, nestElems, ih]

theorem parse_too_deep (k : Nat) : ∀ (fuel depth : Nat) (s : List Byte),
    maxNestingDepth < depth + (k + 1) →
    parseValue fuel depth (List.replicate (k + 1) 91 ++ s) = none := by
  have s91 : isSpace (91 : Byte) = false := by decide
  have v91 : (91 : Byte).val = 91 := by decide
  induction k with
  | zero =>
    intro fuel depth s hd
    cases fuel with
    | zero => rfl
    | succ f =>
      have hdp : maxNestingDepth ≤ depth := by omega
      have e : List.replicate (0 + 1) (91 : Byte) ++ s = 91 :: s := rfl
      rw [e, parseValue_succ, skipWs_head _ _ s91]
      simp only [v91, if_pos hdp]
      rfl
  | succ k ih =>
    intro fuel depth s hd
    cases fuel with
    | zero => rfl
    | succ f =>
      have e : List.replicate (k + 1 + 1) (91 : Byte) ++ s
          = 91 :: (List.replicate (k + 1) 91 ++ s) := rfl
      have e2 : List.replicate (k + 1) (91 : Byte) ++ s = 91 :: (List.replicate k 91 ++ s) := rfl
      rw [e, parseValue_succ, skipWs_head _ _ s91]
      by_cases hdp : maxNestingDepth ≤ depth
      · simp only [v91, if_pos hdp]
        rfl
      · have hinner : parseElems f (depth + 1) (List.replicate (k + 1) 91 ++ s) = none := by
          cases f with
          | zero => rfl
          | succ g => rw [parseElems_succ, ih g (depth + 1) s (by omega)]
        have hpeek : skipWs (List.replicate (k + 1) (91 : Byte) ++ s)
            = 91 :: (List.replicate k 91 ++ s) := by
          rw [e2]
          exact skipWs_head _ _ s91
        simp only [v91, if_neg hdp, hpeek, hinner]
        rfl

theorem deepArray_numbers (n : Nat) : numbersInRange (deepArray n) := by
  induction n with
  | zero => simp [deepArray, numbersInRange, numbersInRangeElems]
  | succ n ih => simp [deepArray, numbersInRange, numbersInRangeElems, ih]

/-- Arrays nested beyond `maxNestingDepth`: the text of `n + 1` opening brackets followed by
`n + 1` closing brackets is valid JSON without a number in it, and for `n` from
`maxNestingDepth` on `runJSON` returns the invalid-JSON error for it. -/
theorem deep_nesting_rejected (n : Nat) (hn : maxNestingDepth ≤ n) (fl : JsonFlags)
    (hfile : fl.jsonFromFile = false) :
    JsonText (List.replicate (n + 1) 91 ++ List.replicate (n + 1) 93) (deepArray n) ∧
    nest (deepArray n) = n + 1 ∧ numbersInRange (deepArray n) ∧
    ∃ cause, runJSON noFiles fl (List.replicate (n + 1) 91 ++ List.replicate (n + 1) 93)
      = .err (.invalidJSON cause) := by
  have hw : wsOnly [] := fun b hb => by cases hb
  refine ⟨⟨[], _, [], hw, hw, deepArray_text n, ?_⟩, deepArray_nest n, deepArray_numbers n, ?_⟩
  · rw [List.nil_append, List.append_nil]
  · generalize htext : List.replicate (n + 1) (91 : Byte) ++ List.replicate (n + 1) 93 = text
    have hdeep : parseText text = none := by
      unfold parseText
      rw [← htext, parse_too_deep n _ 0 (List.replicate (n + 1) 93) (by omega)]
    refine ⟨"invalid character or unexpected end of JSON input", ?_⟩
    simp only [runJSON, jsonSource, hfile, Bool.false_eq_true, if_false, unmarshal, hdeep]

set_option exponentiation.threshold 5000 in
set_option maxRecDepth 1000000 in
/-- C8 (as stated, refuted): the text `1e400` is valid JSON, a number of large magnitude;
`runJSON` in non-validate mode does not parse it successfully but returns the invalid-JSON
error, minifying or pretty-printing, because `json.Unmarshal` stores a number into a
`float64` and reports a literal beyond its range as an error. Nor does it parse the valid
JSON text of 10001 opening brackets followed by 10001 closing brackets, arrays nested 10001
deep with no number in them: the scanner gives up beyond the nesting depth 10000. -/
theorem runJSON_huge_number_rejected :
    JsonText (ascii "1e400".toList) (.number (ascii "1e400".toList)) ∧
    jsonValid (ascii "1e400".toList) = true ∧
    runJSON noFiles ⟨true, false, false⟩ (ascii "1e400".toList)
      = .err (.invalidJSON "json: cannot unmarshal number into Go value of type float64") ∧
    runJSON noFiles ⟨false, false, false⟩ (ascii "1e400".toList)
      = .err (.invalidJSON "json: cannot unmarshal number into Go value of type float64") ∧
    (JsonText (List.replicate (10000 + 1) 91 ++ List.replicate (10000 + 1) 93)
        (deepArray 10000) ∧
      nest (deepArray 10000) = 10000 + 1 ∧ numbersInRange (deepArray 10000) ∧
      ∃ cause, runJSON noFiles ⟨true, false, false⟩
        (List.replicate (10000 + 1) 91 ++ List.replicate (10000 + 1) 93)
        = .err (.invalidJSON cause)) :=
  ⟨jsonText_of_parseText _ _ rfl, by decide!, by decide!, by decide!,
    deep_nesting_rejected 10000 (Nat.le_refl _) ⟨true, false, false⟩ rfl⟩

/-- C8 (amended): for every valid JSON text (objects, arrays, strings, numbers, booleans,
null; `JsonText`, the grammar of RFC 8259) in which arrays and objects are nested at most
10000 deep and every number, whatever its precision, is one for which `ParseFloat` reports
no range error, `runJSON` in non-validate mode parses it successfully, and the text it
prints after the header line, whether minified or pretty-printed, is itself valid JSON that
parses to the same value as the original text, the value being what `json.Unmarshal`
stores: numbers as the nearest `float64`, and of the members of an object with the same key
the last one. -/
theorem runJSON_round_trip (readFile : List Byte → Except String (List Byte)) (fl : JsonFlags)
    (input text : List Byte) (syn : JSyn) (hval : fl.jsonValidate = false)
    (hsrc : jsonSource readFile fl input = .ok text) (hjson : JsonText text syn)
    (hnest : nest syn ≤ maxNestingDepth) (hnum : numbersInRange syn) :
    ∃ v header out syn2, unmarshal text = .ok v ∧
      runJSON readFile fl input = .ok [header, out] ∧
      JsonText out syn2 ∧ jsonValid out = true ∧ unmarshal out = .ok v := by
  have hparse : parseText text = some syn := (parseText_iff text syn).2 ⟨hjson, hnest⟩
  obtain ⟨v, hd⟩ := decode_isSome syn hnum
  have hv : unmarshal text = .ok v := (unmarshal_ok_iff text v).2 ⟨syn, hparse, hd⟩
  have hout := unmarshal_render (jsonStyle fl) (jsonStyle_plain fl) text v hv
  obtain ⟨s2, hs2, -⟩ := (unmarshal_ok_iff _ v).1 hout
  refine ⟨v, jsonHeader fl input, render (jsonStyle fl) 0 v, s2, hv,
    runJSON_output readFile fl input text v hval hsrc hv, jsonText_of_parseText _ _ hs2, ?_, hout⟩
  simp only [jsonValid, hs2, Option.isSome_some]


theorem bytesLt_lead (b c : Byte) (s t : List Byte) (h : b.val < c.val) :
    bytesLt (b :: s) (c :: t) = true := by
  simp [bytesLt, h]

theorem bytesLt_same (b c : Byte) (s t : List Byte) (h : b.val = c.val) :
    bytesLt (b :: s) (c :: t) = bytesLt s t := by
  have : ¬ b.val < c.val := by omega
  simp [bytesLt, h]

theorem bytesLt_append (p s t : List Byte) : bytesLt (p ++ s) (p ++ t) = bytesLt s t := by
  induction p with
  | nil => rfl
  | cons b p ih => rw [List.cons_append, List.cons_append, bytesLt_same b b _ _ rfl, ih]

theorem utf8Encode_1 (c : Char) (h : c.toNat < 0x80) : utf8Encode c = [byteOf c.toNat] := by
  simp [utf8Encode, h]

theorem utf8Encode_2 (c : Char) (h1 : ¬ c.toNat < 0x80) (h2 : c.toNat < 0x800) :
    utf8Encode c = [byteOf (0xC0 + c.toNat / 64), byteOf (0x80 + c.toNat % 64)] := by
  simp [utf8Encode, h1, h2]

theorem utf8Encode_3 (c : Char) (h1 : ¬ c.toNat < 0x80) (h2 : ¬ c.toNat < 0x800)
    (h3 : c.toNat < 0x10000) :
    utf8Encode c = [byteOf (0xE0 + c.toNat / 4096), byteOf (0x80 + c.toNat / 64 % 64),
      byteOf (0x80 + c.toNat % 64)] := by
  simp [utf8Encode, h1, h2, h3]

theorem utf8Encode_4 (c : Char) (h1 : ¬ c.toNat < 0x80) (h2 : ¬ c.toNat < 0x800)
    (h3 : ¬ c.toNat < 0x10000) :
    utf8Encode c = [byteOf (0xF0 + c.toNat / 262144), byteOf (0x80 + c.toNat / 4096 % 64),
      byteOf (0x80 + c.toNat / 64 % 64), byteOf (0x80 + c.toNat % 64)] := by
  simp [utf8Encode, h1, h2, h3]

theorem utf8Encode_vals (c : Char) :
    (utf8Encode c).map (fun b => b.val) =
      if c.toNat < 0x80 then [c.toNat]
      else if c.toNat < 0x800 then [0xC0 + c.toNat / 64, 0x80 + c.toNat % 64]
      else if c.toNat < 0x10000 then
        [0xE0 + c.toNat / 4096, 0x80 + c.toNat / 64 % 64, 0x80 + c.toNat % 64]
      else [0xF0 + c.toNat / 262144, 0x80 + c.toNat / 4096 % 64, 0x80 + c.toNat / 64 % 64,
        0x80 + c.toNat % 64] := by
  have hv := char_valid c
  split_ifs with h1 h2 h3
  · rw [utf8Encode_1 c h1]
    simp [byteOf_val_of_lt c.toNat (by omega)]
  · rw [utf8Encode_2 c h1 h2]
    simp [byteOf_val_of_lt (0xC0 + c.toNat / 64) (by omega),
      byteOf_val_of_lt (0x80 + c.toNat % 64) (by omega)]
  · rw [utf8Encode_3 c h1 h2 h3]
    simp [byteOf_val_of_lt (0xE0 + c.toNat / 4096) (by omega),
      byteOf_val_of_lt (0x80 + c.toNat / 64 % 64) (by omega),
      byteOf_val_of_lt (0x80 + c.toNat % 64) (by omega)]
  · rw [utf8Encode_4 c h1 h2 h3]
    simp [byteOf_val_of_lt (0xF0 + c.toNat / 262144) (by omega),
      byteOf_val_of_lt (0x80 + c.toNat / 4096 % 64) (by omega),
      byteOf_val_of_lt (0x80 + c.toNat / 64 % 64) (by omega),
      byteOf_val_of_lt (0x80 + c.toNat % 64) (by omega)]

theorem bytesLt_eq_natsLt (s t : List Byte) :
    bytesLt s t = natsLt (s.map fun b => b.val) (t.map fun b => b.val) := by
  induction s generalizing t with
  | nil => cases t <;> rfl
  | cons a s ih =>
    cases t with
    | nil => rfl
    | cons b t => simp only [bytesLt, List.map_cons, natsLt, ih]

theorem natsLt_lead (a b : Nat) (s t : List Nat) (h : a < b) : natsLt (a :: s) (b :: t) = true := by
  simp [natsLt, h]

theorem natsLt_same (a : Nat) (s t : List Nat) : natsLt (a :: s) (a :: t) = natsLt s t := by
  simp [natsLt]

theorem utf8_order_char (x y : Char) (h : x.toNat < y.toNat) (s t : List Byte) :
    bytesLt (utf8Encode x ++ s) (utf8Encode y ++ t) = true := by
  rw [bytesLt_eq_natsLt, List.map_append, List.map_append, utf8Encode_vals x, utf8Encode_vals y]
  have hx := char_valid x
  have hy := char_valid y
  generalize x.toNat = n at h hx ⊢
  generalize y.toNat = m at h hy ⊢
  generalize s.map (fun b => b.val) = s2
  generalize t.map (fun b => b.val) = t2
  by_cases n1 : n < 0x80
  · rw [if_pos n1]
    by_cases m1 : m < 0x80
    · rw [if_pos m1]; exact natsLt_lead _ _ _ _ h
    · rw [if_neg m1]
      split_ifs <;> exact natsLt_lead _ _ _ _ (by omega)
  · rw [if_neg n1]
    have m1 : ¬ m < 0x80 := by omega
    rw [if_neg m1]
    by_cases n2 : n < 0x800
    · rw [if_pos n2]
      by_cases m2 : m < 0x800
      · rw [if_pos m2]
        by_cases e : n / 64 = m / 64
        · rw [e]
          simp only [List.cons_append, List.nil_append]
          rw [natsLt_same]
          exact natsLt_lead _ _ _ _ (by omega)
        · exact natsLt_lead _ _ _ _ (by omega)
      · rw [if_neg m2]
        split_ifs <;> exact natsLt_lead _ _ _ _ (by omega)
    · rw [if_neg n2]
      have m2 : ¬ m < 0x800 := by omega
      rw [if_neg m2]
      by_cases n3 : n < 0x10000
      · rw [if_pos n3]
        by_cases m3 : m < 0x10000
        · rw [if_pos m3]
          simp only [List.cons_append, List.nil_append]
          by_cases e : n / 4096 = m / 4096
          · rw [e, natsLt_same]
            by_cases e2 : n / 64 % 64 = m / 64 % 64
            · rw [e2, natsLt_same]
              exact natsLt_lead _ _ _ _ (by omega)
            · exact natsLt_lead _ _ _ _ (by omega)
          · exact natsLt_lead _ _ _ _ (by omega)
        · rw [if_neg m3]
          exact natsLt_lead _ _ _ _ (by omega)
      · rw [if_neg n3]
        have m3 : ¬ m < 0x10000 := by omega
        rw [if_neg m3]
        simp only [List.cons_append, List.nil_append]
        by_cases e : n / 262144 = m / 262144
        · rw [e, natsLt_same]
          by_cases e1 : n / 4096 % 64 = m / 4096 % 64
          · rw [e1, natsLt_same]
            by_cases e2 : n / 64 % 64 = m / 64 % 64
            · rw [e2, natsLt_same]
              exact natsLt_lead _ _ _ _ (by omega)
            · exact natsLt_lead _ _ _ _ (by omega)
          · exact natsLt_lead _ _ _ _ (by omega)
        · exact natsLt_lead _ _ _ _ (by omega)

theorem utf8Encode_ne_nil (c : Char) : ∃ b r, utf8Encode c = b :: r := by
  unfold utf8Encode
  simp only []
  split_ifs <;> exact ⟨_, _, rfl⟩

theorem utf8_cons (x : Char) (a : List Char) : utf8 (x :: a) = utf8Encode x ++ utf8 a := by
  simp [utf8]

theorem keyLt_bytesLt : ∀ (a b : List Char), keyLt a b = true →
    bytesLt (utf8 a) (utf8 b) = true := by
  intro a
  induction a with
  | nil =>
    intro b h
    cases b with
    | nil => simp [keyLt] at h
    | cons y b =>
      obtain ⟨c, r, hr⟩ := utf8Encode_ne_nil y
      rw [utf8_cons, hr]
      rfl
  | cons x a ih =>
    intro b h
    cases b with
    | nil => simp [keyLt] at h
    | cons y b =>
      simp only [keyLt, Bool.or_eq_true, decide_eq_true_eq, Bool.and_eq_true] at h
      rw [utf8_cons, utf8_cons]
      rcases h with h | ⟨e, h⟩
      · exact utf8_order_char x y h _ _
      · have exy := char_toNat_inj x y e
        subst exy
        rw [bytesLt_append]
        exact ih b h


theorem toSynMembers_keys (ms : List (List Char × JValue)) :
    (toSynMembers ms).map (fun p => utf8 (unquote p.1)) = ms.map (fun p => utf8 p.1) := by
  induction ms with
  | nil => simp only [toSynMembers, List.map_nil]
  | cons p ms ih =>
    obtain ⟨k, v⟩ := p
    have e : unquote (k.flatMap quoteChar) = k := unquote_quoted k
    simp only [toSynMembers, List.map_cons, e, ih]

mutual
theorem keysAscending_toSyn : (v : JValue) → wellFormed v → keysAscending (toSyn v)
  | .null => by intro _; simp only [toSyn, keysAscending]
  | .bool _ => by intro _; simp only [toSyn, keysAscending]
  | .number _ => by intro _; simp only [toSyn, keysAscending]
  | .string _ => by intro _; simp only [toSyn, keysAscending]
  | .array es => by
    intro h
    simp only [wellFormed] at h
    simp only [toSyn, keysAscending]
    exact keysAscendingElems_toSyn es h
  | .object ms => by
    intro h
    simp only [wellFormed] at h
    simp only [toSyn, keysAscending]
    refine ⟨?_, keysAscendingMembers_toSyn ms h.1⟩
    rw [toSynMembers_keys]
    have hs := h.2
    unfold keysSorted at hs
    rw [List.pairwise_map] at hs ⊢
    exact hs.imp (fun hab => keyLt_bytesLt _ _ hab)
theorem keysAscendingElems_toSyn : (l : List JValue) → wellFormedElems l →
    keysAscendingElems (toSynElems l)
  | [] => by intro _; simp only [toSynElems, keysAscendingElems]
  | e :: es => by
    intro h
    simp only [wellFormedElems] at h
    simp only [toSynElems, keysAscendingElems]
    exact ⟨keysAscending_toSyn e h.1, keysAscendingElems_toSyn es h.2⟩
theorem keysAscendingMembers_toSyn : (l : List (List Char × JValue)) → wellFormedMembers l →
    keysAscendingMembers (toSynMembers l)
  | [] => by intro _; simp only [toSynMembers, keysAscendingMembers]
  | (k, v) :: ms => by
    intro h
    simp only [wellFormedMembers] at h
    simp only [toSynMembers, keysAscendingMembers]
    exact ⟨keysAscending_toSyn v h.1, keysAscendingMembers_toSyn ms h.2⟩
end

theorem insertMember_comm (k1 k2 : List Char) (v1 v2 : JValue) (hne : k1 ≠ k2)
    (acc : List (List Char × JValue)) :
    insertMember k2 v2 (insertMember k1 v1 acc) = insertMember k1 v1 (insertMember k2 v2 acc) := by
  have hne2 : k2 ≠ k1 := fun e => hne e.symm
  have order : (keyLt k1 k2 = true ∧ keyLt k2 k1 = false) ∨
      (keyLt k2 k1 = true ∧ keyLt k1 k2 = false) := by
    rcases keyLt_total k1 k2 with t | t | t
    · exact Or.inl ⟨t, keyLt_asymm _ _ t⟩
    · exact absurd t hne
    · exact Or.inr ⟨t, keyLt_asymm _ _ t⟩
  induction acc with
  | nil =>
    rcases order with ⟨a, b⟩ | ⟨a, b⟩
    · simp [insertMember_nil, insertMember_cons, a, b, hne, hne2]
    · simp [insertMember_nil, insertMember_cons, a, b, hne, hne2]
  | cons p rest ih =>
    obtain ⟨k, w⟩ := p
    have c1 : (keyLt k1 k = true ∧ keyLt k k1 = false ∧ k1 ≠ k) ∨ (k1 = k) ∨
        (keyLt k k1 = true ∧ keyLt k1 k = false ∧ k1 ≠ k) := by
      rcases keyLt_total k1 k with t | t | t
      · exact Or.inl ⟨t, keyLt_asymm _ _ t, keyLt_ne _ _ t⟩
      · exact Or.inr (Or.inl t)
      · exact Or.inr (Or.inr ⟨t, keyLt_asymm _ _ t, fun e => keyLt_ne _ _ t e.symm⟩)
    have c2 : (keyLt k2 k = true ∧ keyLt k k2 = false ∧ k2 ≠ k) ∨ (k2 = k) ∨
        (keyLt k k2 = true ∧ keyLt k2 k = false ∧ k2 ≠ k) := by
      rcases keyLt_total k2 k with t | t | t
      · exact Or.inl ⟨t, keyLt_asymm _ _ t, keyLt_ne _ _ t⟩
      · exact Or.inr (Or.inl t)
      · exact Or.inr (Or.inr ⟨t, keyLt_asymm _ _ t, fun e => keyLt_ne _ _ t e.symm⟩)
    rcases c1 with ⟨a1, b1, n1⟩ | rfl | ⟨a1, b1, n1⟩
    · rcases c2 with ⟨a2, b2, n2⟩ | rfl | ⟨a2, b2, n2⟩
      · rcases order with ⟨a, b⟩ | ⟨a, b⟩
        · simp [insertMember_cons, keyLt_irrefl, a1, b1, n1, a2, b2, n2, a, b, hne, hne2]
        · simp [insertMember_cons, keyLt_irrefl, a1, b1, n1, a2, b2, n2, a, b, hne, hne2]
      · simp [insertMember_cons, keyLt_irrefl, a1, b1, n1, hne, hne2]
      · have a : keyLt k1 k2 = true := keyLt_trans _ _ _ a1 a2
        have b := keyLt_asymm _ _ a
        simp [insertMember_cons, keyLt_irrefl, a1, b1, n1, a2, b2, n2, a, b, hne, hne2]
    · rcases c2 with ⟨a2, b2, n2⟩ | e | ⟨a2, b2, n2⟩
      · simp [insertMember_cons, keyLt_irrefl, a2, b2, n2, hne, hne2]
      · exact absurd e.symm hne
      · simp [insertMember_cons, keyLt_irrefl, a2, b2, n2, hne, hne2]
    · rcases c2 with ⟨a2, b2, n2⟩ | rfl | ⟨a2, b2, n2⟩
      · have a : keyLt k2 k1 = true := keyLt_trans _ _ _ a2 a1
        have b := keyLt_asymm _ _ a
        simp [insertMember_cons, keyLt_irrefl, a1, b1, n1, a2, b2, n2, a, b, hne, hne2]
      · simp [insertMember_cons, keyLt_irrefl, a1, b1, n1, hne, hne2]
      · simp [insertMember_cons, keyLt_irrefl, a1, b1, n1, a2, b2, n2, hne, hne2, ih]

theorem decodeMembers_swap (k1 k2 : List Byte) (v1 v2 : JSyn) (ms : List (List Byte × JSyn))
    (hne : unquote k1 ≠ unquote k2) (acc : List (List Char × JValue)) :
    decodeMembers acc ((k1, v1) :: (k2, v2) :: ms)
      = decodeMembers acc ((k2, v2) :: (k1, v1) :: ms) := by
  rw [decodeMembers_cons, decodeMembers_cons]
  cases h1 : decode v1 with
  | none =>
    cases h2 : decode v2 with
    | none => rfl
    | some w2 =>
      simp only []
      rw [decodeMembers_cons, h1]
  | some w1 =>
    cases h2 : decode v2 with
    | none =>
      simp only []
      rw [decodeMembers_cons, h2]
    | some w2 =>
      simp only []
      rw [decodeMembers_cons, decodeMembers_cons, h1, h2]
      simp only []
      rw [insertMember_comm (unquote k1) (unquote k2) w1 w2 hne acc]

theorem decode_keyOrder {s t : JSyn} (h : KeyOrderEq s t) : decode s = decode t := by
  refine KeyOrderEq.rec
    (motive_1 := fun s t _ => decode s = decode t)
    (motive_2 := fun l m _ => decodeElems l = decodeElems m)
    (motive_3 := fun l m _ => ∀ acc, decodeMembers acc l = decodeMembers acc m)
    ?_ ?_ ?_ ?_ ?_ ?_ ?_ ?_ ?_ h
  · intro s
    rfl
  · intro xs ys _ ih
    simp only [decode, ih]
  · intro xs ys _ ih
    simp only [decode, ih []]
  · rfl
  · intro x y xs ys _ _ ih1 ih2
    rw [decodeElems_cons, decodeElems_cons, ih1, ih2]
  · intro acc
    rfl
  · intro k v w ms ns _ _ ih1 ih2 acc
    rw [decodeMembers_cons, decodeMembers_cons, ih1]
    cases decode w with
    | none => rfl
    | some x => exact ih2 _
  · intro k1 k2 v1 v2 ms hne acc
    exact decodeMembers_swap k1 k2 v1 v2 ms hne acc
  · intro a b c _ _ ih1 ih2 acc
    exact (ih1 acc).trans (ih2 acc)


theorem runJSON_ok_inv (readFile : List Byte → Except String (List Byte)) (fl : JsonFlags)
    (input : List Byte) (lines : List (List Byte)) (hval : fl.jsonValidate = false)
    (hrun : runJSON readFile fl input = .ok lines) :
    ∃ text v, jsonSource readFile fl input = .ok text ∧ unmarshal text = .ok v ∧
      lines = [jsonHeader fl input, render (jsonStyle fl) 0 v] := by
  cases hsrc : jsonSource readFile fl input with
  | panic msg => simp [runJSON, hsrc] at hrun
  | err e => simp [runJSON, hsrc] at hrun
  | ok text =>
    cases hv : unmarshal text with
    | error e => simp [runJSON, hsrc, hv] at hrun
    | ok v =>
      have h := runJSON_output readFile fl input text v hval hsrc hv
      rw [h] at hrun
      simp only [Res.ok.injEq] at hrun
      exact ⟨text, v, rfl, hv, hrun.symm⟩

theorem parseText_render (st : Style) (hst : st.plain) (text : List Byte) (v : JValue)
    (h : unmarshal text = .ok v) :
    parseText (render st 0 v) = some (toSyn v) ∧ wellFormed v := by
  obtain ⟨syn, hp, hd⟩ := (unmarshal_ok_iff text v).1 h
  have hn : nest syn ≤ maxNestingDepth := by
    unfold parseText at hp
    split at hp
    · cases hp
    · rename_i s rest hv
      split_ifs at hp
      simp only [Option.some.injEq] at hp
      subst hp
      have := (parse_nest _).1 0 text s rest (Nat.zero_le _) hv
      omega
  obtain ⟨hw, hnv⟩ := decode_wf syn v hd
  have hparse := parse_render st hst v ((render st 0 v).length + 1) 0 0 [] (by
    have := need_le_length st v 0
    omega) (by omega) (Or.inl rfl)
  rw [List.append_nil] at hparse
  refine ⟨?_, hw⟩
  unfold parseText
  rw [hparse]
  rfl

set_option exponentiation.threshold 5000 in
set_option maxRecDepth 1000000 in
/-- C20 (as stated, refuted): the texts `{"a":1,"a":2}` and `{"a":2,"a":1}` are valid JSON
and have the same members in another order, the key `a` occurring twice; `runJSON` prints
`{"a":2}` for the first and `{"a":1}` for the second, because of the members with the same
key the later one gives the value. So with a repeated key two inputs that differ only in the
order of the members of an object do not give byte-identical output. -/
theorem runJSON_repeated_key_order :
    parseText (ascii "\x7b\"a\":1,\"a\":2\x7d".toList)
      = some (.object [(ascii "a".toList, .number (ascii "1".toList)),
          (ascii "a".toList, .number (ascii "2".toList))]) ∧
    parseText (ascii "\x7b\"a\":2,\"a\":1\x7d".toList)
      = some (.object [(ascii "a".toList, .number (ascii "2".toList)),
          (ascii "a".toList, .number (ascii "1".toList))]) ∧
    List.Perm
      [(ascii "a".toList, (JTree.number (ascii "1".toList) : JSyn)),
        (ascii "a".toList, .number (ascii "2".toList))]
      [(ascii "a".toList, .number (ascii "2".toList)),
        (ascii "a".toList, .number (ascii "1".toList))] ∧
    runJSON noFiles ⟨true, false, false⟩ (ascii "\x7b\"a\":1,\"a\":2\x7d".toList)
      = .ok [ascii "Minified JSON:".toList, ascii "\x7b\"a\":2\x7d".toList] ∧
    runJSON noFiles ⟨true, false, false⟩ (ascii "\x7b\"a\":2,\"a\":1\x7d".toList)
      = .ok [ascii "Minified JSON:".toList, ascii "\x7b\"a\":1\x7d".toList] ∧
    ascii "\x7b\"a\":2\x7d".toList ≠ ascii "\x7b\"a\":1\x7d".toList :=
  ⟨rfl, rfl, List.Perm.swap _ _ _, by decide!, by decide!, by decide⟩

/-- C20 (amended): whenever `runJSON` prints output in non-validate mode, minified or
pretty-printed, the output is a JSON text in which the keys of every object, at every
nesting depth, are in strictly ascending order byte by byte, so each key occurs once,
whatever the order and the repetition of the keys in the input; and an input that differs
from the given one only in the order of object members with different keys (such members
exchanged, any number of times and at any depth) gives byte-identical output. -/
theorem runJSON_sorted_keys (readFile : List Byte → Except String (List Byte)) (fl : JsonFlags)
    (input : List Byte) (lines : List (List Byte)) (hval : fl.jsonValidate = false)
    (hrun : runJSON readFile fl input = .ok lines) :
    ∃ header out syn, lines = [header, out] ∧ parseText out = some syn ∧ keysAscending syn ∧
      ∀ text s1 input2 text2 s2, jsonSource readFile fl input = .ok text →
        parseText text = some s1 → jsonSource readFile fl input2 = .ok text2 →
        parseText text2 = some s2 → KeyOrderEq s1 s2 →
        ∃ header2, runJSON readFile fl input2 = .ok [header2, out] := by
  obtain ⟨text0, v, hsrc, hv, hlines⟩ := runJSON_ok_inv readFile fl input lines hval hrun
  obtain ⟨hp, hw⟩ := parseText_render (jsonStyle fl) (jsonStyle_plain fl) text0 v hv
  refine ⟨jsonHeader fl input, render (jsonStyle fl) 0 v, toSyn v, hlines, hp,
    keysAscending_toSyn v hw, ?_⟩
  intro text s1 input2 text2 s2 h1 hp1 h2 hp2 hrel
  rw [hsrc] at h1
  simp only [Res.ok.injEq] at h1
  subst h1
  obtain ⟨syn, hps, hd⟩ := (unmarshal_ok_iff text0 v).1 hv
  rw [hp1] at hps
  simp only [Option.some.injEq] at hps
  subst hps
  have hd2 : decode s2 = some v := by rw [← decode_keyOrder hrel]; exact hd
  have hv2 : unmarshal text2 = .ok v := (unmarshal_ok_iff text2 v).2 ⟨s2, hp2, hd2⟩
  exact ⟨jsonHeader fl input2, runJSON_output readFile fl input2 text2 v hval h2 hv2⟩

set_option exponentiation.threshold 5000 in
set_option maxRecDepth 1000000 in
theorem runJSON_sorted_keys_witness :
    (JsonFlags.mk true false false).jsonValidate = false ∧
    runJSON noFiles ⟨true, false, false⟩
        (ascii "\x7b\"b\":1,\"a\":\x7b\"d\":true,\"c\":null\x7d,\"b\":2\x7d".toList)
      = .ok [ascii "Minified JSON:".toList,
          ascii "\x7b\"a\":\x7b\"c\":null,\"d\":true\x7d,\"b\":2\x7d".toList] ∧
    ∃ header out syn,
      [ascii "Minified JSON:".toList,
        ascii "\x7b\"a\":\x7b\"c\":null,\"d\":true\x7d,\"b\":2\x7d".toList] = [header, out] ∧
      parseText out = some syn ∧ keysAscending syn ∧
      ∀ text s1 input2 text2 s2,
        jsonSource noFiles ⟨true, false, false⟩
          (ascii "\x7b\"b\":1,\"a\":\x7b\"d\":true,\"c\":null\x7d,\"b\":2\x7d".toList)
          = .ok text →
        parseText text = some s1 → jsonSource noFiles ⟨true, false, false⟩ input2 = .ok text2 →
        parseText text2 = some s2 → KeyOrderEq s1 s2 →
        ∃ header2, runJSON noFiles ⟨true, false, false⟩ input2 = .ok [header2, out] :=
  ⟨rfl, by decide!,
    runJSON_sorted_keys noFiles ⟨true, false, false⟩
      (ascii "\x7b\"b\":1,\"a\":\x7b\"d\":true,\"c\":null\x7d,\"b\":2\x7d".toList) _ rfl
      (by decide!)⟩

set_option exponentiation.threshold 5000 in
set_option maxRecDepth 1000000 in
theorem runJSON_round_trip_witness :
    (JsonFlags.mk false false false).jsonValidate = false ∧
    jsonSource noFiles ⟨false, false, false⟩
        (ascii "\x7b\"name\": \"test\", \"value\": [1.5e3, -0.25, true, null]\x7d".toList)
      = .ok (ascii "\x7b\"name\": \"test\", \"value\": [1.5e3, -0.25, true, null]\x7d".toList) ∧
    JsonText (ascii "\x7b\"name\": \"test\", \"value\": [1.5e3, -0.25, true, null]\x7d".toList)
      (.object [(ascii "name".toList, .string (ascii "test".toList)),
          (ascii "value".toList, .array [.number (ascii "1.5e3".toList),
            .number (ascii "-0.25".toList), .bool true, .null])]) ∧
    runJSON noFiles ⟨false, false, false⟩
        (ascii "\x7b\"name\": \"test\", \"value\": [1.5e3, -0.25, true, null]\x7d".toList)
      = .ok [ascii "Pretty printed JSON:".toList,
          ascii ("\x7b\n  \"name\": \"test\",\n  \"value\": [\n    1500,\n    -0.25,\n    true,\n"
            ++ "    null\n  ]\n\x7d").toList] ∧
    runJSON noFiles ⟨true, false, false⟩
        (ascii "\x7b\"name\": \"test\", \"value\": [1.5e3, -0.25, true, null]\x7d".toList)
      = .ok [ascii "Minified JSON:".toList,
          ascii "\x7b\"name\":\"test\",\"value\":[1500,-0.25,true,null]\x7d".toList] ∧
    ∃ v header out syn2,
      unmarshal (ascii "\x7b\"name\": \"test\", \"value\": [1.5e3, -0.25, true, null]\x7d".toList)
        = .ok v ∧
      runJSON noFiles ⟨false, false, false⟩
          (ascii "\x7b\"name\": \"test\", \"value\": [1.5e3, -0.25, true, null]\x7d".toList)
        = .ok [header, out] ∧
      JsonText out syn2 ∧ jsonValid out = true ∧ unmarshal out = .ok v :=
  ⟨rfl, rfl, jsonText_of_parseText _ _ rfl, by decide!, by decide!,
    runJSON_round_trip noFiles ⟨false, false, false⟩
      (ascii "\x7b\"name\": \"test\", \"value\": [1.5e3, -0.25, true, null]\x7d".toList) _
      (.object [(ascii "name".toList, .string (ascii "test".toList)),
          (ascii "value".toList, .array [.number (ascii "1.5e3".toList),
            .number (ascii "-0.25".toList), .bool true, .null])])
      rfl rfl (jsonText_of_parseText _ _ rfl) (by decide) (by
        simp only [numbersInRange, numbersInRangeMembers, numbersInRangeElems, true_and, and_true]
        exact ⟨by decide!, by decide!⟩)⟩

end Plz
